import Mathlib

/-!
# Cache hierarchy simulator (`cache.c`): shallow embedding and verified properties

The C program keeps its whole state in globals: the configuration, the derived
bit widths, nine statistics counters and three heap arrays of `struct entry`.
The embedding threads one record `State` through the three access functions.

Modelling conventions.
* `uint32_t` / `uint64_t` values are natural numbers; every arithmetic result is
  reduced `% 2^32` / `% 2^64` exactly where the C code computes it.
* `ULONG_MAX` is `2^64 - 1` (LP64, the width of the `uint64_t` timestamps it seeds).
* A C operation without defined behaviour makes the embedded function return
  `none`: a shift of a 32-bit value by 32 or more (C11 6.5.7p3), and an array
  read or write outside the allocated `sets x assoc` storage (this includes
  `set[evict_j]` with `evict_j = -1`).
* `struct entry **` is a list of sets, each a list of ways; `malloc` succeeds.
* The loops `for (int j = 0; j < assoc; j++)` are recursions on the number of
  remaining iterations; the three copies of the hit loop and of the miss loop in
  `icache_access`, `dcache_access` and `l2cache_access` share one definition each
  (`hitScan`, `missScan`), as do the two copies of the back-invalidation loop.

Layout: definitions first (the embedding, then the predicates the statements
use and the configurations of the worked scenarios), then the theorems.
-/

namespace CacheSim

/-! ## Machine arithmetic -/

def UINT_MAX : Nat := 2 ^ 32 - 1

def ULONG_MAX : Nat := 2 ^ 64 - 1

/-- `x << n` on `uint32_t`; undefined when `n >= 32`. -/
def shl32 (x n : Nat) : Option Nat :=
  if n < 32 then some ((x * 2 ^ n) % 2 ^ 32) else none

/-- `x >> n` on `uint32_t`; undefined when `n >= 32`. -/
def shr32 (x n : Nat) : Option Nat :=
  if n < 32 then some (x / 2 ^ n) else none

/-- `a + b` on `uint32_t`. -/
def add32 (a b : Nat) : Nat := (a + b) % 2 ^ 32

/-- `a - b` on `uint32_t` (for `b < 2^32`). -/
def sub32 (a b : Nat) : Nat := (a + 2 ^ 32 - b) % 2 ^ 32

/-- `a + b` on `uint64_t`. -/
def add64 (a b : Nat) : Nat := (a + b) % 2 ^ 64

/-! ## Data model -/

/-- `struct entry`. -/
structure entry where
  tag : Nat
  timestamp : Nat
  valid : Bool
  deriving DecidableEq, Repr

/-- All globals of `cache.c`. -/
structure State where
  icacheSets : Nat
  icacheAssoc : Nat
  icacheHitTime : Nat
  dcacheSets : Nat
  dcacheAssoc : Nat
  dcacheHitTime : Nat
  l2cacheSets : Nat
  l2cacheAssoc : Nat
  l2cacheHitTime : Nat
  inclusive : Nat
  blocksize : Nat
  memspeed : Nat
  blockoffset : Nat
  icacheIndex : Nat
  icacheTag : Nat
  dcacheIndex : Nat
  dcacheTag : Nat
  l2cacheIndex : Nat
  l2cacheTag : Nat
  icacheRefs : Nat
  icacheMisses : Nat
  icachePenalties : Nat
  dcacheRefs : Nat
  dcacheMisses : Nat
  dcachePenalties : Nat
  l2cacheRefs : Nat
  l2cacheMisses : Nat
  l2cachePenalties : Nat
  icache : List (List entry)
  dcache : List (List entry)
  l2cache : List (List entry)
  deriving DecidableEq, Repr

/-- The twelve configuration globals, set by the front end before `init_cache`. -/
structure Config where
  icacheSets : Nat
  icacheAssoc : Nat
  icacheHitTime : Nat
  dcacheSets : Nat
  dcacheAssoc : Nat
  dcacheHitTime : Nat
  l2cacheSets : Nat
  l2cacheAssoc : Nat
  l2cacheHitTime : Nat
  inclusive : Nat
  blocksize : Nat
  memspeed : Nat
  deriving DecidableEq, Repr

/-! ## `logTwo` and `init_cache` -/

/-- The loop `while (x >>= 1) ans++;` with an iteration budget. -/
def logTwoLoop : Nat → Nat → Nat → Nat
  | 0, _, ans => ans
  | fuel + 1, x, ans => if x / 2 ≠ 0 then logTwoLoop fuel (x / 2) (ans + 1) else ans

/-- `logTwo`: a 32-bit `x` is zero after at most 32 right shifts. -/
def logTwo (x : Nat) : Nat := logTwoLoop 32 x 0

/-- The entry written by the initialisation loops. -/
def initEntry : entry := { tag := UINT_MAX, timestamp := ULONG_MAX, valid := false }

/-- Storage allocated and filled by `init_cache` for one cache (nothing when `sets = 0`). -/
def initStore (sets assoc : Nat) : List (List entry) :=
  if sets ≠ 0 then List.replicate sets (List.replicate assoc initEntry) else []

def init_cache (c : Config) : State :=
  let blockoffset := logTwo c.blocksize
  let icacheIndex := logTwo c.icacheSets
  let dcacheIndex := logTwo c.dcacheSets
  let l2cacheIndex := logTwo c.l2cacheSets
  { icacheSets := c.icacheSets, icacheAssoc := c.icacheAssoc, icacheHitTime := c.icacheHitTime
    dcacheSets := c.dcacheSets, dcacheAssoc := c.dcacheAssoc, dcacheHitTime := c.dcacheHitTime
    l2cacheSets := c.l2cacheSets, l2cacheAssoc := c.l2cacheAssoc
    l2cacheHitTime := c.l2cacheHitTime
    inclusive := c.inclusive, blocksize := c.blocksize, memspeed := c.memspeed
    icacheRefs := 0, icacheMisses := 0, icachePenalties := 0
    dcacheRefs := 0, dcacheMisses := 0, dcachePenalties := 0
    l2cacheRefs := 0, l2cacheMisses := 0, l2cachePenalties := 0
    blockoffset := blockoffset
    icacheIndex := icacheIndex
    icacheTag := sub32 (sub32 32 icacheIndex) blockoffset
    dcacheIndex := dcacheIndex
    dcacheTag := sub32 (sub32 32 dcacheIndex) blockoffset
    l2cacheIndex := l2cacheIndex
    l2cacheTag := sub32 (sub32 32 l2cacheIndex) blockoffset
    icache := initStore c.icacheSets c.icacheAssoc
    dcache := initStore c.dcacheSets c.dcacheAssoc
    l2cache := initStore c.l2cacheSets c.l2cacheAssoc }

/-! ## The three scans over the ways of one set -/

/-- The hit loop `for (j ...) if (set[j].valid) if (tag == set[j].tag) { set[j].timestamp = refs;
return hit; }`, run for `n` more iterations from way `j`.
`some (some set')`: hit, with the refreshed set; `some none`: the loop ran out without a hit. -/
def hitScan (set : List entry) (tag refs : Nat) : Nat → Nat → Option (Option (List entry))
  | 0, _ => some none
  | n + 1, j =>
    match set[j]? with
    | none => none
    | some e =>
      if e.valid then
        if tag = e.tag then some (some (set.set j { e with timestamp := refs }))
        else hitScan set tag refs n (j + 1)
      else hitScan set tag refs n (j + 1)

/-- The miss loop: install into the first invalid way (`Sum.inl`, early return), otherwise
track the lowest timestamp and its way; `Sum.inr evict_j` when the loop runs out. -/
def missScan (set : List entry) (tag refs : Nat) :
    Nat → Nat → Nat → Int → Option (List entry ⊕ Int)
  | 0, _, _, evict_j => some (Sum.inr evict_j)
  | n + 1, j, lowest_timestamp, evict_j =>
    match set[j]? with
    | none => none
    | some e =>
      if !e.valid then
        some (Sum.inl (set.set j { valid := true, timestamp := refs, tag := tag }))
      else if e.timestamp < lowest_timestamp then
        missScan set tag refs n (j + 1) e.timestamp (Int.ofNat j)
      else missScan set tag refs n (j + 1) lowest_timestamp evict_j

/-- Read `set[evict_j]` for an `int` index. -/
def readWay (set : List entry) (evict_j : Int) : Option entry :=
  if 0 ≤ evict_j then set[evict_j.toNat]? else none

/-- The two writes after the miss loop: `set[evict_j].timestamp = refs; set[evict_j].tag = tag`. -/
def writeVictim (set : List entry) (evict_j : Int) (tag refs : Nat) : Option (List entry) :=
  match readWay set evict_j with
  | none => none
  | some e => some (set.set evict_j.toNat { e with timestamp := refs, tag := tag })

/-- The back-invalidation loop `for (j ...) if (set[j].valid) if (tag == set[j].tag)
set[j].valid = false;` (no early exit). -/
def invalidateScan (tag : Nat) : List entry → Nat → Nat → Option (List entry)
  | set, 0, _ => some set
  | set, n + 1, j =>
    match set[j]? with
    | none => none
    | some e =>
      if e.valid then
        if tag = e.tag then invalidateScan tag (set.set j { e with valid := false }) n (j + 1)
        else invalidateScan tag set n (j + 1)
      else invalidateScan tag set n (j + 1)

/-! ## Address decoding and per-cache steps -/

/-- The two lines
`tag = addr >> (blockoffset + index); setIndex = (addr << tagbits) >> (tagbits + blockoffset);`
shared verbatim by the three access functions and the back-invalidation code. -/
def decode (blockoffset index tagbits addr : Nat) : Option (Nat × Nat) :=
  match shr32 addr (add32 blockoffset index) with
  | none => none
  | some tag =>
    match shl32 addr tagbits with
    | none => none
    | some t =>
      match shr32 t (add32 tagbits blockoffset) with
      | none => none
      | some setIndex => some (tag, setIndex)

/-- The hit loop on `cache[setIndex]`. `some (some cache')` on a hit. -/
def lookup (cache : List (List entry)) (assoc setIndex tag refs : Nat) :
    Option (Option (List (List entry))) :=
  match cache[setIndex]? with
  | none => none
  | some set =>
    match hitScan set tag refs assoc 0 with
    | none => none
    | some none => some none
    | some (some set') => some (some (cache.set setIndex set'))

/-- The miss loop on `cache[setIndex]` followed by the victim overwrite (I$ and D$). -/
def install (cache : List (List entry)) (assoc setIndex tag refs : Nat) :
    Option (List (List entry)) :=
  match cache[setIndex]? with
  | none => none
  | some set =>
    match missScan set tag refs assoc 0 ULONG_MAX (-1) with
    | none => none
    | some (Sum.inl set') => some (cache.set setIndex set')
    | some (Sum.inr evict_j) =>
      match writeVictim set evict_j tag refs with
      | none => none
      | some set' => some (cache.set setIndex set')

/-- One `if (xcacheSets != 0) { ... }` block of the inclusive branch of `l2cache_access`. -/
def backInvalidate (cache : List (List entry)) (sets assoc blockoffset index tagbits : Nat)
    (evict_addr : Nat) : Option (List (List entry)) :=
  if sets ≠ 0 then
    match decode blockoffset index tagbits evict_addr with
    | none => none
    | some (xtag, xsetIndex) =>
      if assoc = 0 then some cache
      else
        match cache[xsetIndex]? with
        | none => none
        | some set =>
          match invalidateScan xtag set assoc 0 with
          | none => none
          | some set' => some (cache.set xsetIndex set')
  else some cache

/-- The address `(tag << (blockoffset + l2cacheIndex)) | (setIndex << blockoffset)`. -/
def evictAddr (blockoffset l2cacheIndex evictTag setIndex : Nat) : Option Nat :=
  match shl32 evictTag (add32 blockoffset l2cacheIndex) with
  | none => none
  | some hi =>
    match shl32 setIndex blockoffset with
    | none => none
    | some lo => some (hi ||| lo)

/-! ## The access functions -/

def l2cache_access (s : State) (addr : Nat) : Option (State × Nat) :=
  if s.l2cacheSets = 0 then some (s, s.memspeed)
  else
    let s := { s with l2cacheRefs := add64 s.l2cacheRefs 1 }
    match decode s.blockoffset s.l2cacheIndex s.l2cacheTag addr with
    | none => none
    | some (tag, setIndex) =>
      match lookup s.l2cache s.l2cacheAssoc setIndex tag s.l2cacheRefs with
      | none => none
      | some (some l2) => some ({ s with l2cache := l2 }, s.l2cacheHitTime)
      | some none =>
        let s := { s with l2cacheMisses := add64 s.l2cacheMisses 1 }
        let s := { s with l2cachePenalties := add64 s.l2cachePenalties s.memspeed }
        match s.l2cache[setIndex]? with
        | none => none
        | some set =>
          match missScan set tag s.l2cacheRefs s.l2cacheAssoc 0 ULONG_MAX (-1) with
          | none => none
          | some (Sum.inl set') =>
            some ({ s with l2cache := s.l2cache.set setIndex set' },
              add32 s.l2cacheHitTime s.memspeed)
          | some (Sum.inr evict_j) =>
            let inval : Option State :=
              if s.inclusive = 1 then
                match readWay set evict_j with
                | none => none
                | some ev =>
                  match evictAddr s.blockoffset s.l2cacheIndex ev.tag setIndex with
                  | none => none
                  | some evict_addr =>
                    match backInvalidate s.icache s.icacheSets s.icacheAssoc s.blockoffset
                        s.icacheIndex s.icacheTag evict_addr with
                    | none => none
                    | some ic =>
                      match backInvalidate s.dcache s.dcacheSets s.dcacheAssoc s.blockoffset
                          s.dcacheIndex s.dcacheTag evict_addr with
                      | none => none
                      | some dc => some { s with icache := ic, dcache := dc }
              else some s
            match inval with
            | none => none
            | some s =>
              match writeVictim set evict_j tag s.l2cacheRefs with
              | none => none
              | some set' =>
                some ({ s with l2cache := s.l2cache.set setIndex set' },
                  add32 s.l2cacheHitTime s.memspeed)

def icache_access (s : State) (addr : Nat) : Option (State × Nat) :=
  if s.icacheSets = 0 then l2cache_access s addr
  else
    let s := { s with icacheRefs := add64 s.icacheRefs 1 }
    match decode s.blockoffset s.icacheIndex s.icacheTag addr with
    | none => none
    | some (tag, setIndex) =>
      match lookup s.icache s.icacheAssoc setIndex tag s.icacheRefs with
      | none => none
      | some (some ic) => some ({ s with icache := ic }, s.icacheHitTime)
      | some none =>
        let s := { s with icacheMisses := add64 s.icacheMisses 1 }
        match l2cache_access s addr with
        | none => none
        | some (s, penalty) =>
          let s := { s with icachePenalties := add64 s.icachePenalties penalty }
          match install s.icache s.icacheAssoc setIndex tag s.icacheRefs with
          | none => none
          | some ic => some ({ s with icache := ic }, add32 s.icacheHitTime penalty)

def dcache_access (s : State) (addr : Nat) : Option (State × Nat) :=
  if s.dcacheSets = 0 then l2cache_access s addr
  else
    let s := { s with dcacheRefs := add64 s.dcacheRefs 1 }
    match decode s.blockoffset s.dcacheIndex s.dcacheTag addr with
    | none => none
    | some (tag, setIndex) =>
      match lookup s.dcache s.dcacheAssoc setIndex tag s.dcacheRefs with
      | none => none
      | some (some dc) => some ({ s with dcache := dc }, s.dcacheHitTime)
      | some none =>
        let s := { s with dcacheMisses := add64 s.dcacheMisses 1 }
        match l2cache_access s addr with
        | none => none
        | some (s, penalty) =>
          let s := { s with dcachePenalties := add64 s.dcachePenalties penalty }
          match install s.dcache s.dcacheAssoc setIndex tag s.dcacheRefs with
          | none => none
          | some dc => some ({ s with dcache := dc }, add32 s.dcacheHitTime penalty)

/-- A memory reference of the trace: an instruction fetch or a data access. -/
inductive Op where
  | I (addr : Nat)
  | D (addr : Nat)
  deriving DecidableEq, Repr

/-- One call of `icache_access` / `dcache_access`, keeping the returned latency. -/
def step (s : State) : Op → Option (State × Nat)
  | Op.I addr => icache_access s addr
  | Op.D addr => dcache_access s addr

/-- A finite sequence of accesses, in order; `none` as soon as one is undefined. -/
def run (s : State) : List Op → Option State
  | [] => some s
  | op :: ops =>
    match step s op with
    | none => none
    | some (s1, _) => run s1 ops

/-! ## Reading and writing one line of a cache -/

/-- The line `cache[i][j]`, when both indices are in bounds. -/
def line (cache : List (List entry)) (i j : Nat) : Option entry :=
  match cache[i]? with
  | none => none
  | some set => set[j]?

/-- Overwrite the line `cache[i][j]`. -/
def setLine (cache : List (List entry)) (i j : Nat) (e : entry) : List (List entry) :=
  match cache[i]? with
  | none => cache
  | some set => cache.set i (set.set j e)

/-! ## Predicates on states -/

/-- The configuration and the derived bit widths agree in two states. -/
structure SameConfig (s s' : State) : Prop where
  icacheSets : s'.icacheSets = s.icacheSets
  icacheAssoc : s'.icacheAssoc = s.icacheAssoc
  icacheHitTime : s'.icacheHitTime = s.icacheHitTime
  dcacheSets : s'.dcacheSets = s.dcacheSets
  dcacheAssoc : s'.dcacheAssoc = s.dcacheAssoc
  dcacheHitTime : s'.dcacheHitTime = s.dcacheHitTime
  l2cacheSets : s'.l2cacheSets = s.l2cacheSets
  l2cacheAssoc : s'.l2cacheAssoc = s.l2cacheAssoc
  l2cacheHitTime : s'.l2cacheHitTime = s.l2cacheHitTime
  inclusive : s'.inclusive = s.inclusive
  blocksize : s'.blocksize = s.blocksize
  memspeed : s'.memspeed = s.memspeed
  blockoffset : s'.blockoffset = s.blockoffset
  icacheIndex : s'.icacheIndex = s.icacheIndex
  icacheTag : s'.icacheTag = s.icacheTag
  dcacheIndex : s'.dcacheIndex = s.dcacheIndex
  dcacheTag : s'.dcacheTag = s.dcacheTag
  l2cacheIndex : s'.l2cacheIndex = s.l2cacheIndex
  l2cacheTag : s'.l2cacheTag = s.l2cacheTag

/-- The statistics counters of the I$ and the D$ agree in two states. -/
structure SameL1Stats (s s' : State) : Prop where
  icacheRefs : s'.icacheRefs = s.icacheRefs
  icacheMisses : s'.icacheMisses = s.icacheMisses
  icachePenalties : s'.icachePenalties = s.icachePenalties
  dcacheRefs : s'.dcacheRefs = s.dcacheRefs
  dcacheMisses : s'.dcacheMisses = s.dcacheMisses
  dcachePenalties : s'.dcachePenalties = s.dcachePenalties

/-- Every valid line sits in one of the first `assoc` ways of its set. -/
def InRange (cache : List (List entry)) (assoc : Nat) : Prop :=
  ∀ i j e, line cache i j = some e → e.valid = true → j < assoc

/-- No set holds two distinct ways that are both valid and carry the same tag. -/
def TagsUnique (cache : List (List entry)) : Prop :=
  ∀ i j1 j2 e1 e2, line cache i j1 = some e1 → line cache i j2 = some e2 →
    e1.valid = true → e2.valid = true → e1.tag = e2.tag → j1 = j2

/-- Position by position, `c'` has the lines of `c` except that some valid bits were cleared. -/
def Shrinks (c c' : List (List entry)) : Prop :=
  ∀ i j, line c' i j = line c i j ∨
    ∃ e, line c i j = some e ∧ line c' i j = some { e with valid := false }

/-- Position by position, `c'` has the lines of `c` up to their timestamps. -/
def SameLines (c c' : List (List entry)) : Prop :=
  ∀ i j, line c' i j = line c i j ∨
    ∃ e ts, line c i j = some e ∧ line c' i j = some { e with timestamp := ts }

/-- In each of the three caches the valid lines sit in the first `assoc` ways and no set
holds the same tag twice. -/
def WellKept (s : State) : Prop :=
  InRange s.icache s.icacheAssoc ∧ InRange s.dcache s.dcacheAssoc ∧
  InRange s.l2cache s.l2cacheAssoc ∧
  TagsUnique s.icache ∧ TagsUnique s.dcache ∧ TagsUnique s.l2cache

/-- The bit widths of one cache make every shift of its address decoding defined. -/
def GeomOK (blockoffset index tagbits : Nat) : Prop :=
  1 ≤ index ∧ blockoffset + index ≤ 31 ∧ tagbits = 32 - index - blockoffset

/-- Every valid line of the cache sits in a set the decoding can select and carries a tag the
decoding can produce; a cache without sets has no valid line. -/
def Placed (cache : List (List entry)) (sets blockoffset index tagbits : Nat) : Prop :=
  ∀ i j e, line cache i j = some e → e.valid = true →
    sets ≠ 0 ∧ GeomOK blockoffset index tagbits ∧ i < 2 ^ index ∧ e.tag < 2 ^ tagbits

/-- The derived bit widths are those `init_cache` computes. -/
def Derived (s : State) : Prop :=
  s.blockoffset ≤ 32 ∧ s.icacheIndex ≤ 32 ∧ s.dcacheIndex ≤ 32 ∧ s.l2cacheIndex ≤ 32 ∧
  s.icacheTag = sub32 (sub32 32 s.icacheIndex) s.blockoffset ∧
  s.dcacheTag = sub32 (sub32 32 s.dcacheIndex) s.blockoffset ∧
  s.l2cacheTag = sub32 (sub32 32 s.l2cacheIndex) s.blockoffset

/-- The L2 holds a valid line for block number `blk` (the address without its offset bits). -/
def L2Has (l2cache : List (List entry)) (l2cacheIndex blk : Nat) : Prop :=
  ∃ j e, line l2cache (blk % 2 ^ l2cacheIndex) j = some e ∧ e.valid = true ∧
    e.tag = blk / 2 ^ l2cacheIndex

/-- Every valid line of an L1 cache names a block the L2 holds. -/
def InclBlk (cache : List (List entry)) (index : Nat) (l2cache : List (List entry))
    (l2cacheIndex : Nat) : Prop :=
  ∀ i j e, line cache i j = some e → e.valid = true →
    L2Has l2cache l2cacheIndex (e.tag * 2 ^ index + i)

/-- The invariant behind inclusion. -/
def InclInv (s : State) : Prop :=
  Derived s ∧
  Placed s.icache s.icacheSets s.blockoffset s.icacheIndex s.icacheTag ∧
  Placed s.dcache s.dcacheSets s.blockoffset s.dcacheIndex s.dcacheTag ∧
  Placed s.l2cache s.l2cacheSets s.blockoffset s.l2cacheIndex s.l2cacheTag ∧
  (s.inclusive = 1 → s.l2cacheSets ≠ 0 →
    InclBlk s.icache s.icacheIndex s.l2cache s.l2cacheIndex ∧
    InclBlk s.dcache s.dcacheIndex s.l2cache s.l2cacheIndex)

/-- The inclusion property as the code sees it: the address rebuilt from a valid L1 line by
the formula of the inclusive branch decodes, under the L2 geometry, to a set of the L2 that
holds a valid line with the decoded tag. -/
def Included (s : State) (cache : List (List entry)) (index : Nat) : Prop :=
  ∀ i j e, line cache i j = some e → e.valid = true →
    ∃ addr tag2 set2 j2 e2, evictAddr s.blockoffset index e.tag i = some addr ∧
      decode s.blockoffset s.l2cacheIndex s.l2cacheTag addr = some (tag2, set2) ∧
      j2 < s.l2cacheAssoc ∧ line s.l2cache set2 j2 = some e2 ∧ e2.valid = true ∧ e2.tag = tag2

/-- The address of a memory reference. -/
def opAddr : Op → Nat
  | Op.I addr => addr
  | Op.D addr => addr

/-- A configuration with every cache instantiated with two sets and one way, 32-byte blocks,
an inclusive L2: the smallest geometry in which every shift of the decoding is defined. -/
def cfgTwoSets : Config :=
  { icacheSets := 2, icacheAssoc := 1, icacheHitTime := 1
    dcacheSets := 2, dcacheAssoc := 1, dcacheHitTime := 1
    l2cacheSets := 2, l2cacheAssoc := 1, l2cacheHitTime := 10
    inclusive := 1, blocksize := 32, memspeed := 100 }

/-- Example 1 and 2 of the specification: a direct-mapped I$ with a single set, hit time 1,
no L2, memory latency 100, 32-byte blocks (the D$ is configured the same way). -/
def cfgOneSet : Config :=
  { icacheSets := 1, icacheAssoc := 1, icacheHitTime := 1
    dcacheSets := 1, dcacheAssoc := 1, dcacheHitTime := 1
    l2cacheSets := 0, l2cacheAssoc := 0, l2cacheHitTime := 0
    inclusive := 0, blocksize := 32, memspeed := 100 }

/-- No cache instantiated at all: every access goes straight to memory. -/
def cfgNoCache : Config :=
  { icacheSets := 0, icacheAssoc := 0, icacheHitTime := 3
    dcacheSets := 0, dcacheAssoc := 0, dcacheHitTime := 4
    l2cacheSets := 0, l2cacheAssoc := 0, l2cacheHitTime := 10
    inclusive := 0, blocksize := 32, memspeed := 100 }

/-- Only the L2 instantiated (two sets, one way). -/
def cfgL2Only : Config :=
  { icacheSets := 0, icacheAssoc := 0, icacheHitTime := 3
    dcacheSets := 0, dcacheAssoc := 0, dcacheHitTime := 4
    l2cacheSets := 2, l2cacheAssoc := 1, l2cacheHitTime := 10
    inclusive := 1, blocksize := 32, memspeed := 100 }

/-- The set `si` of the cache holds a valid line with tag `tag` in one of its `assoc` ways. -/
def Holds (cache : List (List entry)) (assoc si tag : Nat) : Prop :=
  ∃ j e, j < assoc ∧ line cache si j = some e ∧ e.valid = true ∧ e.tag = tag

/-- The contract of one `icache_access` call from `s` to `s'` returning `r`, with the L2
instantiated: the reference counter goes up by one (as a `uint64_t`); on a hit the hit time
is returned and misses and penalties stay; on a miss the miss counter goes up by one, the
penalty `p` returned by `l2cache_access` from `s` is added to the penalties and
`icacheHitTime + p` is returned as a `uint32_t`, where `p` is the L2 hit time on an L2 hit
and L2 hit time plus memory latency on an L2 miss. -/
def IcacheContract (s s' : State) (addr r : Nat) : Prop :=
  ∃ tag si, decode s.blockoffset s.icacheIndex s.icacheTag addr = some (tag, si) ∧
    s'.icacheRefs = add64 s.icacheRefs 1 ∧
    ((Holds s.icache s.icacheAssoc si tag ∧ r = s.icacheHitTime ∧
        s'.icacheMisses = s.icacheMisses ∧ s'.icachePenalties = s.icachePenalties) ∨
     (¬Holds s.icache s.icacheAssoc si tag ∧ ∃ s2 p tag2 si2,
        l2cache_access s addr = some (s2, p) ∧
        s'.icacheMisses = add64 s.icacheMisses 1 ∧
        s'.icachePenalties = add64 s.icachePenalties p ∧
        r = add32 s.icacheHitTime p ∧
        decode s.blockoffset s.l2cacheIndex s.l2cacheTag addr = some (tag2, si2) ∧
        ((Holds s.l2cache s.l2cacheAssoc si2 tag2 ∧ p = s.l2cacheHitTime) ∨
         (¬Holds s.l2cache s.l2cacheAssoc si2 tag2 ∧
            p = add32 s.l2cacheHitTime s.memspeed))))

/-- The contract of one `dcache_access` call, as `IcacheContract` with the D$ fields. -/
def DcacheContract (s s' : State) (addr r : Nat) : Prop :=
  ∃ tag si, decode s.blockoffset s.dcacheIndex s.dcacheTag addr = some (tag, si) ∧
    s'.dcacheRefs = add64 s.dcacheRefs 1 ∧
    ((Holds s.dcache s.dcacheAssoc si tag ∧ r = s.dcacheHitTime ∧
        s'.dcacheMisses = s.dcacheMisses ∧ s'.dcachePenalties = s.dcachePenalties) ∨
     (¬Holds s.dcache s.dcacheAssoc si tag ∧ ∃ s2 p tag2 si2,
        l2cache_access s addr = some (s2, p) ∧
        s'.dcacheMisses = add64 s.dcacheMisses 1 ∧
        s'.dcachePenalties = add64 s.dcachePenalties p ∧
        r = add32 s.dcacheHitTime p ∧
        decode s.blockoffset s.l2cacheIndex s.l2cacheTag addr = some (tag2, si2) ∧
        ((Holds s.l2cache s.l2cacheAssoc si2 tag2 ∧ p = s.l2cacheHitTime) ∨
         (¬Holds s.l2cache s.l2cacheAssoc si2 tag2 ∧
            p = add32 s.l2cacheHitTime s.memspeed))))

/-- The access to `addr` misses in the I$: no valid line of the decoded set has the tag. -/
def IcacheMiss (s : State) (addr : Nat) : Prop :=
  ∃ tag si, decode s.blockoffset s.icacheIndex s.icacheTag addr = some (tag, si) ∧
    ¬Holds s.icache s.icacheAssoc si tag

/-- The access to `addr` misses in the D$. -/
def DcacheMiss (s : State) (addr : Nat) : Prop :=
  ∃ tag si, decode s.blockoffset s.dcacheIndex s.dcacheTag addr = some (tag, si) ∧
    ¬Holds s.dcache s.dcacheAssoc si tag

/-- Two-set I$ and D$ with hit time 1, no L2, and a memory latency of zero. -/
def cfgZeroMem : Config :=
  { icacheSets := 2, icacheAssoc := 1, icacheHitTime := 1
    dcacheSets := 2, dcacheAssoc := 1, dcacheHitTime := 1
    l2cacheSets := 0, l2cacheAssoc := 0, l2cacheHitTime := 0
    inclusive := 0, blocksize := 32, memspeed := 0 }

/-- Two-set I$ with the largest 32-bit hit time, no L2, memory latency 2. -/
def cfgWrap : Config :=
  { icacheSets := 2, icacheAssoc := 1, icacheHitTime := 2 ^ 32 - 1
    dcacheSets := 2, dcacheAssoc := 1, dcacheHitTime := 2 ^ 32 - 1
    l2cacheSets := 0, l2cacheAssoc := 0, l2cacheHitTime := 0
    inclusive := 0, blocksize := 32, memspeed := 2 }

/-- Executable form of `Holds`. -/
def holdsB (cache : List (List entry)) (assoc si tag : Nat) : Bool :=
  (List.range assoc).any (fun j =>
    match line cache si j with
    | some e => e.valid && decide (e.tag = tag)
    | none => false)

/-- Every one of the `assoc` ways of set `si` is valid. -/
def Full (cache : List (List entry)) (assoc si : Nat) : Prop :=
  ∀ j, j < assoc → ∃ e, line cache si j = some e ∧ e.valid = true

/-- Executable form of `Full`. -/
def fullB (cache : List (List entry)) (assoc si : Nat) : Bool :=
  (List.range assoc).all (fun j =>
    match line cache si j with
    | some e => e.valid
    | none => false)

/-- The hit times of the instantiated levels on the path of an access through an L1 cache
with `sets` sets and hit time `hitTime`, plus the memory latency. -/
def coldSum (sets hitTime : Nat) (c : Config) : Nat :=
  (if sets = 0 then 0 else hitTime) + (if c.l2cacheSets = 0 then 0 else c.l2cacheHitTime)
    + c.memspeed

/-- Two-set, one-way I$ and D$ with hit time 1, no L2, memory latency 100. -/
def cfgNoL2 : Config :=
  { icacheSets := 2, icacheAssoc := 1, icacheHitTime := 1
    dcacheSets := 2, dcacheAssoc := 1, dcacheHitTime := 1
    l2cacheSets := 0, l2cacheAssoc := 0, l2cacheHitTime := 0
    inclusive := 0, blocksize := 32, memspeed := 100 }

/-- What a cold access costs below the L1 cache: the memory latency, preceded by the L2 hit
time (32-bit sum) when the L2 is instantiated. -/
def memPath (c : Config) : Nat :=
  if c.l2cacheSets = 0 then c.memspeed else add32 c.l2cacheHitTime c.memspeed

/-- What a cold access through an L1 cache with `sets` sets and hit time `hitTime` returns. -/
def coldLatency (sets hitTime : Nat) (c : Config) : Nat :=
  if sets = 0 then memPath c else add32 hitTime (memPath c)

/-- The first `assoc` ways of the first `n` sets are allocated. -/
def Readable (cache : List (List entry)) (n assoc : Nat) : Prop :=
  ∀ i j, i < n → j < assoc → ∃ e, line cache i j = some e

/-- No valid line carries a timestamp above the reference counter `refs`. -/
def Stamped (cache : List (List entry)) (refs : Nat) : Prop :=
  ∀ i j e, line cache i j = some e → e.valid = true → e.timestamp ≤ refs

/-- A cache is either not instantiated, or its decoding is defined, it has at least one way
and every set the decoding can select is allocated. -/
def CacheReady (cache : List (List entry)) (sets assoc blockoffset index tagbits : Nat) : Prop :=
  sets = 0 ∨ (GeomOK blockoffset index tagbits ∧ 1 ≤ assoc ∧ Readable cache (2 ^ index) assoc)

/-- Each of the three caches is ready. -/
def Allocated (s : State) : Prop :=
  CacheReady s.icache s.icacheSets s.icacheAssoc s.blockoffset s.icacheIndex s.icacheTag ∧
  CacheReady s.dcache s.dcacheSets s.dcacheAssoc s.blockoffset s.dcacheIndex s.dcacheTag ∧
  CacheReady s.l2cache s.l2cacheSets s.l2cacheAssoc s.blockoffset s.l2cacheIndex s.l2cacheTag

/-- The three caches are ready and their timestamps are bounded by their reference counters. -/
def Ready (s : State) : Prop :=
  Allocated s ∧ Stamped s.icache s.icacheRefs ∧ Stamped s.dcache s.dcacheRefs ∧
  Stamped s.l2cache s.l2cacheRefs

/-- A configuration in which every access is defined: each instantiated cache has at least
two sets and one way, and offset and index bits leave at least one tag bit. -/
def GoodConfig (c : Config) : Prop :=
  (c.icacheSets = 0 ∨
    (2 ≤ c.icacheSets ∧ logTwo c.blocksize + logTwo c.icacheSets ≤ 31 ∧ 1 ≤ c.icacheAssoc)) ∧
  (c.dcacheSets = 0 ∨
    (2 ≤ c.dcacheSets ∧ logTwo c.blocksize + logTwo c.dcacheSets ≤ 31 ∧ 1 ≤ c.dcacheAssoc)) ∧
  (c.l2cacheSets = 0 ∨
    (2 ≤ c.l2cacheSets ∧ logTwo c.blocksize + logTwo c.l2cacheSets ≤ 31 ∧ 1 ≤ c.l2cacheAssoc))

instance (c : Config) : Decidable (GoodConfig c) := by
  unfold GoodConfig
  exact inferInstance

/-! ## The LRU scenario -/

/-- What one access does to the storage of its own cache when nothing else interferes: the
hit loop, and on a miss the install. -/
def touch (cache : List (List entry)) (assoc si tag refs : Nat) : Option (List (List entry)) :=
  match lookup cache assoc si tag refs with
  | none => none
  | some (some c') => some c'
  | some none => install cache assoc si tag refs

/-- The first ways of set `si` hold the tags of `tags`, in order, stamped `1, 2, ...`; the
remaining ways up to `k` are allocated and invalid. -/
def FilledWith (cache : List (List entry)) (si k : Nat) (tags : List Nat) : Prop :=
  (∀ j t, tags[j]? = some t →
    line cache si j = some { tag := t, timestamp := j + 1, valid := true }) ∧
  (∀ j, tags.length ≤ j → j < k → ∃ e, line cache si j = some e ∧ e.valid = false)

/-- No back-invalidation can happen: the L2 is not inclusive or not instantiated. -/
def NoBackInval (s : State) : Prop := s.inclusive ≠ 1 ∨ s.l2cacheSets = 0

/-- Two-way I$ and D$ over a one-way inclusive L2, two sets each. -/
def cfgSmallL2 : Config :=
  { icacheSets := 2, icacheAssoc := 2, icacheHitTime := 1
    dcacheSets := 2, dcacheAssoc := 2, dcacheHitTime := 1
    l2cacheSets := 2, l2cacheAssoc := 1, l2cacheHitTime := 10
    inclusive := 1, blocksize := 32, memspeed := 100 }

/-- Two-way I$ and D$ over a one-way L2 that is not inclusive, two sets each. -/
def cfgTwoWays : Config :=
  { icacheSets := 2, icacheAssoc := 2, icacheHitTime := 1
    dcacheSets := 2, dcacheAssoc := 2, dcacheHitTime := 1
    l2cacheSets := 2, l2cacheAssoc := 1, l2cacheHitTime := 10
    inclusive := 0, blocksize := 32, memspeed := 100 }

/-- The tag of an address: the bits above offset and index. -/
def blockTag (blockoffset index addr : Nat) : Nat := addr / 2 ^ blockoffset / 2 ^ index

/-- The set an address maps to: the index bits above the offset. -/
def blockSet (blockoffset index addr : Nat) : Nat := addr / 2 ^ blockoffset % 2 ^ index

/-- Outcome of the LRU scenario `a0, mid, ak` in set `si` of a `k`-way cache: way 0, which
held `a0`, now holds `ak` with stamp `k + 1`, and the ways after it still hold the lines of
`mid` with the stamps of their installs. -/
def LruOutcome (cache : List (List entry)) (si k : Nat) (tg : Nat → Nat) (mid : List Nat)
    (ak : Nat) : Prop :=
  line cache si 0 = some { tag := tg ak, timestamp := k + 1, valid := true } ∧
  ∀ j a, mid[j]? = some a →
    line cache si (j + 1) = some { tag := tg a, timestamp := j + 2, valid := true }

/-- The LRU scenario ended with set `si` holding valid lines for exactly `mid` and `ak`:
way 0 holds `ak`, the following ways hold `mid`, and no way holds `a0`. -/
def LruHolds (cache : List (List entry)) (si k : Nat) (tg : Nat → Nat) (a0 : Nat)
    (mid : List Nat) (ak : Nat) : Prop :=
  LruOutcome cache si k tg mid ak ∧ (∀ a ∈ mid ++ [ak], Holds cache k si (tg a)) ∧
    ¬Holds cache k si (tg a0)

/-- A 2 GiB block size with four I$ sets: both powers of two, 31 offset bits and 2 index
bits. -/
def cfgWide : Config :=
  { icacheSets := 4, icacheAssoc := 1, icacheHitTime := 1
    dcacheSets := 0, dcacheAssoc := 0, dcacheHitTime := 0
    l2cacheSets := 0, l2cacheAssoc := 0, l2cacheHitTime := 0
    inclusive := 0, blocksize := 2 ^ 31, memspeed := 100 }

/-! ## Shape of the storage -/

/-- The shape of a cache's storage: the number of line slots of each of its sets, in order. -/
def shapeOf (cache : List (List entry)) : List Nat := cache.map List.length

/-- The three caches have the same shape in two states. -/
def SameShape (s s' : State) : Prop :=
  shapeOf s'.icache = shapeOf s.icache ∧ shapeOf s'.dcache = shapeOf s.dcache ∧
    shapeOf s'.l2cache = shapeOf s.l2cache

/-- Number of valid lines in a set. -/
def validCount (set : List entry) : Nat := set.countP (fun e => e.valid)

/-- The storage has exactly `sets` sets of exactly `assoc` line slots each, so that no set
holds more than `assoc` valid lines. -/
def Shape (cache : List (List entry)) (sets assoc : Nat) : Prop :=
  cache.length = sets ∧ ∀ set ∈ cache, set.length = assoc ∧ validCount set ≤ assoc

/-! ## What a miss does to the storage -/

/-- The globals at the moment `icache_access` calls `l2cache_access` on a miss. -/
def icacheMissState (s : State) : State :=
  { s with icacheRefs := add64 s.icacheRefs 1, icacheMisses := add64 s.icacheMisses 1 }

/-- The globals at the moment `dcache_access` calls `l2cache_access` on a miss. -/
def dcacheMissState (s : State) : State :=
  { s with dcacheRefs := add64 s.dcacheRefs 1, dcacheMisses := add64 s.dcacheMisses 1 }

/-- One of the `assoc` ways of set `si` is invalid. -/
def HasFree (cache : List (List entry)) (assoc si : Nat) : Prop :=
  ∃ j e, j < assoc ∧ line cache si j = some e ∧ e.valid = false

/-- Way `k` is the lowest-indexed invalid way of set `si`. -/
def FirstFree (cache : List (List entry)) (si k : Nat) : Prop :=
  (∃ e0, line cache si k = some e0 ∧ e0.valid = false) ∧
  ∀ j, j < k → ∃ e, line cache si j = some e ∧ e.valid = true

/-- Way `k` of set `si` is valid, its timestamp is the minimum over the `assoc` ways of the
set, and every way before it has a strictly larger timestamp: `k` is the lowest-indexed way
among those with the minimum timestamp. -/
def FirstOldest (cache : List (List entry)) (assoc si k : Nat) : Prop :=
  ∃ e0, line cache si k = some e0 ∧ e0.valid = true ∧
    (∀ j e, j < assoc → line cache si j = some e → e0.timestamp ≤ e.timestamp) ∧
    (∀ j e, j < k → line cache si j = some e → e0.timestamp < e.timestamp)

/-- The storage `cache'` is `cache` with way `k` of set `si` overwritten by a valid line
with tag `tag` and timestamp `refs`; every other way of every set is as in `cache`. -/
def Installed (cache cache' : List (List entry)) (si k tag refs : Nat) : Prop :=
  cache' = setLine cache si k { tag := tag, timestamp := refs, valid := true } ∧
  line cache' si k = some { tag := tag, timestamp := refs, valid := true } ∧
  ∀ i j, (i ≠ si ∨ j ≠ k) → line cache' i j = line cache i j

/-- Tag and timestamp of a line. -/
def tagStamp (e : entry) : Nat × Nat := (e.tag, e.timestamp)

/-- Two-way I$ and D$ with two sets over a direct-mapped inclusive L2 with four sets: two
blocks of one L1 set live in different L2 sets. -/
def cfgFourSetL2 : Config :=
  { icacheSets := 2, icacheAssoc := 2, icacheHitTime := 1
    dcacheSets := 2, dcacheAssoc := 2, dcacheHitTime := 1
    l2cacheSets := 4, l2cacheAssoc := 1, l2cacheHitTime := 10
    inclusive := 1, blocksize := 32, memspeed := 100 }

/-! ## What a hit does to the storage -/

/-- Way `k` is the first way of set `si` that is valid and carries the tag `tag`. -/
def FirstMatch (cache : List (List entry)) (si k tag : Nat) : Prop :=
  (∃ e, line cache si k = some e ∧ e.valid = true ∧ e.tag = tag) ∧
  ∀ j, j < k → ∃ e, line cache si j = some e ∧ ¬(e.valid = true ∧ e.tag = tag)

/-- The storage `cache'` is `cache` with the timestamp of way `k` of set `si` set to `refs`:
tag and valid bit of that way, and every other way of every set, are as in `cache`. -/
def Refreshed (cache cache' : List (List entry)) (si k refs : Nat) : Prop :=
  ∃ e, line cache si k = some e ∧
    cache' = setLine cache si k { e with timestamp := refs } ∧
    line cache' si k = some { e with timestamp := refs } ∧
    ∀ i j, (i ≠ si ∨ j ≠ k) → line cache' i j = line cache i j

/-! ## Effect of the L2 on the L1 caches -/

/-- Every line that is valid in `c` is still there and valid in `c'`. -/
def KeepsValid (c c' : List (List entry)) : Prop :=
  ∀ i j e, line c i j = some e → e.valid = true → ∃ e', line c' i j = some e' ∧ e'.valid = true

/-- Each of the three caches keeps its valid lines valid from `s` to `s'`. -/
def KeepsAllValid (s s' : State) : Prop :=
  KeepsValid s.icache s'.icache ∧ KeepsValid s.dcache s'.dcache ∧
    KeepsValid s.l2cache s'.l2cache

/-- The storage `cache'` of an L1 cache is `cache` after the back-invalidation of the block
at `evict_addr`: nothing changes when the cache is not instantiated; otherwise the address is
decoded under the geometry of the cache, and the only change is that the valid lines of the
decoded set (among its `assoc` ways) that carry the decoded tag have their valid bit
cleared. -/
def Cleared (cache cache' : List (List entry)) (sets assoc blockoffset index tagbits : Nat)
    (evict_addr : Nat) : Prop :=
  (sets = 0 ∧ cache' = cache) ∨
  (sets ≠ 0 ∧ ∃ xt xs, decode blockoffset index tagbits evict_addr = some (xt, xs) ∧
    shapeOf cache' = shapeOf cache ∧
    ∀ i j, line cache' i j = (line cache i j).map (fun e =>
      if i = xs ∧ j < assoc ∧ e.valid = true ∧ xt = e.tag then { e with valid := false }
      else e))

/-- The access to `addr` misses in a full set of the instantiated L2. -/
def L2FullMiss (s : State) (addr : Nat) : Prop :=
  s.l2cacheSets ≠ 0 ∧ ∃ tag si,
    decode s.blockoffset s.l2cacheIndex s.l2cacheTag addr = some (tag, si) ∧
    ¬Holds s.l2cache s.l2cacheAssoc si tag ∧ Full s.l2cache s.l2cacheAssoc si

/-! ## Timestamps -/

/-- The timestamps of a cache against its reference counter `refs`: every valid line carries a
timestamp between 1 and `refs`, and two distinct valid lines of the cache carry different
timestamps. -/
def Timed (cache : List (List entry)) (refs : Nat) : Prop :=
  (∀ i j e, line cache i j = some e → e.valid = true →
    1 ≤ e.timestamp ∧ e.timestamp ≤ refs) ∧
  ∀ i1 j1 i2 j2 e1 e2, line cache i1 j1 = some e1 → line cache i2 j2 = some e2 →
    e1.valid = true → e2.valid = true → e1.timestamp = e2.timestamp → i1 = i2 ∧ j1 = j2

/-- Each of the three caches is timed against its own reference counter. -/
def TimedState (s : State) : Prop :=
  Timed s.icache s.icacheRefs ∧ Timed s.dcache s.dcacheRefs ∧ Timed s.l2cache s.l2cacheRefs

/-- No reference counter wraps along the run of `ops` from `s`: every access starts with the
reference counter of its own L1 cache and that of the L2 below `ULONG_MAX`, so that each
increment it performs is exact. -/
def NoWrap (s : State) : List Op → Prop
  | [] => True
  | op :: ops =>
    (match op with
      | Op.I _ => s.icacheRefs < ULONG_MAX
      | Op.D _ => s.dcacheRefs < ULONG_MAX) ∧
    s.l2cacheRefs < ULONG_MAX ∧
    ∀ s1 r, step s op = some (s1, r) → NoWrap s1 ops

/-- Way `k` of set `si` carries the minimum timestamp over the `assoc` ways of the set. -/
def Oldest (cache : List (List entry)) (assoc si k : Nat) : Prop :=
  ∃ e0, line cache si k = some e0 ∧
    ∀ j e, j < assoc → line cache si j = some e → e0.timestamp ≤ e.timestamp

/-- The three reference counters are below `ULONG_MAX`. -/
def Below (s : State) : Prop :=
  s.icacheRefs < ULONG_MAX ∧ s.dcacheRefs < ULONG_MAX ∧ s.l2cacheRefs < ULONG_MAX

/-- In every full set of the cache the way with the minimum timestamp is unique: each other
way of the set has a strictly larger timestamp, so no two ways tie for the minimum. -/
def UniqueVictim (cache : List (List entry)) (assoc : Nat) : Prop :=
  ∀ si k, Full cache assoc si → k < assoc → Oldest cache assoc si k →
    (∃ e0, line cache si k = some e0 ∧
      ∀ j e, j < assoc → j ≠ k → line cache si j = some e → e0.timestamp < e.timestamp) ∧
    ∀ k', k' < assoc → Oldest cache assoc si k' → k' = k

/-- Every valid line of the cache carries a timestamp strictly below the `ULONG_MAX` seed of
`lowest_timestamp`. -/
def BelowSeed (cache : List (List entry)) : Prop :=
  ∀ i j e, line cache i j = some e → e.valid = true → e.timestamp < ULONG_MAX

/-- The miss loop over the set `cache[si]` with `assoc` ways ends without an early return and
with `evict_j` a way index `k` in `0 .. assoc - 1` (not the initial `-1`), `set[evict_j]`
lies inside the set (`ev` is read there), the two writes after the loop are defined, and the
way carries the minimum timestamp of the set. -/
def VictimInBounds (cache : List (List entry)) (assoc si tag refs : Nat) : Prop :=
  ∃ set k ev, cache[si]? = some set ∧ k < assoc ∧
    missScan set tag refs assoc 0 ULONG_MAX (-1) = some (Sum.inr (Int.ofNat k)) ∧
    readWay set (Int.ofNat k) = some ev ∧
    writeVictim set (Int.ofNat k) tag refs
      = some (set.set k { ev with timestamp := refs, tag := tag }) ∧
    Oldest cache assoc si k

/-! ## Accounting across the levels -/

/-- The accounting invariant between the counters of the three levels. The penalty counters
are `uint64_t` sums: `l2cachePenalties` is `l2cacheMisses * memspeed` modulo `2^64`, and the
I$ and D$ penalties are, modulo `2^64`, two exact sums `pi`, `pd` that together count the
L2 hit time once per L2 hit and the 32-bit sum `l2cacheHitTime + memspeed` once per L2
miss. -/
def Accounted (s : State) : Prop :=
  s.l2cacheRefs = s.icacheMisses + s.dcacheMisses ∧
  s.icacheMisses ≤ s.icacheRefs ∧ s.dcacheMisses ≤ s.dcacheRefs ∧
  s.l2cacheMisses ≤ s.l2cacheRefs ∧
  s.l2cachePenalties = (s.l2cacheMisses * s.memspeed) % 2 ^ 64 ∧
  ∃ pi pd, s.icachePenalties = pi % 2 ^ 64 ∧ s.dcachePenalties = pd % 2 ^ 64 ∧
    pi + pd = (s.l2cacheRefs - s.l2cacheMisses) * s.l2cacheHitTime
      + s.l2cacheMisses * add32 s.l2cacheHitTime s.memspeed

/-- All three caches with two sets of two ways, an inclusive L2, 32-byte blocks. -/
def cfgAllTwoWays : Config :=
  { icacheSets := 2, icacheAssoc := 2, icacheHitTime := 1
    dcacheSets := 2, dcacheAssoc := 2, dcacheHitTime := 1
    l2cacheSets := 2, l2cacheAssoc := 2, l2cacheHitTime := 10
    inclusive := 1, blocksize := 32, memspeed := 100 }

/-- A direct-mapped I$ and D$ with a single set each over an L2 with two sets. -/
def cfgOneSetL2 : Config :=
  { icacheSets := 1, icacheAssoc := 1, icacheHitTime := 1
    dcacheSets := 1, dcacheAssoc := 1, dcacheHitTime := 1
    l2cacheSets := 2, l2cacheAssoc := 1, l2cacheHitTime := 10
    inclusive := 0, blocksize := 32, memspeed := 100 }

/-- Direct-mapped I$ and D$ with four sets over a direct-mapped inclusive L2 with two sets:
blocks of different L1 sets share an L2 set. -/
def cfgFourSetL1 : Config :=
  { icacheSets := 4, icacheAssoc := 1, icacheHitTime := 1
    dcacheSets := 4, dcacheAssoc := 1, dcacheHitTime := 1
    l2cacheSets := 2, l2cacheAssoc := 1, l2cacheHitTime := 10
    inclusive := 1, blocksize := 32, memspeed := 100 }

/-- Two-set direct-mapped caches with the largest 32-bit L2 hit time and memory latency 5:
the sum `l2cacheHitTime + memspeed` does not fit 32 bits. -/
def cfgWrapL2 : Config :=
  { icacheSets := 2, icacheAssoc := 1, icacheHitTime := 1
    dcacheSets := 2, dcacheAssoc := 1, dcacheHitTime := 1
    l2cacheSets := 2, l2cacheAssoc := 1, l2cacheHitTime := 2 ^ 32 - 1
    inclusive := 0, blocksize := 32, memspeed := 5 }

/-- Two-set direct-mapped caches with L2 hit time 10 and memory latency `2^32 - 11`: the
32-bit sum `l2cacheHitTime + memspeed = 2^32 - 1` does not wrap. -/
def cfgSlowMem : Config :=
  { icacheSets := 2, icacheAssoc := 1, icacheHitTime := 1
    dcacheSets := 2, dcacheAssoc := 1, dcacheHitTime := 1
    l2cacheSets := 2, l2cacheAssoc := 1, l2cacheHitTime := 10
    inclusive := 0, blocksize := 32, memspeed := 2 ^ 32 - 11 }

/-- The fetches `0x0, 0x40` repeated `n` times: two blocks that share set 0 of a two-set cache
with 32-byte blocks. -/
def pingPong : Nat → List Op
  | 0 => []
  | n + 1 => pingPong n ++ [Op.I 0x0, Op.I 0x40]

/-- In set `si` of a direct-mapped storage no tag other than `t` is held. -/
def OnlyTag (cache : List (List entry)) (si t : Nat) : Prop :=
  ∀ t', t' ≠ t → ¬Holds cache 1 si t'

/-! # Theorems -/

/-! ## Address arithmetic -/

theorem sub32_geom {bo idx : Nat} (h : bo + idx ≤ 32) :
    sub32 (sub32 32 idx) bo = 32 - idx - bo := by
  unfold sub32; omega

theorem decode_eq {bo idx addr : Nat} (h1 : 1 ≤ idx) (h2 : bo + idx ≤ 31) :
    decode bo idx (32 - idx - bo) addr
      = some (addr / 2 ^ (bo + idx), (addr / 2 ^ bo) % 2 ^ idx) := by
  have e1 : add32 bo idx = bo + idx := by unfold add32; omega
  have e2 : add32 (32 - idx - bo) bo = 32 - idx := by unfold add32; omega
  have e3 : (2:Nat) ^ 32 = 2 ^ (32 - idx - bo) * 2 ^ (bo + idx) := by
    rw [← pow_add]; congr 1; omega
  have e4 : (2:Nat) ^ (32 - idx) = 2 ^ (32 - idx - bo) * 2 ^ bo := by
    rw [← pow_add]; congr 1; omega
  have key : addr * 2 ^ (32 - idx - bo) % 2 ^ 32 / 2 ^ (32 - idx)
      = addr / 2 ^ bo % 2 ^ idx := by
    rw [e3, e4, Nat.mul_comm addr, Nat.mul_mod_mul_left,
      Nat.mul_div_mul_left _ _ (by positivity), pow_add, Nat.mod_mul_right_div_self]
  simp only [decode, shr32, shl32, e1, e2]
  rw [if_pos (by omega), if_pos (by omega)]
  simp only []
  rw [if_pos (by omega), key]

theorem decode_defined {bo idx addr : Nat} {r : Nat × Nat} (hb : bo ≤ 32) (hi : idx ≤ 32)
    (h : decode bo idx (sub32 (sub32 32 idx) bo) addr = some r) :
    1 ≤ idx ∧ bo + idx ≤ 31 ∧ sub32 (sub32 32 idx) bo = 32 - idx - bo := by
  unfold decode shr32 shl32 at h
  by_cases c1 : add32 bo idx < 32
  · by_cases c2 : sub32 (sub32 32 idx) bo < 32
    · by_cases c3 : add32 (sub32 (sub32 32 idx) bo) bo < 32
      · simp only [add32, sub32] at c1 c2 c3 ⊢
        omega
      · simp [c1, c2, c3] at h
    · simp [c1, c2] at h
  · simp [c1] at h

/-! ## The scans -/

theorem hitScan_miss {set : List entry} {tag refs : Nat} :
    ∀ (n j : Nat), hitScan set tag refs n j = some none →
      ∀ k, j ≤ k → k < j + n → ∃ e, set[k]? = some e ∧ ¬(e.valid = true ∧ tag = e.tag) := by
  intro n
  induction n with
  | zero => intro j _ k h1 h2; omega
  | succ n ih =>
    intro j h k h1 h2
    unfold hitScan at h
    cases hs : set[j]? with
    | none => simp [hs] at h
    | some e =>
      simp only [hs] at h
      by_cases hv : e.valid = true
      · by_cases ht : tag = e.tag
        · simp [hv, ht] at h
        · simp only [hv, ht, if_true, if_false] at h
          rcases Nat.eq_or_lt_of_le h1 with rfl | hlt
          · exact ⟨e, hs, fun c => ht c.2⟩
          · exact ih (j + 1) h k hlt (by omega)
      · simp only [hv, if_false] at h
        rcases Nat.eq_or_lt_of_le h1 with rfl | hlt
        · exact ⟨e, hs, fun c => hv c.1⟩
        · exact ih (j + 1) h k hlt (by omega)

theorem hitScan_hit {set set' : List entry} {tag refs : Nat} :
    ∀ (n j : Nat), hitScan set tag refs n j = some (some set') →
      ∃ k e, j ≤ k ∧ k < j + n ∧ set[k]? = some e ∧ e.valid = true ∧ tag = e.tag ∧
        set' = set.set k { e with timestamp := refs } ∧
        ∀ k', j ≤ k' → k' < k → ∃ e', set[k']? = some e' ∧ ¬(e'.valid = true ∧ tag = e'.tag) := by
  intro n
  induction n with
  | zero => intro j h; simp [hitScan] at h
  | succ n ih =>
    intro j h
    unfold hitScan at h
    cases hs : set[j]? with
    | none => simp [hs] at h
    | some e =>
      simp only [hs] at h
      have step : ¬(e.valid = true ∧ tag = e.tag) →
          hitScan set tag refs n (j + 1) = some (some set') →
          ∃ k e, j ≤ k ∧ k < j + (n + 1) ∧ set[k]? = some e ∧ e.valid = true ∧ tag = e.tag ∧
            set' = set.set k { e with timestamp := refs } ∧
            ∀ k', j ≤ k' → k' < k →
              ∃ e', set[k']? = some e' ∧ ¬(e'.valid = true ∧ tag = e'.tag) := by
        intro hne h'
        obtain ⟨k, e2, a1, a2, a3, a4, a5, a6, a7⟩ := ih (j + 1) h'
        refine ⟨k, e2, by omega, by omega, a3, a4, a5, a6, ?_⟩
        intro k' b1 b2
        rcases Nat.eq_or_lt_of_le b1 with rfl | hlt
        · exact ⟨e, hs, hne⟩
        · exact a7 k' hlt b2
      by_cases hv : e.valid = true
      · by_cases ht : tag = e.tag
        · simp only [hv, ht, if_true, Option.some.injEq] at h
          refine ⟨j, e, le_refl _, by omega, hs, hv, ht, ?_, ?_⟩
          · rw [← h, hv]
          · intro k' b1 b2; omega
        · simp only [hv, ht, if_true, if_false] at h
          exact step (fun c => ht c.2) h
      · simp only [hv, if_false] at h
        exact step (fun c => hv c.1) h

theorem hitScan_hit_of {set : List entry} {tag refs : Nat} :
    ∀ (n j k : Nat) (e : entry), j ≤ k → k < j + n → set[k]? = some e → e.valid = true →
      tag = e.tag → (∀ k', j ≤ k' → k' < k → ∃ e', set[k']? = some e') →
      ∃ set', hitScan set tag refs n j = some (some set') := by
  intro n
  induction n with
  | zero => intro j k e h1 h2; omega
  | succ n ih =>
    intro j k e h1 h2 h3 h4 h5 h6
    unfold hitScan
    rcases Nat.eq_or_lt_of_le h1 with rfl | hlt
    · simp [h3, h4, h5]
    · obtain ⟨e', he'⟩ := h6 j (le_refl _) hlt
      simp only [he']
      have rec := ih (j + 1) k e hlt (by omega) h3 h4 h5
        (fun k' b1 b2 => h6 k' (by omega) b2)
      by_cases hv : e'.valid = true
      · by_cases ht : tag = e'.tag
        · simp [hv, ht]
        · simpa [hv, ht] using rec
      · simpa [hv] using rec

theorem missScan_inl {set set' : List entry} {tag refs : Nat} :
    ∀ (n j low : Nat) (ej0 : Int),
      missScan set tag refs n j low ej0 = some (Sum.inl set') →
      ∃ k e, j ≤ k ∧ k < j + n ∧ set[k]? = some e ∧ e.valid = false ∧
        set' = set.set k { valid := true, timestamp := refs, tag := tag } ∧
        ∀ k', j ≤ k' → k' < k → ∃ e', set[k']? = some e' ∧ e'.valid = true := by
  intro n
  induction n with
  | zero => intro j low ej0 h; simp [missScan] at h
  | succ n ih =>
    intro j low ej0 h
    unfold missScan at h
    cases hs : set[j]? with
    | none => simp [hs] at h
    | some e =>
      simp only [hs] at h
      cases hv : e.valid with
      | false =>
        simp only [hv, Bool.not_false, if_true, Option.some.injEq, Sum.inl.injEq] at h
        exact ⟨j, e, le_refl _, by omega, hs, hv, h.symm, fun k' b1 b2 => by omega⟩
      | true =>
        simp only [hv, Bool.not_true, Bool.false_eq_true, if_false] at h
        have step : ∀ low' ej',
            missScan set tag refs n (j + 1) low' ej' = some (Sum.inl set') →
            ∃ k e, j ≤ k ∧ k < j + (n + 1) ∧ set[k]? = some e ∧ e.valid = false ∧
              set' = set.set k { valid := true, timestamp := refs, tag := tag } ∧
              ∀ k', j ≤ k' → k' < k → ∃ e', set[k']? = some e' ∧ e'.valid = true := by
          intro low' ej' h'
          obtain ⟨k, e2, a1, a2, a3, a4, a5, a6⟩ := ih (j + 1) low' ej' h'
          refine ⟨k, e2, by omega, by omega, a3, a4, a5, ?_⟩
          intro k' b1 b2
          rcases Nat.eq_or_lt_of_le b1 with rfl | hlt
          · exact ⟨e, hs, hv⟩
          · exact a6 k' hlt b2
        by_cases hl : e.timestamp < low
        · simp only [hl, if_true] at h; exact step _ _ h
        · simp only [hl, if_false] at h; exact step _ _ h

theorem missScan_inr {set : List entry} {tag refs : Nat} :
    ∀ (n j low : Nat) (ej0 ej : Int),
      missScan set tag refs n j low ej0 = some (Sum.inr ej) →
      (∀ k, j ≤ k → k < j + n → ∃ e, set[k]? = some e ∧ e.valid = true) ∧
      ((ej = ej0 ∧ ∀ k e, j ≤ k → k < j + n → set[k]? = some e → low ≤ e.timestamp) ∨
       (∃ k e, j ≤ k ∧ k < j + n ∧ ej = Int.ofNat k ∧ set[k]? = some e ∧ e.timestamp < low ∧
          (∀ k' e', j ≤ k' → k' < j + n → set[k']? = some e' → e.timestamp ≤ e'.timestamp) ∧
          (∀ k' e', j ≤ k' → k' < k → set[k']? = some e' → e.timestamp < e'.timestamp))) := by
  intro n
  induction n with
  | zero =>
    intro j low ej0 ej h
    simp only [missScan, Option.some.injEq, Sum.inr.injEq] at h
    exact ⟨fun k h1 h2 => by omega, Or.inl ⟨h.symm, fun k e h1 h2 => by omega⟩⟩
  | succ n ih =>
    intro j low ej0 ej h
    unfold missScan at h
    cases hs : set[j]? with
    | none => simp [hs] at h
    | some e =>
      simp only [hs] at h
      cases hv : e.valid with
      | false => simp [hv] at h
      | true =>
        simp only [hv, Bool.not_true, Bool.false_eq_true, if_false] at h
        have rd : ∀ (P : Prop), (∀ k, j + 1 ≤ k → k < j + 1 + n →
              ∃ e, set[k]? = some e ∧ e.valid = true) →
            ∀ k, j ≤ k → k < j + (n + 1) → ∃ e, set[k]? = some e ∧ e.valid = true := by
          intro _ a k b1 b2
          rcases Nat.eq_or_lt_of_le b1 with rfl | hlt
          · exact ⟨e, hs, hv⟩
          · exact a k hlt (by omega)
        by_cases hl : e.timestamp < low
        · simp only [hl, if_true] at h
          obtain ⟨a, b⟩ := ih (j + 1) e.timestamp (Int.ofNat j) ej h
          refine ⟨rd True a, Or.inr ?_⟩
          rcases b with ⟨b1, b2⟩ | ⟨k, e2, c1, c2, c3, c4, c5, c6, c7⟩
          · refine ⟨j, e, le_refl _, by omega, b1, hs, hl, ?_, fun k' e' d1 d2 => by omega⟩
            intro k' e' d1 d2 d3
            rcases Nat.eq_or_lt_of_le d1 with rfl | hlt
            · rw [hs] at d3; cases d3; exact le_refl _
            · exact b2 k' e' hlt (by omega) d3
          · refine ⟨k, e2, by omega, by omega, c3, c4, by omega, ?_, ?_⟩
            · intro k' e' d1 d2 d3
              rcases Nat.eq_or_lt_of_le d1 with rfl | hlt
              · rw [hs] at d3; cases d3; omega
              · exact c6 k' e' hlt (by omega) d3
            · intro k' e' d1 d2 d3
              rcases Nat.eq_or_lt_of_le d1 with rfl | hlt
              · rw [hs] at d3; cases d3; omega
              · exact c7 k' e' hlt d2 d3
        · simp only [hl, if_false] at h
          obtain ⟨a, b⟩ := ih (j + 1) low ej0 ej h
          refine ⟨rd True a, ?_⟩
          rcases b with ⟨b1, b2⟩ | ⟨k, e2, c1, c2, c3, c4, c5, c6, c7⟩
          · refine Or.inl ⟨b1, ?_⟩
            intro k' e' d1 d2 d3
            rcases Nat.eq_or_lt_of_le d1 with rfl | hlt
            · rw [hs] at d3; cases d3; omega
            · exact b2 k' e' hlt (by omega) d3
          · refine Or.inr ⟨k, e2, by omega, by omega, c3, c4, c5, ?_, ?_⟩
            · intro k' e' d1 d2 d3
              rcases Nat.eq_or_lt_of_le d1 with rfl | hlt
              · rw [hs] at d3; cases d3; omega
              · exact c6 k' e' hlt (by omega) d3
            · intro k' e' d1 d2 d3
              rcases Nat.eq_or_lt_of_le d1 with rfl | hlt
              · rw [hs] at d3; cases d3; omega
              · exact c7 k' e' hlt d2 d3

theorem getElem?_set_of_some {α : Type} {l : List α} {i : Nat} {a0 : α} (h : l[i]? = some a0)
    (a : α) (j : Nat) : (l.set i a)[j]? = if i = j then some a else l[j]? := by
  rw [List.getElem?_set]
  have hl : i < l.length := by
    rcases List.getElem?_eq_some.mp h with ⟨hh, _⟩
    exact hh
  simp [hl]

theorem invalidateScan_spec {tag : Nat} :
    ∀ (n j : Nat) (set set' : List entry), invalidateScan tag set n j = some set' →
      set'.length = set.length ∧
      ∀ k, set'[k]? = (set[k]?).map (fun e =>
        if j ≤ k ∧ k < j + n ∧ e.valid = true ∧ tag = e.tag then { e with valid := false }
        else e) := by
  intro n
  induction n with
  | zero =>
    intro j set set' h
    simp only [invalidateScan, Option.some.injEq] at h
    subst h
    refine ⟨rfl, fun k => ?_⟩
    cases set[k]? with
    | none => rfl
    | some e =>
      simp only [Option.map_some', Option.some.injEq]
      rw [if_neg (by omega)]
  | succ n ih =>
    intro j set set' h
    unfold invalidateScan at h
    cases hs : set[j]? with
    | none => simp [hs] at h
    | some e =>
      simp only [hs] at h
      have keep : ¬(e.valid = true ∧ tag = e.tag) →
          invalidateScan tag set n (j + 1) = some set' →
          set'.length = set.length ∧
          ∀ k, set'[k]? = (set[k]?).map (fun e =>
            if j ≤ k ∧ k < j + (n + 1) ∧ e.valid = true ∧ tag = e.tag then
              { e with valid := false }
            else e) := by
        intro hne h'
        obtain ⟨a, b⟩ := ih (j + 1) set set' h'
        refine ⟨a, fun k => ?_⟩
        rw [b k]
        by_cases hk : k = j
        · subst hk
          rw [hs]
          simp only [Option.map_some', Option.some.injEq]
          rw [if_neg (by omega), if_neg (fun c => hne ⟨c.2.2.1, c.2.2.2⟩)]
        · cases set[k]? with
          | none => rfl
          | some e2 =>
            simp only [Option.map_some', Option.some.injEq]
            have : (j + 1 ≤ k ∧ k < j + 1 + n ∧ e2.valid = true ∧ tag = e2.tag) ↔
                (j ≤ k ∧ k < j + (n + 1) ∧ e2.valid = true ∧ tag = e2.tag) := by
              constructor
              · rintro ⟨a1, a2, a3, a4⟩; exact ⟨by omega, by omega, a3, a4⟩
              · rintro ⟨a1, a2, a3, a4⟩; exact ⟨by omega, by omega, a3, a4⟩
            simp only [this]
      by_cases hv : e.valid = true
      · by_cases ht : tag = e.tag
        · rw [if_pos hv, if_pos ht] at h
          obtain ⟨a, b⟩ := ih (j + 1) _ set' h
          refine ⟨by rw [a, List.length_set], fun k => ?_⟩
          rw [b k, getElem?_set_of_some hs]
          by_cases hk : j = k
          · subst hk
            rw [hs]
            simp only [if_true, Option.map_some', Option.some.injEq]
            rw [if_neg (by omega), if_pos ⟨le_refl _, by omega, hv, ht⟩]
          · rw [if_neg hk]
            cases set[k]? with
            | none => rfl
            | some e2 =>
              simp only [Option.map_some', Option.some.injEq]
              have : (j + 1 ≤ k ∧ k < j + 1 + n ∧ e2.valid = true ∧ tag = e2.tag) ↔
                  (j ≤ k ∧ k < j + (n + 1) ∧ e2.valid = true ∧ tag = e2.tag) := by
                constructor
                · rintro ⟨a1, a2, a3, a4⟩; exact ⟨by omega, by omega, a3, a4⟩
                · rintro ⟨a1, a2, a3, a4⟩; exact ⟨by omega, by omega, a3, a4⟩
              simp only [this]
        · simp only [hv, ht, if_true, if_false] at h
          exact keep (fun c => ht c.2) h
      · simp only [hv, if_false] at h
        exact keep (fun c => hv c.1) h

theorem readWay_some {set : List entry} {ej : Int} {e : entry} (h : readWay set ej = some e) :
    ∃ k, ej = Int.ofNat k ∧ set[k]? = some e := by
  unfold readWay at h
  by_cases c : 0 ≤ ej
  · rw [if_pos c] at h
    exact ⟨ej.toNat, (Int.toNat_of_nonneg c).symm, h⟩
  · rw [if_neg c] at h; cases h

theorem writeVictim_some {set set' : List entry} {ej : Int} {tag refs : Nat}
    (h : writeVictim set ej tag refs = some set') :
    ∃ k e, ej = Int.ofNat k ∧ set[k]? = some e ∧
      set' = set.set k { e with timestamp := refs, tag := tag } := by
  unfold writeVictim at h
  cases hr : readWay set ej with
  | none => simp [hr] at h
  | some e =>
    simp only [hr, Option.some.injEq] at h
    obtain ⟨k, hk, hs⟩ := readWay_some hr
    refine ⟨k, e, hk, hs, ?_⟩
    rw [← h, hk]; rfl

theorem l2cache_access_cases {s s' : State} {addr p : Nat}
    (h : l2cache_access s addr = some (s', p)) :
    (s.l2cacheSets = 0 ∧ s' = s ∧ p = s.memspeed) ∨
    (s.l2cacheSets ≠ 0 ∧ ∃ tag setIndex,
      decode s.blockoffset s.l2cacheIndex s.l2cacheTag addr = some (tag, setIndex) ∧
      ((∃ l2, lookup s.l2cache s.l2cacheAssoc setIndex tag (add64 s.l2cacheRefs 1)
            = some (some l2) ∧
          s' = { s with l2cacheRefs := add64 s.l2cacheRefs 1, l2cache := l2 } ∧
          p = s.l2cacheHitTime) ∨
       (lookup s.l2cache s.l2cacheAssoc setIndex tag (add64 s.l2cacheRefs 1) = some none ∧
        p = add32 s.l2cacheHitTime s.memspeed ∧
        ∃ set, s.l2cache[setIndex]? = some set ∧
          ((∃ set', missScan set tag (add64 s.l2cacheRefs 1) s.l2cacheAssoc 0 ULONG_MAX (-1)
                = some (Sum.inl set') ∧
              s' = { s with l2cacheRefs := add64 s.l2cacheRefs 1,
                            l2cacheMisses := add64 s.l2cacheMisses 1,
                            l2cachePenalties := add64 s.l2cachePenalties s.memspeed,
                            l2cache := s.l2cache.set setIndex set' }) ∨
           (∃ evict_j set' ic dc,
              missScan set tag (add64 s.l2cacheRefs 1) s.l2cacheAssoc 0 ULONG_MAX (-1)
                = some (Sum.inr evict_j) ∧
              writeVictim set evict_j tag (add64 s.l2cacheRefs 1) = some set' ∧
              ((s.inclusive ≠ 1 ∧ ic = s.icache ∧ dc = s.dcache) ∨
               (s.inclusive = 1 ∧ ∃ ev evict_addr, readWay set evict_j = some ev ∧
                  evictAddr s.blockoffset s.l2cacheIndex ev.tag setIndex = some evict_addr ∧
                  backInvalidate s.icache s.icacheSets s.icacheAssoc s.blockoffset
                    s.icacheIndex s.icacheTag evict_addr = some ic ∧
                  backInvalidate s.dcache s.dcacheSets s.dcacheAssoc s.blockoffset
                    s.dcacheIndex s.dcacheTag evict_addr = some dc)) ∧
              s' = { s with l2cacheRefs := add64 s.l2cacheRefs 1,
                            l2cacheMisses := add64 s.l2cacheMisses 1,
                            l2cachePenalties := add64 s.l2cachePenalties s.memspeed,
                            icache := ic, dcache := dc,
                            l2cache := s.l2cache.set setIndex set' }))))) := by
  unfold l2cache_access at h
  by_cases h0 : s.l2cacheSets = 0
  · rw [if_pos h0] at h
    simp only [Option.some.injEq, Prod.mk.injEq] at h
    exact Or.inl ⟨h0, h.1.symm, h.2.symm⟩
  · rw [if_neg h0] at h
    refine Or.inr ⟨h0, ?_⟩
    simp only [] at h
    cases hd : decode s.blockoffset s.l2cacheIndex s.l2cacheTag addr with
    | none => simp [hd] at h
    | some ts =>
      obtain ⟨tag, setIndex⟩ := ts
      refine ⟨tag, setIndex, rfl, ?_⟩
      simp only [hd] at h
      cases hl : lookup s.l2cache s.l2cacheAssoc setIndex tag (add64 s.l2cacheRefs 1) with
      | none => simp [hl] at h
      | some r =>
        cases r with
        | some l2 =>
          simp only [hl, Option.some.injEq, Prod.mk.injEq] at h
          exact Or.inl ⟨l2, rfl, h.1.symm, h.2.symm⟩
        | none =>
          simp only [hl] at h
          cases hs : s.l2cache[setIndex]? with
          | none => simp [hs] at h
          | some set =>
            simp only [hs] at h
            cases hm : missScan set tag (add64 s.l2cacheRefs 1) s.l2cacheAssoc 0 ULONG_MAX (-1) with
            | none => simp [hm] at h
            | some r =>
              cases r with
              | inl set' =>
                simp only [hm, Option.some.injEq, Prod.mk.injEq] at h
                exact Or.inr ⟨rfl, h.2.symm, set, rfl, Or.inl ⟨set', hm, h.1.symm⟩⟩
              | inr evict_j =>
                simp only [hm] at h
                by_cases hi : s.inclusive = 1
                · rw [if_pos hi] at h
                  cases hr : readWay set evict_j with
                  | none => simp [hr] at h
                  | some ev =>
                    simp only [hr] at h
                    cases he : evictAddr s.blockoffset s.l2cacheIndex ev.tag setIndex with
                    | none => simp [he] at h
                    | some evict_addr =>
                      simp only [he] at h
                      cases hbi : backInvalidate s.icache s.icacheSets s.icacheAssoc
                          s.blockoffset s.icacheIndex s.icacheTag evict_addr with
                      | none => simp [hbi] at h
                      | some ic =>
                        simp only [hbi] at h
                        cases hbd : backInvalidate s.dcache s.dcacheSets s.dcacheAssoc
                            s.blockoffset s.dcacheIndex s.dcacheTag evict_addr with
                        | none => simp [hbd] at h
                        | some dc =>
                          simp only [hbd] at h
                          cases hw : writeVictim set evict_j tag (add64 s.l2cacheRefs 1) with
                          | none => simp [hw] at h
                          | some set' =>
                            simp only [hw, Option.some.injEq, Prod.mk.injEq] at h
                            exact Or.inr ⟨rfl, h.2.symm, set, rfl, Or.inr ⟨evict_j, set', ic, dc,
                              hm, hw, Or.inr ⟨hi, ev, evict_addr, hr, he, hbi, hbd⟩,
                              h.1.symm⟩⟩
                · rw [if_neg hi] at h
                  cases hw : writeVictim set evict_j tag (add64 s.l2cacheRefs 1) with
                  | none => simp [hw] at h
                  | some set' =>
                    simp only [hw, Option.some.injEq, Prod.mk.injEq] at h
                    refine Or.inr ⟨rfl, h.2.symm, set, rfl, Or.inr ⟨evict_j, set', s.icache,
                      s.dcache, hm, hw, Or.inl ⟨hi, rfl, rfl⟩, ?_⟩⟩
                    rw [← h.1]

theorem icache_access_cases {s s' : State} {addr r : Nat}
    (h : icache_access s addr = some (s', r)) :
    (s.icacheSets = 0 ∧ l2cache_access s addr = some (s', r)) ∨
    (s.icacheSets ≠ 0 ∧ ∃ tag setIndex,
      decode s.blockoffset s.icacheIndex s.icacheTag addr = some (tag, setIndex) ∧
      ((∃ ic, lookup s.icache s.icacheAssoc setIndex tag (add64 s.icacheRefs 1)
            = some (some ic) ∧
          s' = { s with icacheRefs := add64 s.icacheRefs 1, icache := ic } ∧
          r = s.icacheHitTime) ∨
       (lookup s.icache s.icacheAssoc setIndex tag (add64 s.icacheRefs 1) = some none ∧
        ∃ s2 p ic,
          l2cache_access { s with icacheRefs := add64 s.icacheRefs 1,
                                  icacheMisses := add64 s.icacheMisses 1 } addr
            = some (s2, p) ∧
          install s2.icache s2.icacheAssoc setIndex tag s2.icacheRefs = some ic ∧
          s' = { s2 with icachePenalties := add64 s2.icachePenalties p, icache := ic } ∧
          r = add32 s2.icacheHitTime p))) := by
  unfold icache_access at h
  by_cases h0 : s.icacheSets = 0
  · rw [if_pos h0] at h
    exact Or.inl ⟨h0, h⟩
  · rw [if_neg h0] at h
    refine Or.inr ⟨h0, ?_⟩
    simp only [] at h
    cases hd : decode s.blockoffset s.icacheIndex s.icacheTag addr with
    | none => simp [hd] at h
    | some ts =>
      obtain ⟨tag, setIndex⟩ := ts
      refine ⟨tag, setIndex, rfl, ?_⟩
      simp only [hd] at h
      cases hl : lookup s.icache s.icacheAssoc setIndex tag (add64 s.icacheRefs 1) with
      | none => simp [hl] at h
      | some r0 =>
        cases r0 with
        | some ic =>
          simp only [hl, Option.some.injEq, Prod.mk.injEq] at h
          exact Or.inl ⟨ic, rfl, h.1.symm, h.2.symm⟩
        | none =>
          simp only [hl] at h
          split at h
          · cases h
          · rename_i s2 p h2
            cases hi : install s2.icache s2.icacheAssoc setIndex tag s2.icacheRefs with
            | none => simp [hi] at h
            | some ic =>
              simp only [hi, Option.some.injEq, Prod.mk.injEq] at h
              exact Or.inr ⟨rfl, s2, p, ic, h2, hi, h.1.symm, h.2.symm⟩

theorem dcache_access_cases {s s' : State} {addr r : Nat}
    (h : dcache_access s addr = some (s', r)) :
    (s.dcacheSets = 0 ∧ l2cache_access s addr = some (s', r)) ∨
    (s.dcacheSets ≠ 0 ∧ ∃ tag setIndex,
      decode s.blockoffset s.dcacheIndex s.dcacheTag addr = some (tag, setIndex) ∧
      ((∃ dc, lookup s.dcache s.dcacheAssoc setIndex tag (add64 s.dcacheRefs 1)
            = some (some dc) ∧
          s' = { s with dcacheRefs := add64 s.dcacheRefs 1, dcache := dc } ∧
          r = s.dcacheHitTime) ∨
       (lookup s.dcache s.dcacheAssoc setIndex tag (add64 s.dcacheRefs 1) = some none ∧
        ∃ s2 p dc,
          l2cache_access { s with dcacheRefs := add64 s.dcacheRefs 1,
                                  dcacheMisses := add64 s.dcacheMisses 1 } addr
            = some (s2, p) ∧
          install s2.dcache s2.dcacheAssoc setIndex tag s2.dcacheRefs = some dc ∧
          s' = { s2 with dcachePenalties := add64 s2.dcachePenalties p, dcache := dc } ∧
          r = add32 s2.dcacheHitTime p))) := by
  unfold dcache_access at h
  by_cases h0 : s.dcacheSets = 0
  · rw [if_pos h0] at h
    exact Or.inl ⟨h0, h⟩
  · rw [if_neg h0] at h
    refine Or.inr ⟨h0, ?_⟩
    simp only [] at h
    cases hd : decode s.blockoffset s.dcacheIndex s.dcacheTag addr with
    | none => simp [hd] at h
    | some ts =>
      obtain ⟨tag, setIndex⟩ := ts
      refine ⟨tag, setIndex, rfl, ?_⟩
      simp only [hd] at h
      cases hl : lookup s.dcache s.dcacheAssoc setIndex tag (add64 s.dcacheRefs 1) with
      | none => simp [hl] at h
      | some r0 =>
        cases r0 with
        | some dc =>
          simp only [hl, Option.some.injEq, Prod.mk.injEq] at h
          exact Or.inl ⟨dc, rfl, h.1.symm, h.2.symm⟩
        | none =>
          simp only [hl] at h
          split at h
          · cases h
          · rename_i s2 p h2
            cases hi : install s2.dcache s2.dcacheAssoc setIndex tag s2.dcacheRefs with
            | none => simp [hi] at h
            | some dc =>
              simp only [hi, Option.some.injEq, Prod.mk.injEq] at h
              exact Or.inr ⟨rfl, s2, p, dc, h2, hi, h.1.symm, h.2.symm⟩

/-! ## Cache-level steps -/

theorem line_set {cache : List (List entry)} {i : Nat} {set0 : List entry}
    (h : cache[i]? = some set0) (set' : List entry) (i' j : Nat) :
    line (cache.set i set') i' j = if i = i' then set'[j]? else line cache i' j := by
  unfold line
  rw [getElem?_set_of_some h]
  by_cases c : i = i'
  · simp [c]
  · simp [c]

theorem line_setLine {cache : List (List entry)} {i j : Nat} {e0 : entry}
    (h : line cache i j = some e0) (e : entry) (i' j' : Nat) :
    line (setLine cache i j e) i' j' = if i = i' ∧ j = j' then some e else line cache i' j' := by
  unfold line at h
  cases hs : cache[i]? with
  | none => simp [hs] at h
  | some set =>
    simp only [hs] at h
    unfold setLine
    simp only [hs]
    rw [line_set hs]
    by_cases c : i = i'
    · subst c
      rw [if_pos rfl, getElem?_set_of_some h]
      by_cases c2 : j = j'
      · simp [c2]
      · simp [c2, line, hs]
    · simp [c]

theorem lookup_hit {cache c' : List (List entry)} {assoc si tag refs : Nat}
    (h : lookup cache assoc si tag refs = some (some c')) :
    ∃ k e, k < assoc ∧ line cache si k = some e ∧ e.valid = true ∧ tag = e.tag ∧
      c' = setLine cache si k { e with timestamp := refs } ∧
      ∀ k', k' < k → ∃ e', line cache si k' = some e' ∧ ¬(e'.valid = true ∧ tag = e'.tag) := by
  unfold lookup at h
  cases hs : cache[si]? with
  | none => simp [hs] at h
  | some set =>
    simp only [hs] at h
    cases hh : hitScan set tag refs assoc 0 with
    | none => simp [hh] at h
    | some r =>
      cases r with
      | none => simp [hh] at h
      | some set' =>
        simp only [hh, Option.some.injEq] at h
        obtain ⟨k, e, _, a2, a3, a4, a5, a6, a7⟩ := hitScan_hit assoc 0 hh
        refine ⟨k, e, by omega, by simp [line, hs, a3], a4, a5, ?_, ?_⟩
        · rw [← h, a6]; simp [setLine, hs]
        · intro k' hk'
          obtain ⟨e', b1, b2⟩ := a7 k' (Nat.zero_le _) hk'
          exact ⟨e', by simp [line, hs, b1], b2⟩

theorem lookup_miss {cache : List (List entry)} {assoc si tag refs : Nat}
    (h : lookup cache assoc si tag refs = some none) :
    ∀ k, k < assoc → ∃ e, line cache si k = some e ∧ ¬(e.valid = true ∧ tag = e.tag) := by
  unfold lookup at h
  cases hs : cache[si]? with
  | none => simp [hs] at h
  | some set =>
    simp only [hs] at h
    cases hh : hitScan set tag refs assoc 0 with
    | none => simp [hh] at h
    | some r =>
      cases r with
      | some set' => simp [hh] at h
      | none =>
        intro k hk
        obtain ⟨e, b1, b2⟩ := hitScan_miss assoc 0 hh k (Nat.zero_le _) (by omega)
        exact ⟨e, by simp [line, hs, b1], b2⟩

theorem lookup_hit_of {cache : List (List entry)} {assoc si tag refs k : Nat} {e : entry}
    (hk : k < assoc) (hl : line cache si k = some e) (hv : e.valid = true) (ht : tag = e.tag)
    (hr : ∀ k', k' < k → ∃ e', line cache si k' = some e') :
    ∃ c', lookup cache assoc si tag refs = some (some c') := by
  unfold lookup
  unfold line at hl hr
  cases hs : cache[si]? with
  | none => simp [hs] at hl
  | some set =>
    simp only [hs] at hl hr ⊢
    obtain ⟨set', h'⟩ := @hitScan_hit_of set tag refs assoc 0 k e (Nat.zero_le _) (by omega)
      hl hv ht (fun k' _ b => hr k' b)
    exact ⟨_, by rw [h']⟩

theorem install_of_inl {cache : List (List entry)} {assoc si tag refs : Nat}
    {set set' : List entry} (hs : cache[si]? = some set)
    (hm : missScan set tag refs assoc 0 ULONG_MAX (-1) = some (Sum.inl set')) :
    install cache assoc si tag refs = some (cache.set si set') := by
  simp [install, hs, hm]

theorem install_of_inr {cache : List (List entry)} {assoc si tag refs : Nat}
    {set set' : List entry} {ej : Int} (hs : cache[si]? = some set)
    (hm : missScan set tag refs assoc 0 ULONG_MAX (-1) = some (Sum.inr ej))
    (hw : writeVictim set ej tag refs = some set') :
    install cache assoc si tag refs = some (cache.set si set') := by
  simp [install, hs, hm, hw]

/-- What `install` does: one way `k` of the target set receives the new line. Either that way
was the first invalid one, or the whole set was valid and `k` is the first way carrying the
minimum timestamp, which is below the `ULONG_MAX` seed. -/
theorem install_spec {cache c' : List (List entry)} {assoc si tag refs : Nat}
    (h : install cache assoc si tag refs = some c') :
    ∃ k e, k < assoc ∧ line cache si k = some e ∧
      c' = setLine cache si k { tag := tag, timestamp := refs, valid := true } ∧
      (∀ k', k' < k → ∃ e', line cache si k' = some e' ∧ e'.valid = true) ∧
      (e.valid = false ∨
        ((∀ k', k' < assoc → ∃ e', line cache si k' = some e' ∧ e'.valid = true) ∧
          e.timestamp < ULONG_MAX ∧
          (∀ k' e', k' < assoc → line cache si k' = some e' → e.timestamp ≤ e'.timestamp) ∧
          (∀ k' e', k' < k → line cache si k' = some e' → e.timestamp < e'.timestamp))) := by
  unfold install at h
  cases hs : cache[si]? with
  | none => simp [hs] at h
  | some set =>
    simp only [hs] at h
    have hline : ∀ j, line cache si j = set[j]? := fun j => by simp [line, hs]
    cases hm : missScan set tag refs assoc 0 ULONG_MAX (-1) with
    | none => simp [hm] at h
    | some r =>
      cases r with
      | inl set' =>
        simp only [hm, Option.some.injEq] at h
        obtain ⟨k, e, _, a2, a3, a4, a5, a6⟩ := missScan_inl assoc 0 ULONG_MAX (-1) hm
        refine ⟨k, e, by omega, by rw [hline, a3], ?_, ?_, Or.inl a4⟩
        · rw [← h, a5]; simp [setLine, hs]
        · intro k' hk'
          obtain ⟨e', b1, b2⟩ := a6 k' (Nat.zero_le _) hk'
          exact ⟨e', by rw [hline, b1], b2⟩
      | inr ej =>
        simp only [hm] at h
        cases hw : writeVictim set ej tag refs with
        | none => simp [hw] at h
        | some set' =>
          simp only [hw, Option.some.injEq] at h
          obtain ⟨k, e, w1, w2, w3⟩ := writeVictim_some hw
          obtain ⟨m1, m2⟩ := missScan_inr assoc 0 ULONG_MAX (-1) ej hm
          rcases m2 with ⟨c1, _⟩ | ⟨k2, e2, c1, c2, c3, c4, c5, c6, c7⟩
          · rw [w1, Int.ofNat_eq_coe] at c1
            omega
          · have hk : k2 = k := by rw [w1] at c3; exact (Int.ofNat.inj c3).symm
            subst hk
            rw [w2] at c4; cases c4
            have hv : e.valid = true := by
              obtain ⟨e', b1, b2⟩ := m1 k2 (Nat.zero_le _) c2
              rw [w2] at b1; cases b1; exact b2
            refine ⟨k2, e, by omega, by rw [hline, w2], ?_, ?_, Or.inr ⟨?_, c5, ?_, ?_⟩⟩
            · rw [← h, w3, hv]; simp [setLine, hs]
            · intro k' hk'
              obtain ⟨e', b1, b2⟩ := m1 k' (Nat.zero_le _) (by omega)
              exact ⟨e', by rw [hline, b1], b2⟩
            · intro k' hk'
              obtain ⟨e', b1, b2⟩ := m1 k' (Nat.zero_le _) (by omega)
              exact ⟨e', by rw [hline, b1], b2⟩
            · intro k' e' d1 d2
              rw [hline] at d2
              exact c6 k' e' (Nat.zero_le _) (by omega) d2
            · intro k' e' d1 d2
              rw [hline] at d2
              exact c7 k' e' (Nat.zero_le _) d1 d2

theorem backInvalidate_spec {cache c' : List (List entry)}
    {sets assoc bo idx tg evict_addr : Nat}
    (h : backInvalidate cache sets assoc bo idx tg evict_addr = some c') :
    (sets = 0 ∧ c' = cache) ∨
    (sets ≠ 0 ∧ ∃ xt xs, decode bo idx tg evict_addr = some (xt, xs) ∧
      c'.length = cache.length ∧
      ∀ i j, line c' i j = (line cache i j).map (fun e =>
        if i = xs ∧ j < assoc ∧ e.valid = true ∧ xt = e.tag then { e with valid := false }
        else e)) := by
  unfold backInvalidate at h
  by_cases h0 : sets = 0
  · simp only [h0, ne_eq, not_true_eq_false, if_false, Option.some.injEq] at h
    exact Or.inl ⟨h0, h.symm⟩
  · refine Or.inr ⟨h0, ?_⟩
    rw [if_pos h0] at h
    cases hd : decode bo idx tg evict_addr with
    | none => simp [hd] at h
    | some ts =>
      obtain ⟨xt, xs⟩ := ts
      refine ⟨xt, xs, rfl, ?_⟩
      simp only [hd] at h
      by_cases ha : assoc = 0
      · simp only [ha, if_true, Option.some.injEq] at h
        subst h
        refine ⟨rfl, fun i j => ?_⟩
        cases line cache i j with
        | none => rfl
        | some e =>
          simp only [Option.map_some', Option.some.injEq]
          rw [if_neg (by omega)]
      · rw [if_neg ha] at h
        cases hs : cache[xs]? with
        | none => simp [hs] at h
        | some set =>
          simp only [hs] at h
          cases hi : invalidateScan xt set assoc 0 with
          | none => simp [hi] at h
          | some set' =>
            simp only [hi, Option.some.injEq] at h
            obtain ⟨a, b⟩ := invalidateScan_spec assoc 0 set set' hi
            subst h
            refine ⟨List.length_set _ _ _, fun i j => ?_⟩
            rw [line_set hs]
            by_cases c : xs = i
            · subst c
              rw [if_pos rfl, b j]
              have : line cache xs j = set[j]? := by simp [line, hs]
              rw [this]
              cases set[j]? with
              | none => rfl
              | some e =>
                simp only [Option.map_some', Option.some.injEq, Nat.zero_le, true_and,
                  Nat.zero_add]
            · rw [if_neg c]
              cases line cache i j with
              | none => rfl
              | some e =>
                simp only [Option.map_some', Option.some.injEq]
                rw [if_neg (fun cc => c cc.1.symm)]

/-! ## Frame of the access functions -/

theorem SameConfig.config_refl (s : State) : SameConfig s s :=
  ⟨rfl, rfl, rfl, rfl, rfl, rfl, rfl, rfl, rfl, rfl, rfl, rfl, rfl, rfl, rfl, rfl, rfl, rfl, rfl⟩

theorem SameConfig.trans {a b c : State} (h1 : SameConfig a b) (h2 : SameConfig b c) :
    SameConfig a c :=
  ⟨h2.1.trans h1.1, h2.2.trans h1.2, h2.3.trans h1.3, h2.4.trans h1.4, h2.5.trans h1.5,
   h2.6.trans h1.6, h2.7.trans h1.7, h2.8.trans h1.8, h2.9.trans h1.9, h2.10.trans h1.10,
   h2.11.trans h1.11, h2.12.trans h1.12, h2.13.trans h1.13, h2.14.trans h1.14,
   h2.15.trans h1.15, h2.16.trans h1.16, h2.17.trans h1.17, h2.18.trans h1.18,
   h2.19.trans h1.19⟩

theorem l2cache_access_frame {s s' : State} {addr p : Nat}
    (h : l2cache_access s addr = some (s', p)) : SameConfig s s' ∧ SameL1Stats s s' := by
  rcases l2cache_access_cases h with ⟨_, rfl, _⟩ | ⟨_, tag, si, _, h1⟩
  · exact ⟨⟨rfl, rfl, rfl, rfl, rfl, rfl, rfl, rfl, rfl, rfl, rfl, rfl, rfl, rfl, rfl, rfl,
          rfl, rfl, rfl⟩, ⟨rfl, rfl, rfl, rfl, rfl, rfl⟩⟩
  · rcases h1 with ⟨l2, _, rfl, _⟩ | ⟨_, _, set, _, h2⟩
    · exact ⟨⟨rfl, rfl, rfl, rfl, rfl, rfl, rfl, rfl, rfl, rfl, rfl, rfl, rfl, rfl, rfl, rfl,
          rfl, rfl, rfl⟩, ⟨rfl, rfl, rfl, rfl, rfl, rfl⟩⟩
    · rcases h2 with ⟨set', _, rfl⟩ | ⟨ej, set', ic, dc, _, _, _, rfl⟩
      · exact ⟨⟨rfl, rfl, rfl, rfl, rfl, rfl, rfl, rfl, rfl, rfl, rfl, rfl, rfl, rfl, rfl, rfl,
          rfl, rfl, rfl⟩, ⟨rfl, rfl, rfl, rfl, rfl, rfl⟩⟩
      · exact ⟨⟨rfl, rfl, rfl, rfl, rfl, rfl, rfl, rfl, rfl, rfl, rfl, rfl, rfl, rfl, rfl, rfl,
          rfl, rfl, rfl⟩, ⟨rfl, rfl, rfl, rfl, rfl, rfl⟩⟩

theorem icache_access_frame {s s' : State} {addr r : Nat}
    (h : icache_access s addr = some (s', r)) : SameConfig s s' := by
  rcases icache_access_cases h with ⟨_, h2⟩ | ⟨_, tag, si, _, h1⟩
  · exact (l2cache_access_frame h2).1
  · rcases h1 with ⟨ic, _, rfl, _⟩ | ⟨_, s2, p, ic, h2, _, rfl, _⟩
    · exact ⟨rfl, rfl, rfl, rfl, rfl, rfl, rfl, rfl, rfl, rfl, rfl, rfl, rfl, rfl, rfl, rfl,
          rfl, rfl, rfl⟩
    · have f := (l2cache_access_frame h2).1
      exact ⟨f.1, f.2, f.3, f.4, f.5, f.6, f.7, f.8, f.9, f.10, f.11, f.12, f.13, f.14, f.15,
        f.16, f.17, f.18, f.19⟩

theorem dcache_access_frame {s s' : State} {addr r : Nat}
    (h : dcache_access s addr = some (s', r)) : SameConfig s s' := by
  rcases dcache_access_cases h with ⟨_, h2⟩ | ⟨_, tag, si, _, h1⟩
  · exact (l2cache_access_frame h2).1
  · rcases h1 with ⟨dc, _, rfl, _⟩ | ⟨_, s2, p, dc, h2, _, rfl, _⟩
    · exact ⟨rfl, rfl, rfl, rfl, rfl, rfl, rfl, rfl, rfl, rfl, rfl, rfl, rfl, rfl, rfl, rfl,
          rfl, rfl, rfl⟩
    · have f := (l2cache_access_frame h2).1
      exact ⟨f.1, f.2, f.3, f.4, f.5, f.6, f.7, f.8, f.9, f.10, f.11, f.12, f.13, f.14, f.15,
        f.16, f.17, f.18, f.19⟩

theorem step_frame {s s' : State} {op : Op} {r : Nat} (h : step s op = some (s', r)) :
    SameConfig s s' := by
  cases op with
  | I a => exact icache_access_frame h
  | D a => exact dcache_access_frame h

theorem run_frame : ∀ (ops : List Op) (s s' : State), run s ops = some s' → SameConfig s s' := by
  intro ops
  induction ops with
  | nil => intro s s' h; simp only [run, Option.some.injEq] at h; subst h; exact SameConfig.config_refl _
  | cons op ops ih =>
    intro s s' h
    unfold run at h
    cases hs : step s op with
    | none => simp [hs] at h
    | some sr =>
      obtain ⟨s1, r⟩ := sr
      simp only [hs] at h
      exact (step_frame hs).trans (ih s1 s' h)

/-! ## Range and tag uniqueness, cache by cache -/

theorem Shrinks.shrinks_refl (c : List (List entry)) : Shrinks c c := fun _ _ => Or.inl rfl

theorem Shrinks.valid_of_shrinks {c c' : List (List entry)} (h : Shrinks c c') {i j : Nat} {e : entry}
    (hl : line c' i j = some e) (hv : e.valid = true) : line c i j = some e := by
  rcases h i j with h1 | ⟨e0, _, h2⟩
  · rw [← h1]; exact hl
  · rw [hl] at h2
    cases h2
    cases hv

theorem SameLines.valid_of_sameLines {c c' : List (List entry)} (h : SameLines c c') {i j : Nat} {e : entry}
    (hl : line c' i j = some e) :
    ∃ e0, line c i j = some e0 ∧ e0.valid = e.valid ∧ e0.tag = e.tag := by
  rcases h i j with h1 | ⟨e0, ts, h1, h2⟩
  · exact ⟨e, by rw [← h1]; exact hl, rfl, rfl⟩
  · rw [hl] at h2
    cases h2
    exact ⟨e0, h1, rfl, rfl⟩

theorem sameLines_refresh {c : List (List entry)} {si k : Nat} {e : entry}
    (h : line c si k = some e) (refs : Nat) :
    SameLines c (setLine c si k { e with timestamp := refs }) := by
  intro i j
  rw [line_setLine h]
  by_cases cnd : si = i ∧ k = j
  · rw [if_pos cnd]
    obtain ⟨rfl, rfl⟩ := cnd
    exact Or.inr ⟨e, refs, h, rfl⟩
  · rw [if_neg cnd]; exact Or.inl rfl

theorem shrinks_of_backInvalidate {cache c' : List (List entry)}
    {sets assoc bo idx tg evict_addr : Nat}
    (h : backInvalidate cache sets assoc bo idx tg evict_addr = some c') : Shrinks cache c' := by
  rcases backInvalidate_spec h with ⟨_, rfl⟩ | ⟨_, xt, xs, _, _, h2⟩
  · exact Shrinks.shrinks_refl _
  · intro i j
    rw [h2 i j]
    cases hl : line cache i j with
    | none => exact Or.inl rfl
    | some e =>
      simp only [Option.map_some']
      by_cases cnd : i = xs ∧ j < assoc ∧ e.valid = true ∧ xt = e.tag
      · rw [if_pos cnd]; exact Or.inr ⟨e, rfl, rfl⟩
      · rw [if_neg cnd]; exact Or.inl rfl

theorem InRange.range_shrinks {c c' : List (List entry)} {a : Nat} (h : InRange c a)
    (hs : Shrinks c c') : InRange c' a :=
  fun i j e hl hv => h i j e (hs.valid_of_shrinks hl hv) hv

theorem TagsUnique.unique_shrinks {c c' : List (List entry)} (h : TagsUnique c)
    (hs : Shrinks c c') : TagsUnique c' :=
  fun i j1 j2 e1 e2 h1 h2 v1 v2 ht => h i j1 j2 e1 e2 (hs.valid_of_shrinks h1 v1) (hs.valid_of_shrinks h2 v2) v1 v2 ht

theorem InRange.range_sameLines {c c' : List (List entry)} {a : Nat} (h : InRange c a)
    (hs : SameLines c c') : InRange c' a := by
  intro i j e hl hv
  obtain ⟨e0, a1, a2, _⟩ := hs.valid_of_sameLines hl
  exact h i j e0 a1 (by rw [a2]; exact hv)

theorem TagsUnique.unique_sameLines {c c' : List (List entry)} (h : TagsUnique c)
    (hs : SameLines c c') : TagsUnique c' := by
  intro i j1 j2 e1 e2 h1 h2 v1 v2 ht
  obtain ⟨a, a1, a2, a3⟩ := hs.valid_of_sameLines h1
  obtain ⟨b, b1, b2, b3⟩ := hs.valid_of_sameLines h2
  exact h i j1 j2 a b a1 b1 (by rw [a2]; exact v1) (by rw [b2]; exact v2)
    (by rw [a3, b3]; exact ht)

theorem InRange.range_setLine {c : List (List entry)} {a si k : Nat} {e0 : entry} (h : InRange c a)
    (hl : line c si k = some e0) (hk : k < a) (e : entry) : InRange (setLine c si k e) a := by
  intro i j e' hl' hv
  rw [line_setLine hl] at hl'
  by_cases cnd : si = i ∧ k = j
  · obtain ⟨_, rfl⟩ := cnd; exact hk
  · rw [if_neg cnd] at hl'; exact h i j e' hl' hv

theorem TagsUnique.install {c : List (List entry)} {si k tag refs : Nat} {e0 : entry}
    (h : TagsUnique c) (hl : line c si k = some e0)
    (hnew : ∀ j e, line c si j = some e → e.valid = true → tag ≠ e.tag) :
    TagsUnique (setLine c si k { tag := tag, timestamp := refs, valid := true }) := by
  intro i j1 j2 e1 e2 h1 h2 v1 v2 ht
  rw [line_setLine hl] at h1 h2
  by_cases c1 : si = i ∧ k = j1
  · by_cases c2 : si = i ∧ k = j2
    · rw [← c1.2, ← c2.2]
    · rw [if_pos c1] at h1
      rw [if_neg c2] at h2
      cases h1
      obtain ⟨rfl, _⟩ := c1
      exact absurd ht (hnew j2 e2 h2 v2)
  · by_cases c2 : si = i ∧ k = j2
    · rw [if_neg c1] at h1
      rw [if_pos c2] at h2
      cases h2
      obtain ⟨rfl, _⟩ := c2
      exact absurd ht.symm (hnew j1 e1 h1 v1)
    · rw [if_neg c1] at h1
      rw [if_neg c2] at h2
      exact h i j1 j2 e1 e2 h1 h2 v1 v2 ht

/-- A hit keeps the valid lines in range and the tags unique. -/
theorem lookup_hit_good {c c' : List (List entry)} {a si tag refs : Nat}
    (hr : InRange c a) (hu : TagsUnique c) (h : lookup c a si tag refs = some (some c')) :
    InRange c' a ∧ TagsUnique c' ∧ SameLines c c' := by
  obtain ⟨k, e, _, a2, _, _, rfl, _⟩ := lookup_hit h
  have sl := sameLines_refresh a2 refs
  exact ⟨hr.range_sameLines sl, hu.unique_sameLines sl, sl⟩

/-- An install after a miss keeps the valid lines in range and the tags unique, also when
back-invalidation cleared valid bits between the lookup and the install. -/
theorem install_good {c0 c c' : List (List entry)} {a si tag refs0 refs : Nat}
    (hr : InRange c0 a) (hu : TagsUnique c0) (hm : lookup c0 a si tag refs0 = some none)
    (hs : Shrinks c0 c) (h : install c a si tag refs = some c') :
    InRange c' a ∧ TagsUnique c' := by
  obtain ⟨k, e, a1, a2, rfl, _, _⟩ := install_spec h
  refine ⟨(hr.range_shrinks hs).range_setLine a2 a1 _, (hu.unique_shrinks hs).install a2 ?_⟩
  intro j e' hl hv ht
  have hl0 := hs.valid_of_shrinks hl hv
  obtain ⟨e2, b1, b2⟩ := lookup_miss hm j (hr si j e' hl0 hv)
  rw [hl0] at b1
  cases b1
  exact b2 ⟨hv, ht⟩

/-! ## Tag uniqueness along a run -/

theorem line_initStore {sets assoc i j : Nat} {e : entry}
    (h : line (initStore sets assoc) i j = some e) : e = initEntry := by
  unfold line initStore at h
  by_cases c : sets ≠ 0
  · rw [if_pos c, List.getElem?_replicate] at h
    by_cases c2 : i < sets
    · rw [if_pos c2] at h
      simp only [List.getElem?_replicate] at h
      by_cases c3 : j < assoc
      · rw [if_pos c3] at h; cases h; rfl
      · rw [if_neg c3] at h; cases h
    · rw [if_neg c2] at h; cases h
  · rw [if_neg c] at h; simp at h

theorem line_initStore_invalid {sets assoc i j : Nat} {e : entry}
    (h : line (initStore sets assoc) i j = some e) : e.valid = false := by
  rw [line_initStore h]; rfl

theorem init_wellKept (c : Config) : WellKept (init_cache c) := by
  refine ⟨?_, ?_, ?_, ?_, ?_, ?_⟩
  · intro i j e hl hv; rw [line_initStore_invalid hl] at hv; cases hv
  · intro i j e hl hv; rw [line_initStore_invalid hl] at hv; cases hv
  · intro i j e hl hv; rw [line_initStore_invalid hl] at hv; cases hv
  · intro i j1 j2 e1 e2 h1 _ v1; rw [line_initStore_invalid h1] at v1; cases v1
  · intro i j1 j2 e1 e2 h1 _ v1; rw [line_initStore_invalid h1] at v1; cases v1
  · intro i j1 j2 e1 e2 h1 _ v1; rw [line_initStore_invalid h1] at v1; cases v1

theorem l2cache_access_wellKept {s s' : State} {addr p : Nat} (hk : WellKept s)
    (h : l2cache_access s addr = some (s', p)) :
    WellKept s' ∧ Shrinks s.icache s'.icache ∧ Shrinks s.dcache s'.dcache := by
  obtain ⟨ri, rd, r2, ui, ud, u2⟩ := hk
  rcases l2cache_access_cases h with ⟨_, rfl, _⟩ | ⟨_, tag, si, _, h1⟩
  · exact ⟨⟨ri, rd, r2, ui, ud, u2⟩, Shrinks.shrinks_refl _, Shrinks.shrinks_refl _⟩
  · rcases h1 with ⟨l2, hl, rfl, _⟩ | ⟨hl, _, set, hs, h2⟩
    · obtain ⟨a, b, _⟩ := lookup_hit_good r2 u2 hl
      exact ⟨⟨ri, rd, a, ui, ud, b⟩, Shrinks.shrinks_refl _, Shrinks.shrinks_refl _⟩
    · rcases h2 with ⟨set', hm, rfl⟩ | ⟨ej, set', ic, dc, hm, hw, hinc, rfl⟩
      · obtain ⟨a, b⟩ := install_good r2 u2 hl (Shrinks.shrinks_refl _) (install_of_inl hs hm)
        exact ⟨⟨ri, rd, a, ui, ud, b⟩, Shrinks.shrinks_refl _, Shrinks.shrinks_refl _⟩
      · obtain ⟨a, b⟩ := install_good r2 u2 hl (Shrinks.shrinks_refl _) (install_of_inr hs hm hw)
        have hsi : Shrinks s.icache ic := by
          rcases hinc with ⟨_, rfl, _⟩ | ⟨_, ev, ea, _, _, bi, _⟩
          · exact Shrinks.shrinks_refl _
          · exact shrinks_of_backInvalidate bi
        have hsd : Shrinks s.dcache dc := by
          rcases hinc with ⟨_, _, rfl⟩ | ⟨_, ev, ea, _, _, _, bd⟩
          · exact Shrinks.shrinks_refl _
          · exact shrinks_of_backInvalidate bd
        exact ⟨⟨ri.range_shrinks hsi, rd.range_shrinks hsd, a, ui.unique_shrinks hsi, ud.unique_shrinks hsd, b⟩, hsi, hsd⟩

theorem icache_access_wellKept {s s' : State} {addr r : Nat} (hk : WellKept s)
    (h : icache_access s addr = some (s', r)) : WellKept s' := by
  rcases icache_access_cases h with ⟨_, h2⟩ | ⟨_, tag, si, _, h1⟩
  · exact (l2cache_access_wellKept hk h2).1
  · rcases h1 with ⟨ic, hl, rfl, _⟩ | ⟨hl, s2, p, ic, h2, hi, rfl, _⟩
    · obtain ⟨ri, rd, r2, ui, ud, u2⟩ := hk
      obtain ⟨a, b, _⟩ := lookup_hit_good ri ui hl
      exact ⟨a, rd, r2, b, ud, u2⟩
    · obtain ⟨⟨_, rd, r2, _, ud, u2⟩, hsi, _⟩ := @l2cache_access_wellKept
        { s with icacheRefs := add64 s.icacheRefs 1,
                 icacheMisses := add64 s.icacheMisses 1 } s2 addr p hk h2
      have f := (l2cache_access_frame h2).1
      rw [f.icacheAssoc] at hi
      obtain ⟨a, b⟩ := install_good hk.1 hk.2.2.2.1 hl hsi hi
      refine ⟨?_, rd, r2, b, ud, u2⟩
      show InRange ic s2.icacheAssoc
      rw [f.icacheAssoc]; exact a

theorem dcache_access_wellKept {s s' : State} {addr r : Nat} (hk : WellKept s)
    (h : dcache_access s addr = some (s', r)) : WellKept s' := by
  rcases dcache_access_cases h with ⟨_, h2⟩ | ⟨_, tag, si, _, h1⟩
  · exact (l2cache_access_wellKept hk h2).1
  · rcases h1 with ⟨dc, hl, rfl, _⟩ | ⟨hl, s2, p, dc, h2, hi, rfl, _⟩
    · obtain ⟨ri, rd, r2, ui, ud, u2⟩ := hk
      obtain ⟨a, b, _⟩ := lookup_hit_good rd ud hl
      exact ⟨ri, a, r2, ui, b, u2⟩
    · obtain ⟨⟨ri, _, r2, ui, _, u2⟩, _, hsd⟩ := @l2cache_access_wellKept
        { s with dcacheRefs := add64 s.dcacheRefs 1,
                 dcacheMisses := add64 s.dcacheMisses 1 } s2 addr p hk h2
      have f := (l2cache_access_frame h2).1
      rw [f.dcacheAssoc] at hi
      obtain ⟨a, b⟩ := install_good hk.2.1 hk.2.2.2.2.1 hl hsd hi
      refine ⟨ri, ?_, r2, ui, b, u2⟩
      show InRange dc s2.dcacheAssoc
      rw [f.dcacheAssoc]; exact a

theorem step_wellKept {s s' : State} {op : Op} {r : Nat} (hk : WellKept s)
    (h : step s op = some (s', r)) : WellKept s' := by
  cases op with
  | I a => exact icache_access_wellKept hk h
  | D a => exact dcache_access_wellKept hk h

theorem run_wellKept : ∀ (ops : List Op) (s s' : State), WellKept s → run s ops = some s' →
    WellKept s' := by
  intro ops
  induction ops with
  | nil => intro s s' hk h; simp only [run, Option.some.injEq] at h; subst h; exact hk
  | cons op ops ih =>
    intro s s' hk h
    unfold run at h
    cases hs : step s op with
    | none => simp [hs] at h
    | some sr =>
      obtain ⟨s1, r⟩ := sr
      simp only [hs] at h
      exact ih s1 s' (step_wellKept hk hs) h

/-! ## Block numbers -/

theorem logTwoLoop_le : ∀ (fuel x ans : Nat), logTwoLoop fuel x ans ≤ ans + fuel := by
  intro fuel
  induction fuel with
  | zero => intro x ans; simp [logTwoLoop]
  | succ n ih =>
    intro x ans
    unfold logTwoLoop
    by_cases c : x / 2 ≠ 0
    · rw [if_pos c]; have := ih (x / 2) (ans + 1); omega
    · rw [if_neg c]; omega

theorem logTwo_le (x : Nat) : logTwo x ≤ 32 := by
  have := logTwoLoop_le 32 x 0
  unfold logTwo; omega

theorem init_derived (c : Config) : Derived (init_cache c) :=
  ⟨logTwo_le _, logTwo_le _, logTwo_le _, logTwo_le _, rfl, rfl, rfl⟩

theorem blk_div {idx t i : Nat} (h : i < 2 ^ idx) : (t * 2 ^ idx + i) / 2 ^ idx = t := by
  rw [Nat.mul_comm, Nat.mul_add_div (by positivity), Nat.div_eq_of_lt h, Nat.add_zero]

theorem blk_mod {idx t i : Nat} (h : i < 2 ^ idx) : (t * 2 ^ idx + i) % 2 ^ idx = i := by
  rw [Nat.mul_comm, Nat.mul_add_mod, Nat.mod_eq_of_lt h]

theorem decode_blk {bo idx tg blk : Nat} (g : GeomOK bo idx tg) :
    decode bo idx tg (blk * 2 ^ bo) = some (blk / 2 ^ idx, blk % 2 ^ idx) := by
  obtain ⟨g1, g2, rfl⟩ := g
  rw [decode_eq g1 g2, pow_add, Nat.mul_comm (2 ^ bo), Nat.mul_div_mul_right _ _ (by positivity),
    Nat.mul_div_cancel _ (by positivity)]

theorem decode_addr {bo idx tg addr : Nat} (g : GeomOK bo idx tg) :
    decode bo idx tg addr = some (addr / 2 ^ bo / 2 ^ idx, addr / 2 ^ bo % 2 ^ idx) := by
  obtain ⟨g1, g2, rfl⟩ := g
  rw [decode_eq g1 g2, pow_add, Nat.div_div_eq_div_mul]

theorem tag_lt {bo idx tg addr : Nat} (g : GeomOK bo idx tg) (ha : addr < 2 ^ 32) :
    addr / 2 ^ bo / 2 ^ idx < 2 ^ tg := by
  obtain ⟨g1, g2, rfl⟩ := g
  rw [Nat.div_div_eq_div_mul, ← pow_add, Nat.div_lt_iff_lt_mul (by positivity), ← pow_add]
  have : 32 - idx - bo + (bo + idx) = 32 := by omega
  rw [this]; exact ha

theorem evictAddr_eq {bo idx tg t i : Nat} (g : GeomOK bo idx tg) (ht : t < 2 ^ tg)
    (hi : i < 2 ^ idx) : evictAddr bo idx t i = some ((t * 2 ^ idx + i) * 2 ^ bo) := by
  obtain ⟨g1, g2, rfl⟩ := g
  have e1 : add32 bo idx = bo + idx := by unfold add32; omega
  have p32 : (2:Nat) ^ 32 = 2 ^ (32 - idx - bo) * 2 ^ (bo + idx) := by
    rw [← pow_add]; congr 1; omega
  have hhi : t * 2 ^ (bo + idx) < 2 ^ 32 := by
    rw [p32]; exact Nat.mul_lt_mul_of_pos_right ht (by positivity)
  have hlo : i * 2 ^ bo < 2 ^ (bo + idx) := by
    rw [pow_add, Nat.mul_comm]; exact Nat.mul_lt_mul_of_pos_left hi (by positivity)
  have hlo32 : i * 2 ^ bo < 2 ^ 32 := by
    have : (2:Nat) ^ (bo + idx) ≤ 2 ^ 32 := Nat.pow_le_pow_right (by norm_num) (by omega)
    omega
  unfold evictAddr shl32
  rw [e1, if_pos (by omega)]
  simp only []
  rw [if_pos (by omega)]
  simp only []
  rw [Nat.mod_eq_of_lt hhi, Nat.mod_eq_of_lt hlo32, Nat.mul_comm t,
    ← Nat.mul_add_lt_is_or hlo, pow_add]
  congr 1
  ring

/-! ## Placement and inclusion, cache by cache -/

theorem Placed.placed_shrinks {c c' : List (List entry)} {sets bo idx tg : Nat}
    (h : Placed c sets bo idx tg) (hs : Shrinks c c') : Placed c' sets bo idx tg :=
  fun i j e hl hv => h i j e (hs.valid_of_shrinks hl hv) hv

theorem Placed.placed_sameLines {c c' : List (List entry)} {sets bo idx tg : Nat}
    (h : Placed c sets bo idx tg) (hs : SameLines c c') : Placed c' sets bo idx tg := by
  intro i j e hl hv
  obtain ⟨e0, a1, a2, a3⟩ := hs.valid_of_sameLines hl
  have := h i j e0 a1 (by rw [a2]; exact hv)
  rw [a3] at this
  exact this

theorem Placed.placed_setLine {c : List (List entry)} {sets bo idx tg si k : Nat} {e0 e : entry}
    (h : Placed c sets bo idx tg) (hl : line c si k = some e0)
    (hnew : sets ≠ 0 ∧ GeomOK bo idx tg ∧ si < 2 ^ idx ∧ e.tag < 2 ^ tg) :
    Placed (setLine c si k e) sets bo idx tg := by
  intro i j e' hl' hv
  rw [line_setLine hl] at hl'
  by_cases cnd : si = i ∧ k = j
  · rw [if_pos cnd] at hl'
    cases hl'
    obtain ⟨rfl, _⟩ := cnd
    exact hnew
  · rw [if_neg cnd] at hl'; exact h i j e' hl' hv

theorem L2Has.has_sameLines {l2 l2' : List (List entry)} {idx blk : Nat} (h : L2Has l2 idx blk)
    (hs : SameLines l2 l2') : L2Has l2' idx blk := by
  obtain ⟨j, e, a1, a2, a3⟩ := h
  rcases hs (blk % 2 ^ idx) j with h1 | ⟨e0, ts, h1, h2⟩
  · exact ⟨j, e, by rw [h1]; exact a1, a2, a3⟩
  · rw [a1] at h1
    cases h1
    exact ⟨j, _, h2, a2, a3⟩

theorem L2Has.setLine_other {l2 : List (List entry)} {idx blk si k : Nat} {e0 : entry}
    (h : L2Has l2 idx blk) (hl : line l2 si k = some e0)
    (hne : ¬(e0.valid = true ∧ si = blk % 2 ^ idx ∧ e0.tag = blk / 2 ^ idx)) (e : entry) :
    L2Has (setLine l2 si k e) idx blk := by
  obtain ⟨j, e1, a1, a2, a3⟩ := h
  refine ⟨j, e1, ?_, a2, a3⟩
  rw [line_setLine hl]
  by_cases cnd : si = blk % 2 ^ idx ∧ k = j
  · obtain ⟨c1, rfl⟩ := cnd
    rw [← c1, hl] at a1
    cases a1
    exact absurd ⟨a2, c1, a3⟩ hne
  · rw [if_neg cnd]; exact a1

theorem L2Has.setLine_new {l2 : List (List entry)} {idx blk si k tag refs : Nat} {e0 : entry}
    (hl : line l2 si k = some e0) (hs : si = blk % 2 ^ idx) (ht : tag = blk / 2 ^ idx) :
    L2Has (setLine l2 si k { tag := tag, timestamp := refs, valid := true }) idx blk := by
  refine ⟨k, { tag := tag, timestamp := refs, valid := true }, ?_, rfl, ht⟩
  rw [line_setLine hl, ← hs, if_pos ⟨rfl, rfl⟩]

theorem InclBlk.incl_shrinks {c c' l2 : List (List entry)} {idx idx2 : Nat}
    (h : InclBlk c idx l2 idx2) (hs : Shrinks c c') : InclBlk c' idx l2 idx2 :=
  fun i j e hl hv => h i j e (hs.valid_of_shrinks hl hv) hv

theorem InclBlk.incl_sameLines {c c' l2 : List (List entry)} {idx idx2 : Nat}
    (h : InclBlk c idx l2 idx2) (hs : SameLines c c') : InclBlk c' idx l2 idx2 := by
  intro i j e hl hv
  obtain ⟨e0, a1, a2, a3⟩ := hs.valid_of_sameLines hl
  have := h i j e0 a1 (by rw [a2]; exact hv)
  rw [a3] at this
  exact this

theorem InclBlk.sameLines_l2 {c l2 l2' : List (List entry)} {idx idx2 : Nat}
    (h : InclBlk c idx l2 idx2) (hs : SameLines l2 l2') : InclBlk c idx l2' idx2 :=
  fun i j e hl hv => (h i j e hl hv).has_sameLines hs

/-- Installing a line into an L1 cache keeps inclusion when the L2 holds the new block. -/
theorem InclBlk.incl_setLine {c l2 : List (List entry)} {idx idx2 si k : Nat} {e0 e : entry}
    (h : InclBlk c idx l2 idx2) (hl : line c si k = some e0)
    (hnew : L2Has l2 idx2 (e.tag * 2 ^ idx + si)) : InclBlk (setLine c si k e) idx l2 idx2 := by
  intro i j e' hl' hv
  rw [line_setLine hl] at hl'
  by_cases cnd : si = i ∧ k = j
  · rw [if_pos cnd] at hl'
    cases hl'
    obtain ⟨rfl, _⟩ := cnd
    exact hnew
  · rw [if_neg cnd] at hl'; exact h i j e' hl' hv

/-- Overwriting one L2 line keeps inclusion of an L1 cache whose valid lines all name blocks
other than the one the overwritten line held. -/
theorem InclBlk.setLine_l2 {c l2 : List (List entry)} {idx idx2 si k : Nat} {e0 : entry}
    (h : InclBlk c idx l2 idx2) (hl : line l2 si k = some e0)
    (hne : ∀ i j e, line c i j = some e → e.valid = true →
      ¬(e0.valid = true ∧ si = (e.tag * 2 ^ idx + i) % 2 ^ idx2 ∧
        e0.tag = (e.tag * 2 ^ idx + i) / 2 ^ idx2)) (e : entry) :
    InclBlk c idx (setLine l2 si k e) idx2 :=
  fun i j e' hl' hv => (h i j e' hl' hv).setLine_other hl (hne i j e' hl' hv) e

/-- After back-invalidation for the block `blk`, no valid line of the L1 cache names `blk`. -/
theorem backInvalidate_clears {cache c' : List (List entry)} {sets assoc bo idx tg blk : Nat}
    (hp : Placed cache sets bo idx tg) (hr : InRange cache assoc)
    (h : backInvalidate cache sets assoc bo idx tg (blk * 2 ^ bo) = some c') :
    ∀ i j e, line c' i j = some e → e.valid = true → e.tag * 2 ^ idx + i ≠ blk := by
  intro i j e hl hv hb
  rcases backInvalidate_spec h with ⟨h0, rfl⟩ | ⟨_, xt, xs, hd, _, h2⟩
  · exact (hp i j e hl hv).1 h0
  · have hl0 := (shrinks_of_backInvalidate h).valid_of_shrinks hl hv
    obtain ⟨_, g, hi, _⟩ := hp i j e hl0 hv
    rw [decode_blk g] at hd
    simp only [Option.some.injEq, Prod.mk.injEq] at hd
    have := h2 i j
    rw [hl, hl0] at this
    simp only [Option.map_some', Option.some.injEq] at this
    have cnd : i = xs ∧ j < assoc ∧ e.valid = true ∧ xt = e.tag := by
      refine ⟨?_, hr i j e hl0 hv, hv, ?_⟩
      · rw [← hd.2, ← hb, blk_mod hi]
      · rw [← hd.1, ← hb, blk_div hi]
    rw [if_pos cnd] at this
    rw [this] at hv
    cases hv

theorem install_inl_spec {cache : List (List entry)} {assoc si tag refs : Nat}
    {set set' : List entry} (hs : cache[si]? = some set)
    (hm : missScan set tag refs assoc 0 ULONG_MAX (-1) = some (Sum.inl set')) :
    ∃ k e0, k < assoc ∧ line cache si k = some e0 ∧ e0.valid = false ∧
      cache.set si set' = setLine cache si k { tag := tag, timestamp := refs, valid := true } ∧
      ∀ k', k' < k → ∃ e', line cache si k' = some e' ∧ e'.valid = true := by
  obtain ⟨k, e, _, a2, a3, a4, a5, a6⟩ := missScan_inl assoc 0 ULONG_MAX (-1) hm
  refine ⟨k, e, by omega, by simp [line, hs, a3], a4, by rw [a5]; simp [setLine, hs], ?_⟩
  intro k' hk'
  obtain ⟨e', b1, b2⟩ := a6 k' (Nat.zero_le _) hk'
  exact ⟨e', by simp [line, hs, b1], b2⟩

theorem install_inr_spec {cache : List (List entry)} {assoc si tag refs : Nat}
    {set set' : List entry} {ej : Int} (hs : cache[si]? = some set)
    (hm : missScan set tag refs assoc 0 ULONG_MAX (-1) = some (Sum.inr ej))
    (hw : writeVictim set ej tag refs = some set') :
    ∃ k e0, ej = Int.ofNat k ∧ k < assoc ∧ line cache si k = some e0 ∧ e0.valid = true ∧
      readWay set ej = some e0 ∧
      cache.set si set' = setLine cache si k { tag := tag, timestamp := refs, valid := true } ∧
      (∀ k', k' < assoc → ∃ e', line cache si k' = some e' ∧ e'.valid = true) ∧
      e0.timestamp < ULONG_MAX ∧
      (∀ k' e', k' < assoc → line cache si k' = some e' → e0.timestamp ≤ e'.timestamp) ∧
      (∀ k' e', k' < k → line cache si k' = some e' → e0.timestamp < e'.timestamp) := by
  have hline : ∀ j, line cache si j = set[j]? := fun j => by simp [line, hs]
  obtain ⟨k, e, w1, w2, w3⟩ := writeVictim_some hw
  obtain ⟨m1, m2⟩ := missScan_inr assoc 0 ULONG_MAX (-1) ej hm
  rcases m2 with ⟨c1, _⟩ | ⟨k2, e2, c1, c2, c3, c4, c5, c6, c7⟩
  · rw [w1, Int.ofNat_eq_coe] at c1
    omega
  · have hk : k2 = k := by rw [w1] at c3; exact (Int.ofNat.inj c3).symm
    subst hk
    rw [w2] at c4; cases c4
    have hv : e.valid = true := by
      obtain ⟨e', b1, b2⟩ := m1 k2 (Nat.zero_le _) c2
      rw [w2] at b1; cases b1; exact b2
    have hrd : readWay set ej = some e := by
      unfold readWay
      rw [w1]
      have h0 : (0 : Int) ≤ Int.ofNat k2 := Int.ofNat_zero_le k2
      rw [if_pos h0]
      exact w2
    refine ⟨k2, e, w1, by omega, by rw [hline, w2], hv, hrd, ?_, ?_, c5, ?_, ?_⟩
    · rw [w3, hv]; simp [setLine, hs]
    · intro k' hk'
      obtain ⟨e', b1, b2⟩ := m1 k' (Nat.zero_le _) (by omega)
      exact ⟨e', by rw [hline, b1], b2⟩
    · intro k' e' d1 d2
      rw [hline] at d2
      exact c6 k' e' (Nat.zero_le _) (by omega) d2
    · intro k' e' d1 d2
      rw [hline] at d2
      exact c7 k' e' (Nat.zero_le _) d1 d2

theorem geom_of_decode {bo idx tg addr : Nat} {r : Nat × Nat} (hb : bo ≤ 32) (hi : idx ≤ 32)
    (ht : tg = sub32 (sub32 32 idx) bo) (h : decode bo idx tg addr = some r) :
    GeomOK bo idx tg ∧ r = (addr / 2 ^ bo / 2 ^ idx, addr / 2 ^ bo % 2 ^ idx) := by
  rw [ht] at h
  obtain ⟨g1, g2, g3⟩ := decode_defined hb hi h
  have g : GeomOK bo idx tg := ⟨g1, g2, by rw [ht, g3]⟩
  refine ⟨g, ?_⟩
  rw [← ht, decode_addr g] at h
  exact (Option.some.inj h).symm

/-! ## Inclusion along a run -/

theorem init_inclInv (c : Config) : InclInv (init_cache c) := by
  refine ⟨init_derived c, ?_, ?_, ?_, fun _ _ => ⟨?_, ?_⟩⟩
  · intro i j e hl hv; rw [line_initStore_invalid hl] at hv; cases hv
  · intro i j e hl hv; rw [line_initStore_invalid hl] at hv; cases hv
  · intro i j e hl hv; rw [line_initStore_invalid hl] at hv; cases hv
  · intro i j e hl hv; rw [line_initStore_invalid hl] at hv; cases hv
  · intro i j e hl hv; rw [line_initStore_invalid hl] at hv; cases hv

/-- The L2 step keeps the inclusion invariant and leaves the accessed block in the L2. -/
theorem l2cache_access_incl {s s' : State} {addr p : Nat} (hk : WellKept s) (hi : InclInv s)
    (ha : addr < 2 ^ 32) (h : l2cache_access s addr = some (s', p)) :
    InclInv s' ∧
    (s.l2cacheSets ≠ 0 → L2Has s'.l2cache s.l2cacheIndex (addr / 2 ^ s.blockoffset)) := by
  obtain ⟨hd, pi, pd, p2, inc⟩ := hi
  obtain ⟨ri, rd, _, _, _, _⟩ := hk
  rcases l2cache_access_cases h with ⟨h0, rfl, _⟩ | ⟨h0, tag, si, hdec, h1⟩
  · exact ⟨⟨hd, pi, pd, p2, inc⟩, fun c => absurd h0 c⟩
  · obtain ⟨g, hts⟩ := geom_of_decode hd.1 hd.2.2.2.1 hd.2.2.2.2.2.2 hdec
    simp only [Prod.mk.injEq] at hts
    obtain ⟨htag, hsi⟩ := hts
    have hnew : s.l2cacheSets ≠ 0 ∧ GeomOK s.blockoffset s.l2cacheIndex s.l2cacheTag ∧
        si < 2 ^ s.l2cacheIndex ∧ tag < 2 ^ s.l2cacheTag :=
      ⟨h0, g, by rw [hsi]; exact Nat.mod_lt _ (by positivity), by rw [htag]; exact tag_lt g ha⟩
    rcases h1 with ⟨l2, hl, rfl, _⟩ | ⟨hl, _, set, hs, h2⟩
    · obtain ⟨k, e, _, a2, a3, a4, rfl, _⟩ := lookup_hit hl
      have sl := sameLines_refresh a2 (add64 s.l2cacheRefs 1)
      refine ⟨⟨hd, pi, pd, p2.placed_sameLines sl, fun c1 c2 => ?_⟩, fun _ => ?_⟩
      · exact ⟨(inc c1 c2).1.sameLines_l2 sl, (inc c1 c2).2.sameLines_l2 sl⟩
      · have : L2Has s.l2cache s.l2cacheIndex (addr / 2 ^ s.blockoffset) :=
          ⟨k, e, by rw [← hsi]; exact a2, a3, by rw [← a4, htag]⟩
        exact this.has_sameLines sl
    · rcases h2 with ⟨set', hm, rfl⟩ | ⟨ej, set', ic, dc, hm, hw, hinc, rfl⟩
      · obtain ⟨k, e0, _, b2, b3, b4, _⟩ := install_inl_spec hs hm
        have hne : ∀ (c : List (List entry)) (idx : Nat) i j e, line c i j = some e →
            e.valid = true →
            ¬(e0.valid = true ∧ si = (e.tag * 2 ^ idx + i) % 2 ^ s.l2cacheIndex ∧
              e0.tag = (e.tag * 2 ^ idx + i) / 2 ^ s.l2cacheIndex) := by
          intro c idx i j e _ _ cc
          rw [b3] at cc
          cases cc.1
        refine ⟨⟨hd, pi, pd, ?_, fun c1 c2 => ⟨?_, ?_⟩⟩, fun _ => ?_⟩
        · show Placed (s.l2cache.set si set') _ _ _ _
          rw [b4]; exact p2.placed_setLine b2 hnew
        · show InclBlk s.icache _ (s.l2cache.set si set') _
          rw [b4]; exact (inc c1 c2).1.setLine_l2 b2 (hne _ _) _
        · show InclBlk s.dcache _ (s.l2cache.set si set') _
          rw [b4]; exact (inc c1 c2).2.setLine_l2 b2 (hne _ _) _
        · show L2Has (s.l2cache.set si set') _ _
          rw [b4]; exact L2Has.setLine_new b2 hsi htag
      · obtain ⟨k, e0, _, _, b2, b3, brd, b4, _⟩ := install_inr_spec hs hm hw
        have hsi' : Shrinks s.icache ic := by
          rcases hinc with ⟨_, rfl, _⟩ | ⟨_, ev, ea, _, _, bi, _⟩
          · exact Shrinks.shrinks_refl _
          · exact shrinks_of_backInvalidate bi
        have hsd' : Shrinks s.dcache dc := by
          rcases hinc with ⟨_, _, rfl⟩ | ⟨_, ev, ea, _, _, _, bd⟩
          · exact Shrinks.shrinks_refl _
          · exact shrinks_of_backInvalidate bd
        refine ⟨⟨hd, pi.placed_shrinks hsi', pd.placed_shrinks hsd', ?_, fun c1 c2 => ?_⟩, fun _ => ?_⟩
        · show Placed (s.l2cache.set si set') _ _ _ _
          rw [b4]; exact p2.placed_setLine b2 hnew
        · rcases hinc with ⟨hn, _, _⟩ | ⟨_, ev, ea, hrd, hea, bi, bd⟩
          · exact absurd c1 hn
          · rw [brd] at hrd
            cases hrd
            obtain ⟨_, _, _, htg⟩ := p2 si k e0 b2 b3
            rw [evictAddr_eq g htg hnew.2.2.1] at hea
            cases hea
            have ci := backInvalidate_clears pi ri bi
            have cd := backInvalidate_clears pd rd bd
            have hne : ∀ (c : List (List entry)) (idx : Nat),
                (∀ i j e, line c i j = some e → e.valid = true →
                  e.tag * 2 ^ idx + i ≠ e0.tag * 2 ^ s.l2cacheIndex + si) →
                ∀ i j e, line c i j = some e → e.valid = true →
                ¬(e0.valid = true ∧ si = (e.tag * 2 ^ idx + i) % 2 ^ s.l2cacheIndex ∧
                  e0.tag = (e.tag * 2 ^ idx + i) / 2 ^ s.l2cacheIndex) := by
              intro c idx hc i j e hl' hv' cc
              apply hc i j e hl' hv'
              rw [cc.2.1, cc.2.2]
              exact (Nat.div_add_mod' _ _).symm
            constructor
            · show InclBlk ic _ (s.l2cache.set si set') _
              rw [b4]
              exact ((inc c1 c2).1.incl_shrinks hsi').setLine_l2 b2 (hne _ _ ci) _
            · show InclBlk dc _ (s.l2cache.set si set') _
              rw [b4]
              exact ((inc c1 c2).2.incl_shrinks hsd').setLine_l2 b2 (hne _ _ cd) _
        · show L2Has (s.l2cache.set si set') _ _
          rw [b4]; exact L2Has.setLine_new b2 hsi htag

theorem icache_access_incl {s s' : State} {addr r : Nat} (hk : WellKept s) (hi : InclInv s)
    (ha : addr < 2 ^ 32) (h : icache_access s addr = some (s', r)) : InclInv s' := by
  rcases icache_access_cases h with ⟨_, h2⟩ | ⟨h0, tag, si, hdec, h1⟩
  · exact (l2cache_access_incl hk hi ha h2).1
  · rcases h1 with ⟨ic, hl, rfl, _⟩ | ⟨hl, s2, p, ic, h2, hin, rfl, _⟩
    · obtain ⟨hd, pi, pd, p2, inc⟩ := hi
      obtain ⟨k, e, _, a2, _, _, rfl, _⟩ := lookup_hit hl
      have sl := sameLines_refresh a2 (add64 s.icacheRefs 1)
      exact ⟨hd, pi.placed_sameLines sl, pd, p2, fun c1 c2 =>
        ⟨(inc c1 c2).1.incl_sameLines sl, (inc c1 c2).2⟩⟩
    · have f : SameConfig s s2 := by
        have f0 := (l2cache_access_frame h2).1
        exact ⟨f0.1, f0.2, f0.3, f0.4, f0.5, f0.6, f0.7, f0.8, f0.9, f0.10, f0.11, f0.12,
          f0.13, f0.14, f0.15, f0.16, f0.17, f0.18, f0.19⟩
      obtain ⟨⟨hd, pi, pd, p2, inc⟩, hhas⟩ := @l2cache_access_incl
        { s with icacheRefs := add64 s.icacheRefs 1,
                 icacheMisses := add64 s.icacheMisses 1 } s2 addr p hk hi ha h2
      rw [← f.blockoffset, ← f.icacheIndex, ← f.icacheTag] at hdec
      obtain ⟨g, hts⟩ := geom_of_decode hd.1 hd.2.1 hd.2.2.2.2.1 hdec
      simp only [Prod.mk.injEq] at hts
      obtain ⟨htag, hsi⟩ := hts
      obtain ⟨k, e, _, a2, rfl, _, _⟩ := install_spec hin
      have hnew : s2.icacheSets ≠ 0 ∧ GeomOK s2.blockoffset s2.icacheIndex s2.icacheTag ∧
          si < 2 ^ s2.icacheIndex ∧ tag < 2 ^ s2.icacheTag :=
        ⟨by rw [f.icacheSets]; exact h0, g, by rw [hsi]; exact Nat.mod_lt _ (by positivity),
          by rw [htag]; exact tag_lt g ha⟩
      refine ⟨hd, pi.placed_setLine a2 hnew, pd, p2, fun c1 c2 => ⟨?_, (inc c1 c2).2⟩⟩
      refine (inc c1 c2).1.incl_setLine a2 ?_
      have hh := hhas (by rw [← f.l2cacheSets]; exact c2)
      have e1 : tag * 2 ^ s2.icacheIndex + si = addr / 2 ^ s2.blockoffset := by
        rw [htag, hsi]; exact Nat.div_add_mod' _ _
      show L2Has s2.l2cache s2.l2cacheIndex (tag * 2 ^ s2.icacheIndex + si)
      rw [e1, f.l2cacheIndex, f.blockoffset]
      exact hh

theorem dcache_access_incl {s s' : State} {addr r : Nat} (hk : WellKept s) (hi : InclInv s)
    (ha : addr < 2 ^ 32) (h : dcache_access s addr = some (s', r)) : InclInv s' := by
  rcases dcache_access_cases h with ⟨_, h2⟩ | ⟨h0, tag, si, hdec, h1⟩
  · exact (l2cache_access_incl hk hi ha h2).1
  · rcases h1 with ⟨dc, hl, rfl, _⟩ | ⟨hl, s2, p, dc, h2, hin, rfl, _⟩
    · obtain ⟨hd, pi, pd, p2, inc⟩ := hi
      obtain ⟨k, e, _, a2, _, _, rfl, _⟩ := lookup_hit hl
      have sl := sameLines_refresh a2 (add64 s.dcacheRefs 1)
      exact ⟨hd, pi, pd.placed_sameLines sl, p2, fun c1 c2 =>
        ⟨(inc c1 c2).1, (inc c1 c2).2.incl_sameLines sl⟩⟩
    · have f : SameConfig s s2 := by
        have f0 := (l2cache_access_frame h2).1
        exact ⟨f0.1, f0.2, f0.3, f0.4, f0.5, f0.6, f0.7, f0.8, f0.9, f0.10, f0.11, f0.12,
          f0.13, f0.14, f0.15, f0.16, f0.17, f0.18, f0.19⟩
      obtain ⟨⟨hd, pi, pd, p2, inc⟩, hhas⟩ := @l2cache_access_incl
        { s with dcacheRefs := add64 s.dcacheRefs 1,
                 dcacheMisses := add64 s.dcacheMisses 1 } s2 addr p hk hi ha h2
      rw [← f.blockoffset, ← f.dcacheIndex, ← f.dcacheTag] at hdec
      obtain ⟨g, hts⟩ := geom_of_decode hd.1 hd.2.2.1 hd.2.2.2.2.2.1 hdec
      simp only [Prod.mk.injEq] at hts
      obtain ⟨htag, hsi⟩ := hts
      obtain ⟨k, e, _, a2, rfl, _, _⟩ := install_spec hin
      have hnew : s2.dcacheSets ≠ 0 ∧ GeomOK s2.blockoffset s2.dcacheIndex s2.dcacheTag ∧
          si < 2 ^ s2.dcacheIndex ∧ tag < 2 ^ s2.dcacheTag :=
        ⟨by rw [f.dcacheSets]; exact h0, g, by rw [hsi]; exact Nat.mod_lt _ (by positivity),
          by rw [htag]; exact tag_lt g ha⟩
      refine ⟨hd, pi, pd.placed_setLine a2 hnew, p2, fun c1 c2 => ⟨(inc c1 c2).1, ?_⟩⟩
      refine (inc c1 c2).2.incl_setLine a2 ?_
      have hh := hhas (by rw [← f.l2cacheSets]; exact c2)
      have e1 : tag * 2 ^ s2.dcacheIndex + si = addr / 2 ^ s2.blockoffset := by
        rw [htag, hsi]; exact Nat.div_add_mod' _ _
      show L2Has s2.l2cache s2.l2cacheIndex (tag * 2 ^ s2.dcacheIndex + si)
      rw [e1, f.l2cacheIndex, f.blockoffset]
      exact hh

theorem step_incl {s s' : State} {op : Op} {r : Nat} (hk : WellKept s) (hi : InclInv s)
    (ha : opAddr op < 2 ^ 32) (h : step s op = some (s', r)) : InclInv s' := by
  cases op with
  | I a => exact icache_access_incl hk hi ha h
  | D a => exact dcache_access_incl hk hi ha h

theorem run_incl : ∀ (ops : List Op) (s s' : State), WellKept s → InclInv s →
    (∀ op ∈ ops, opAddr op < 2 ^ 32) → run s ops = some s' → InclInv s' := by
  intro ops
  induction ops with
  | nil => intro s s' _ hi _ h; simp only [run, Option.some.injEq] at h; subst h; exact hi
  | cons op ops ih =>
    intro s s' hk hi ha h
    unfold run at h
    cases hs : step s op with
    | none => simp [hs] at h
    | some sr =>
      obtain ⟨s1, r⟩ := sr
      simp only [hs] at h
      exact ih s1 s' (step_wellKept hk hs)
        (step_incl hk hi (ha op (List.mem_cons_self _ _)) hs)
        (fun o ho => ha o (List.mem_cons_of_mem _ ho)) h

theorem included_of_inv {s : State} {cache : List (List entry)} {sets idx tg : Nat}
    (hp : Placed cache sets s.blockoffset idx tg)
    (hp2 : Placed s.l2cache s.l2cacheSets s.blockoffset s.l2cacheIndex s.l2cacheTag)
    (hr2 : InRange s.l2cache s.l2cacheAssoc)
    (hb : InclBlk cache idx s.l2cache s.l2cacheIndex) : Included s cache idx := by
  intro i j e hl hv
  obtain ⟨_, g, hi, ht⟩ := hp i j e hl hv
  obtain ⟨j2, e2, b1, b2, b3⟩ := hb i j e hl hv
  obtain ⟨_, g2, _, _⟩ := hp2 _ j2 e2 b1 b2
  exact ⟨_, _, _, j2, e2, evictAddr_eq g ht hi, decode_blk g2, hr2 _ j2 e2 b1 b2, b1, b2, b3⟩

/-- C7 (pass-through). With `icacheSets = 0`, `icache_access` is `l2cache_access`: same
result, same final state, and the three I$ counters keep their values; likewise
`dcache_access` with `dcacheSets = 0`. With `l2cacheSets = 0`, `l2cache_access` returns
`memspeed` and leaves the whole state, counters included, as it was. -/
theorem pass_through (s : State) (addr : Nat) :
    (s.icacheSets = 0 → icache_access s addr = l2cache_access s addr ∧
      ∀ s' r, icache_access s addr = some (s', r) →
        s'.icacheRefs = s.icacheRefs ∧ s'.icacheMisses = s.icacheMisses ∧
        s'.icachePenalties = s.icachePenalties) ∧
    (s.dcacheSets = 0 → dcache_access s addr = l2cache_access s addr ∧
      ∀ s' r, dcache_access s addr = some (s', r) →
        s'.dcacheRefs = s.dcacheRefs ∧ s'.dcacheMisses = s.dcacheMisses ∧
        s'.dcachePenalties = s.dcachePenalties) ∧
    (s.l2cacheSets = 0 → l2cache_access s addr = some (s, s.memspeed)) := by
  refine ⟨fun h0 => ?_, fun h0 => ?_, fun h0 => ?_⟩
  · have e : icache_access s addr = l2cache_access s addr := by
      unfold icache_access; rw [if_pos h0]
    refine ⟨e, fun s' r h => ?_⟩
    rw [e] at h
    have f := (l2cache_access_frame h).2
    exact ⟨f.icacheRefs, f.icacheMisses, f.icachePenalties⟩
  · have e : dcache_access s addr = l2cache_access s addr := by
      unfold dcache_access; rw [if_pos h0]
    refine ⟨e, fun s' r h => ?_⟩
    rw [e] at h
    have f := (l2cache_access_frame h).2
    exact ⟨f.dcacheRefs, f.dcacheMisses, f.dcachePenalties⟩
  · unfold l2cache_access; rw [if_pos h0]

/-- Witness for C7: without any cache an instruction fetch costs `memspeed`, and a fetch that
passes through to an instantiated L2 misses there without touching the I$ counters. -/
theorem pass_through_witness :
    icache_access (init_cache cfgNoCache) 0x1000
        = some (init_cache cfgNoCache, 100) ∧
    dcache_access (init_cache cfgNoCache) 0x1000
        = some (init_cache cfgNoCache, 100) ∧
    ∃ s', icache_access (init_cache cfgL2Only) 0x1000 = some (s', 110) ∧
      s'.icacheRefs = 0 ∧ s'.icacheMisses = 0 ∧ s'.icachePenalties = 0 ∧
      s'.l2cacheMisses = 1 := by
  have p := pass_through (init_cache cfgNoCache) 0x1000
  have q := pass_through (init_cache cfgL2Only) 0x1000
  refine ⟨?_, ?_, ?_⟩
  · rw [(p.1 rfl).1]; exact p.2.2 rfl
  · rw [(p.2.1 rfl).1]; exact p.2.2 rfl
  · have hs : (icache_access (init_cache cfgL2Only) 0x1000).isSome = true := by decide
    obtain ⟨⟨s', r⟩, h⟩ := Option.isSome_iff_exists.mp hs
    have hr : r = 110 := by
      have : (icache_access (init_cache cfgL2Only) 0x1000).map (fun x => x.2) = some 110 := by
        decide
      rw [h] at this
      exact Option.some.inj this
    have hm : s'.l2cacheMisses = 1 := by
      have : (icache_access (init_cache cfgL2Only) 0x1000).map (fun x => x.1.l2cacheMisses)
          = some 1 := by decide
      rw [h] at this
      exact Option.some.inj this
    obtain ⟨a, b, c⟩ := (q.1 rfl).2 s' r h
    subst hr
    exact ⟨s', h, a, b, c, hm⟩

/-- C8 (address decoding). With the bit widths `init_cache` computes, the decoding is not
defined for a single-set cache: for 32-byte blocks the set index is `(addr << 27) >> 32`.
It is not defined either when offset and index bits fill the whole address
(`2^27` sets of 32-byte blocks), where the tag is `addr >> 32`, nor for one-byte blocks in a
single set, where the first shift is `addr << 32`. -/
theorem decode_full_width_shift_undefined :
    decode (logTwo 32) (logTwo 1) (sub32 (sub32 32 (logTwo 1)) (logTwo 32)) 0x1004 = none ∧
    decode (logTwo 32) (logTwo (2 ^ 27)) (sub32 (sub32 32 (logTwo (2 ^ 27))) (logTwo 32))
      0x1004 = none ∧
    decode (logTwo 1) (logTwo 1) (sub32 (sub32 32 (logTwo 1)) (logTwo 1)) 0x1004 = none ∧
    shr32 (0x1004 * 2 ^ 27 % 2 ^ 32) 32 = none ∧
    decode (logTwo 32) (logTwo 2) (sub32 (sub32 32 (logTwo 2)) (logTwo 32)) 0x1024
      = some (0x1024 / 2 ^ 6, 1) := by
  decide

/-! ## Idempotent hits -/

theorem icache_access_of_hit {s : State} {addr tag si : Nat} {ic : List (List entry)}
    (h0 : s.icacheSets ≠ 0)
    (hd : decode s.blockoffset s.icacheIndex s.icacheTag addr = some (tag, si))
    (hl : lookup s.icache s.icacheAssoc si tag (add64 s.icacheRefs 1) = some (some ic)) :
    icache_access s addr
      = some ({ s with icacheRefs := add64 s.icacheRefs 1, icache := ic }, s.icacheHitTime) := by
  unfold icache_access
  rw [if_neg h0]
  simp only [hd, hl]

/-- After a defined `icache_access`, the accessed block sits in a valid way of its set and
every way before it can be read. -/
theorem icache_access_leaves_line {s s' : State} {addr r : Nat} (h0 : s.icacheSets ≠ 0)
    (h : icache_access s addr = some (s', r)) :
    ∃ tag si k e, decode s.blockoffset s.icacheIndex s.icacheTag addr = some (tag, si) ∧
      k < s.icacheAssoc ∧ line s'.icache si k = some e ∧ e.valid = true ∧ tag = e.tag ∧
      ∀ k', k' < k → ∃ e', line s'.icache si k' = some e' := by
  rcases icache_access_cases h with ⟨c, _⟩ | ⟨_, tag, si, hdec, h1⟩
  · exact absurd c h0
  · refine ⟨tag, si, ?_⟩
    rcases h1 with ⟨ic, hl, rfl, _⟩ | ⟨hl, s2, p, ic, h2, hin, rfl, _⟩
    · obtain ⟨k, e, a1, a2, a3, a4, rfl, a6⟩ := lookup_hit hl
      refine ⟨k, { e with timestamp := add64 s.icacheRefs 1 }, hdec, a1, ?_, a3, a4, ?_⟩
      · show line (setLine s.icache si k _) si k = _
        rw [line_setLine a2, if_pos ⟨rfl, rfl⟩]
      · intro k' hk'
        obtain ⟨e', b1, _⟩ := a6 k' hk'
        refine ⟨e', ?_⟩
        show line (setLine s.icache si k _) si k' = _
        rw [line_setLine a2, if_neg (fun c => by omega)]
        exact b1
    · have f := (l2cache_access_frame h2).1
      obtain ⟨k, e, a1, a2, rfl, a4, _⟩ := install_spec hin
      refine ⟨k, { tag := tag, timestamp := s2.icacheRefs, valid := true }, hdec,
        by rw [← f.icacheAssoc]; exact a1, ?_, rfl, rfl, ?_⟩
      · show line (setLine s2.icache si k _) si k = _
        rw [line_setLine a2, if_pos ⟨rfl, rfl⟩]
      · intro k' hk'
        obtain ⟨e', b1, _⟩ := a4 k' hk'
        refine ⟨e', ?_⟩
        show line (setLine s2.icache si k _) si k' = _
        rw [line_setLine a2, if_neg (fun c => by omega)]
        exact b1

theorem icache_access_twice {s s1 : State} {addr r1 : Nat} (h0 : s.icacheSets ≠ 0)
    (h : icache_access s addr = some (s1, r1)) :
    ∃ s2, icache_access s1 addr = some (s2, s.icacheHitTime) := by
  obtain ⟨tag, si, k, e, hd, a1, a2, a3, a4, a5⟩ := icache_access_leaves_line h0 h
  have f := icache_access_frame h
  rw [← f.blockoffset, ← f.icacheIndex, ← f.icacheTag] at hd
  rw [← f.icacheAssoc] at a1
  obtain ⟨c', hl⟩ := @lookup_hit_of s1.icache s1.icacheAssoc si tag (add64 s1.icacheRefs 1)
    k e a1 a2 a3 a4 a5
  have := icache_access_of_hit (by rw [f.icacheSets]; exact h0) hd hl
  rw [f.icacheHitTime] at this
  exact ⟨_, this⟩

theorem dcache_access_of_hit {s : State} {addr tag si : Nat} {dc : List (List entry)}
    (h0 : s.dcacheSets ≠ 0)
    (hd : decode s.blockoffset s.dcacheIndex s.dcacheTag addr = some (tag, si))
    (hl : lookup s.dcache s.dcacheAssoc si tag (add64 s.dcacheRefs 1) = some (some dc)) :
    dcache_access s addr
      = some ({ s with dcacheRefs := add64 s.dcacheRefs 1, dcache := dc }, s.dcacheHitTime) := by
  unfold dcache_access
  rw [if_neg h0]
  simp only [hd, hl]

/-- After a defined `dcache_access`, the accessed block sits in a valid way of its set and
every way before it can be read. -/
theorem dcache_access_leaves_line {s s' : State} {addr r : Nat} (h0 : s.dcacheSets ≠ 0)
    (h : dcache_access s addr = some (s', r)) :
    ∃ tag si k e, decode s.blockoffset s.dcacheIndex s.dcacheTag addr = some (tag, si) ∧
      k < s.dcacheAssoc ∧ line s'.dcache si k = some e ∧ e.valid = true ∧ tag = e.tag ∧
      ∀ k', k' < k → ∃ e', line s'.dcache si k' = some e' := by
  rcases dcache_access_cases h with ⟨c, _⟩ | ⟨_, tag, si, hdec, h1⟩
  · exact absurd c h0
  · refine ⟨tag, si, ?_⟩
    rcases h1 with ⟨dc, hl, rfl, _⟩ | ⟨hl, s2, p, dc, h2, hin, rfl, _⟩
    · obtain ⟨k, e, a1, a2, a3, a4, rfl, a6⟩ := lookup_hit hl
      refine ⟨k, { e with timestamp := add64 s.dcacheRefs 1 }, hdec, a1, ?_, a3, a4, ?_⟩
      · show line (setLine s.dcache si k _) si k = _
        rw [line_setLine a2, if_pos ⟨rfl, rfl⟩]
      · intro k' hk'
        obtain ⟨e', b1, _⟩ := a6 k' hk'
        refine ⟨e', ?_⟩
        show line (setLine s.dcache si k _) si k' = _
        rw [line_setLine a2, if_neg (fun c => by omega)]
        exact b1
    · have f := (l2cache_access_frame h2).1
      obtain ⟨k, e, a1, a2, rfl, a4, _⟩ := install_spec hin
      refine ⟨k, { tag := tag, timestamp := s2.dcacheRefs, valid := true }, hdec,
        by rw [← f.dcacheAssoc]; exact a1, ?_, rfl, rfl, ?_⟩
      · show line (setLine s2.dcache si k _) si k = _
        rw [line_setLine a2, if_pos ⟨rfl, rfl⟩]
      · intro k' hk'
        obtain ⟨e', b1, _⟩ := a4 k' hk'
        refine ⟨e', ?_⟩
        show line (setLine s2.dcache si k _) si k' = _
        rw [line_setLine a2, if_neg (fun c => by omega)]
        exact b1

theorem dcache_access_twice {s s1 : State} {addr r1 : Nat} (h0 : s.dcacheSets ≠ 0)
    (h : dcache_access s addr = some (s1, r1)) :
    ∃ s2, dcache_access s1 addr = some (s2, s.dcacheHitTime) := by
  obtain ⟨tag, si, k, e, hd, a1, a2, a3, a4, a5⟩ := dcache_access_leaves_line h0 h
  have f := dcache_access_frame h
  rw [← f.blockoffset, ← f.dcacheIndex, ← f.dcacheTag] at hd
  rw [← f.dcacheAssoc] at a1
  obtain ⟨c', hl⟩ := @lookup_hit_of s1.dcache s1.dcacheAssoc si tag (add64 s1.dcacheRefs 1)
    k e a1 a2 a3 a4 a5
  have := dcache_access_of_hit (by rw [f.dcacheSets]; exact h0) hd hl
  rw [f.dcacheHitTime] at this
  exact ⟨_, this⟩

theorem l2cache_access_bumpI (s : State) (addr a b : Nat) :
    l2cache_access { s with icacheRefs := a, icacheMisses := b } addr
      = (l2cache_access s addr).map
          (fun x => ({ x.1 with icacheRefs := a, icacheMisses := b }, x.2)) := by
  unfold l2cache_access
  by_cases h0 : s.l2cacheSets = 0
  · simp only [h0, if_true, Option.map_some']
  · simp only [h0, if_false]
    cases decode s.blockoffset s.l2cacheIndex s.l2cacheTag addr with
    | none => rfl
    | some ts =>
      obtain ⟨tag, si⟩ := ts
      simp only []
      cases lookup s.l2cache s.l2cacheAssoc si tag (add64 s.l2cacheRefs 1) with
      | none => rfl
      | some r0 =>
        cases r0 with
        | some l2 => rfl
        | none =>
          simp only []
          cases s.l2cache[si]? with
          | none => rfl
          | some set =>
            simp only []
            cases missScan set tag (add64 s.l2cacheRefs 1) s.l2cacheAssoc 0 ULONG_MAX (-1) with
            | none => rfl
            | some r1 =>
              cases r1 with
              | inl set' => rfl
              | inr ej =>
                simp only []
                by_cases hi : s.inclusive = 1
                · simp only [hi, if_true]
                  cases readWay set ej with
                  | none => rfl
                  | some ev =>
                    simp only []
                    cases evictAddr s.blockoffset s.l2cacheIndex ev.tag si with
                    | none => rfl
                    | some ea =>
                      simp only []
                      cases backInvalidate s.icache s.icacheSets s.icacheAssoc s.blockoffset
                          s.icacheIndex s.icacheTag ea with
                      | none => rfl
                      | some ic =>
                        simp only []
                        cases backInvalidate s.dcache s.dcacheSets s.dcacheAssoc s.blockoffset
                            s.dcacheIndex s.dcacheTag ea with
                        | none => rfl
                        | some dc =>
                          simp only []
                          cases writeVictim set ej tag (add64 s.l2cacheRefs 1) with
                          | none => rfl
                          | some set' => rfl
                · simp only [hi, if_false]
                  cases writeVictim set ej tag (add64 s.l2cacheRefs 1) with
                  | none => rfl
                  | some set' => rfl

theorem l2cache_access_bumpD (s : State) (addr a b : Nat) :
    l2cache_access { s with dcacheRefs := a, dcacheMisses := b } addr
      = (l2cache_access s addr).map
          (fun x => ({ x.1 with dcacheRefs := a, dcacheMisses := b }, x.2)) := by
  unfold l2cache_access
  by_cases h0 : s.l2cacheSets = 0
  · simp only [h0, if_true, Option.map_some']
  · simp only [h0, if_false]
    cases decode s.blockoffset s.l2cacheIndex s.l2cacheTag addr with
    | none => rfl
    | some ts =>
      obtain ⟨tag, si⟩ := ts
      simp only []
      cases lookup s.l2cache s.l2cacheAssoc si tag (add64 s.l2cacheRefs 1) with
      | none => rfl
      | some r0 =>
        cases r0 with
        | some l2 => rfl
        | none =>
          simp only []
          cases s.l2cache[si]? with
          | none => rfl
          | some set =>
            simp only []
            cases missScan set tag (add64 s.l2cacheRefs 1) s.l2cacheAssoc 0 ULONG_MAX (-1) with
            | none => rfl
            | some r1 =>
              cases r1 with
              | inl set' => rfl
              | inr ej =>
                simp only []
                by_cases hi : s.inclusive = 1
                · simp only [hi, if_true]
                  cases readWay set ej with
                  | none => rfl
                  | some ev =>
                    simp only []
                    cases evictAddr s.blockoffset s.l2cacheIndex ev.tag si with
                    | none => rfl
                    | some ea =>
                      simp only []
                      cases backInvalidate s.icache s.icacheSets s.icacheAssoc s.blockoffset
                          s.icacheIndex s.icacheTag ea with
                      | none => rfl
                      | some ic =>
                        simp only []
                        cases backInvalidate s.dcache s.dcacheSets s.dcacheAssoc s.blockoffset
                            s.dcacheIndex s.dcacheTag ea with
                        | none => rfl
                        | some dc =>
                          simp only []
                          cases writeVictim set ej tag (add64 s.l2cacheRefs 1) with
                          | none => rfl
                          | some set' => rfl
                · simp only [hi, if_false]
                  cases writeVictim set ej tag (add64 s.l2cacheRefs 1) with
                  | none => rfl
                  | some set' => rfl

/-! ## Result and bookkeeping of one access -/

theorem holds_of_lookup_hit {cache c' : List (List entry)} {assoc si tag refs : Nat}
    (h : lookup cache assoc si tag refs = some (some c')) : Holds cache assoc si tag := by
  obtain ⟨k, e, a1, a2, a3, a4, _, _⟩ := lookup_hit h
  exact ⟨k, e, a1, a2, a3, a4.symm⟩

theorem not_holds_of_lookup_miss {cache : List (List entry)} {assoc si tag refs : Nat}
    (h : lookup cache assoc si tag refs = some none) : ¬Holds cache assoc si tag := by
  rintro ⟨j, e, a1, a2, a3, a4⟩
  obtain ⟨e', b1, b2⟩ := lookup_miss h j a1
  rw [a2] at b1
  cases b1
  exact b2 ⟨a3, a4.symm⟩

/-- What an instantiated L2 returns: its hit time on a hit, hit time plus memory latency on
a miss, with the miss counter and the penalties following. -/
theorem l2cache_access_result {s s' : State} {addr p : Nat} (h0 : s.l2cacheSets ≠ 0)
    (h : l2cache_access s addr = some (s', p)) :
    ∃ tag si, decode s.blockoffset s.l2cacheIndex s.l2cacheTag addr = some (tag, si) ∧
      s'.l2cacheRefs = add64 s.l2cacheRefs 1 ∧
      ((Holds s.l2cache s.l2cacheAssoc si tag ∧ p = s.l2cacheHitTime ∧
          s'.l2cacheMisses = s.l2cacheMisses ∧ s'.l2cachePenalties = s.l2cachePenalties) ∨
       (¬Holds s.l2cache s.l2cacheAssoc si tag ∧ p = add32 s.l2cacheHitTime s.memspeed ∧
          s'.l2cacheMisses = add64 s.l2cacheMisses 1 ∧
          s'.l2cachePenalties = add64 s.l2cachePenalties s.memspeed)) := by
  rcases l2cache_access_cases h with ⟨c, _⟩ | ⟨_, tag, si, hdec, h1⟩
  · exact absurd c h0
  · refine ⟨tag, si, hdec, ?_⟩
    rcases h1 with ⟨l2, hl, rfl, hp⟩ | ⟨hl, hp, set, hs, h2⟩
    · exact ⟨rfl, Or.inl ⟨holds_of_lookup_hit hl, hp, rfl, rfl⟩⟩
    · rcases h2 with ⟨set', hm, rfl⟩ | ⟨ej, set', ic, dc, hm, hw, hinc, rfl⟩
      · exact ⟨rfl, Or.inr ⟨not_holds_of_lookup_miss hl, hp, rfl, rfl⟩⟩
      · exact ⟨rfl, Or.inr ⟨not_holds_of_lookup_miss hl, hp, rfl, rfl⟩⟩

theorem icache_access_result {s s' : State} {addr r : Nat} (h0 : s.icacheSets ≠ 0)
    (h : icache_access s addr = some (s', r)) :
    ∃ tag si, decode s.blockoffset s.icacheIndex s.icacheTag addr = some (tag, si) ∧
      s'.icacheRefs = add64 s.icacheRefs 1 ∧
      ((Holds s.icache s.icacheAssoc si tag ∧ r = s.icacheHitTime ∧
          s'.icacheMisses = s.icacheMisses ∧ s'.icachePenalties = s.icachePenalties) ∨
       (¬Holds s.icache s.icacheAssoc si tag ∧ ∃ s2 p, l2cache_access s addr = some (s2, p) ∧
          s'.icacheMisses = add64 s.icacheMisses 1 ∧
          s'.icachePenalties = add64 s.icachePenalties p ∧
          r = add32 s.icacheHitTime p)) := by
  rcases icache_access_cases h with ⟨c, _⟩ | ⟨_, tag, si, hdec, h1⟩
  · exact absurd c h0
  · refine ⟨tag, si, hdec, ?_⟩
    rcases h1 with ⟨ic, hl, rfl, hr⟩ | ⟨hl, s2, p, ic, h2, hin, rfl, hr⟩
    · exact ⟨rfl, Or.inl ⟨holds_of_lookup_hit hl, hr, rfl, rfl⟩⟩
    · have f := l2cache_access_frame h2
      rw [l2cache_access_bumpI] at h2
      cases h3 : l2cache_access s addr with
      | none => rw [h3] at h2; cases h2
      | some x =>
        obtain ⟨t, q⟩ := x
        rw [h3] at h2
        simp only [Option.map_some', Option.some.injEq, Prod.mk.injEq] at h2
        obtain ⟨e1, e2⟩ := h2
        subst e2
        have g := l2cache_access_frame h3
        refine ⟨?_, Or.inr ⟨not_holds_of_lookup_miss hl, t, q, rfl, ?_, ?_, ?_⟩⟩
        · exact f.2.icacheRefs
        · exact f.2.icacheMisses
        · show add64 s2.icachePenalties q = _
          rw [f.2.icachePenalties]
        · rw [hr, f.1.icacheHitTime]

theorem dcache_access_result {s s' : State} {addr r : Nat} (h0 : s.dcacheSets ≠ 0)
    (h : dcache_access s addr = some (s', r)) :
    ∃ tag si, decode s.blockoffset s.dcacheIndex s.dcacheTag addr = some (tag, si) ∧
      s'.dcacheRefs = add64 s.dcacheRefs 1 ∧
      ((Holds s.dcache s.dcacheAssoc si tag ∧ r = s.dcacheHitTime ∧
          s'.dcacheMisses = s.dcacheMisses ∧ s'.dcachePenalties = s.dcachePenalties) ∨
       (¬Holds s.dcache s.dcacheAssoc si tag ∧ ∃ s2 p, l2cache_access s addr = some (s2, p) ∧
          s'.dcacheMisses = add64 s.dcacheMisses 1 ∧
          s'.dcachePenalties = add64 s.dcachePenalties p ∧
          r = add32 s.dcacheHitTime p)) := by
  rcases dcache_access_cases h with ⟨c, _⟩ | ⟨_, tag, si, hdec, h1⟩
  · exact absurd c h0
  · refine ⟨tag, si, hdec, ?_⟩
    rcases h1 with ⟨dc, hl, rfl, hr⟩ | ⟨hl, s2, p, dc, h2, hin, rfl, hr⟩
    · exact ⟨rfl, Or.inl ⟨holds_of_lookup_hit hl, hr, rfl, rfl⟩⟩
    · have f := l2cache_access_frame h2
      rw [l2cache_access_bumpD] at h2
      cases h3 : l2cache_access s addr with
      | none => rw [h3] at h2; cases h2
      | some x =>
        obtain ⟨t, q⟩ := x
        rw [h3] at h2
        simp only [Option.map_some', Option.some.injEq, Prod.mk.injEq] at h2
        obtain ⟨e1, e2⟩ := h2
        subst e2
        have g := l2cache_access_frame h3
        refine ⟨?_, Or.inr ⟨not_holds_of_lookup_miss hl, t, q, rfl, ?_, ?_, ?_⟩⟩
        · exact f.2.dcacheRefs
        · exact f.2.dcacheMisses
        · show add64 s2.dcachePenalties q = _
          rw [f.2.dcachePenalties]
        · rw [hr, f.1.dcacheHitTime]

/-! ## Latency -/

theorem l2cache_access_le {s s' : State} {addr p : Nat}
    (hsum : s.l2cacheHitTime + s.memspeed < 2 ^ 32) (h : l2cache_access s addr = some (s', p)) :
    p ≤ s.l2cacheHitTime + s.memspeed ∧
    (0 < s.memspeed → (s.l2cacheSets = 0 ∨ 0 < s.l2cacheHitTime) → 0 < p) := by
  by_cases h0 : s.l2cacheSets = 0
  · rcases l2cache_access_cases h with ⟨_, _, hp⟩ | ⟨c, _⟩
    · exact ⟨by omega, fun hm _ => by omega⟩
    · exact absurd h0 c
  · obtain ⟨_, _, _, _, hc⟩ := l2cache_access_result h0 h
    rcases hc with ⟨_, hp, _⟩ | ⟨_, hp, _⟩
    · refine ⟨by omega, fun _ hh => ?_⟩
      rcases hh with c | c
      · exact absurd c h0
      · omega
    · have : add32 s.l2cacheHitTime s.memspeed = s.l2cacheHitTime + s.memspeed := by
        unfold add32; exact Nat.mod_eq_of_lt hsum
      rw [this] at hp
      exact ⟨by omega, fun hm _ => by omega⟩

theorem not_holds_init (sets assoc si tag : Nat) : ¬Holds (initStore sets assoc) assoc si tag := by
  rintro ⟨j, e, _, hl, hv, _⟩
  rw [line_initStore_invalid hl] at hv
  cases hv

/-- C6, counterexample. A miss need not cost more than a hit, and the returned value can be
below the hit time: with a memory latency of zero (no L2) the cold miss returns exactly the
hit time 1; with hit time `2^32 - 1` and memory latency 2 the 32-bit sum wraps and the miss
returns 1. -/
theorem latency_counterexample :
    (∃ s', icache_access (init_cache cfgZeroMem) 0x1000 = some (s', 1) ∧
      IcacheMiss (init_cache cfgZeroMem) 0x1000 ∧
      (init_cache cfgZeroMem).icacheHitTime = 1) ∧
    (∃ s', icache_access (init_cache cfgWrap) 0x1000 = some (s', 1) ∧
      IcacheMiss (init_cache cfgWrap) 0x1000 ∧
      (init_cache cfgWrap).icacheHitTime = 2 ^ 32 - 1) := by
  constructor
  · obtain ⟨⟨s', r⟩, h, hf⟩ := Option.map_eq_some'.mp
      (by decide : (icache_access (init_cache cfgZeroMem) 0x1000).map (fun x => x.2) = some 1)
    simp only at hf
    subst hf
    exact ⟨s', h, ⟨64, 0, by decide, not_holds_init 2 1 0 64⟩, rfl⟩
  · obtain ⟨⟨s', r⟩, h, hf⟩ := Option.map_eq_some'.mp
      (by decide : (icache_access (init_cache cfgWrap) 0x1000).map (fun x => x.2) = some 1)
    simp only at hf
    subst hf
    exact ⟨s', h, ⟨64, 0, by decide, not_holds_init 2 1 0 64⟩, rfl⟩

/-- C6, amended (latency monotonicity). With the I$ instantiated and
`icacheHitTime + l2cacheHitTime + memspeed < 2^32` (no 32-bit wrap), every defined
`icache_access` returns at least `icacheHitTime`; on an I$ miss it returns
`icacheHitTime + p`, where `p` is what `l2cache_access` returns from the same state, and this
is strictly more than `icacheHitTime` when `memspeed > 0` and the L2 is absent or has a
positive hit time. The same holds for `dcache_access`. -/
theorem latency_bounds (s s' : State) (addr r : Nat) :
    (s.icacheSets ≠ 0 → s.icacheHitTime + s.l2cacheHitTime + s.memspeed < 2 ^ 32 →
      icache_access s addr = some (s', r) →
      s.icacheHitTime ≤ r ∧
      (IcacheMiss s addr → ∃ s2 p, l2cache_access s addr = some (s2, p) ∧
        r = s.icacheHitTime + p ∧
        (0 < s.memspeed → (s.l2cacheSets = 0 ∨ 0 < s.l2cacheHitTime) → s.icacheHitTime < r))) ∧
    (s.dcacheSets ≠ 0 → s.dcacheHitTime + s.l2cacheHitTime + s.memspeed < 2 ^ 32 →
      dcache_access s addr = some (s', r) →
      s.dcacheHitTime ≤ r ∧
      (DcacheMiss s addr → ∃ s2 p, l2cache_access s addr = some (s2, p) ∧
        r = s.dcacheHitTime + p ∧
        (0 < s.memspeed → (s.l2cacheSets = 0 ∨ 0 < s.l2cacheHitTime) →
          s.dcacheHitTime < r))) := by
  constructor
  · intro h0 hsum h
    obtain ⟨tag, si, hd, _, hc⟩ := icache_access_result h0 h
    rcases hc with ⟨hh, hr, _⟩ | ⟨hn, s2, p, h2, _, _, hr⟩
    · refine ⟨by omega, ?_⟩
      rintro ⟨tag', si', hd', hn'⟩
      rw [hd] at hd'
      cases hd'
      exact absurd hh hn'
    · obtain ⟨ple, ppos⟩ := l2cache_access_le (by omega) h2
      have : add32 s.icacheHitTime p = s.icacheHitTime + p := by
        unfold add32; exact Nat.mod_eq_of_lt (by omega)
      rw [this] at hr
      exact ⟨by omega, fun _ => ⟨s2, p, h2, hr, fun a b => by have := ppos a b; omega⟩⟩
  · intro h0 hsum h
    obtain ⟨tag, si, hd, _, hc⟩ := dcache_access_result h0 h
    rcases hc with ⟨hh, hr, _⟩ | ⟨hn, s2, p, h2, _, _, hr⟩
    · refine ⟨by omega, ?_⟩
      rintro ⟨tag', si', hd', hn'⟩
      rw [hd] at hd'
      cases hd'
      exact absurd hh hn'
    · obtain ⟨ple, ppos⟩ := l2cache_access_le (by omega) h2
      have : add32 s.dcacheHitTime p = s.dcacheHitTime + p := by
        unfold add32; exact Nat.mod_eq_of_lt (by omega)
      rw [this] at hr
      exact ⟨by omega, fun _ => ⟨s2, p, h2, hr, fun a b => by have := ppos a b; omega⟩⟩

/-- Witness for the amended C6: the cold fetch of the two-set hierarchy misses and returns
111, above the hit time 1. -/
theorem latency_bounds_witness :
    ∃ s' r, icache_access (init_cache cfgTwoSets) 0x1000 = some (s', r) ∧
      IcacheMiss (init_cache cfgTwoSets) 0x1000 ∧
      (init_cache cfgTwoSets).icacheHitTime ≤ r ∧ (init_cache cfgTwoSets).icacheHitTime < r := by
  obtain ⟨⟨s', r⟩, h⟩ := Option.isSome_iff_exists.mp
    (by decide : (icache_access (init_cache cfgTwoSets) 0x1000).isSome = true)
  have hm : IcacheMiss (init_cache cfgTwoSets) 0x1000 :=
    ⟨64, 0, by decide, not_holds_init 2 1 0 64⟩
  obtain ⟨a, b⟩ := (latency_bounds (init_cache cfgTwoSets) s' 0x1000 r).1
    (by decide) (by decide) h
  obtain ⟨_, _, _, _, c⟩ := b hm
  exact ⟨s', r, h, hm, a, c (by decide) (Or.inr (by decide))⟩

/-! ## Back-invalidation -/

/-- Read off a component of a computed state. -/
theorem eval_at {α β : Type} (f : α → β) (v : β) {o : Option α} {a : α} (h : o = some a)
    (hv : o.map f = some v) : f a = v := by
  subst h
  exact Option.some.inj hv

theorem holds_iff {cache : List (List entry)} {assoc si tag : Nat} :
    Holds cache assoc si tag ↔ holdsB cache assoc si tag = true := by
  unfold Holds holdsB
  rw [List.any_eq_true]
  constructor
  · rintro ⟨j, e, a1, a2, a3, a4⟩
    refine ⟨j, List.mem_range.mpr a1, ?_⟩
    simp [a2, a3, a4]
  · rintro ⟨j, hj, h⟩
    cases hl : line cache si j with
    | none => simp [hl] at h
    | some e =>
      simp only [hl, Bool.and_eq_true, decide_eq_true_eq] at h
      exact ⟨j, e, List.mem_range.mp hj, hl, h.1, h.2⟩

theorem full_iff {cache : List (List entry)} {assoc si : Nat} :
    Full cache assoc si ↔ fullB cache assoc si = true := by
  unfold Full fullB
  rw [List.all_eq_true]
  constructor
  · intro h j hj
    obtain ⟨e, a1, a2⟩ := h j (List.mem_range.mp hj)
    simp [a1, a2]
  · intro h j hj
    have := h j (List.mem_range.mpr hj)
    cases hl : line cache si j with
    | none => simp [hl] at this
    | some e =>
      simp only [hl] at this
      exact ⟨e, rfl, this⟩

theorem coldLatency_eq_sum {sets hitTime : Nat} {c : Config}
    (h : coldSum sets hitTime c < 2 ^ 32) : coldLatency sets hitTime c = coldSum sets hitTime c := by
  unfold coldLatency memPath add32
  unfold coldSum at h ⊢
  by_cases h1 : sets = 0 <;> by_cases h2 : c.l2cacheSets = 0 <;>
    simp only [h1, h2, if_true, if_false] at h ⊢ <;> omega

theorem l2cache_access_cold {s s' : State} {addr p : Nat}
    (hc : ∀ si tag, ¬Holds s.l2cache s.l2cacheAssoc si tag)
    (h : l2cache_access s addr = some (s', p)) :
    p = (if s.l2cacheSets = 0 then s.memspeed else add32 s.l2cacheHitTime s.memspeed) ∧
    (s.l2cacheSets ≠ 0 → s'.l2cacheMisses = add64 s.l2cacheMisses 1) := by
  by_cases h0 : s.l2cacheSets = 0
  · rcases l2cache_access_cases h with ⟨_, _, hp⟩ | ⟨c, _⟩
    · exact ⟨by rw [if_pos h0, hp], fun c => absurd h0 c⟩
    · exact absurd h0 c
  · obtain ⟨tag, si, _, _, hr⟩ := l2cache_access_result h0 h
    rcases hr with ⟨hh, _⟩ | ⟨_, hp, hm, _⟩
    · exact absurd hh (hc si tag)
    · exact ⟨by rw [if_neg h0, hp], fun _ => hm⟩

theorem icache_access_cold {c : Config} {s' : State} {addr r : Nat}
    (h : icache_access (init_cache c) addr = some (s', r)) :
    r = coldLatency c.icacheSets c.icacheHitTime c ∧
    (c.icacheSets ≠ 0 → IcacheMiss (init_cache c) addr ∧ s'.icacheMisses = 1) ∧
    (c.l2cacheSets ≠ 0 → s'.l2cacheMisses = 1) := by
  have cold2 : ∀ si tag, ¬Holds (init_cache c).l2cache (init_cache c).l2cacheAssoc si tag :=
    fun si tag => not_holds_init _ _ si tag
  rcases icache_access_cases h with ⟨h0, h2⟩ | ⟨h0, tag, si, hdec, h1⟩
  · obtain ⟨a, b⟩ := l2cache_access_cold cold2 h2
    have h0' : c.icacheSets = 0 := h0
    refine ⟨?_, fun c0 => absurd h0' c0, b⟩
    unfold coldLatency memPath
    rw [if_pos h0', a]; rfl
  · have h0' : c.icacheSets ≠ 0 := h0
    rcases h1 with ⟨ic, hl, _, _⟩ | ⟨hl, s2, p, ic, h2, _, rfl, hr⟩
    · exact absurd (holds_of_lookup_hit hl) (not_holds_init _ _ si tag)
    · obtain ⟨a, b⟩ := l2cache_access_cold (fun si tag => not_holds_init _ _ si tag) h2
      have f := l2cache_access_frame h2
      refine ⟨?_, fun _ => ⟨⟨tag, si, hdec, not_holds_init _ _ si tag⟩, f.2.icacheMisses⟩, b⟩
      unfold coldLatency memPath
      rw [if_neg h0', hr, a, f.1.icacheHitTime]; rfl

theorem dcache_access_cold {c : Config} {s' : State} {addr r : Nat}
    (h : dcache_access (init_cache c) addr = some (s', r)) :
    r = coldLatency c.dcacheSets c.dcacheHitTime c ∧
    (c.dcacheSets ≠ 0 → DcacheMiss (init_cache c) addr ∧ s'.dcacheMisses = 1) ∧
    (c.l2cacheSets ≠ 0 → s'.l2cacheMisses = 1) := by
  have cold2 : ∀ si tag, ¬Holds (init_cache c).l2cache (init_cache c).l2cacheAssoc si tag :=
    fun si tag => not_holds_init _ _ si tag
  rcases dcache_access_cases h with ⟨h0, h2⟩ | ⟨h0, tag, si, hdec, h1⟩
  · obtain ⟨a, b⟩ := l2cache_access_cold cold2 h2
    have h0' : c.dcacheSets = 0 := h0
    refine ⟨?_, fun c0 => absurd h0' c0, b⟩
    unfold coldLatency memPath
    rw [if_pos h0', a]; rfl
  · have h0' : c.dcacheSets ≠ 0 := h0
    rcases h1 with ⟨dc, hl, _, _⟩ | ⟨hl, s2, p, dc, h2, _, rfl, hr⟩
    · exact absurd (holds_of_lookup_hit hl) (not_holds_init _ _ si tag)
    · obtain ⟨a, b⟩ := l2cache_access_cold (fun si tag => not_holds_init _ _ si tag) h2
      have f := l2cache_access_frame h2
      refine ⟨?_, fun _ => ⟨⟨tag, si, hdec, not_holds_init _ _ si tag⟩, f.2.dcacheMisses⟩, b⟩
      unfold coldLatency memPath
      rw [if_neg h0', hr, a, f.1.dcacheHitTime]; rfl

/-- C10, amended (initial state and cold miss). After `init_cache` every line of every cache
is invalid and the nine statistics counters are zero. Consequently every defined first
access misses in every instantiated level on its path (the miss counters of those levels
become 1) and returns `coldLatency`: the hit times of the instantiated levels plus `memspeed`,
added as 32-bit values, which is the plain sum whenever that sum is below `2^32`. -/
theorem cold_miss (c : Config) (addr : Nat) :
    ((∀ i j e, line (init_cache c).icache i j = some e → e.valid = false) ∧
     (∀ i j e, line (init_cache c).dcache i j = some e → e.valid = false) ∧
     (∀ i j e, line (init_cache c).l2cache i j = some e → e.valid = false)) ∧
    ((init_cache c).icacheRefs = 0 ∧ (init_cache c).icacheMisses = 0 ∧
     (init_cache c).icachePenalties = 0 ∧ (init_cache c).dcacheRefs = 0 ∧
     (init_cache c).dcacheMisses = 0 ∧ (init_cache c).dcachePenalties = 0 ∧
     (init_cache c).l2cacheRefs = 0 ∧ (init_cache c).l2cacheMisses = 0 ∧
     (init_cache c).l2cachePenalties = 0) ∧
    (∀ s' r, icache_access (init_cache c) addr = some (s', r) →
      r = coldLatency c.icacheSets c.icacheHitTime c ∧
      (coldSum c.icacheSets c.icacheHitTime c < 2 ^ 32 →
        r = coldSum c.icacheSets c.icacheHitTime c) ∧
      (c.icacheSets ≠ 0 → IcacheMiss (init_cache c) addr ∧ s'.icacheMisses = 1) ∧
      (c.l2cacheSets ≠ 0 → s'.l2cacheMisses = 1)) ∧
    (∀ s' r, dcache_access (init_cache c) addr = some (s', r) →
      r = coldLatency c.dcacheSets c.dcacheHitTime c ∧
      (coldSum c.dcacheSets c.dcacheHitTime c < 2 ^ 32 →
        r = coldSum c.dcacheSets c.dcacheHitTime c) ∧
      (c.dcacheSets ≠ 0 → DcacheMiss (init_cache c) addr ∧ s'.dcacheMisses = 1) ∧
      (c.l2cacheSets ≠ 0 → s'.l2cacheMisses = 1)) := by
  refine ⟨⟨fun i j e h => line_initStore_invalid h, fun i j e h => line_initStore_invalid h,
    fun i j e h => line_initStore_invalid h⟩,
    ⟨rfl, rfl, rfl, rfl, rfl, rfl, rfl, rfl, rfl⟩, ?_, ?_⟩
  · intro s' r h
    obtain ⟨a, b, d⟩ := icache_access_cold h
    exact ⟨a, fun hs => by rw [a, coldLatency_eq_sum hs], b, d⟩
  · intro s' r h
    obtain ⟨a, b, d⟩ := dcache_access_cold h
    exact ⟨a, fun hs => by rw [a, coldLatency_eq_sum hs], b, d⟩

/-- C10, counterexample. The cold miss does not always return the sum of the hit times and
the memory latency: with hit time `2^32 - 1` and memory latency 2 (no L2) the sum is
`2^32 + 1` and the first `icache_access(0x1000)` returns 1. And in example 1 of the
specification (I$ with a single set, hit time 1, no L2, memory latency 100) the first
`icache_access(0x1000)` has no defined result, so it does not return 101. -/
theorem cold_miss_counterexample :
    (∃ s', icache_access (init_cache cfgWrap) 0x1000 = some (s', 1) ∧
      coldSum cfgWrap.icacheSets cfgWrap.icacheHitTime cfgWrap = 2 ^ 32 + 1) ∧
    icache_access (init_cache cfgOneSet) 0x1000 = none ∧
    icache_access (init_cache cfgOneSet) 0x1004 = none := by
  refine ⟨?_, by decide, by decide⟩
  obtain ⟨⟨s', r⟩, h, hf⟩ := Option.map_eq_some'.mp
    (by decide : (icache_access (init_cache cfgWrap) 0x1000).map (fun x => x.2) = some 1)
  simp only at hf
  subst hf
  exact ⟨s', h, by decide⟩

/-- Witness for the amended C10: with two sets instead of one (hit time 1, no L2, memory
latency 100) the first `icache_access(0x1000)` misses and returns 101. -/
theorem cold_miss_witness :
    ∃ s', icache_access (init_cache cfgNoL2) 0x1000 = some (s', 101) ∧
      s'.icacheMisses = 1 ∧ IcacheMiss (init_cache cfgNoL2) 0x1000 := by
  obtain ⟨⟨s', r⟩, h⟩ := Option.isSome_iff_exists.mp
    (by decide : (icache_access (init_cache cfgNoL2) 0x1000).isSome = true)
  obtain ⟨_, b, c, _⟩ := (cold_miss cfgNoL2 0x1000).2.2.1 s' r h
  have hr : r = 101 := b (by decide)
  subst hr
  exact ⟨s', h, (c (by decide)).2, (c (by decide)).1⟩

/-! ## Definedness of the scans -/

theorem hitScan_defined {set : List entry} {tag refs : Nat} :
    ∀ (n j : Nat), (∀ k, j ≤ k → k < j + n → ∃ e, set[k]? = some e) →
      ∃ r, hitScan set tag refs n j = some r := by
  intro n
  induction n with
  | zero => intro j _; exact ⟨none, rfl⟩
  | succ n ih =>
    intro j h
    obtain ⟨e, he⟩ := h j (le_refl _) (by omega)
    obtain ⟨r, hr⟩ := ih (j + 1) (fun k a b => h k (by omega) (by omega))
    unfold hitScan
    simp only [he]
    by_cases hv : e.valid = true
    · by_cases ht : tag = e.tag
      · exact ⟨_, by rw [if_pos hv, if_pos ht]⟩
      · exact ⟨r, by rw [if_pos hv, if_neg ht, hr]⟩
    · exact ⟨r, by rw [if_neg hv, hr]⟩

theorem missScan_defined {set : List entry} {tag refs : Nat} :
    ∀ (n j low : Nat) (ej : Int), (∀ k, j ≤ k → k < j + n → ∃ e, set[k]? = some e) →
      ∃ r, missScan set tag refs n j low ej = some r := by
  intro n
  induction n with
  | zero => intro j low ej _; exact ⟨_, rfl⟩
  | succ n ih =>
    intro j low ej h
    obtain ⟨e, he⟩ := h j (le_refl _) (by omega)
    have rec := fun low' ej' => ih (j + 1) low' ej' (fun k a b => h k (by omega) (by omega))
    unfold missScan
    simp only [he]
    cases hv : e.valid with
    | false => exact ⟨Sum.inl (set.set j { valid := true, timestamp := refs, tag := tag }), by simp⟩
    | true =>
      simp only [Bool.not_true, Bool.false_eq_true, if_false]
      by_cases hl : e.timestamp < low
      · obtain ⟨r, hr⟩ := rec e.timestamp (Int.ofNat j)
        exact ⟨r, by rw [if_pos hl, hr]⟩
      · obtain ⟨r, hr⟩ := rec low ej
        exact ⟨r, by rw [if_neg hl, hr]⟩

theorem invalidateScan_defined {tag : Nat} :
    ∀ (n j : Nat) (set : List entry), (∀ k, j ≤ k → k < j + n → ∃ e, set[k]? = some e) →
      ∃ set', invalidateScan tag set n j = some set' := by
  intro n
  induction n with
  | zero => intro j set _; exact ⟨set, rfl⟩
  | succ n ih =>
    intro j set h
    obtain ⟨e, he⟩ := h j (le_refl _) (by omega)
    unfold invalidateScan
    simp only [he]
    have keep := ih (j + 1) set (fun k a b => h k (by omega) (by omega))
    by_cases hv : e.valid = true
    · by_cases ht : tag = e.tag
      · rw [if_pos hv, if_pos ht]
        apply ih (j + 1)
        intro k a b
        rw [getElem?_set_of_some he, if_neg (by omega)]
        exact h k (by omega) (by omega)
      · rw [if_pos hv, if_neg ht]; exact keep
    · rw [if_neg hv]; exact keep

/-! ## Definedness of the cache-level steps -/

theorem getElem?_of_line {cache : List (List entry)} {i j : Nat} {e : entry}
    (h : line cache i j = some e) : ∃ set, cache[i]? = some set ∧ set[j]? = some e := by
  unfold line at h
  cases hs : cache[i]? with
  | none => simp [hs] at h
  | some set => simp only [hs] at h; exact ⟨set, rfl, h⟩

theorem line_of_getElem? {cache : List (List entry)} {i : Nat} {set : List entry}
    (h : cache[i]? = some set) (j : Nat) : line cache i j = set[j]? := by
  simp [line, h]

theorem lookup_defined {cache : List (List entry)} {n assoc si : Nat} (tag refs : Nat)
    (hr : Readable cache n assoc) (hsi : si < n) (ha : 1 ≤ assoc) :
    ∃ r, lookup cache assoc si tag refs = some r := by
  obtain ⟨e0, h0⟩ := hr si 0 hsi (by omega)
  obtain ⟨set, hs, _⟩ := getElem?_of_line h0
  obtain ⟨r, h⟩ := @hitScan_defined set tag refs assoc 0 (fun k _ b => by
    obtain ⟨e, he⟩ := hr si k hsi (by omega)
    rw [line_of_getElem? hs] at he
    exact ⟨e, he⟩)
  unfold lookup
  simp only [hs, h]
  cases r with
  | none => exact ⟨_, rfl⟩
  | some set' => exact ⟨_, rfl⟩

theorem install_defined {cache : List (List entry)} {n assoc si : Nat} (tag refs : Nat)
    (hr : Readable cache n assoc) (hsi : si < n) (ha : 1 ≤ assoc)
    (hts : ∀ j e, line cache si j = some e → e.valid = true → e.timestamp < ULONG_MAX) :
    ∃ c', install cache assoc si tag refs = some c' := by
  obtain ⟨e0, h0⟩ := hr si 0 hsi (by omega)
  obtain ⟨set, hs, hs0⟩ := getElem?_of_line h0
  obtain ⟨r, h⟩ := @missScan_defined set tag refs assoc 0 ULONG_MAX (-1) (fun k _ b => by
    obtain ⟨e, he⟩ := hr si k hsi (by omega)
    rw [line_of_getElem? hs] at he
    exact ⟨e, he⟩)
  unfold install
  simp only [hs, h]
  cases r with
  | inl set' => exact ⟨_, rfl⟩
  | inr ej =>
    simp only []
    obtain ⟨m1, m2⟩ := missScan_inr assoc 0 ULONG_MAX (-1) ej h
    rcases m2 with ⟨_, c2⟩ | ⟨k, e, _, _, c3, c4, _⟩
    · exfalso
      obtain ⟨e, a1, a2⟩ := m1 0 (le_refl _) (by omega)
      have := c2 0 e (le_refl _) (by omega) a1
      have := hts 0 e (by rw [line_of_getElem? hs]; exact a1) a2
      omega
    · have hrd : readWay set ej = some e := by
        unfold readWay
        rw [c3]
        have h0 : (0 : Int) ≤ Int.ofNat k := Int.ofNat_zero_le k
        rw [if_pos h0]
        exact c4
      unfold writeVictim
      simp only [hrd]
      exact ⟨_, rfl⟩

theorem backInvalidate_defined {cache : List (List entry)} {sets assoc bo idx tg : Nat}
    (evict_addr : Nat) (h : CacheReady cache sets assoc bo idx tg) :
    ∃ c', backInvalidate cache sets assoc bo idx tg evict_addr = some c' := by
  unfold backInvalidate
  rcases h with h0 | ⟨g, ha, hr⟩
  · exact ⟨cache, by rw [if_neg (fun c => c h0)]⟩
  · by_cases h0 : sets = 0
    · exact ⟨cache, by rw [if_neg (fun c => c h0)]⟩
    · rw [if_pos h0, decode_addr g]
      simp only []
      rw [if_neg (by omega)]
      have hx : evict_addr / 2 ^ bo % 2 ^ idx < 2 ^ idx := Nat.mod_lt _ (by positivity)
      obtain ⟨e0, he0⟩ := hr _ 0 hx (by omega)
      obtain ⟨set, hs, _⟩ := getElem?_of_line he0
      obtain ⟨set', h'⟩ := @invalidateScan_defined (evict_addr / 2 ^ bo / 2 ^ idx) assoc 0 set
        (fun k _ b => by
          obtain ⟨e, he⟩ := hr _ k hx (by omega)
          rw [line_of_getElem? hs] at he
          exact ⟨e, he⟩)
      simp only [hs, h']
      exact ⟨_, rfl⟩

theorem evictAddr_defined {bo idx tg : Nat} (g : GeomOK bo idx tg) (t i : Nat) :
    ∃ a, evictAddr bo idx t i = some a := by
  obtain ⟨g1, g2, _⟩ := g
  have e1 : add32 bo idx = bo + idx := by unfold add32; omega
  unfold evictAddr shl32
  rw [e1, if_pos (by omega)]
  simp only []
  rw [if_pos (by omega)]
  exact ⟨_, rfl⟩

theorem Readable.readable_setLine {c : List (List entry)} {n a si k : Nat} {e0 : entry}
    (h : Readable c n a) (hl : line c si k = some e0) (e : entry) :
    Readable (setLine c si k e) n a := by
  intro i j hi hj
  rw [line_setLine hl]
  by_cases cnd : si = i ∧ k = j
  · rw [if_pos cnd]; exact ⟨e, rfl⟩
  · rw [if_neg cnd]; exact h i j hi hj

theorem Readable.readable_shrinks {c c' : List (List entry)} {n a : Nat}
    (h : Readable c n a) (hs : Shrinks c c') : Readable c' n a := by
  intro i j hi hj
  obtain ⟨e, he⟩ := h i j hi hj
  rcases hs i j with h1 | ⟨e0, _, h2⟩
  · exact ⟨e, by rw [h1]; exact he⟩
  · exact ⟨_, h2⟩

theorem Stamped.stamped_mono {c : List (List entry)} {r r' : Nat} (h : Stamped c r)
    (hle : r ≤ r') : Stamped c r' :=
  fun i j e hl hv => Nat.le_trans (h i j e hl hv) hle

theorem Stamped.stamped_shrinks {c c' : List (List entry)} {r : Nat} (h : Stamped c r)
    (hs : Shrinks c c') : Stamped c' r :=
  fun i j e hl hv => h i j e (hs.valid_of_shrinks hl hv) hv

theorem Stamped.stamped_setLine {c : List (List entry)} {r si k : Nat} {e0 e : entry}
    (h : Stamped c r) (hl : line c si k = some e0) (he : e.timestamp ≤ r) :
    Stamped (setLine c si k e) r := by
  intro i j e' hl' hv
  rw [line_setLine hl] at hl'
  by_cases cnd : si = i ∧ k = j
  · rw [if_pos cnd] at hl'; cases hl'; exact he
  · rw [if_neg cnd] at hl'; exact h i j e' hl' hv

theorem CacheReady.ready_shrinks {c c' : List (List entry)} {sets a bo idx tg : Nat}
    (h : CacheReady c sets a bo idx tg) (hs : Shrinks c c') : CacheReady c' sets a bo idx tg := by
  rcases h with h0 | ⟨g, ha, hr⟩
  · exact Or.inl h0
  · exact Or.inr ⟨g, ha, hr.readable_shrinks hs⟩

theorem CacheReady.ready_setLine {c : List (List entry)} {sets a bo idx tg si k : Nat}
    {e0 : entry} (h : CacheReady c sets a bo idx tg) (hl : line c si k = some e0) (e : entry) :
    CacheReady (setLine c si k e) sets a bo idx tg := by
  rcases h with h0 | ⟨g, ha, hr⟩
  · exact Or.inl h0
  · exact Or.inr ⟨g, ha, hr.readable_setLine hl e⟩

/-! ## Every access of a ready state is defined -/

theorem add64_succ {r : Nat} (h : r < ULONG_MAX) : add64 r 1 = r + 1 := by
  unfold add64
  unfold ULONG_MAX at h
  omega

theorem l2cache_access_shrinks {s s' : State} {addr p : Nat}
    (h : l2cache_access s addr = some (s', p)) :
    Shrinks s.icache s'.icache ∧ Shrinks s.dcache s'.dcache := by
  rcases l2cache_access_cases h with ⟨_, rfl, _⟩ | ⟨_, tag, si, _, h1⟩
  · exact ⟨Shrinks.shrinks_refl _, Shrinks.shrinks_refl _⟩
  · rcases h1 with ⟨l2, _, rfl, _⟩ | ⟨_, _, set, _, h2⟩
    · exact ⟨Shrinks.shrinks_refl _, Shrinks.shrinks_refl _⟩
    · rcases h2 with ⟨set', _, rfl⟩ | ⟨ej, set', ic, dc, _, _, hinc, rfl⟩
      · exact ⟨Shrinks.shrinks_refl _, Shrinks.shrinks_refl _⟩
      · rcases hinc with ⟨_, rfl, rfl⟩ | ⟨_, ev, ea, _, _, bi, bd⟩
        · exact ⟨Shrinks.shrinks_refl _, Shrinks.shrinks_refl _⟩
        · exact ⟨shrinks_of_backInvalidate bi, shrinks_of_backInvalidate bd⟩

theorem l2cache_access_ready {s s' : State} {addr p : Nat} (ha : Allocated s)
    (hst : Stamped s.l2cache s.l2cacheRefs) (hb : s.l2cacheRefs < ULONG_MAX)
    (h : l2cache_access s addr = some (s', p)) :
    Allocated s' ∧ Stamped s'.l2cache s'.l2cacheRefs ∧ s'.l2cacheRefs ≤ s.l2cacheRefs + 1 := by
  obtain ⟨ai, ad, a2⟩ := ha
  obtain ⟨shi, shd⟩ := l2cache_access_shrinks h
  have hmono : Stamped s.l2cache (add64 s.l2cacheRefs 1) :=
    hst.stamped_mono (by rw [add64_succ hb]; omega)
  have hle : add64 s.l2cacheRefs 1 ≤ s.l2cacheRefs + 1 := by rw [add64_succ hb]
  rcases l2cache_access_cases h with ⟨_, rfl, _⟩ | ⟨_, tag, si, _, h1⟩
  · exact ⟨⟨ai, ad, a2⟩, hst, by omega⟩
  · rcases h1 with ⟨l2, hl, rfl, _⟩ | ⟨_, _, set, hs, h2⟩
    · obtain ⟨k, e, _, b2, _, _, rfl, _⟩ := lookup_hit hl
      exact ⟨⟨ai, ad, a2.ready_setLine b2 _⟩, hmono.stamped_setLine b2 (le_refl _), hle⟩
    · have key : ∀ set', install s.l2cache s.l2cacheAssoc si tag (add64 s.l2cacheRefs 1)
            = some (s.l2cache.set si set') →
          CacheReady (s.l2cache.set si set') s.l2cacheSets s.l2cacheAssoc s.blockoffset
            s.l2cacheIndex s.l2cacheTag ∧
          Stamped (s.l2cache.set si set') (add64 s.l2cacheRefs 1) := by
        intro set' hin
        obtain ⟨k, e, _, b2, b3, _, _⟩ := install_spec hin
        rw [b3]
        exact ⟨a2.ready_setLine b2 _, hmono.stamped_setLine b2 (le_refl _)⟩
      rcases h2 with ⟨set', hm, rfl⟩ | ⟨ej, set', ic, dc, hm, hw, _, rfl⟩
      · obtain ⟨c1, c2⟩ := key set' (install_of_inl hs hm)
        exact ⟨⟨ai, ad, c1⟩, c2, hle⟩
      · obtain ⟨c1, c2⟩ := key set' (install_of_inr hs hm hw)
        exact ⟨⟨ai.ready_shrinks shi, ad.ready_shrinks shd, c1⟩, c2, hle⟩

theorem l2cache_access_total {s : State} (addr : Nat) (ha : Allocated s)
    (hst : Stamped s.l2cache s.l2cacheRefs) (hb : s.l2cacheRefs < ULONG_MAX) :
    ∃ s' p, l2cache_access s addr = some (s', p) := by
  obtain ⟨ai, ad, a2⟩ := ha
  unfold l2cache_access
  by_cases h0 : s.l2cacheSets = 0
  · exact ⟨_, _, by rw [if_pos h0]⟩
  · rw [if_neg h0]
    rcases a2 with c | ⟨g, ha2, hr2⟩
    · exact absurd c h0
    · simp only [decode_addr g]
      have hsi : addr / 2 ^ s.blockoffset % 2 ^ s.l2cacheIndex < 2 ^ s.l2cacheIndex :=
        Nat.mod_lt _ (by positivity)
      generalize addr / 2 ^ s.blockoffset % 2 ^ s.l2cacheIndex = si at hsi
      generalize addr / 2 ^ s.blockoffset / 2 ^ s.l2cacheIndex = tag
      obtain ⟨r, hl⟩ := lookup_defined tag (add64 s.l2cacheRefs 1) hr2 hsi ha2
      simp only [hl]
      cases r with
      | some l2 => exact ⟨_, _, rfl⟩
      | none =>
        simp only []
        obtain ⟨e0, he0⟩ := hr2 si 0 hsi (by omega)
        obtain ⟨set, hs, _⟩ := getElem?_of_line he0
        have hts : ∀ j e, line s.l2cache si j = some e → e.valid = true →
            e.timestamp < ULONG_MAX := fun j e hl hv => by
          have := hst si j e hl hv; omega
        obtain ⟨c', hin⟩ := install_defined tag (add64 s.l2cacheRefs 1) hr2 hsi ha2 hts
        unfold install at hin
        simp only [hs] at hin ⊢
        cases hm : missScan set tag (add64 s.l2cacheRefs 1) s.l2cacheAssoc 0 ULONG_MAX (-1) with
        | none => simp [hm] at hin
        | some r1 =>
          cases r1 with
          | inl set' => exact ⟨_, _, rfl⟩
          | inr ej =>
            simp only [hm] at hin ⊢
            cases hw : writeVictim set ej tag (add64 s.l2cacheRefs 1) with
            | none => simp [hw] at hin
            | some set' =>
              by_cases hi : s.inclusive = 1
              · rw [if_pos hi]
                obtain ⟨k, e, w1, w2, _⟩ := writeVictim_some hw
                have hrd : readWay set ej = some e := by
                  unfold readWay
                  rw [w1]
                  have h0 : (0 : Int) ≤ Int.ofNat k := Int.ofNat_zero_le k
                  rw [if_pos h0]
                  exact w2
                obtain ⟨ea, hea⟩ := evictAddr_defined g e.tag si
                obtain ⟨ic, hic⟩ := backInvalidate_defined ea ai
                obtain ⟨dc, hdc⟩ := backInvalidate_defined ea ad
                simp only [hrd, hea, hic, hdc, hw]
                exact ⟨_, _, rfl⟩
              · rw [if_neg hi]
                simp only [hw]
                exact ⟨_, _, rfl⟩

theorem icache_access_ready {s s' : State} {addr r : Nat} (hr : Ready s)
    (hb1 : s.icacheRefs < ULONG_MAX) (hb2 : s.l2cacheRefs < ULONG_MAX)
    (h : icache_access s addr = some (s', r)) :
    Ready s' ∧ s'.icacheRefs ≤ s.icacheRefs + 1 ∧ s'.dcacheRefs = s.dcacheRefs ∧
      s'.l2cacheRefs ≤ s.l2cacheRefs + 1 := by
  obtain ⟨⟨ai, ad, a2⟩, sti, std, st2⟩ := hr
  rcases icache_access_cases h with ⟨_, h2⟩ | ⟨h0, tag, si, hdec, h1⟩
  · obtain ⟨b1, b2, b3⟩ := l2cache_access_ready ⟨ai, ad, a2⟩ st2 hb2 h2
    obtain ⟨shi, shd⟩ := l2cache_access_shrinks h2
    have f := (l2cache_access_frame h2).2
    refine ⟨⟨b1, ?_, ?_, b2⟩, by rw [f.icacheRefs]; omega, f.dcacheRefs, b3⟩
    · rw [f.icacheRefs]; exact sti.stamped_shrinks shi
    · rw [f.dcacheRefs]; exact std.stamped_shrinks shd
  · have hmono : Stamped s.icache (add64 s.icacheRefs 1) :=
      sti.stamped_mono (by rw [add64_succ hb1]; omega)
    have hle : add64 s.icacheRefs 1 ≤ s.icacheRefs + 1 := by rw [add64_succ hb1]
    rcases h1 with ⟨ic, hl, rfl, _⟩ | ⟨hl, s2, p, ic, h2, hin, rfl, _⟩
    · obtain ⟨k, e, _, c2, _, _, rfl, _⟩ := lookup_hit hl
      exact ⟨⟨⟨ai.ready_setLine c2 _, ad, a2⟩, hmono.stamped_setLine c2 (le_refl _), std, st2⟩,
        hle, rfl, Nat.le_succ _⟩
    · obtain ⟨⟨bi, bd, bl⟩, b2, b3⟩ := @l2cache_access_ready
        { s with icacheRefs := add64 s.icacheRefs 1, icacheMisses := add64 s.icacheMisses 1 }
        s2 addr p ⟨ai, ad, a2⟩ st2 hb2 h2
      obtain ⟨shi, shd⟩ := l2cache_access_shrinks h2
      have f := (l2cache_access_frame h2).2
      have fi : s2.icacheRefs = add64 s.icacheRefs 1 := f.icacheRefs
      have fd : s2.dcacheRefs = s.dcacheRefs := f.dcacheRefs
      obtain ⟨k, e, _, c2, rfl, _, _⟩ := install_spec hin
      refine ⟨⟨⟨bi.ready_setLine c2 _, bd, bl⟩, ?_, ?_, b2⟩, by rw [← fi] at hle; exact hle, fd,
        b3⟩
      · show Stamped (setLine s2.icache si k _) s2.icacheRefs
        refine Stamped.stamped_setLine ?_ c2 (le_refl _)
        rw [fi]; exact hmono.stamped_shrinks shi
      · show Stamped s2.dcache s2.dcacheRefs
        rw [fd]; exact std.stamped_shrinks shd

theorem icache_access_total {s : State} (addr : Nat) (hr : Ready s)
    (hb1 : s.icacheRefs < ULONG_MAX) (hb2 : s.l2cacheRefs < ULONG_MAX) :
    ∃ s' r, icache_access s addr = some (s', r) := by
  obtain ⟨⟨ai, ad, a2⟩, sti, std, st2⟩ := hr
  unfold icache_access
  by_cases h0 : s.icacheSets = 0
  · rw [if_pos h0]; exact l2cache_access_total addr ⟨ai, ad, a2⟩ st2 hb2
  · rw [if_neg h0]
    rcases ai with c | ⟨g, ha1, hr1⟩
    · exact absurd c h0
    · simp only [decode_addr g]
      have hsi : addr / 2 ^ s.blockoffset % 2 ^ s.icacheIndex < 2 ^ s.icacheIndex :=
        Nat.mod_lt _ (by positivity)
      generalize addr / 2 ^ s.blockoffset % 2 ^ s.icacheIndex = si at hsi
      generalize addr / 2 ^ s.blockoffset / 2 ^ s.icacheIndex = tag
      obtain ⟨r, hl⟩ := lookup_defined tag (add64 s.icacheRefs 1) hr1 hsi ha1
      simp only [hl]
      cases r with
      | some ic => exact ⟨_, _, rfl⟩
      | none =>
        simp only []
        obtain ⟨s2, p, h2⟩ := @l2cache_access_total
          { s with icacheRefs := add64 s.icacheRefs 1, icacheMisses := add64 s.icacheMisses 1 }
          addr ⟨Or.inr ⟨g, ha1, hr1⟩, ad, a2⟩ st2 hb2
        obtain ⟨⟨bi, _, _⟩, _, _⟩ := @l2cache_access_ready
          { s with icacheRefs := add64 s.icacheRefs 1, icacheMisses := add64 s.icacheMisses 1 }
          s2 addr p ⟨Or.inr ⟨g, ha1, hr1⟩, ad, a2⟩ st2 hb2 h2
        obtain ⟨shi, _⟩ := l2cache_access_shrinks h2
        have f := (l2cache_access_frame h2).1
        have f1 : s2.icacheSets = s.icacheSets := f.icacheSets
        have f2 : s2.icacheIndex = s.icacheIndex := f.icacheIndex
        rcases bi with c | ⟨_, hb, hrd⟩
        · rw [f1] at c; exact absurd c h0
        · have hts : ∀ j e, line s2.icache si j = some e → e.valid = true →
              e.timestamp < ULONG_MAX := fun j e hl hv => by
            have := sti si j e (shi.valid_of_shrinks hl hv) hv; omega
          obtain ⟨c', hin⟩ := install_defined tag s2.icacheRefs hrd (by rw [f2]; exact hsi) hb hts
          simp only [h2, hin]
          exact ⟨_, _, rfl⟩

theorem dcache_access_ready {s s' : State} {addr r : Nat} (hr : Ready s)
    (hb1 : s.dcacheRefs < ULONG_MAX) (hb2 : s.l2cacheRefs < ULONG_MAX)
    (h : dcache_access s addr = some (s', r)) :
    Ready s' ∧ s'.dcacheRefs ≤ s.dcacheRefs + 1 ∧ s'.icacheRefs = s.icacheRefs ∧
      s'.l2cacheRefs ≤ s.l2cacheRefs + 1 := by
  obtain ⟨⟨ai, ad, a2⟩, sti, std, st2⟩ := hr
  rcases dcache_access_cases h with ⟨_, h2⟩ | ⟨h0, tag, si, hdec, h1⟩
  · obtain ⟨b1, b2, b3⟩ := l2cache_access_ready ⟨ai, ad, a2⟩ st2 hb2 h2
    obtain ⟨shi, shd⟩ := l2cache_access_shrinks h2
    have f := (l2cache_access_frame h2).2
    refine ⟨⟨b1, ?_, ?_, b2⟩, by rw [f.dcacheRefs]; omega, f.icacheRefs, b3⟩
    · rw [f.icacheRefs]; exact sti.stamped_shrinks shi
    · rw [f.dcacheRefs]; exact std.stamped_shrinks shd
  · have hmono : Stamped s.dcache (add64 s.dcacheRefs 1) :=
      std.stamped_mono (by rw [add64_succ hb1]; omega)
    have hle : add64 s.dcacheRefs 1 ≤ s.dcacheRefs + 1 := by rw [add64_succ hb1]
    rcases h1 with ⟨ic, hl, rfl, _⟩ | ⟨hl, s2, p, ic, h2, hin, rfl, _⟩
    · obtain ⟨k, e, _, c2, _, _, rfl, _⟩ := lookup_hit hl
      exact ⟨⟨⟨ai, ad.ready_setLine c2 _, a2⟩, sti, hmono.stamped_setLine c2 (le_refl _), st2⟩,
        hle, rfl, Nat.le_succ _⟩
    · obtain ⟨⟨bi, bd, bl⟩, b2, b3⟩ := @l2cache_access_ready
        { s with dcacheRefs := add64 s.dcacheRefs 1, dcacheMisses := add64 s.dcacheMisses 1 }
        s2 addr p ⟨ai, ad, a2⟩ st2 hb2 h2
      obtain ⟨shi, shd⟩ := l2cache_access_shrinks h2
      have f := (l2cache_access_frame h2).2
      have fd : s2.dcacheRefs = add64 s.dcacheRefs 1 := f.dcacheRefs
      have fi : s2.icacheRefs = s.icacheRefs := f.icacheRefs
      obtain ⟨k, e, _, c2, rfl, _, _⟩ := install_spec hin
      refine ⟨⟨⟨bi, bd.ready_setLine c2 _, bl⟩, ?_, ?_, b2⟩, by rw [← fd] at hle; exact hle, fi,
        b3⟩
      · show Stamped s2.icache s2.icacheRefs
        rw [fi]; exact sti.stamped_shrinks shi
      · show Stamped (setLine s2.dcache si k _) s2.dcacheRefs
        refine Stamped.stamped_setLine ?_ c2 (le_refl _)
        rw [fd]; exact hmono.stamped_shrinks shd

theorem dcache_access_total {s : State} (addr : Nat) (hr : Ready s)
    (hb1 : s.dcacheRefs < ULONG_MAX) (hb2 : s.l2cacheRefs < ULONG_MAX) :
    ∃ s' r, dcache_access s addr = some (s', r) := by
  obtain ⟨⟨ai, ad, a2⟩, sti, std, st2⟩ := hr
  unfold dcache_access
  by_cases h0 : s.dcacheSets = 0
  · rw [if_pos h0]; exact l2cache_access_total addr ⟨ai, ad, a2⟩ st2 hb2
  · rw [if_neg h0]
    rcases ad with c | ⟨g, ha1, hr1⟩
    · exact absurd c h0
    · simp only [decode_addr g]
      have hsi : addr / 2 ^ s.blockoffset % 2 ^ s.dcacheIndex < 2 ^ s.dcacheIndex :=
        Nat.mod_lt _ (by positivity)
      generalize addr / 2 ^ s.blockoffset % 2 ^ s.dcacheIndex = si at hsi
      generalize addr / 2 ^ s.blockoffset / 2 ^ s.dcacheIndex = tag
      obtain ⟨r, hl⟩ := lookup_defined tag (add64 s.dcacheRefs 1) hr1 hsi ha1
      simp only [hl]
      cases r with
      | some ic => exact ⟨_, _, rfl⟩
      | none =>
        simp only []
        obtain ⟨s2, p, h2⟩ := @l2cache_access_total
          { s with dcacheRefs := add64 s.dcacheRefs 1, dcacheMisses := add64 s.dcacheMisses 1 }
          addr ⟨ai, Or.inr ⟨g, ha1, hr1⟩, a2⟩ st2 hb2
        obtain ⟨⟨_, bd, _⟩, _, _⟩ := @l2cache_access_ready
          { s with dcacheRefs := add64 s.dcacheRefs 1, dcacheMisses := add64 s.dcacheMisses 1 }
          s2 addr p ⟨ai, Or.inr ⟨g, ha1, hr1⟩, a2⟩ st2 hb2 h2
        obtain ⟨_, shd⟩ := l2cache_access_shrinks h2
        have f := (l2cache_access_frame h2).1
        have f1 : s2.dcacheSets = s.dcacheSets := f.dcacheSets
        have f2 : s2.dcacheIndex = s.dcacheIndex := f.dcacheIndex
        rcases bd with c | ⟨_, hb, hrd⟩
        · rw [f1] at c; exact absurd c h0
        · have hts : ∀ j e, line s2.dcache si j = some e → e.valid = true →
              e.timestamp < ULONG_MAX := fun j e hl hv => by
            have := std si j e (shd.valid_of_shrinks hl hv) hv; omega
          obtain ⟨c', hin⟩ := install_defined tag s2.dcacheRefs hrd (by rw [f2]; exact hsi) hb hts
          simp only [h2, hin]
          exact ⟨_, _, rfl⟩

theorem logTwoLoop_spec : ∀ (fuel x ans : Nat), 1 ≤ x →
    ans ≤ logTwoLoop fuel x ans ∧ 2 ^ (logTwoLoop fuel x ans - ans) ≤ x := by
  intro fuel
  induction fuel with
  | zero => intro x ans hx; simp only [logTwoLoop, Nat.sub_self, pow_zero]; omega
  | succ n ih =>
    intro x ans hx
    unfold logTwoLoop
    by_cases c : x / 2 ≠ 0
    · rw [if_pos c]
      obtain ⟨a, b⟩ := ih (x / 2) (ans + 1) (by omega)
      refine ⟨by omega, ?_⟩
      have e : logTwoLoop n (x / 2) (ans + 1) - ans
          = (logTwoLoop n (x / 2) (ans + 1) - (ans + 1)) + 1 := by omega
      rw [e, pow_succ]
      omega
    · rw [if_neg c]; simp only [Nat.sub_self, pow_zero]; omega

theorem two_pow_logTwo_le {x : Nat} (hx : 1 ≤ x) : 2 ^ logTwo x ≤ x := by
  have := (logTwoLoop_spec 32 x 0 hx).2
  simpa [logTwo] using this

theorem one_le_logTwo {x : Nat} (hx : 2 ≤ x) : 1 ≤ logTwo x := by
  unfold logTwo logTwoLoop
  rw [if_pos (by omega)]
  exact (logTwoLoop_spec 31 (x / 2) 1 (by omega)).1

theorem line_initStore_some {sets assoc i j : Nat} (hi : i < sets) (hj : j < assoc) :
    line (initStore sets assoc) i j = some initEntry := by
  unfold line initStore
  rw [if_pos (by omega), List.getElem?_replicate, if_pos hi]
  simp only [List.getElem?_replicate]
  rw [if_pos hj]

theorem init_cacheReady {sets assoc blocksize : Nat}
    (h : sets = 0 ∨ (2 ≤ sets ∧ logTwo blocksize + logTwo sets ≤ 31 ∧ 1 ≤ assoc)) :
    CacheReady (initStore sets assoc) sets assoc (logTwo blocksize) (logTwo sets)
      (sub32 (sub32 32 (logTwo sets)) (logTwo blocksize)) := by
  rcases h with h0 | ⟨h1, h2, h3⟩
  · exact Or.inl h0
  · refine Or.inr ⟨⟨one_le_logTwo h1, h2, sub32_geom (by omega)⟩, h3, ?_⟩
    intro i j hi hj
    have := @two_pow_logTwo_le sets (by omega)
    exact ⟨initEntry, line_initStore_some (by omega) hj⟩

theorem init_ready {c : Config} (hc : GoodConfig c) : Ready (init_cache c) := by
  obtain ⟨hi, hd, h2⟩ := hc
  refine ⟨⟨init_cacheReady hi, init_cacheReady hd, init_cacheReady h2⟩, ?_, ?_, ?_⟩
  · intro i j e hl hv; rw [line_initStore_invalid hl] at hv; cases hv
  · intro i j e hl hv; rw [line_initStore_invalid hl] at hv; cases hv
  · intro i j e hl hv; rw [line_initStore_invalid hl] at hv; cases hv

theorem run_total : ∀ (ops : List Op) (s : State), Ready s →
    s.icacheRefs + ops.length ≤ ULONG_MAX → s.dcacheRefs + ops.length ≤ ULONG_MAX →
    s.l2cacheRefs + ops.length ≤ ULONG_MAX → ∃ s', run s ops = some s' := by
  intro ops
  induction ops with
  | nil => intro s _ _ _ _; exact ⟨s, rfl⟩
  | cons op ops ih =>
    intro s hr b1 b2 b3
    simp only [List.length_cons] at b1 b2 b3
    unfold run
    cases op with
    | I a =>
      obtain ⟨s1, r, h⟩ := icache_access_total a hr (by omega) (by omega)
      obtain ⟨hr1, c1, c2, c3⟩ := icache_access_ready hr (by omega) (by omega) h
      simp only [step, h]
      exact ih s1 hr1 (by omega) (by omega) (by omega)
    | D a =>
      obtain ⟨s1, r, h⟩ := dcache_access_total a hr (by omega) (by omega)
      obtain ⟨hr1, c1, c2, c3⟩ := dcache_access_ready hr (by omega) (by omega) h
      simp only [step, h]
      exact ih s1 hr1 (by omega) (by omega) (by omega)

/-- Every run of at most `2^64 - 1` accesses from `init_cache` is defined when each
instantiated cache has at least two sets and one way and its offset and index bits leave at
least one tag bit. -/
theorem run_defined (c : Config) (ops : List Op) (hc : GoodConfig c)
    (hlen : ops.length ≤ ULONG_MAX) : ∃ s, run (init_cache c) ops = some s :=
  run_total ops _ (init_ready hc) (by simpa [init_cache] using hlen)
    (by simpa [init_cache] using hlen) (by simpa [init_cache] using hlen)

/-- C1 (inclusion invariant). With `inclusive = 1` and the L2 instantiated, after every
sequence of `icache_access` / `dcache_access` calls on 32-bit addresses that runs from the
state of `init_cache`, every valid line of the I$ and of the D$ names a block held by the L2:
the address rebuilt from the line's tag and set index decodes under the L2 geometry to an L2
set with a valid line carrying the decoded tag. And the run does reach a state whenever each
instantiated cache has at least two sets and one way, offset and index bits leave a tag bit,
and there are at most `2^64 - 1` accesses. -/
theorem inclusion_invariant (c : Config) (ops : List Op)
    (hinc : c.inclusive = 1) (hl2 : c.l2cacheSets ≠ 0)
    (haddr : ∀ op ∈ ops, opAddr op < 2 ^ 32) :
    (∀ s, run (init_cache c) ops = some s →
      Included s s.icache s.icacheIndex ∧ Included s s.dcache s.dcacheIndex) ∧
    (GoodConfig c → ops.length ≤ ULONG_MAX → ∃ s, run (init_cache c) ops = some s) := by
  refine ⟨fun s h => ?_, fun hc hlen => run_defined c ops hc hlen⟩
  have hk := run_wellKept ops _ s (init_wellKept c) h
  obtain ⟨_, pi, pd, p2, inc⟩ := run_incl ops _ s (init_wellKept c) (init_inclInv c) haddr h
  have f := run_frame ops _ s h
  obtain ⟨bi, bd⟩ := inc (by rw [f.inclusive]; exact hinc) (by rw [f.l2cacheSets]; exact hl2)
  exact ⟨included_of_inv pi p2 hk.2.2.1 bi, included_of_inv pd p2 hk.2.2.1 bd⟩

/-- Witness for C1: a run with an L2 eviction that back-invalidates both L1 caches. -/
theorem inclusion_invariant_witness :
    ∃ s, run (init_cache cfgTwoSets) [Op.I 0x1000, Op.D 0x1000, Op.D 0x2040, Op.I 0x3000]
        = some s ∧
      Included s s.icache s.icacheIndex ∧ Included s s.dcache s.dcacheIndex := by
  have w := inclusion_invariant cfgTwoSets
    [Op.I 0x1000, Op.D 0x1000, Op.D 0x2040, Op.I 0x3000] (by decide) (by decide) (by decide)
  obtain ⟨s, h⟩ := w.2 (by decide) (by decide)
  exact ⟨s, h, w.1 s h⟩

/-- C3 (tag uniqueness). After every sequence of `icache_access` / `dcache_access` calls that
runs from the state of `init_cache`, whatever the configuration (inclusive or not), no set of
the I$, the D$ or the L2 holds two distinct ways that are both valid and carry the same tag.
And the run does reach a state whenever each instantiated cache has at least two sets and
one way, offset and index bits leave a tag bit, and there are at most `2^64 - 1` accesses. -/
theorem tag_uniqueness (c : Config) (ops : List Op) :
    (∀ s, run (init_cache c) ops = some s →
      TagsUnique s.icache ∧ TagsUnique s.dcache ∧ TagsUnique s.l2cache) ∧
    (GoodConfig c → ops.length ≤ ULONG_MAX → ∃ s, run (init_cache c) ops = some s) := by
  refine ⟨fun s h => ?_, fun hc hlen => run_defined c ops hc hlen⟩
  obtain ⟨_, _, _, ui, ud, u2⟩ := run_wellKept ops _ s (init_wellKept c) h
  exact ⟨ui, ud, u2⟩

/-- Witness for C3: a run on three two-way caches with hits, installs, evictions and
back-invalidations, after which set 0 of the I$, of the D$ and of the L2 each hold two valid
lines, in two distinct ways, with the distinct tags 128 and 192. -/
theorem tag_uniqueness_witness :
    ∃ s, run (init_cache cfgAllTwoWays)
        [Op.I 0x1000, Op.I 0x2000, Op.D 0x1000, Op.D 0x3000, Op.I 0x1000, Op.I 0x3000,
          Op.D 0x2000, Op.I 0x2000] = some s ∧
      (TagsUnique s.icache ∧ TagsUnique s.dcache ∧ TagsUnique s.l2cache) ∧
      line s.icache 0 0 = some { tag := 128, timestamp := 5, valid := true } ∧
      line s.icache 0 1 = some { tag := 192, timestamp := 4, valid := true } ∧
      line s.dcache 0 0 = some { tag := 128, timestamp := 3, valid := true } ∧
      line s.dcache 0 1 = some { tag := 192, timestamp := 2, valid := true } ∧
      line s.l2cache 0 0 = some { tag := 128, timestamp := 7, valid := true } ∧
      line s.l2cache 0 1 = some { tag := 192, timestamp := 5, valid := true } := by
  have w := tag_uniqueness cfgAllTwoWays
    [Op.I 0x1000, Op.I 0x2000, Op.D 0x1000, Op.D 0x3000, Op.I 0x1000, Op.I 0x3000,
      Op.D 0x2000, Op.I 0x2000]
  obtain ⟨s, h⟩ := w.2 (by decide) (by decide)
  exact ⟨s, h, w.1 s h,
    eval_at (fun x => line x.icache 0 0) _ h (by decide),
    eval_at (fun x => line x.icache 0 1) _ h (by decide),
    eval_at (fun x => line x.dcache 0 0) _ h (by decide),
    eval_at (fun x => line x.dcache 0 1) _ h (by decide),
    eval_at (fun x => line x.l2cache 0 0) _ h (by decide),
    eval_at (fun x => line x.l2cache 0 1) _ h (by decide)⟩

/-! ## Back-invalidation on an L2 eviction -/

/-- Result and bookkeeping of one defined access. With the I$ and the L2 instantiated, every
defined `icache_access` call satisfies `IcacheContract`: references plus one; on a hit the hit
time with misses and penalties unchanged; on a miss misses plus one, penalties plus `p` and
the 32-bit sum `icacheHitTime + p` returned, `p` being what `l2cache_access` returns from the
same state (L2 hit time on an L2 hit, L2 hit time plus `memspeed` on an L2 miss). The same
holds for `dcache_access` with the D$ fields. Both calls are defined in every ready state
whose reference counters are below `ULONG_MAX`. -/
theorem access_contract (s s' : State) (addr r : Nat) (hl2 : s.l2cacheSets ≠ 0) :
    (s.icacheSets ≠ 0 → icache_access s addr = some (s', r) → IcacheContract s s' addr r) ∧
    (s.dcacheSets ≠ 0 → dcache_access s addr = some (s', r) → DcacheContract s s' addr r) ∧
    (Ready s → s.icacheRefs < ULONG_MAX → s.dcacheRefs < ULONG_MAX →
      s.l2cacheRefs < ULONG_MAX →
      (∃ t q, icache_access s addr = some (t, q)) ∧
      (∃ t q, dcache_access s addr = some (t, q))) := by
  refine ⟨?_, ?_, fun hr b1 b2 b3 =>
    ⟨icache_access_total addr hr b1 b3, dcache_access_total addr hr b2 b3⟩⟩
  · intro h0 h
    obtain ⟨tag, si, hd, hr, hc⟩ := icache_access_result h0 h
    refine ⟨tag, si, hd, hr, ?_⟩
    rcases hc with hh | ⟨hn, s2, p, h2, a1, a2, a3⟩
    · exact Or.inl hh
    · obtain ⟨tag2, si2, hd2, _, hc2⟩ := l2cache_access_result hl2 h2
      refine Or.inr ⟨hn, s2, p, tag2, si2, h2, a1, a2, a3, hd2, ?_⟩
      rcases hc2 with ⟨b1, b2, _⟩ | ⟨b1, b2, _⟩
      · exact Or.inl ⟨b1, b2⟩
      · exact Or.inr ⟨b1, b2⟩
  · intro h0 h
    obtain ⟨tag, si, hd, hr, hc⟩ := dcache_access_result h0 h
    refine ⟨tag, si, hd, hr, ?_⟩
    rcases hc with hh | ⟨hn, s2, p, h2, a1, a2, a3⟩
    · exact Or.inl hh
    · obtain ⟨tag2, si2, hd2, _, hc2⟩ := l2cache_access_result hl2 h2
      refine Or.inr ⟨hn, s2, p, tag2, si2, h2, a1, a2, a3, hd2, ?_⟩
      rcases hc2 with ⟨b1, b2, _⟩ | ⟨b1, b2, _⟩
      · exact Or.inl ⟨b1, b2⟩
      · exact Or.inr ⟨b1, b2⟩

/-- An instance of `access_contract`: the cold instruction fetch misses both levels and
returns 1 + 10 + 100;
a data access to a block already fetched as an instruction misses the D$ and hits the L2. -/
theorem access_contract_witness :
    (∃ s' r, icache_access (init_cache cfgTwoSets) 0x1000 = some (s', r) ∧ r = 111 ∧
      IcacheContract (init_cache cfgTwoSets) s' 0x1000 r) ∧
    (∃ s s' r, run (init_cache cfgTwoSets) [Op.I 0x1000] = some s ∧
      dcache_access s 0x1000 = some (s', r) ∧ r = 11 ∧ DcacheContract s s' 0x1000 r) := by
  constructor
  · obtain ⟨⟨s', r⟩, h, hf⟩ := Option.map_eq_some'.mp
      (by decide : (icache_access (init_cache cfgTwoSets) 0x1000).map (fun x => x.2)
        = some 111)
    exact ⟨s', r, h, hf,
      (access_contract (init_cache cfgTwoSets) s' 0x1000 r (by decide)).1 (by decide) h⟩
  · obtain ⟨s, h, hf⟩ := Option.map_eq_some'.mp
      (by decide : (run (init_cache cfgTwoSets) [Op.I 0x1000]).map
        (fun x => (x.l2cacheSets, x.dcacheSets, (dcache_access x 0x1000).map (fun y => y.2)))
        = some (2, 2, some 11))
    simp only [Prod.mk.injEq] at hf
    obtain ⟨f1, f2, f3⟩ := hf
    obtain ⟨⟨s', r⟩, h', hf'⟩ := Option.map_eq_some'.mp f3
    exact ⟨s, s', r, h, h', hf',
      (access_contract s s' 0x1000 r (by rw [f1]; decide)).2.1 (by rw [f2]; decide) h'⟩

/-- C4 (result and bookkeeping of one access), failing input. With a single-set I$ over an
instantiated L2, `init_cache` computes 0 index bits and 27 tag bits for 32-byte blocks, so
`icache_access` computes its set index as `(addr << 27) >> 32`, a shift of a 32-bit value by
its full width: the call on the initialized state with `addr = 0x1004` has no defined result,
so it neither returns `icacheHitTime + p` nor increments `icacheMisses` by exactly 1. The same
holds for `dcache_access` with the single-set D$. -/
theorem access_contract_single_set :
    (init_cache cfgOneSetL2).icacheSets = 1 ∧ (init_cache cfgOneSetL2).l2cacheSets = 2 ∧
    (init_cache cfgOneSetL2).icacheIndex = 0 ∧ (init_cache cfgOneSetL2).icacheTag = 27 ∧
    (init_cache cfgOneSetL2).blockoffset = 5 ∧
    shl32 0x1004 27 = some 0x20000000 ∧ shr32 0x20000000 32 = none ∧
    icache_access (init_cache cfgOneSetL2) 0x1004 = none ∧
    dcache_access (init_cache cfgOneSetL2) 0x1004 = none := by
  decide

/-- Idempotent hits of defined calls. With the I$ instantiated, whenever `icache_access(a)` is defined,
whatever it did (hit, install into a free way, eviction, with or without back-invalidation in
the L2 call), an immediately following `icache_access(a)` is defined and returns exactly
`icacheHitTime`. The same holds for `dcache_access` and `dcacheHitTime`. The first call is
defined in every ready state whose reference counters are below `ULONG_MAX`. -/
theorem idempotent_hits (s s1 : State) (addr r1 : Nat) :
    (s.icacheSets ≠ 0 → icache_access s addr = some (s1, r1) →
      ∃ s2, icache_access s1 addr = some (s2, s.icacheHitTime)) ∧
    (s.dcacheSets ≠ 0 → dcache_access s addr = some (s1, r1) →
      ∃ s2, dcache_access s1 addr = some (s2, s.dcacheHitTime)) ∧
    (Ready s → s.icacheRefs < ULONG_MAX → s.dcacheRefs < ULONG_MAX →
      s.l2cacheRefs < ULONG_MAX →
      (∃ t q, icache_access s addr = some (t, q)) ∧
      (∃ t q, dcache_access s addr = some (t, q))) :=
  ⟨fun h0 h => icache_access_twice h0 h, fun h0 h => dcache_access_twice h0 h,
    fun hr b1 b2 b3 => ⟨icache_access_total addr hr b1 b3, dcache_access_total addr hr b2 b3⟩⟩

/-- An instance of `idempotent_hits`: a cold fetch (returning 111) followed by the same
fetch (returning 1),
and a data access whose L2 call evicts and back-invalidates, followed by the same access. -/
theorem idempotent_hits_witness :
    (∃ s1 s2, icache_access (init_cache cfgTwoSets) 0x1000 = some (s1, 111) ∧
      icache_access s1 0x1000 = some (s2, 1)) ∧
    (∃ s s1 r1 s2, run (init_cache cfgTwoSets) [Op.I 0x1000, Op.D 0x1000] = some s ∧
      dcache_access s 0x2040 = some (s1, r1) ∧ dcache_access s1 0x2040 = some (s2, 1)) := by
  constructor
  · obtain ⟨⟨s1, r⟩, h, hf⟩ := Option.map_eq_some'.mp
      (by decide : (icache_access (init_cache cfgTwoSets) 0x1000).map (fun x => x.2)
        = some 111)
    simp only at hf
    subst hf
    obtain ⟨s2, h2⟩ := (idempotent_hits (init_cache cfgTwoSets) s1 0x1000 111).1 (by decide) h
    exact ⟨s1, s2, h, h2⟩
  · obtain ⟨s, h, hf⟩ := Option.map_eq_some'.mp
      (by decide : (run (init_cache cfgTwoSets) [Op.I 0x1000, Op.D 0x1000]).map
        (fun x => (x.dcacheSets, x.dcacheHitTime, (dcache_access x 0x2040).isSome))
        = some (2, 1, true))
    simp only [Prod.mk.injEq] at hf
    obtain ⟨f1, f2, f3⟩ := hf
    obtain ⟨⟨s1, r1⟩, h1⟩ := Option.isSome_iff_exists.mp f3
    obtain ⟨s2, h2⟩ := (idempotent_hits s s1 0x2040 r1).2.1 (by rw [f1]; decide) h1
    rw [f2] at h2
    exact ⟨s, s1, r1, s2, h, h1, h2⟩

/-- C5 (idempotent hits), failing input. In the configuration of example 1 (single-set
direct-mapped I$, hit time 1, no L2) the set index is `(addr << 27) >> 32`, a shift by the
full width: the first `icache_access(0x1004)` on the initialized state has no defined result,
so there is no second call that returns `icacheHitTime`; likewise for `dcache_access`. -/
theorem idempotent_hits_single_set :
    (init_cache cfgOneSet).icacheSets = 1 ∧ (init_cache cfgOneSet).icacheAssoc = 1 ∧
    (init_cache cfgOneSet).icacheTag + (init_cache cfgOneSet).blockoffset = 32 ∧
    icache_access (init_cache cfgOneSet) 0x1004 = none ∧
    run (init_cache cfgOneSet) [Op.I 0x1004, Op.I 0x1004] = none ∧
    dcache_access (init_cache cfgOneSet) 0x1004 = none ∧
    run (init_cache cfgOneSet) [Op.D 0x1004, Op.D 0x1004] = none := by
  decide

/-! ## The LRU scenario -/

theorem run_append : ∀ (xs ys : List Op) (s : State),
    run s (xs ++ ys) = (run s xs).bind (fun s1 => run s1 ys) := by
  intro xs
  induction xs with
  | nil => intro ys s; rfl
  | cons x xs ih =>
    intro ys s
    simp only [List.cons_append, run]
    cases step s x with
    | none => rfl
    | some sr => exact ih ys sr.1

theorem touch_not_hit {cache c' : List (List entry)} {k si t r : Nat}
    (hno : ∀ j e, j < k → line cache si j = some e → ¬(e.valid = true ∧ t = e.tag))
    (h : touch cache k si t r = some c') : install cache k si t r = some c' := by
  unfold touch at h
  cases hl : lookup cache k si t r with
  | none => simp [hl] at h
  | some o =>
    cases o with
    | none => simpa [hl] using h
    | some c1 =>
      exfalso
      obtain ⟨j, e, a1, a2, a3, a4, _, _⟩ := lookup_hit hl
      exact hno j e a1 a2 ⟨a3, a4⟩

theorem filledWith_no_hit {cache : List (List entry)} {si k t : Nat} {tags : List Nat}
    (hf : FilledWith cache si k tags) (ht : t ∉ tags) :
    ∀ j e, j < k → line cache si j = some e → ¬(e.valid = true ∧ t = e.tag) := by
  intro j e hj hl hc
  by_cases c : j < tags.length
  · have hg : tags[j]? = some tags[j] := List.getElem?_eq_getElem c
    have := hf.1 j _ hg
    rw [hl] at this
    cases this
    exact ht (by rw [hc.2]; exact List.getElem_mem c)
  · obtain ⟨e', a1, a2⟩ := hf.2 j (by omega) hj
    rw [hl] at a1
    cases a1
    rw [hc.1] at a2
    cases a2

/-- Filling phase: with a free way left, the access of a new tag installs it in the first
free way. -/
theorem touch_fill {cache c' : List (List entry)} {si k t : Nat} {tags : List Nat}
    (hf : FilledWith cache si k tags) (hlen : tags.length < k) (ht : t ∉ tags)
    (h : touch cache k si t (tags.length + 1) = some c') :
    FilledWith c' si k (tags ++ [t]) := by
  have hin := touch_not_hit (filledWith_no_hit hf ht) h
  obtain ⟨k', e, a1, a2, rfl, a4, a5⟩ := install_spec hin
  obtain ⟨em, m1, m2⟩ := hf.2 tags.length (le_refl _) hlen
  have hk : k' = tags.length := by
    rcases Nat.lt_trichotomy k' tags.length with c | c | c
    · exfalso
      have hg : tags[k']? = some tags[k'] := List.getElem?_eq_getElem c
      have := hf.1 k' _ hg
      rw [a2] at this
      cases this
      rcases a5 with b | ⟨b, _⟩
      · cases b
      · obtain ⟨e', c1, c2⟩ := b tags.length hlen
        rw [m1] at c1
        cases c1
        rw [m2] at c2
        cases c2
    · exact c
    · exfalso
      obtain ⟨e', c1, c2⟩ := a4 tags.length c
      rw [m1] at c1
      cases c1
      rw [m2] at c2
      cases c2
  subst hk
  constructor
  · intro j t' hj
    rw [line_setLine a2]
    by_cases c : j < tags.length
    · rw [List.getElem?_append_left c] at hj
      rw [if_neg (fun cc => by omega)]
      exact hf.1 j t' hj
    · have hj' : j = tags.length := by
        by_contra hne
        have : (tags ++ [t])[j]? = none := by
          apply List.getElem?_eq_none
          simp only [List.length_append, List.length_singleton]
          omega
        rw [this] at hj
        cases hj
      subst hj'
      rw [if_pos ⟨rfl, rfl⟩]
      have : (tags ++ [t])[tags.length]? = some t := by simp
      rw [this] at hj
      cases hj
      rfl
  · intro j hj1 hj2
    simp only [List.length_append, List.length_singleton] at hj1
    rw [line_setLine a2, if_neg (fun cc => by omega)]
    exact hf.2 j (by omega) hj2

/-- Eviction: with the set filled in order, the access of a new tag overwrites way 0, the
least recently used line. -/
theorem touch_evict {cache c' : List (List entry)} {si k t r : Nat} {tags : List Nat}
    (hf : FilledWith cache si k tags) (hlen : tags.length = k) (hk : 1 ≤ k) (ht : t ∉ tags)
    (h : touch cache k si t r = some c') :
    c' = setLine cache si 0 { tag := t, timestamp := r, valid := true } ∧
      ∃ e0, line cache si 0 = some e0 := by
  have hin := touch_not_hit (filledWith_no_hit hf ht) h
  obtain ⟨k', e, a1, a2, rfl, a4, a5⟩ := install_spec hin
  have hg : tags[k']? = some tags[k'] := List.getElem?_eq_getElem (by omega)
  have hk' := hf.1 k' _ hg
  rw [a2] at hk'
  cases hk'
  have h0 : tags[0]? = some tags[0] := List.getElem?_eq_getElem (by omega)
  have hz := hf.1 0 _ h0
  rcases a5 with b | ⟨_, _, b, _⟩
  · cases b
  · have := b 0 _ (by omega) hz
    simp only at this
    have hk0 : k' = 0 := by omega
    subst hk0
    exact ⟨rfl, _, a2⟩

theorem decode_block {bo idx tg addr : Nat} (g : GeomOK bo idx tg) :
    decode bo idx tg addr = some (blockTag bo idx addr, blockSet bo idx addr) :=
  decode_addr g

theorem l2cache_access_noBackInval {s s' : State} {addr p : Nat} (hn : NoBackInval s)
    (h : l2cache_access s addr = some (s', p)) :
    s'.icache = s.icache ∧ s'.dcache = s.dcache := by
  rcases l2cache_access_cases h with ⟨_, rfl, _⟩ | ⟨h0, tag, si, _, h1⟩
  · exact ⟨rfl, rfl⟩
  · rcases h1 with ⟨l2, _, rfl, _⟩ | ⟨_, _, set, _, h2⟩
    · exact ⟨rfl, rfl⟩
    · rcases h2 with ⟨set', _, rfl⟩ | ⟨ej, set', ic, dc, _, _, hinc, rfl⟩
      · exact ⟨rfl, rfl⟩
      · rcases hinc with ⟨_, rfl, rfl⟩ | ⟨hi, _⟩
        · exact ⟨rfl, rfl⟩
        · rcases hn with c | c
          · exact absurd hi c
          · exact absurd c h0

theorem l2cache_access_touch {s s' : State} {addr p : Nat} (h0 : s.l2cacheSets ≠ 0)
    (h : l2cache_access s addr = some (s', p)) :
    ∃ tag si, decode s.blockoffset s.l2cacheIndex s.l2cacheTag addr = some (tag, si) ∧
      touch s.l2cache s.l2cacheAssoc si tag (add64 s.l2cacheRefs 1) = some s'.l2cache ∧
      s'.l2cacheRefs = add64 s.l2cacheRefs 1 := by
  rcases l2cache_access_cases h with ⟨c, _⟩ | ⟨_, tag, si, hdec, h1⟩
  · exact absurd c h0
  · refine ⟨tag, si, hdec, ?_⟩
    unfold touch
    rcases h1 with ⟨l2, hl, rfl, _⟩ | ⟨hl, _, set, hs, h2⟩
    · exact ⟨by rw [hl], rfl⟩
    · rw [hl]
      rcases h2 with ⟨set', hm, rfl⟩ | ⟨ej, set', ic, dc, hm, hw, _, rfl⟩
      · exact ⟨install_of_inl hs hm, rfl⟩
      · exact ⟨install_of_inr hs hm hw, rfl⟩

theorem icache_access_touch {s s' : State} {addr r : Nat} (hn : NoBackInval s)
    (h0 : s.icacheSets ≠ 0) (h : icache_access s addr = some (s', r)) :
    ∃ tag si, decode s.blockoffset s.icacheIndex s.icacheTag addr = some (tag, si) ∧
      touch s.icache s.icacheAssoc si tag (add64 s.icacheRefs 1) = some s'.icache ∧
      s'.icacheRefs = add64 s.icacheRefs 1 := by
  rcases icache_access_cases h with ⟨c, _⟩ | ⟨_, tag, si, hdec, h1⟩
  · exact absurd c h0
  · refine ⟨tag, si, hdec, ?_⟩
    unfold touch
    rcases h1 with ⟨ic, hl, rfl, _⟩ | ⟨hl, s2, p, ic, h2, hin, rfl, _⟩
    · exact ⟨by rw [hl], rfl⟩
    · rw [hl]
      have f := l2cache_access_frame h2
      obtain ⟨e1, _⟩ := @l2cache_access_noBackInval
        { s with icacheRefs := add64 s.icacheRefs 1, icacheMisses := add64 s.icacheMisses 1 }
        s2 addr p hn h2
      have e2 : s2.icacheAssoc = s.icacheAssoc := f.1.icacheAssoc
      have e3 : s2.icacheRefs = add64 s.icacheRefs 1 := f.2.icacheRefs
      have e1' : s2.icache = s.icache := e1
      rw [e1', e2, e3] at hin
      exact ⟨hin, e3⟩

theorem nodup_step {tg : Nat → Nat} {done rest : List Nat} {a : Nat}
    (h : ((done ++ a :: rest).map tg).Nodup) :
    tg a ∉ done.map tg ∧ (((done ++ [a]) ++ rest).map tg).Nodup := by
  constructor
  · rw [List.map_append, List.map_cons, List.nodup_middle, List.nodup_cons] at h
    intro c
    exact h.1 (List.mem_append_left _ c)
  · rw [List.append_assoc]
    exact h

theorem icache_fill {bo idx tgb k si : Nat} : ∀ (rest done : List Nat) (s s' : State),
    NoBackInval s → s.icacheSets ≠ 0 → s.blockoffset = bo → s.icacheIndex = idx →
    s.icacheTag = tgb → s.icacheAssoc = k → GeomOK bo idx tgb → k < ULONG_MAX →
    FilledWith s.icache si k (done.map (blockTag bo idx)) → s.icacheRefs = done.length →
    done.length + rest.length ≤ k → (∀ a ∈ rest, blockSet bo idx a = si) →
    ((done ++ rest).map (blockTag bo idx)).Nodup →
    run s (rest.map Op.I) = some s' →
    FilledWith s'.icache si k ((done ++ rest).map (blockTag bo idx)) ∧
      s'.icacheRefs = done.length + rest.length ∧ SameConfig s s' := by
  intro rest
  induction rest with
  | nil =>
    intro done s s' _ _ _ _ _ _ _ _ hf hr _ _ _ h
    simp only [List.map_nil, run, Option.some.injEq] at h
    subst h
    simp only [List.append_nil, List.length_nil, Nat.add_zero]
    exact ⟨hf, hr, SameConfig.config_refl _⟩
  | cons a rest ih =>
    intro done s s' hn h0 hbo hidx htg hk g hku hf hr hlen hset hnd h
    simp only [List.map_cons, run] at h
    simp only [List.length_cons] at hlen
    cases hs : step s (Op.I a) with
    | none => simp [hs] at h
    | some sr =>
      obtain ⟨s1, r⟩ := sr
      simp only [hs] at h
      have hs' : icache_access s a = some (s1, r) := hs
      have f := icache_access_frame hs'
      obtain ⟨tag, si', hdec, ht, hrefs⟩ := icache_access_touch hn h0 hs'
      rw [hbo, hidx, htg, decode_block g] at hdec
      simp only [Option.some.injEq, Prod.mk.injEq] at hdec
      obtain ⟨rfl, rfl⟩ := hdec
      have hsi := hset a (List.mem_cons_self _ _)
      rw [hsi] at ht
      obtain ⟨hnew, hnd'⟩ := nodup_step hnd
      have hadd : add64 s.icacheRefs 1 = (done.map (blockTag bo idx)).length + 1 := by
        rw [add64_succ (by omega), hr, List.length_map]
      rw [hk, hadd] at ht
      have hf1 := touch_fill hf (by rw [List.length_map]; omega) hnew ht
      have hmap : done.map (blockTag bo idx) ++ [blockTag bo idx a]
          = (done ++ [a]).map (blockTag bo idx) := by simp
      rw [hmap] at hf1
      have hn1 : NoBackInval s1 := by
        unfold NoBackInval
        rw [f.inclusive, f.l2cacheSets]
        exact hn
      obtain ⟨c1, c2, c3⟩ := ih (done ++ [a]) s1 s' hn1 (by rw [f.icacheSets]; exact h0)
        (by rw [f.blockoffset]; exact hbo) (by rw [f.icacheIndex]; exact hidx)
        (by rw [f.icacheTag]; exact htg) (by rw [f.icacheAssoc]; exact hk) g hku hf1
        (by rw [hrefs, add64_succ (by omega), hr]; simp)
        (by simp only [List.length_append, List.length_singleton]; omega)
        (fun x hx => hset x (List.mem_cons_of_mem _ hx)) hnd' h
      refine ⟨?_, ?_, f.trans c3⟩
      · rw [List.append_assoc] at c1; exact c1
      · rw [c2]; simp only [List.length_append, List.length_cons, List.length_nil]; omega

theorem filledWith_init {sets assoc si : Nat} (hsi : si < sets) :
    FilledWith (initStore sets assoc) si assoc [] := by
  constructor
  · intro j t h; simp at h
  · intro j _ hj
    exact ⟨initEntry, line_initStore_some hsi hj, rfl⟩

theorem blockSet_lt {bo x addr : Nat} (hx : 1 ≤ x) : blockSet bo (logTwo x) addr < x := by
  have h1 : blockSet bo (logTwo x) addr < 2 ^ logTwo x := Nat.mod_lt _ (by positivity)
  have h2 := two_pow_logTwo_le hx
  omega

theorem run_snoc {s s' : State} {pre : List Op} {op : Op}
    (h : run s (pre ++ [op]) = some s') :
    ∃ sm r, run s pre = some sm ∧ step sm op = some (s', r) := by
  rw [run_append] at h
  cases hp : run s pre with
  | none => rw [hp] at h; cases h
  | some sm =>
    rw [hp] at h
    simp only [Option.some_bind, run] at h
    cases hs : step sm op with
    | none => rw [hs] at h; cases h
    | some sr =>
      obtain ⟨s1, r⟩ := sr
      rw [hs] at h
      simp only [Option.some.injEq] at h
      subst h
      exact ⟨sm, r, rfl, hs⟩

theorem lruOutcome_of_evict {cache c' : List (List entry)} {si k t : Nat} {tg : Nat → Nat}
    {a0 : Nat} {mid : List Nat} {ak : Nat}
    (hf : FilledWith cache si k ((a0 :: mid).map tg))
    (hc : c' = setLine cache si 0 { tag := tg ak, timestamp := t, valid := true })
    (h0 : ∃ e0, line cache si 0 = some e0) (ht : t = k + 1) :
    LruOutcome c' si k tg mid ak := by
  obtain ⟨e0, he0⟩ := h0
  subst hc
  subst ht
  constructor
  · rw [line_setLine he0, if_pos ⟨rfl, rfl⟩]
  · intro j a hj
    rw [line_setLine he0, if_neg (fun c => by omega)]
    apply hf.1 (j + 1)
    simp only [List.map_cons, List.getElem?_cons_succ, List.getElem?_map, hj, Option.map_some']

theorem lru_icache (c : Config) (a0 : Nat) (mid : List Nat) (ak si : Nat)
    (hc : GoodConfig c) (h0 : c.icacheSets ≠ 0) (hn : c.inclusive ≠ 1 ∨ c.l2cacheSets = 0)
    (hk : c.icacheAssoc = mid.length + 1) (hk32 : c.icacheAssoc < 2 ^ 32)
    (hset : ∀ a ∈ a0 :: (mid ++ [ak]),
      blockSet (logTwo c.blocksize) (logTwo c.icacheSets) a = si)
    (hnd : ((a0 :: (mid ++ [ak])).map
      (blockTag (logTwo c.blocksize) (logTwo c.icacheSets))).Nodup) :
    ∃ s, run (init_cache c) ((a0 :: (mid ++ [ak])).map Op.I) = some s ∧
      LruOutcome s.icache si c.icacheAssoc
        (blockTag (logTwo c.blocksize) (logTwo c.icacheSets)) mid ak := by
  have hU : (2:Nat) ^ 32 < ULONG_MAX := by decide
  obtain ⟨s, hs⟩ := run_defined c ((a0 :: (mid ++ [ak])).map Op.I) hc (by
    simp only [List.length_map, List.length_cons, List.length_append, List.length_nil]
    omega)
  refine ⟨s, hs, ?_⟩
  have hsplit : (a0 :: (mid ++ [ak])).map Op.I = (a0 :: mid).map Op.I ++ [Op.I ak] := by simp
  rw [hsplit] at hs
  obtain ⟨sm, r, hpre, hlast⟩ := run_snoc hs
  have g : GeomOK (logTwo c.blocksize) (logTwo c.icacheSets)
      (sub32 (sub32 32 (logTwo c.icacheSets)) (logTwo c.blocksize)) := by
    rcases init_cacheReady hc.1 with c0 | ⟨g, _, _⟩
    · exact absurd c0 h0
    · exact g
  have hsi : si < c.icacheSets := by
    rw [← hset a0 (List.mem_cons_self _ _)]
    exact blockSet_lt (by omega)
  have hnd1 : (([] ++ (a0 :: mid)).map
      (blockTag (logTwo c.blocksize) (logTwo c.icacheSets))).Nodup := by
    have e : a0 :: (mid ++ [ak]) = (a0 :: mid) ++ [ak] := by simp
    rw [e, List.map_append] at hnd
    simpa using (List.nodup_append.mp hnd).1
  obtain ⟨hf, hrefs, f⟩ := @icache_fill (logTwo c.blocksize) (logTwo c.icacheSets)
    (sub32 (sub32 32 (logTwo c.icacheSets)) (logTwo c.blocksize)) c.icacheAssoc si
    (a0 :: mid) [] (init_cache c) sm hn h0 rfl rfl rfl rfl g (by omega)
    (filledWith_init hsi) rfl (by simp only [List.length_nil, List.length_cons]; omega)
    (fun a ha => hset a (by
      rcases List.mem_cons.mp ha with rfl | h'
      · exact List.mem_cons_self _ _
      · exact List.mem_cons_of_mem _ (List.mem_append_left _ h')))
    hnd1 hpre
  simp only [List.nil_append, List.length_nil, Nat.zero_add, List.length_cons] at hf hrefs
  have hlast' : icache_access sm ak = some (s, r) := hlast
  have hnm : NoBackInval sm := by
    unfold NoBackInval
    rw [f.inclusive, f.l2cacheSets]
    exact hn
  obtain ⟨tag, si', hdec, ht, _⟩ := icache_access_touch hnm
    (by rw [f.icacheSets]; exact h0) hlast'
  have fb : sm.blockoffset = logTwo c.blocksize := f.blockoffset
  have fi : sm.icacheIndex = logTwo c.icacheSets := f.icacheIndex
  have ft : sm.icacheTag = sub32 (sub32 32 (logTwo c.icacheSets)) (logTwo c.blocksize) :=
    f.icacheTag
  have fa : sm.icacheAssoc = c.icacheAssoc := f.icacheAssoc
  rw [fb, fi, ft, decode_block g] at hdec
  simp only [Option.some.injEq, Prod.mk.injEq] at hdec
  obtain ⟨rfl, rfl⟩ := hdec
  rw [hset ak (List.mem_cons_of_mem _ (List.mem_append_right _ (List.mem_singleton_self _))),
    fa] at ht
  have hnotin : blockTag (logTwo c.blocksize) (logTwo c.icacheSets) ak ∉
      (a0 :: mid).map (blockTag (logTwo c.blocksize) (logTwo c.icacheSets)) := by
    have e : a0 :: (mid ++ [ak]) = (a0 :: mid) ++ ak :: [] := by simp
    rw [e] at hnd
    exact (nodup_step hnd).1
  obtain ⟨e1, e2⟩ := touch_evict hf (by simp only [List.length_map, List.length_cons]; omega)
    (by omega) hnotin ht
  refine lruOutcome_of_evict hf e1 e2 ?_
  rw [hrefs, add64_succ (by omega)]
  omega

theorem dcache_access_touch {s s' : State} {addr r : Nat} (hn : NoBackInval s)
    (h0 : s.dcacheSets ≠ 0) (h : dcache_access s addr = some (s', r)) :
    ∃ tag si, decode s.blockoffset s.dcacheIndex s.dcacheTag addr = some (tag, si) ∧
      touch s.dcache s.dcacheAssoc si tag (add64 s.dcacheRefs 1) = some s'.dcache ∧
      s'.dcacheRefs = add64 s.dcacheRefs 1 := by
  rcases dcache_access_cases h with ⟨c, _⟩ | ⟨_, tag, si, hdec, h1⟩
  · exact absurd c h0
  · refine ⟨tag, si, hdec, ?_⟩
    unfold touch
    rcases h1 with ⟨ic, hl, rfl, _⟩ | ⟨hl, s2, p, ic, h2, hin, rfl, _⟩
    · exact ⟨by rw [hl], rfl⟩
    · rw [hl]
      have f := l2cache_access_frame h2
      obtain ⟨_, e1⟩ := @l2cache_access_noBackInval
        { s with dcacheRefs := add64 s.dcacheRefs 1, dcacheMisses := add64 s.dcacheMisses 1 }
        s2 addr p hn h2
      have e2 : s2.dcacheAssoc = s.dcacheAssoc := f.1.dcacheAssoc
      have e3 : s2.dcacheRefs = add64 s.dcacheRefs 1 := f.2.dcacheRefs
      have e1' : s2.dcache = s.dcache := e1
      rw [e1', e2, e3] at hin
      exact ⟨hin, e3⟩

theorem dcache_fill {bo idx tgb k si : Nat} : ∀ (rest done : List Nat) (s s' : State),
    NoBackInval s → s.dcacheSets ≠ 0 → s.blockoffset = bo → s.dcacheIndex = idx →
    s.dcacheTag = tgb → s.dcacheAssoc = k → GeomOK bo idx tgb → k < ULONG_MAX →
    FilledWith s.dcache si k (done.map (blockTag bo idx)) → s.dcacheRefs = done.length →
    done.length + rest.length ≤ k → (∀ a ∈ rest, blockSet bo idx a = si) →
    ((done ++ rest).map (blockTag bo idx)).Nodup →
    run s (rest.map Op.D) = some s' →
    FilledWith s'.dcache si k ((done ++ rest).map (blockTag bo idx)) ∧
      s'.dcacheRefs = done.length + rest.length ∧ SameConfig s s' := by
  intro rest
  induction rest with
  | nil =>
    intro done s s' _ _ _ _ _ _ _ _ hf hr _ _ _ h
    simp only [List.map_nil, run, Option.some.injEq] at h
    subst h
    simp only [List.append_nil, List.length_nil, Nat.add_zero]
    exact ⟨hf, hr, SameConfig.config_refl _⟩
  | cons a rest ih =>
    intro done s s' hn h0 hbo hidx htg hk g hku hf hr hlen hset hnd h
    simp only [List.map_cons, run] at h
    simp only [List.length_cons] at hlen
    cases hs : step s (Op.D a) with
    | none => simp [hs] at h
    | some sr =>
      obtain ⟨s1, r⟩ := sr
      simp only [hs] at h
      have hs' : dcache_access s a = some (s1, r) := hs
      have f := dcache_access_frame hs'
      obtain ⟨tag, si', hdec, ht, hrefs⟩ := dcache_access_touch hn h0 hs'
      rw [hbo, hidx, htg, decode_block g] at hdec
      simp only [Option.some.injEq, Prod.mk.injEq] at hdec
      obtain ⟨rfl, rfl⟩ := hdec
      have hsi := hset a (List.mem_cons_self _ _)
      rw [hsi] at ht
      obtain ⟨hnew, hnd'⟩ := nodup_step hnd
      have hadd : add64 s.dcacheRefs 1 = (done.map (blockTag bo idx)).length + 1 := by
        rw [add64_succ (by omega), hr, List.length_map]
      rw [hk, hadd] at ht
      have hf1 := touch_fill hf (by rw [List.length_map]; omega) hnew ht
      have hmap : done.map (blockTag bo idx) ++ [blockTag bo idx a]
          = (done ++ [a]).map (blockTag bo idx) := by simp
      rw [hmap] at hf1
      have hn1 : NoBackInval s1 := by
        unfold NoBackInval
        rw [f.inclusive, f.l2cacheSets]
        exact hn
      obtain ⟨c1, c2, c3⟩ := ih (done ++ [a]) s1 s' hn1 (by rw [f.dcacheSets]; exact h0)
        (by rw [f.blockoffset]; exact hbo) (by rw [f.dcacheIndex]; exact hidx)
        (by rw [f.dcacheTag]; exact htg) (by rw [f.dcacheAssoc]; exact hk) g hku hf1
        (by rw [hrefs, add64_succ (by omega), hr]; simp)
        (by simp only [List.length_append, List.length_singleton]; omega)
        (fun x hx => hset x (List.mem_cons_of_mem _ hx)) hnd' h
      refine ⟨?_, ?_, f.trans c3⟩
      · rw [List.append_assoc] at c1; exact c1
      · rw [c2]; simp only [List.length_append, List.length_cons, List.length_nil]; omega

theorem lru_dcache (c : Config) (a0 : Nat) (mid : List Nat) (ak si : Nat)
    (hc : GoodConfig c) (h0 : c.dcacheSets ≠ 0) (hn : c.inclusive ≠ 1 ∨ c.l2cacheSets = 0)
    (hk : c.dcacheAssoc = mid.length + 1) (hk32 : c.dcacheAssoc < 2 ^ 32)
    (hset : ∀ a ∈ a0 :: (mid ++ [ak]),
      blockSet (logTwo c.blocksize) (logTwo c.dcacheSets) a = si)
    (hnd : ((a0 :: (mid ++ [ak])).map
      (blockTag (logTwo c.blocksize) (logTwo c.dcacheSets))).Nodup) :
    ∃ s, run (init_cache c) ((a0 :: (mid ++ [ak])).map Op.D) = some s ∧
      LruOutcome s.dcache si c.dcacheAssoc
        (blockTag (logTwo c.blocksize) (logTwo c.dcacheSets)) mid ak := by
  have hU : (2:Nat) ^ 32 < ULONG_MAX := by decide
  obtain ⟨s, hs⟩ := run_defined c ((a0 :: (mid ++ [ak])).map Op.D) hc (by
    simp only [List.length_map, List.length_cons, List.length_append, List.length_nil]
    omega)
  refine ⟨s, hs, ?_⟩
  have hsplit : (a0 :: (mid ++ [ak])).map Op.D = (a0 :: mid).map Op.D ++ [Op.D ak] := by simp
  rw [hsplit] at hs
  obtain ⟨sm, r, hpre, hlast⟩ := run_snoc hs
  have g : GeomOK (logTwo c.blocksize) (logTwo c.dcacheSets)
      (sub32 (sub32 32 (logTwo c.dcacheSets)) (logTwo c.blocksize)) := by
    rcases init_cacheReady hc.2.1 with c0 | ⟨g, _, _⟩
    · exact absurd c0 h0
    · exact g
  have hsi : si < c.dcacheSets := by
    rw [← hset a0 (List.mem_cons_self _ _)]
    exact blockSet_lt (by omega)
  have hnd1 : (([] ++ (a0 :: mid)).map
      (blockTag (logTwo c.blocksize) (logTwo c.dcacheSets))).Nodup := by
    have e : a0 :: (mid ++ [ak]) = (a0 :: mid) ++ [ak] := by simp
    rw [e, List.map_append] at hnd
    simpa using (List.nodup_append.mp hnd).1
  obtain ⟨hf, hrefs, f⟩ := @dcache_fill (logTwo c.blocksize) (logTwo c.dcacheSets)
    (sub32 (sub32 32 (logTwo c.dcacheSets)) (logTwo c.blocksize)) c.dcacheAssoc si
    (a0 :: mid) [] (init_cache c) sm hn h0 rfl rfl rfl rfl g (by omega)
    (filledWith_init hsi) rfl (by simp only [List.length_nil, List.length_cons]; omega)
    (fun a ha => hset a (by
      rcases List.mem_cons.mp ha with rfl | h'
      · exact List.mem_cons_self _ _
      · exact List.mem_cons_of_mem _ (List.mem_append_left _ h')))
    hnd1 hpre
  simp only [List.nil_append, List.length_nil, Nat.zero_add, List.length_cons] at hf hrefs
  have hlast' : dcache_access sm ak = some (s, r) := hlast
  have hnm : NoBackInval sm := by
    unfold NoBackInval
    rw [f.inclusive, f.l2cacheSets]
    exact hn
  obtain ⟨tag, si', hdec, ht, _⟩ := dcache_access_touch hnm
    (by rw [f.dcacheSets]; exact h0) hlast'
  have fb : sm.blockoffset = logTwo c.blocksize := f.blockoffset
  have fi : sm.dcacheIndex = logTwo c.dcacheSets := f.dcacheIndex
  have ft : sm.dcacheTag = sub32 (sub32 32 (logTwo c.dcacheSets)) (logTwo c.blocksize) :=
    f.dcacheTag
  have fa : sm.dcacheAssoc = c.dcacheAssoc := f.dcacheAssoc
  rw [fb, fi, ft, decode_block g] at hdec
  simp only [Option.some.injEq, Prod.mk.injEq] at hdec
  obtain ⟨rfl, rfl⟩ := hdec
  rw [hset ak (List.mem_cons_of_mem _ (List.mem_append_right _ (List.mem_singleton_self _))),
    fa] at ht
  have hnotin : blockTag (logTwo c.blocksize) (logTwo c.dcacheSets) ak ∉
      (a0 :: mid).map (blockTag (logTwo c.blocksize) (logTwo c.dcacheSets)) := by
    have e : a0 :: (mid ++ [ak]) = (a0 :: mid) ++ ak :: [] := by simp
    rw [e] at hnd
    exact (nodup_step hnd).1
  obtain ⟨e1, e2⟩ := touch_evict hf (by simp only [List.length_map, List.length_cons]; omega)
    (by omega) hnotin ht
  refine lruOutcome_of_evict hf e1 e2 ?_
  rw [hrefs, add64_succ (by omega)]
  omega

theorem icache_access_passthrough {s : State} (h : s.icacheSets = 0) (addr : Nat) :
    icache_access s addr = l2cache_access s addr := by
  unfold icache_access; rw [if_pos h]

theorem l2cache_fill {bo idx tgb k si : Nat} : ∀ (rest done : List Nat) (s s' : State),
    s.icacheSets = 0 → s.l2cacheSets ≠ 0 → s.blockoffset = bo → s.l2cacheIndex = idx →
    s.l2cacheTag = tgb → s.l2cacheAssoc = k → GeomOK bo idx tgb → k < ULONG_MAX →
    FilledWith s.l2cache si k (done.map (blockTag bo idx)) → s.l2cacheRefs = done.length →
    done.length + rest.length ≤ k → (∀ a ∈ rest, blockSet bo idx a = si) →
    ((done ++ rest).map (blockTag bo idx)).Nodup →
    run s (rest.map Op.I) = some s' →
    FilledWith s'.l2cache si k ((done ++ rest).map (blockTag bo idx)) ∧
      s'.l2cacheRefs = done.length + rest.length ∧ SameConfig s s' := by
  intro rest
  induction rest with
  | nil =>
    intro done s s' _ _ _ _ _ _ _ _ hf hr _ _ _ h
    simp only [List.map_nil, run, Option.some.injEq] at h
    subst h
    simp only [List.append_nil, List.length_nil, Nat.add_zero]
    exact ⟨hf, hr, SameConfig.config_refl _⟩
  | cons a rest ih =>
    intro done s s' hp h0 hbo hidx htg hk g hku hf hr hlen hset hnd h
    simp only [List.map_cons, run] at h
    simp only [List.length_cons] at hlen
    cases hs : step s (Op.I a) with
    | none => simp [hs] at h
    | some sr =>
      obtain ⟨s1, r⟩ := sr
      simp only [hs] at h
      have hs' : l2cache_access s a = some (s1, r) := by
        rw [← icache_access_passthrough hp]; exact hs
      have f := (l2cache_access_frame hs').1
      obtain ⟨tag, si', hdec, ht, hrefs⟩ := l2cache_access_touch h0 hs'
      rw [hbo, hidx, htg, decode_block g] at hdec
      simp only [Option.some.injEq, Prod.mk.injEq] at hdec
      obtain ⟨rfl, rfl⟩ := hdec
      have hsi := hset a (List.mem_cons_self _ _)
      rw [hsi] at ht
      obtain ⟨hnew, hnd'⟩ := nodup_step hnd
      have hadd : add64 s.l2cacheRefs 1 = (done.map (blockTag bo idx)).length + 1 := by
        rw [add64_succ (by omega), hr, List.length_map]
      rw [hk, hadd] at ht
      have hf1 := touch_fill hf (by rw [List.length_map]; omega) hnew ht
      have hmap : done.map (blockTag bo idx) ++ [blockTag bo idx a]
          = (done ++ [a]).map (blockTag bo idx) := by simp
      rw [hmap] at hf1
      obtain ⟨c1, c2, c3⟩ := ih (done ++ [a]) s1 s' (by rw [f.icacheSets]; exact hp)
        (by rw [f.l2cacheSets]; exact h0)
        (by rw [f.blockoffset]; exact hbo) (by rw [f.l2cacheIndex]; exact hidx)
        (by rw [f.l2cacheTag]; exact htg) (by rw [f.l2cacheAssoc]; exact hk) g hku hf1
        (by rw [hrefs, add64_succ (by omega), hr]; simp)
        (by simp only [List.length_append, List.length_singleton]; omega)
        (fun x hx => hset x (List.mem_cons_of_mem _ hx)) hnd' h
      refine ⟨?_, ?_, f.trans c3⟩
      · rw [List.append_assoc] at c1; exact c1
      · rw [c2]; simp only [List.length_append, List.length_cons, List.length_nil]; omega

theorem lru_l2cache (c : Config) (a0 : Nat) (mid : List Nat) (ak si : Nat)
    (hc : GoodConfig c) (hp : c.icacheSets = 0) (h0 : c.l2cacheSets ≠ 0)
    (hk : c.l2cacheAssoc = mid.length + 1) (hk32 : c.l2cacheAssoc < 2 ^ 32)
    (hset : ∀ a ∈ a0 :: (mid ++ [ak]),
      blockSet (logTwo c.blocksize) (logTwo c.l2cacheSets) a = si)
    (hnd : ((a0 :: (mid ++ [ak])).map
      (blockTag (logTwo c.blocksize) (logTwo c.l2cacheSets))).Nodup) :
    ∃ s, run (init_cache c) ((a0 :: (mid ++ [ak])).map Op.I) = some s ∧
      LruOutcome s.l2cache si c.l2cacheAssoc
        (blockTag (logTwo c.blocksize) (logTwo c.l2cacheSets)) mid ak := by
  have hU : (2:Nat) ^ 32 < ULONG_MAX := by decide
  obtain ⟨s, hs⟩ := run_defined c ((a0 :: (mid ++ [ak])).map Op.I) hc (by
    simp only [List.length_map, List.length_cons, List.length_append, List.length_nil]
    omega)
  refine ⟨s, hs, ?_⟩
  have hsplit : (a0 :: (mid ++ [ak])).map Op.I = (a0 :: mid).map Op.I ++ [Op.I ak] := by simp
  rw [hsplit] at hs
  obtain ⟨sm, r, hpre, hlast⟩ := run_snoc hs
  have g : GeomOK (logTwo c.blocksize) (logTwo c.l2cacheSets)
      (sub32 (sub32 32 (logTwo c.l2cacheSets)) (logTwo c.blocksize)) := by
    rcases init_cacheReady hc.2.2 with c0 | ⟨g, _, _⟩
    · exact absurd c0 h0
    · exact g
  have hsi : si < c.l2cacheSets := by
    rw [← hset a0 (List.mem_cons_self _ _)]
    exact blockSet_lt (by omega)
  have hnd1 : (([] ++ (a0 :: mid)).map
      (blockTag (logTwo c.blocksize) (logTwo c.l2cacheSets))).Nodup := by
    have e : a0 :: (mid ++ [ak]) = (a0 :: mid) ++ [ak] := by simp
    rw [e, List.map_append] at hnd
    simpa using (List.nodup_append.mp hnd).1
  obtain ⟨hf, hrefs, f⟩ := @l2cache_fill (logTwo c.blocksize) (logTwo c.l2cacheSets)
    (sub32 (sub32 32 (logTwo c.l2cacheSets)) (logTwo c.blocksize)) c.l2cacheAssoc si
    (a0 :: mid) [] (init_cache c) sm hp h0 rfl rfl rfl rfl g (by omega)
    (filledWith_init hsi) rfl (by simp only [List.length_nil, List.length_cons]; omega)
    (fun a ha => hset a (by
      rcases List.mem_cons.mp ha with rfl | h'
      · exact List.mem_cons_self _ _
      · exact List.mem_cons_of_mem _ (List.mem_append_left _ h')))
    hnd1 hpre
  simp only [List.nil_append, List.length_nil, Nat.zero_add, List.length_cons] at hf hrefs
  have hpm : sm.icacheSets = 0 := by rw [f.icacheSets]; exact hp
  have hlast' : l2cache_access sm ak = some (s, r) := by
    rw [← icache_access_passthrough hpm]; exact hlast
  obtain ⟨tag, si', hdec, ht, _⟩ := l2cache_access_touch
    (by rw [f.l2cacheSets]; exact h0) hlast'
  have fb : sm.blockoffset = logTwo c.blocksize := f.blockoffset
  have fi : sm.l2cacheIndex = logTwo c.l2cacheSets := f.l2cacheIndex
  have ft : sm.l2cacheTag = sub32 (sub32 32 (logTwo c.l2cacheSets)) (logTwo c.blocksize) :=
    f.l2cacheTag
  have fa : sm.l2cacheAssoc = c.l2cacheAssoc := f.l2cacheAssoc
  rw [fb, fi, ft, decode_block g] at hdec
  simp only [Option.some.injEq, Prod.mk.injEq] at hdec
  obtain ⟨rfl, rfl⟩ := hdec
  rw [hset ak (List.mem_cons_of_mem _ (List.mem_append_right _ (List.mem_singleton_self _))),
    fa] at ht
  have hnotin : blockTag (logTwo c.blocksize) (logTwo c.l2cacheSets) ak ∉
      (a0 :: mid).map (blockTag (logTwo c.blocksize) (logTwo c.l2cacheSets)) := by
    have e : a0 :: (mid ++ [ak]) = (a0 :: mid) ++ ak :: [] := by simp
    rw [e] at hnd
    exact (nodup_step hnd).1
  obtain ⟨e1, e2⟩ := touch_evict hf (by simp only [List.length_map, List.length_cons]; omega)
    (by omega) hnotin ht
  refine lruOutcome_of_evict hf e1 e2 ?_
  rw [hrefs, add64_succ (by omega)]
  omega

theorem lruHolds_of_outcome {cache : List (List entry)} {si k : Nat} {tg : Nat → Nat}
    {a0 : Nat} {mid : List Nat} {ak : Nat} (h : LruOutcome cache si k tg mid ak)
    (hk : k = mid.length + 1) (hnd : ((a0 :: (mid ++ [ak])).map tg).Nodup) :
    LruHolds cache si k tg a0 mid ak := by
  obtain ⟨h0, h1⟩ := h
  simp only [List.map_cons, List.map_append, List.map_nil, List.nodup_cons] at hnd
  obtain ⟨hn0, hn1⟩ := hnd
  refine ⟨⟨h0, h1⟩, ?_, ?_⟩
  · intro a ha
    rcases List.mem_append.mp ha with hm | hl
    · obtain ⟨j, hj, hja⟩ := List.getElem_of_mem hm
      have hg : mid[j]? = some a := by rw [List.getElem?_eq_getElem hj, hja]
      exact ⟨j + 1, _, by omega, h1 j a hg, rfl, rfl⟩
    · rw [List.mem_singleton.mp hl]
      exact ⟨0, _, by omega, h0, rfl, rfl⟩
  · rintro ⟨j, e, hj, hl, _, ht⟩
    cases j with
    | zero =>
      rw [h0] at hl
      cases hl
      apply hn0
      simp only at ht
      rw [← ht]
      exact List.mem_append_right _ (List.mem_singleton_self _)
    | succ j =>
      have hjm : j < mid.length := by omega
      have hg : mid[j]? = some mid[j] := List.getElem?_eq_getElem hjm
      rw [h1 j _ hg] at hl
      cases hl
      apply hn0
      simp only at ht
      rw [← ht]
      exact List.mem_append_left _ (List.mem_map_of_mem _ (List.getElem_mem hjm))

/-- The LRU scenario on caches with at least two sets. In a configuration whose
instantiated caches have at least
two sets and one way (so that every set index is defined), for a cache of associativity
`k = |mid| + 1`, accessing from the initialized state `k + 1` addresses `a0, mid, ak` that
map to one set `si` of that cache and have pairwise distinct tags runs and leaves that set
holding valid lines for exactly `mid` and `ak` and none for `a0`: the install of `ak`
overwrites way 0, the line of `a0`, and no other. This holds for the I$ and the D$ when no
back-invalidation can take place (`inclusive ≠ 1` or no L2), and for the L2 reached through
an I$ that is not instantiated. -/
theorem lru_scenario (c : Config) (a0 : Nat) (mid : List Nat) (ak si : Nat)
    (hc : GoodConfig c) :
    (c.icacheSets ≠ 0 → (c.inclusive ≠ 1 ∨ c.l2cacheSets = 0) →
      c.icacheAssoc = mid.length + 1 → c.icacheAssoc < 2 ^ 32 →
      (∀ a ∈ a0 :: (mid ++ [ak]),
        blockSet (logTwo c.blocksize) (logTwo c.icacheSets) a = si) →
      ((a0 :: (mid ++ [ak])).map
        (blockTag (logTwo c.blocksize) (logTwo c.icacheSets))).Nodup →
      ∃ s, run (init_cache c) ((a0 :: (mid ++ [ak])).map Op.I) = some s ∧
        LruHolds s.icache si c.icacheAssoc
          (blockTag (logTwo c.blocksize) (logTwo c.icacheSets)) a0 mid ak) ∧
    (c.dcacheSets ≠ 0 → (c.inclusive ≠ 1 ∨ c.l2cacheSets = 0) →
      c.dcacheAssoc = mid.length + 1 → c.dcacheAssoc < 2 ^ 32 →
      (∀ a ∈ a0 :: (mid ++ [ak]),
        blockSet (logTwo c.blocksize) (logTwo c.dcacheSets) a = si) →
      ((a0 :: (mid ++ [ak])).map
        (blockTag (logTwo c.blocksize) (logTwo c.dcacheSets))).Nodup →
      ∃ s, run (init_cache c) ((a0 :: (mid ++ [ak])).map Op.D) = some s ∧
        LruHolds s.dcache si c.dcacheAssoc
          (blockTag (logTwo c.blocksize) (logTwo c.dcacheSets)) a0 mid ak) ∧
    (c.icacheSets = 0 → c.l2cacheSets ≠ 0 →
      c.l2cacheAssoc = mid.length + 1 → c.l2cacheAssoc < 2 ^ 32 →
      (∀ a ∈ a0 :: (mid ++ [ak]),
        blockSet (logTwo c.blocksize) (logTwo c.l2cacheSets) a = si) →
      ((a0 :: (mid ++ [ak])).map
        (blockTag (logTwo c.blocksize) (logTwo c.l2cacheSets))).Nodup →
      ∃ s, run (init_cache c) ((a0 :: (mid ++ [ak])).map Op.I) = some s ∧
        LruHolds s.l2cache si c.l2cacheAssoc
          (blockTag (logTwo c.blocksize) (logTwo c.l2cacheSets)) a0 mid ak) := by
  refine ⟨fun h0 hn hk hk32 hset hnd => ?_, fun h0 hn hk hk32 hset hnd => ?_,
    fun hp h0 hk hk32 hset hnd => ?_⟩
  · obtain ⟨s, hs, ho⟩ := lru_icache c a0 mid ak si hc h0 hn hk hk32 hset hnd
    exact ⟨s, hs, lruHolds_of_outcome ho hk hnd⟩
  · obtain ⟨s, hs, ho⟩ := lru_dcache c a0 mid ak si hc h0 hn hk hk32 hset hnd
    exact ⟨s, hs, lruHolds_of_outcome ho hk hnd⟩
  · obtain ⟨s, hs, ho⟩ := lru_l2cache c a0 mid ak si hc hp h0 hk hk32 hset hnd
    exact ⟨s, hs, lruHolds_of_outcome ho hk hnd⟩

/-- C2 (LRU scenario), failing input. An I$ with one set and associativity `k = 1` (no L2),
and the `k + 1 = 2` addresses `a0 = 0x1004`, `a1 = 0x2004`, whose tags 128 and 256 differ.
The set index is `(addr << 27) >> 32`, a shift by the full width, so already the access to
`a0` has no defined result: the scenario does not run and the set does not end up holding the
line of `a1`. The same holds for the single-set D$. -/
theorem lru_single_set_undefined :
    (init_cache cfgOneSet).icacheSets = 1 ∧ (init_cache cfgOneSet).icacheAssoc = 1 ∧
    (init_cache cfgOneSet).icacheTag + (init_cache cfgOneSet).blockoffset = 32 ∧
    shr32 0x1004 (add32 (init_cache cfgOneSet).blockoffset (init_cache cfgOneSet).icacheIndex)
      = some 128 ∧
    shr32 0x2004 (add32 (init_cache cfgOneSet).blockoffset (init_cache cfgOneSet).icacheIndex)
      = some 256 ∧
    icache_access (init_cache cfgOneSet) 0x1004 = none ∧
    run (init_cache cfgOneSet) [Op.I 0x1004, Op.I 0x2004] = none ∧
    run (init_cache cfgOneSet) [Op.D 0x1004, Op.D 0x2004] = none := by
  decide

/-- Instances of `lru_scenario`: the conflict eviction of example 2 on a two-set,
direct-mapped I$ without L2 (`0x1000`, then `0x2000`, after which `0x1000` misses again and
returns 101), and the three-address scenario on the two-way I$ over a non-inclusive L2. -/
theorem lru_scenario_witness :
    (∃ s, run (init_cache cfgNoL2) [Op.I 0x1000, Op.I 0x2000] = some s ∧
      LruHolds s.icache 0 1 (blockTag 5 1) 0x1000 [] 0x2000 ∧
      (icache_access s 0x1000).map (fun x => x.2) = some 101) ∧
    (∃ s, run (init_cache cfgTwoWays) [Op.I 0x1000, Op.I 0x2000, Op.I 0x3000] = some s ∧
      LruHolds s.icache 0 2 (blockTag 5 1) 0x1000 [0x2000] 0x3000) := by
  constructor
  · obtain ⟨s, h, ho⟩ := (lru_scenario cfgNoL2 0x1000 [] 0x2000 0 (by decide)).1
      (by decide) (by decide) (by decide) (by decide) (by decide) (by decide)
    refine ⟨s, h, ho, ?_⟩
    exact eval_at (fun x => (icache_access x 0x1000).map (fun y => y.2)) (some 101) h
      (by decide)
  · obtain ⟨s, h, ho⟩ := (lru_scenario cfgTwoWays 0x1000 [0x2000] 0x3000 0 (by decide)).1
      (by decide) (by decide) (by decide) (by decide) (by decide) (by decide)
    exact ⟨s, h, ho⟩

/-! ## `logTwo` and the bit widths -/

theorem logTwoLoop_eq_log : ∀ (fuel x ans : Nat), x < 2 ^ fuel →
    logTwoLoop fuel x ans = ans + Nat.log 2 x := by
  intro fuel
  induction fuel with
  | zero =>
    intro x ans hx
    have : x = 0 := by simpa using hx
    subst this
    simp [logTwoLoop]
  | succ n ih =>
    intro x ans hx
    unfold logTwoLoop
    by_cases h : x / 2 ≠ 0
    · rw [if_pos h]
      have h2 : 2 ≤ x := by omega
      rw [ih (x / 2) (ans + 1) (by rw [pow_succ] at hx; omega),
        Nat.log_of_one_lt_of_le (by decide) h2]
      omega
    · rw [if_neg h]
      have h2 : x < 2 := by omega
      rw [Nat.log_of_lt h2]
      rfl

theorem logTwo_eq_log {x : Nat} (hx : x < 2 ^ 32) : logTwo x = Nat.log 2 x := by
  unfold logTwo
  rw [logTwoLoop_eq_log 32 x 0 hx]
  omega

theorem logTwo_pow {k : Nat} (hk : k ≤ 31) : logTwo (2 ^ k) = k := by
  rw [logTwo_eq_log (Nat.pow_lt_pow_right (by decide) (by omega)), Nat.log_pow (by decide)]

theorem init_widths (c : Config) (sets a b : Nat) (ha : a ≤ 31) (hb : b ≤ 31)
    (h1 : c.blocksize = 2 ^ a) (h2 : sets = 2 ^ b) :
    logTwo c.blocksize = a ∧ logTwo sets = b ∧
      add32 (add32 a b) (sub32 (sub32 32 b) a) = 32 ∧
      (a + b ≤ 32 → sub32 (sub32 32 b) a = 32 - b - a ∧ a + b + sub32 (sub32 32 b) a = 32) := by
  refine ⟨by rw [h1]; exact logTwo_pow ha, by rw [h2]; exact logTwo_pow hb, ?_, fun hab => ?_⟩
  · unfold add32 sub32
    omega
  · unfold sub32
    omega

/-- C19 (as amended). For every 32-bit `x` the loop of `logTwo` stops within 32 iterations
(any larger budget gives the same result) and `logTwo x` is the floor of the binary logarithm:
`2^(logTwo x) <= x < 2^(logTwo x + 1)` for `x >= 1`, and `logTwo 0 = 0`; in particular
`logTwo (2^k) = k` for `k <= 31`. For a block size `2^a` and a set count `2^b` of a cache
(`a, b <= 31`) `init_cache` computes `a` offset bits, `b` index bits and the tag width
`32 - b - a` as a 32-bit difference, so the three widths sum to 32 modulo `2^32`, and to
exactly 32 when `a + b <= 32`. -/
theorem logTwo_bit_widths (x : Nat) (c : Config) (hx : x < 2 ^ 32) :
    (∀ fuel, 32 ≤ fuel → logTwoLoop fuel x 0 = logTwo x) ∧
    logTwo x = Nat.log 2 x ∧
    (1 ≤ x → 2 ^ logTwo x ≤ x ∧ x < 2 ^ (logTwo x + 1)) ∧
    (x = 0 → logTwo x = 0) ∧
    (∀ k, k ≤ 31 → x = 2 ^ k → logTwo x = k) ∧
    (∀ a b, a ≤ 31 → b ≤ 31 → c.blocksize = 2 ^ a → c.icacheSets = 2 ^ b →
      (init_cache c).blockoffset = a ∧ (init_cache c).icacheIndex = b ∧
      add32 (add32 (init_cache c).blockoffset (init_cache c).icacheIndex)
        (init_cache c).icacheTag = 32 ∧
      (a + b ≤ 32 → (init_cache c).icacheTag = 32 - b - a ∧
        (init_cache c).blockoffset + (init_cache c).icacheIndex + (init_cache c).icacheTag
          = 32)) ∧
    (∀ a b, a ≤ 31 → b ≤ 31 → c.blocksize = 2 ^ a → c.dcacheSets = 2 ^ b →
      (init_cache c).blockoffset = a ∧ (init_cache c).dcacheIndex = b ∧
      add32 (add32 (init_cache c).blockoffset (init_cache c).dcacheIndex)
        (init_cache c).dcacheTag = 32 ∧
      (a + b ≤ 32 → (init_cache c).dcacheTag = 32 - b - a ∧
        (init_cache c).blockoffset + (init_cache c).dcacheIndex + (init_cache c).dcacheTag
          = 32)) ∧
    (∀ a b, a ≤ 31 → b ≤ 31 → c.blocksize = 2 ^ a → c.l2cacheSets = 2 ^ b →
      (init_cache c).blockoffset = a ∧ (init_cache c).l2cacheIndex = b ∧
      add32 (add32 (init_cache c).blockoffset (init_cache c).l2cacheIndex)
        (init_cache c).l2cacheTag = 32 ∧
      (a + b ≤ 32 → (init_cache c).l2cacheTag = 32 - b - a ∧
        (init_cache c).blockoffset + (init_cache c).l2cacheIndex + (init_cache c).l2cacheTag
          = 32)) := by
  have key : ∀ sets a b, a ≤ 31 → b ≤ 31 → c.blocksize = 2 ^ a → sets = 2 ^ b →
      logTwo c.blocksize = a ∧ logTwo sets = b ∧
      add32 (add32 (logTwo c.blocksize) (logTwo sets))
        (sub32 (sub32 32 (logTwo sets)) (logTwo c.blocksize)) = 32 ∧
      (a + b ≤ 32 → sub32 (sub32 32 (logTwo sets)) (logTwo c.blocksize) = 32 - b - a ∧
        logTwo c.blocksize + logTwo sets
          + sub32 (sub32 32 (logTwo sets)) (logTwo c.blocksize) = 32) := by
    intro sets a b ha hb h1 h2
    obtain ⟨w1, w2, w3, w4⟩ := init_widths c sets a b ha hb h1 h2
    rw [w1, w2]
    exact ⟨rfl, rfl, w3, w4⟩
  refine ⟨fun fuel hf => ?_, logTwo_eq_log hx, fun h1 => ?_, fun h0 => ?_, fun k hk hxk => ?_,
    fun a b ha hb h1 h2 => key _ a b ha hb h1 h2, fun a b ha hb h1 h2 => key _ a b ha hb h1 h2,
    fun a b ha hb h1 h2 => key _ a b ha hb h1 h2⟩
  · have hlt : x < 2 ^ fuel := lt_of_lt_of_le hx (Nat.pow_le_pow_right (by decide) hf)
    rw [logTwoLoop_eq_log fuel x 0 hlt, logTwo_eq_log hx, Nat.zero_add]
  · rw [logTwo_eq_log hx]
    exact ⟨Nat.pow_log_le_self 2 (by omega), Nat.lt_pow_succ_log_self (by decide) x⟩
  · subst h0
    rfl
  · rw [hxk]
    exact logTwo_pow hk

/-- Counterexample to C19 as stated: a block size of `2^31` and `4 = 2^2` I$ sets are both
powers of two, `init_cache` computes 31 offset bits, 2 index bits and the tag width
`32 - 2 - 31` as the 32-bit value `2^32 - 1`, so the three widths do not sum to 32. -/
theorem bit_widths_counterexample :
    cfgWide.blocksize = 2 ^ 31 ∧ cfgWide.icacheSets = 2 ^ 2 ∧
    (init_cache cfgWide).blockoffset = 31 ∧ (init_cache cfgWide).icacheIndex = 2 ∧
    (init_cache cfgWide).icacheTag = 2 ^ 32 - 1 ∧
    (init_cache cfgWide).blockoffset + (init_cache cfgWide).icacheIndex
      + (init_cache cfgWide).icacheTag ≠ 32 := by
  decide

/-- Witness for C19: `logTwo 32 = 5`, and the two-set configuration with 32-byte blocks gets
5 offset bits, 1 index bit and 26 tag bits in each cache. -/
theorem logTwo_bit_widths_witness :
    logTwo 32 = 5 ∧ (init_cache cfgTwoSets).blockoffset = 5 ∧
      (init_cache cfgTwoSets).icacheIndex = 1 ∧ (init_cache cfgTwoSets).icacheTag = 26 ∧
      (init_cache cfgTwoSets).blockoffset + (init_cache cfgTwoSets).icacheIndex
        + (init_cache cfgTwoSets).icacheTag = 32 := by
  have w := logTwo_bit_widths 32 cfgTwoSets (by decide)
  obtain ⟨w1, w2, _, w4⟩ := w.2.2.2.2.2.1 5 1 (by decide) (by decide) (by decide) (by decide)
  obtain ⟨w5, w6⟩ := w4 (by decide)
  exact ⟨w.2.2.2.2.1 5 (by decide) (by decide), w1, w2, w5, w6⟩

/-! ## Shape of the storage -/

theorem shapeOf_set {cache : List (List entry)} {i : Nat} {set set' : List entry}
    (hs : cache[i]? = some set) (hl : set'.length = set.length) :
    shapeOf (cache.set i set') = shapeOf cache := by
  unfold shapeOf
  apply List.ext_getElem?
  intro n
  simp only [List.getElem?_map, List.getElem?_set]
  by_cases h : i = n
  · subst h
    have hi : i < cache.length := by
      by_contra hc
      rw [List.getElem?_eq_none (by omega)] at hs
      cases hs
    simp [hs, hl, hi]
  · simp [h]

theorem shapeOf_setLine (cache : List (List entry)) (i j : Nat) (e : entry) :
    shapeOf (setLine cache i j e) = shapeOf cache := by
  unfold setLine
  cases hs : cache[i]? with
  | none => rfl
  | some set => exact shapeOf_set hs (List.length_set _ _ _)

theorem lookup_shape {cache c' : List (List entry)} {assoc si tag refs : Nat}
    (h : lookup cache assoc si tag refs = some (some c')) : shapeOf c' = shapeOf cache := by
  obtain ⟨k, e, _, _, _, _, rfl, _⟩ := lookup_hit h
  exact shapeOf_setLine _ _ _ _

theorem install_shape {cache c' : List (List entry)} {assoc si tag refs : Nat}
    (h : install cache assoc si tag refs = some c') : shapeOf c' = shapeOf cache := by
  obtain ⟨k, e, _, _, rfl, _⟩ := install_spec h
  exact shapeOf_setLine _ _ _ _

theorem backInvalidate_shape {cache c' : List (List entry)}
    {sets assoc bo idx tg evict_addr : Nat}
    (h : backInvalidate cache sets assoc bo idx tg evict_addr = some c') :
    shapeOf c' = shapeOf cache := by
  unfold backInvalidate at h
  by_cases h0 : sets = 0
  · simp only [h0, ne_eq, not_true_eq_false, if_false, Option.some.injEq] at h
    rw [h]
  · simp only [ne_eq, h0, not_false_eq_true, if_true] at h
    cases hd : decode bo idx tg evict_addr with
    | none => simp [hd] at h
    | some ts =>
      obtain ⟨xt, xs⟩ := ts
      simp only [hd] at h
      by_cases ha : assoc = 0
      · simp only [ha, if_true, Option.some.injEq] at h
        rw [h]
      · simp only [ha, if_false] at h
        cases hs : cache[xs]? with
        | none => simp [hs] at h
        | some set =>
          simp only [hs] at h
          cases hi : invalidateScan xt set assoc 0 with
          | none => simp [hi] at h
          | some set' =>
            simp only [hi, Option.some.injEq] at h
            rw [← h]
            exact shapeOf_set hs (invalidateScan_spec assoc 0 set set' hi).1

theorem SameShape.shape_refl (s : State) : SameShape s s := ⟨rfl, rfl, rfl⟩

theorem SameShape.shape_trans {a b c : State} (h1 : SameShape a b) (h2 : SameShape b c) :
    SameShape a c :=
  ⟨h2.1.trans h1.1, h2.2.1.trans h1.2.1, h2.2.2.trans h1.2.2⟩

theorem l2cache_access_shape {s s' : State} {addr p : Nat}
    (h : l2cache_access s addr = some (s', p)) : SameShape s s' := by
  rcases l2cache_access_cases h with ⟨_, rfl, _⟩ | ⟨_, tag, si, _, h1⟩
  · exact SameShape.shape_refl _
  · rcases h1 with ⟨l2, hl, rfl, _⟩ | ⟨_, _, set, hs, h2⟩
    · exact ⟨rfl, rfl, lookup_shape hl⟩
    · rcases h2 with ⟨set', hm, rfl⟩ | ⟨ej, set', ic, dc, hm, hw, hinc, rfl⟩
      · exact ⟨rfl, rfl, install_shape (install_of_inl hs hm)⟩
      · have h3 := install_shape (install_of_inr hs hm hw)
        rcases hinc with ⟨_, rfl, rfl⟩ | ⟨_, ev, ea, _, _, bi, bd⟩
        · exact ⟨rfl, rfl, h3⟩
        · exact ⟨backInvalidate_shape bi, backInvalidate_shape bd, h3⟩

theorem icache_access_shape {s s' : State} {addr r : Nat}
    (h : icache_access s addr = some (s', r)) : SameShape s s' := by
  rcases icache_access_cases h with ⟨_, h2⟩ | ⟨_, tag, si, _, h1⟩
  · exact l2cache_access_shape h2
  · rcases h1 with ⟨ic, hl, rfl, _⟩ | ⟨_, s2, p, ic, h2, hin, rfl, _⟩
    · exact ⟨lookup_shape hl, rfl, rfl⟩
    · obtain ⟨a1, a2, a3⟩ := l2cache_access_shape h2
      exact ⟨(install_shape hin).trans a1, a2, a3⟩

theorem dcache_access_shape {s s' : State} {addr r : Nat}
    (h : dcache_access s addr = some (s', r)) : SameShape s s' := by
  rcases dcache_access_cases h with ⟨_, h2⟩ | ⟨_, tag, si, _, h1⟩
  · exact l2cache_access_shape h2
  · rcases h1 with ⟨dc, hl, rfl, _⟩ | ⟨_, s2, p, dc, h2, hin, rfl, _⟩
    · exact ⟨rfl, lookup_shape hl, rfl⟩
    · obtain ⟨a1, a2, a3⟩ := l2cache_access_shape h2
      exact ⟨a1, (install_shape hin).trans a2, a3⟩

theorem step_shape {s s' : State} {op : Op} {r : Nat} (h : step s op = some (s', r)) :
    SameShape s s' := by
  cases op with
  | I a => exact icache_access_shape h
  | D a => exact dcache_access_shape h

theorem run_shape : ∀ (ops : List Op) (s s' : State), run s ops = some s' → SameShape s s' := by
  intro ops
  induction ops with
  | nil =>
    intro s s' h
    simp only [run, Option.some.injEq] at h
    subst h
    exact SameShape.shape_refl _
  | cons op ops ih =>
    intro s s' h
    unfold run at h
    cases hs : step s op with
    | none => simp [hs] at h
    | some sr =>
      obtain ⟨s1, r⟩ := sr
      simp only [hs] at h
      exact (step_shape hs).shape_trans (ih s1 s' h)

theorem shapeOf_initStore (sets assoc : Nat) :
    shapeOf (initStore sets assoc) = List.replicate sets assoc := by
  unfold shapeOf initStore
  by_cases h : sets = 0
  · subst h
    rfl
  · simp [h]

theorem shape_of_shapeOf {cache : List (List entry)} {sets assoc : Nat}
    (h : shapeOf cache = List.replicate sets assoc) : Shape cache sets assoc := by
  unfold shapeOf at h
  constructor
  · have := congrArg List.length h
    simpa using this
  · intro set hm
    have h1 : set.length ∈ cache.map List.length := List.mem_map_of_mem _ hm
    rw [h] at h1
    have h2 : set.length = assoc := (List.mem_replicate.mp h1).2
    exact ⟨h2, by rw [← h2]; exact List.countP_le_length _⟩

/-- C11 (capacity bound). Every defined `icache_access` / `dcache_access` call, and every
defined `l2cache_access` call, leaves the shape of the three storages as it was (number of
sets, number of line slots of each set). Hence after every sequence of accesses that runs
from the state of `init_cache`, each cache has exactly its configured number of sets, each
set has exactly `associativity` line slots, and so no set holds more than `associativity`
valid lines. And the run does reach a state whenever each instantiated cache has at least two
sets and one way, offset and index bits leave a tag bit, and there are at most `2^64 - 1`
accesses. -/
theorem capacity_bound (c : Config) (ops : List Op) :
    (∀ s s' op r, step s op = some (s', r) → SameShape s s') ∧
    (∀ s s' addr p, l2cache_access s addr = some (s', p) → SameShape s s') ∧
    (∀ s, run (init_cache c) ops = some s →
      Shape s.icache c.icacheSets c.icacheAssoc ∧ Shape s.dcache c.dcacheSets c.dcacheAssoc ∧
      Shape s.l2cache c.l2cacheSets c.l2cacheAssoc) ∧
    (GoodConfig c → ops.length ≤ ULONG_MAX → ∃ s, run (init_cache c) ops = some s) := by
  refine ⟨fun s s' op r h => step_shape h, fun s s' addr p h => l2cache_access_shape h,
    fun s h => ?_, fun hc hlen => run_defined c ops hc hlen⟩
  obtain ⟨a1, a2, a3⟩ := run_shape ops _ s h
  exact ⟨shape_of_shapeOf (a1.trans (shapeOf_initStore _ _)),
    shape_of_shapeOf (a2.trans (shapeOf_initStore _ _)),
    shape_of_shapeOf (a3.trans (shapeOf_initStore _ _))⟩

/-- Witness for C11: a run with hits, installs, evictions and back-invalidations; each cache
still has its two sets of one line slot. -/
theorem capacity_bound_witness :
    ∃ s, run (init_cache cfgTwoSets)
        [Op.I 0x1000, Op.D 0x1000, Op.D 0x2040, Op.I 0x3000, Op.I 0x3000] = some s ∧
      Shape s.icache 2 1 ∧ Shape s.dcache 2 1 ∧ Shape s.l2cache 2 1 := by
  have w := capacity_bound cfgTwoSets
    [Op.I 0x1000, Op.D 0x1000, Op.D 0x2040, Op.I 0x3000, Op.I 0x3000]
  obtain ⟨s, h⟩ := w.2.2.2 (by decide) (by decide)
  exact ⟨s, h, w.2.2.1 s h⟩

/-! ## What a miss does to the storage -/

theorem installed_setLine {cache : List (List entry)} {si k : Nat} {e0 : entry}
    (h : line cache si k = some e0) (tag refs : Nat) :
    Installed cache (setLine cache si k { tag := tag, timestamp := refs, valid := true })
      si k tag refs := by
  refine ⟨rfl, ?_, fun i j hne => ?_⟩
  · rw [line_setLine h, if_pos ⟨rfl, rfl⟩]
  · rw [line_setLine h, if_neg]
    rintro ⟨rfl, rfl⟩
    rcases hne with c | c <;> exact c rfl

theorem install_free {cache c' : List (List entry)} {assoc si tag refs : Nat}
    (h : install cache assoc si tag refs = some c') (hf : HasFree cache assoc si) :
    ∃ k, k < assoc ∧ FirstFree cache si k ∧ Installed cache c' si k tag refs := by
  obtain ⟨k, e, a1, a2, rfl, a4, a5⟩ := install_spec h
  refine ⟨k, a1, ⟨⟨e, a2, ?_⟩, a4⟩, installed_setLine a2 tag refs⟩
  rcases a5 with c | ⟨c, _⟩
  · exact c
  · obtain ⟨j, ej, b1, b2, b3⟩ := hf
    obtain ⟨e', d1, d2⟩ := c j b1
    rw [b2] at d1
    cases d1
    rw [b3] at d2
    cases d2

theorem install_full {cache c' : List (List entry)} {assoc si tag refs : Nat}
    (h : install cache assoc si tag refs = some c') (hf : Full cache assoc si) :
    ∃ k, k < assoc ∧ FirstOldest cache assoc si k ∧ Installed cache c' si k tag refs := by
  obtain ⟨k, e, a1, a2, rfl, a4, a5⟩ := install_spec h
  obtain ⟨e', d1, d2⟩ := hf k a1
  rw [a2] at d1
  cases d1
  refine ⟨k, a1, ⟨e, a2, d2, ?_⟩, installed_setLine a2 tag refs⟩
  rcases a5 with c | ⟨_, _, c1, c2⟩
  · rw [c] at d2
    cases d2
  · exact ⟨c1, c2⟩

theorem not_full_of_hasFree {cache : List (List entry)} {assoc si : Nat}
    (hf : HasFree cache assoc si) : ¬Full cache assoc si := by
  intro c
  obtain ⟨j, ej, b1, b2, b3⟩ := hf
  obtain ⟨e', d1, d2⟩ := c j b1
  rw [b2] at d1
  cases d1
  rw [b3] at d2
  cases d2

theorem full_of_missScan_inr {cache : List (List entry)} {assoc si tag refs : Nat}
    {set : List entry} {ej : Int} (hs : cache[si]? = some set)
    (hm : missScan set tag refs assoc 0 ULONG_MAX (-1) = some (Sum.inr ej)) :
    Full cache assoc si := by
  intro j hj
  obtain ⟨e, a1, a2⟩ := (missScan_inr assoc 0 ULONG_MAX (-1) ej hm).1 j (Nat.zero_le _) (by omega)
  exact ⟨e, by simp [line, hs, a1], a2⟩

theorem hasFree_of_missScan_inl {cache : List (List entry)} {assoc si tag refs : Nat}
    {set set' : List entry} (hs : cache[si]? = some set)
    (hm : missScan set tag refs assoc 0 ULONG_MAX (-1) = some (Sum.inl set')) :
    HasFree cache assoc si := by
  obtain ⟨k, e, _, a2, a3, a4, _⟩ := missScan_inl assoc 0 ULONG_MAX (-1) hm
  exact ⟨k, e, by omega, by simp [line, hs, a3], a4⟩

theorem icache_access_miss {s s' : State} {addr r tag si : Nat} (h0 : s.icacheSets ≠ 0)
    (hd : decode s.blockoffset s.icacheIndex s.icacheTag addr = some (tag, si))
    (hn : ¬Holds s.icache s.icacheAssoc si tag) (h : icache_access s addr = some (s', r)) :
    ∃ s2 p ic, l2cache_access (icacheMissState s) addr = some (s2, p) ∧
      install s2.icache s.icacheAssoc si tag (add64 s.icacheRefs 1) = some ic ∧
      s' = { s2 with icachePenalties := add64 s2.icachePenalties p, icache := ic } ∧
      r = add32 s.icacheHitTime p := by
  rcases icache_access_cases h with ⟨c, _⟩ | ⟨_, tag', si', hd', h1⟩
  · exact absurd c h0
  · rw [hd] at hd'
    simp only [Option.some.injEq, Prod.mk.injEq] at hd'
    obtain ⟨rfl, rfl⟩ := hd'
    rcases h1 with ⟨ic, hl, _, _⟩ | ⟨_, s2, p, ic, h2, hin, hs', hr⟩
    · exact absurd (holds_of_lookup_hit hl) hn
    · obtain ⟨f, g⟩ := l2cache_access_frame h2
      have e1 : s2.icacheAssoc = s.icacheAssoc := f.icacheAssoc
      have e2 : s2.icacheRefs = add64 s.icacheRefs 1 := g.icacheRefs
      have e3 : s2.icacheHitTime = s.icacheHitTime := f.icacheHitTime
      rw [e1, e2] at hin
      rw [e3] at hr
      exact ⟨s2, p, ic, h2, hin, hs', hr⟩

theorem dcache_access_miss {s s' : State} {addr r tag si : Nat} (h0 : s.dcacheSets ≠ 0)
    (hd : decode s.blockoffset s.dcacheIndex s.dcacheTag addr = some (tag, si))
    (hn : ¬Holds s.dcache s.dcacheAssoc si tag) (h : dcache_access s addr = some (s', r)) :
    ∃ s2 p dc, l2cache_access (dcacheMissState s) addr = some (s2, p) ∧
      install s2.dcache s.dcacheAssoc si tag (add64 s.dcacheRefs 1) = some dc ∧
      s' = { s2 with dcachePenalties := add64 s2.dcachePenalties p, dcache := dc } ∧
      r = add32 s.dcacheHitTime p := by
  rcases dcache_access_cases h with ⟨c, _⟩ | ⟨_, tag', si', hd', h1⟩
  · exact absurd c h0
  · rw [hd] at hd'
    simp only [Option.some.injEq, Prod.mk.injEq] at hd'
    obtain ⟨rfl, rfl⟩ := hd'
    rcases h1 with ⟨dc, hl, _, _⟩ | ⟨_, s2, p, dc, h2, hin, hs', hr⟩
    · exact absurd (holds_of_lookup_hit hl) hn
    · obtain ⟨f, g⟩ := l2cache_access_frame h2
      have e1 : s2.dcacheAssoc = s.dcacheAssoc := f.dcacheAssoc
      have e2 : s2.dcacheRefs = add64 s.dcacheRefs 1 := g.dcacheRefs
      have e3 : s2.dcacheHitTime = s.dcacheHitTime := f.dcacheHitTime
      rw [e1, e2] at hin
      rw [e3] at hr
      exact ⟨s2, p, dc, h2, hin, hs', hr⟩

/-- A miss of an instantiated L2: the storage goes through the miss loop and the victim
write, and the L1 caches are untouched unless the set was full. -/
theorem l2cache_access_miss {s s' : State} {addr p tag si : Nat} (h0 : s.l2cacheSets ≠ 0)
    (hd : decode s.blockoffset s.l2cacheIndex s.l2cacheTag addr = some (tag, si))
    (hn : ¬Holds s.l2cache s.l2cacheAssoc si tag) (h : l2cache_access s addr = some (s', p)) :
    install s.l2cache s.l2cacheAssoc si tag (add64 s.l2cacheRefs 1) = some s'.l2cache ∧
      (¬Full s.l2cache s.l2cacheAssoc si → s'.icache = s.icache ∧ s'.dcache = s.dcache) := by
  rcases l2cache_access_cases h with ⟨c, _⟩ | ⟨_, tag', si', hd', h1⟩
  · exact absurd c h0
  · rw [hd] at hd'
    simp only [Option.some.injEq, Prod.mk.injEq] at hd'
    obtain ⟨rfl, rfl⟩ := hd'
    rcases h1 with ⟨l2, hl, _, _⟩ | ⟨_, _, set, hs, h2⟩
    · exact absurd (holds_of_lookup_hit hl) hn
    · rcases h2 with ⟨set', hm, rfl⟩ | ⟨ej, set', ic, dc, hm, hw, _, rfl⟩
      · exact ⟨install_of_inl hs hm, fun _ => ⟨rfl, rfl⟩⟩
      · exact ⟨install_of_inr hs hm hw, fun c => absurd (full_of_missScan_inr hs hm) c⟩

theorem line_eq_of_shrinks_valid {c c' : List (List entry)} (h : Shrinks c c') {i j : Nat}
    {e : entry} (hl : line c' i j = some e) (hv : e.valid = true) : line c i j = some e := by
  rcases h i j with a | ⟨e0, a1, a2⟩
  · rw [← a]; exact hl
  · rw [hl] at a2
    cases a2
    cases hv

theorem tagStamp_of_shrinks {c c' : List (List entry)} (h : Shrinks c c') (i j : Nat) :
    (line c' i j).map tagStamp = (line c i j).map tagStamp := by
  rcases h i j with a | ⟨e0, a1, a2⟩
  · rw [a]
  · rw [a1, a2]
    rfl

theorem firstOldest_of_shrinks {c c' : List (List entry)} {assoc si k : Nat}
    (h : Shrinks c c') (hf : Full c' assoc si) (hk : k < assoc)
    (ho : FirstOldest c' assoc si k) : FirstOldest c assoc si k := by
  have key : ∀ j, j < assoc → line c si j = line c' si j := fun j hj => by
    obtain ⟨e, a1, a2⟩ := hf j hj
    rw [a1]
    exact line_eq_of_shrinks_valid h a1 a2
  obtain ⟨e0, a1, a2, a3, a4⟩ := ho
  refine ⟨e0, by rw [key k hk]; exact a1, a2, fun j e hj hl => ?_, fun j e hj hl => ?_⟩
  · rw [key j hj] at hl
    exact a3 j e hj hl
  · rw [key j (by omega)] at hl
    exact a4 j e hj hl

/-- C12 (as amended: victim selection in a set that is full when it is scanned). Take any
state and address whose access misses in an instantiated cache, the call being defined, and
let all `assoc` ways of the target set be valid, for the I$ and the D$ as the storage stands
when `l2cache_access` has returned (`s2`), which is the case whenever the set was full before
and the L2 is not inclusive or not instantiated. Then exactly one way `k` of the cache gets a
new tag and timestamp: `k` is the lowest-indexed way among those whose timestamp is the
minimum over the set (in the state before the access), it becomes a valid line with the
address's tag and the just-incremented reference counter as timestamp, and every other way of
every set keeps its tag and timestamp (those ways are as `l2cache_access` left them, which
changes valid bits only). The three calls are defined in every ready state whose reference
counters are below `ULONG_MAX`. -/
theorem victim_selection (s s2 s' : State) (addr r p tag si : Nat) :
    (s.icacheSets ≠ 0 →
      decode s.blockoffset s.icacheIndex s.icacheTag addr = some (tag, si) →
      ¬Holds s.icache s.icacheAssoc si tag →
      l2cache_access (icacheMissState s) addr = some (s2, p) →
      (NoBackInval s → Full s.icache s.icacheAssoc si → Full s2.icache s.icacheAssoc si) ∧
      (Full s2.icache s.icacheAssoc si → icache_access s addr = some (s', r) →
        s'.icacheRefs = add64 s.icacheRefs 1 ∧
        ∃ k, k < s.icacheAssoc ∧ FirstOldest s.icache s.icacheAssoc si k ∧
          Installed s2.icache s'.icache si k tag s'.icacheRefs ∧
          ∀ i j, (i ≠ si ∨ j ≠ k) →
            (line s'.icache i j).map tagStamp = (line s.icache i j).map tagStamp)) ∧
    (s.dcacheSets ≠ 0 →
      decode s.blockoffset s.dcacheIndex s.dcacheTag addr = some (tag, si) →
      ¬Holds s.dcache s.dcacheAssoc si tag →
      l2cache_access (dcacheMissState s) addr = some (s2, p) →
      (NoBackInval s → Full s.dcache s.dcacheAssoc si → Full s2.dcache s.dcacheAssoc si) ∧
      (Full s2.dcache s.dcacheAssoc si → dcache_access s addr = some (s', r) →
        s'.dcacheRefs = add64 s.dcacheRefs 1 ∧
        ∃ k, k < s.dcacheAssoc ∧ FirstOldest s.dcache s.dcacheAssoc si k ∧
          Installed s2.dcache s'.dcache si k tag s'.dcacheRefs ∧
          ∀ i j, (i ≠ si ∨ j ≠ k) →
            (line s'.dcache i j).map tagStamp = (line s.dcache i j).map tagStamp)) ∧
    (s.l2cacheSets ≠ 0 →
      decode s.blockoffset s.l2cacheIndex s.l2cacheTag addr = some (tag, si) →
      ¬Holds s.l2cache s.l2cacheAssoc si tag →
      Full s.l2cache s.l2cacheAssoc si → l2cache_access s addr = some (s', p) →
      s'.l2cacheRefs = add64 s.l2cacheRefs 1 ∧
      ∃ k, k < s.l2cacheAssoc ∧ FirstOldest s.l2cache s.l2cacheAssoc si k ∧
        Installed s.l2cache s'.l2cache si k tag s'.l2cacheRefs) ∧
    (Ready s → s.icacheRefs < ULONG_MAX → s.dcacheRefs < ULONG_MAX →
      s.l2cacheRefs < ULONG_MAX →
      (∃ t q, icache_access s addr = some (t, q)) ∧
      (∃ t q, dcache_access s addr = some (t, q)) ∧
      (∃ t q, l2cache_access s addr = some (t, q))) := by
  refine ⟨fun h0 hd hn h2 => ⟨fun hnb hf => ?_, fun hf h => ?_⟩,
    fun h0 hd hn h2 => ⟨fun hnb hf => ?_, fun hf h => ?_⟩, fun h0 hd hn hf h => ?_,
    fun hr b1 b2 b3 => ⟨icache_access_total addr hr b1 b3, dcache_access_total addr hr b2 b3,
      l2cache_access_total addr hr.1 hr.2.2.2 b3⟩⟩
  · have e : s2.icache = s.icache := (@l2cache_access_noBackInval (icacheMissState s) s2 addr p hnb h2).1
    rw [e]
    exact hf
  · obtain ⟨t2, q, ic, g2, hin, rfl, _⟩ := icache_access_miss h0 hd hn h
    rw [h2] at g2
    simp only [Option.some.injEq, Prod.mk.injEq] at g2
    obtain ⟨rfl, rfl⟩ := g2
    have e : s2.icacheRefs = add64 s.icacheRefs 1 := (l2cache_access_frame h2).2.icacheRefs
    have sh : Shrinks s.icache s2.icache := (l2cache_access_shrinks h2).1
    refine ⟨e, ?_⟩
    obtain ⟨k, a1, a2, a3⟩ := install_full hin hf
    refine ⟨k, a1, firstOldest_of_shrinks sh hf a1 a2, ?_, fun i j hne => ?_⟩
    · show Installed s2.icache ic si k tag s2.icacheRefs
      rw [e]
      exact a3
    · show (line ic i j).map tagStamp = (line s.icache i j).map tagStamp
      rw [a3.2.2 i j hne]
      exact tagStamp_of_shrinks sh i j
  · have e : s2.dcache = s.dcache := (@l2cache_access_noBackInval (dcacheMissState s) s2 addr p hnb h2).2
    rw [e]
    exact hf
  · obtain ⟨t2, q, dc, g2, hin, rfl, _⟩ := dcache_access_miss h0 hd hn h
    rw [h2] at g2
    simp only [Option.some.injEq, Prod.mk.injEq] at g2
    obtain ⟨rfl, rfl⟩ := g2
    have e : s2.dcacheRefs = add64 s.dcacheRefs 1 := (l2cache_access_frame h2).2.dcacheRefs
    have sh : Shrinks s.dcache s2.dcache := (l2cache_access_shrinks h2).2
    refine ⟨e, ?_⟩
    obtain ⟨k, a1, a2, a3⟩ := install_full hin hf
    refine ⟨k, a1, firstOldest_of_shrinks sh hf a1 a2, ?_, fun i j hne => ?_⟩
    · show Installed s2.dcache dc si k tag s2.dcacheRefs
      rw [e]
      exact a3
    · show (line dc i j).map tagStamp = (line s.dcache i j).map tagStamp
      rw [a3.2.2 i j hne]
      exact tagStamp_of_shrinks sh i j
  · obtain ⟨hin, _⟩ := l2cache_access_miss h0 hd hn h
    obtain ⟨_, _, _, e, _⟩ := l2cache_access_result h0 h
    refine ⟨e, ?_⟩
    rw [e]
    exact install_full hin hf

/-- Counterexample to C12 as stated (full before the access): two-way I$ over a direct-mapped
inclusive L2 with four sets. After fetching `0x0` and `0x40` set 0 of the I$ is full, way 0
(`0x0`, timestamp 1) being the lowest-indexed way with the minimum timestamp. The fetch of
`0xC0` misses in that set; its L2 call evicts the block `0x40` and back-invalidates way 1 of
the I$ set, so the I$ then installs into way 1 and leaves way 0 as it was. -/
theorem victim_counterexample :
    ∃ s s' r, run (init_cache cfgFourSetL2) [Op.I 0x0, Op.I 0x40] = some s ∧
      decode s.blockoffset s.icacheIndex s.icacheTag 0xC0 = some (3, 0) ∧
      ¬Holds s.icache s.icacheAssoc 0 3 ∧ Full s.icache s.icacheAssoc 0 ∧
      FirstOldest s.icache s.icacheAssoc 0 0 ∧
      icache_access s 0xC0 = some (s', r) ∧
      line s'.icache 0 0 = line s.icache 0 0 ∧
      line s.icache 0 1 = some { tag := 1, timestamp := 2, valid := true } ∧
      line s'.icache 0 1 = some { tag := 3, timestamp := 3, valid := true } := by
  obtain ⟨s, h⟩ := Option.isSome_iff_exists.mp
    (by decide : (run (init_cache cfgFourSetL2) [Op.I 0x0, Op.I 0x40]).isSome = true)
  have hs : (icache_access s 0xC0).isSome = true :=
    eval_at (fun x => (icache_access x 0xC0).isSome) _ h (by decide)
  obtain ⟨⟨s', r⟩, h'⟩ := Option.isSome_iff_exists.mp hs
  have hd : decode s.blockoffset s.icacheIndex s.icacheTag 0xC0 = some (3, 0) :=
    eval_at (fun x => decode x.blockoffset x.icacheIndex x.icacheTag 0xC0) _ h (by decide)
  have ha : s.icacheAssoc = 2 := eval_at (fun x => x.icacheAssoc) _ h (by decide)
  have l0 : line s.icache 0 0 = some { tag := 0, timestamp := 1, valid := true } :=
    eval_at (fun x => line x.icache 0 0) _ h (by decide)
  have l1 : line s.icache 0 1 = some { tag := 1, timestamp := 2, valid := true } :=
    eval_at (fun x => line x.icache 0 1) _ h (by decide)
  have f1 : holdsB s.icache s.icacheAssoc 0 3 = false :=
    eval_at (fun x => holdsB x.icache x.icacheAssoc 0 3) _ h (by decide)
  have f2 : fullB s.icache s.icacheAssoc 0 = true :=
    eval_at (fun x => fullB x.icache x.icacheAssoc 0) _ h (by decide)
  have m0 : (icache_access s 0xC0).map (fun y => line y.1.icache 0 0)
      = some (some { tag := 0, timestamp := 1, valid := true }) :=
    eval_at (fun x => (icache_access x 0xC0).map (fun y => line y.1.icache 0 0)) _ h
      (by decide)
  have m1 : (icache_access s 0xC0).map (fun y => line y.1.icache 0 1)
      = some (some { tag := 3, timestamp := 3, valid := true }) :=
    eval_at (fun x => (icache_access x 0xC0).map (fun y => line y.1.icache 0 1)) _ h
      (by decide)
  have n0 := eval_at (fun y : State × Nat => line y.1.icache 0 0) _ h' m0
  have n1 := eval_at (fun y : State × Nat => line y.1.icache 0 1) _ h' m1
  refine ⟨s, s', r, h, hd, (fun c => by rw [holds_iff.mp c] at f1; cases f1), full_iff.mpr f2,
    ⟨_, l0, rfl, fun j e hj hl => ?_, fun j e hj _ => absurd hj (Nat.not_lt_zero j)⟩,
    h', by rw [l0]; exact n0, l1, n1⟩
  rw [ha] at hj
  interval_cases j
  · rw [l0] at hl
    cases hl
    exact le_refl _
  · rw [l1] at hl
    cases hl
    decide

/-- Witness for the amended C12: in the two-way I$ over a non-inclusive L2, after fetching
`0x1000` and `0x2000` the fetch of `0x3000` finds set 0 full and overwrites its oldest way;
in the direct-mapped inclusive L2, after `0x1000` the access to `0x2000` overwrites the only
way of set 0. -/
theorem victim_selection_witness :
    (∃ s s2 p s' r k, run (init_cache cfgTwoWays) [Op.I 0x1000, Op.I 0x2000] = some s ∧
      l2cache_access (icacheMissState s) 0x3000 = some (s2, p) ∧
      icache_access s 0x3000 = some (s', r) ∧ k < s.icacheAssoc ∧
      FirstOldest s.icache s.icacheAssoc 0 k ∧
      Installed s2.icache s'.icache 0 k 192 s'.icacheRefs) ∧
    (∃ s s' p k, run (init_cache cfgTwoSets) [Op.I 0x1000] = some s ∧
      l2cache_access s 0x2000 = some (s', p) ∧ k < s.l2cacheAssoc ∧
      FirstOldest s.l2cache s.l2cacheAssoc 0 k ∧
      Installed s.l2cache s'.l2cache 0 k 128 s'.l2cacheRefs) := by
  constructor
  · obtain ⟨s, h⟩ := Option.isSome_iff_exists.mp
      (by decide : (run (init_cache cfgTwoWays) [Op.I 0x1000, Op.I 0x2000]).isSome = true)
    obtain ⟨⟨s2, p⟩, h2⟩ := Option.isSome_iff_exists.mp
      (eval_at (fun x => (l2cache_access (icacheMissState x) 0x3000).isSome) true h
        (by decide))
    obtain ⟨⟨s', r⟩, h'⟩ := Option.isSome_iff_exists.mp
      (eval_at (fun x => (icache_access x 0x3000).isSome) true h (by decide))
    have h0 : s.icacheSets = 2 := eval_at (fun x => x.icacheSets) _ h (by decide)
    have hi : s.inclusive = 0 := eval_at (fun x => x.inclusive) _ h (by decide)
    have hd : decode s.blockoffset s.icacheIndex s.icacheTag 0x3000 = some (192, 0) :=
      eval_at (fun x => decode x.blockoffset x.icacheIndex x.icacheTag 0x3000) _ h (by decide)
    have f1 : holdsB s.icache s.icacheAssoc 0 192 = false :=
      eval_at (fun x => holdsB x.icache x.icacheAssoc 0 192) _ h (by decide)
    have f2 : fullB s.icache s.icacheAssoc 0 = true :=
      eval_at (fun x => fullB x.icache x.icacheAssoc 0) _ h (by decide)
    obtain ⟨w1, w2⟩ := (victim_selection s s2 s' 0x3000 r p 192 0).1 (by rw [h0]; decide) hd
      (fun c => by rw [holds_iff.mp c] at f1; cases f1) h2
    obtain ⟨_, k, a1, a2, a3, _⟩ :=
      w2 (w1 (Or.inl (by rw [hi]; decide)) (full_iff.mpr f2)) h'
    exact ⟨s, s2, p, s', r, k, h, h2, h', a1, a2, a3⟩
  · obtain ⟨s, h⟩ := Option.isSome_iff_exists.mp
      (by decide : (run (init_cache cfgTwoSets) [Op.I 0x1000]).isSome = true)
    obtain ⟨⟨s', p⟩, h'⟩ := Option.isSome_iff_exists.mp
      (eval_at (fun x => (l2cache_access x 0x2000).isSome) true h (by decide))
    have h0 : s.l2cacheSets = 2 := eval_at (fun x => x.l2cacheSets) _ h (by decide)
    have hd : decode s.blockoffset s.l2cacheIndex s.l2cacheTag 0x2000 = some (128, 0) :=
      eval_at (fun x => decode x.blockoffset x.l2cacheIndex x.l2cacheTag 0x2000) _ h
        (by decide)
    have f1 : holdsB s.l2cache s.l2cacheAssoc 0 128 = false :=
      eval_at (fun x => holdsB x.l2cache x.l2cacheAssoc 0 128) _ h (by decide)
    have f2 : fullB s.l2cache s.l2cacheAssoc 0 = true :=
      eval_at (fun x => fullB x.l2cache x.l2cacheAssoc 0) _ h (by decide)
    obtain ⟨_, k, a1, a2, a3⟩ := (victim_selection s s s' 0x2000 0 p 128 0).2.2.1
      (by rw [h0]; decide) hd (fun c => by rw [holds_iff.mp c] at f1; cases f1)
      (full_iff.mpr f2) h'
    exact ⟨s, s', p, k, h, h', a1, a2, a3⟩

/-- C13 (as amended: install into a free way, against the storage the lower level left).
Take any state and address whose access misses in a cache (`icache_access` in the I$,
`dcache_access` in the D$, `l2cache_access` in the L2; the cache is instantiated and the call
is defined), and let the target set have an invalid way among its `assoc` ways, for the I$
and the D$ as the storage stands when `l2cache_access` has returned (`s2`). Then the access
installs into exactly one way `k` of that cache: `k` is the lowest-indexed invalid way of the
target set, it becomes a valid line with the address's tag and the cache's reference counter
(already incremented for this access) as timestamp, and every other way of every set of the
cache is as it stood after the lower level was accessed. Against the state before the call
these other ways have their tag and timestamp unchanged (`l2cache_access` only clears valid
bits, by back-invalidation), and are entirely unchanged when the L2 is not inclusive or not
instantiated. In the L2 case the I$ and the D$ are not touched at all: no back-invalidation.
The three calls are defined in every ready state whose reference counters are below
`ULONG_MAX`. -/
theorem install_free_way (s s2 s' : State) (addr r p tag si : Nat) :
    (s.icacheSets ≠ 0 →
      decode s.blockoffset s.icacheIndex s.icacheTag addr = some (tag, si) →
      ¬Holds s.icache s.icacheAssoc si tag →
      l2cache_access (icacheMissState s) addr = some (s2, p) →
      HasFree s2.icache s.icacheAssoc si → icache_access s addr = some (s', r) →
      s'.icacheRefs = add64 s.icacheRefs 1 ∧ (NoBackInval s → s2.icache = s.icache) ∧
      ∃ k, k < s.icacheAssoc ∧ FirstFree s2.icache si k ∧
        Installed s2.icache s'.icache si k tag s'.icacheRefs ∧
        ∀ i j, (i ≠ si ∨ j ≠ k) →
          (line s'.icache i j).map tagStamp = (line s.icache i j).map tagStamp) ∧
    (s.dcacheSets ≠ 0 →
      decode s.blockoffset s.dcacheIndex s.dcacheTag addr = some (tag, si) →
      ¬Holds s.dcache s.dcacheAssoc si tag →
      l2cache_access (dcacheMissState s) addr = some (s2, p) →
      HasFree s2.dcache s.dcacheAssoc si → dcache_access s addr = some (s', r) →
      s'.dcacheRefs = add64 s.dcacheRefs 1 ∧ (NoBackInval s → s2.dcache = s.dcache) ∧
      ∃ k, k < s.dcacheAssoc ∧ FirstFree s2.dcache si k ∧
        Installed s2.dcache s'.dcache si k tag s'.dcacheRefs ∧
        ∀ i j, (i ≠ si ∨ j ≠ k) →
          (line s'.dcache i j).map tagStamp = (line s.dcache i j).map tagStamp) ∧
    (s.l2cacheSets ≠ 0 →
      decode s.blockoffset s.l2cacheIndex s.l2cacheTag addr = some (tag, si) →
      ¬Holds s.l2cache s.l2cacheAssoc si tag →
      HasFree s.l2cache s.l2cacheAssoc si → l2cache_access s addr = some (s', p) →
      s'.l2cacheRefs = add64 s.l2cacheRefs 1 ∧
      (∃ k, k < s.l2cacheAssoc ∧ FirstFree s.l2cache si k ∧
        Installed s.l2cache s'.l2cache si k tag s'.l2cacheRefs) ∧
      s'.icache = s.icache ∧ s'.dcache = s.dcache) ∧
    (Ready s → s.icacheRefs < ULONG_MAX → s.dcacheRefs < ULONG_MAX →
      s.l2cacheRefs < ULONG_MAX →
      (∃ t q, icache_access s addr = some (t, q)) ∧
      (∃ t q, dcache_access s addr = some (t, q)) ∧
      (∃ t q, l2cache_access s addr = some (t, q))) := by
  refine ⟨fun h0 hd hn h2 hf h => ?_, fun h0 hd hn h2 hf h => ?_, fun h0 hd hn hf h => ?_,
    fun hr b1 b2 b3 => ⟨icache_access_total addr hr b1 b3, dcache_access_total addr hr b2 b3,
      l2cache_access_total addr hr.1 hr.2.2.2 b3⟩⟩
  · obtain ⟨t2, q, ic, g2, hin, rfl, _⟩ := icache_access_miss h0 hd hn h
    rw [h2] at g2
    simp only [Option.some.injEq, Prod.mk.injEq] at g2
    obtain ⟨rfl, rfl⟩ := g2
    have e : s2.icacheRefs = add64 s.icacheRefs 1 := (l2cache_access_frame h2).2.icacheRefs
    have sh : Shrinks s.icache s2.icache := (l2cache_access_shrinks h2).1
    refine ⟨e, fun hnb => (@l2cache_access_noBackInval (icacheMissState s) s2 addr p hnb h2).1,
      ?_⟩
    obtain ⟨k, a1, a2, a3⟩ := install_free hin hf
    refine ⟨k, a1, a2, ?_, fun i j hne => ?_⟩
    · show Installed s2.icache ic si k tag s2.icacheRefs
      rw [e]
      exact a3
    · show (line ic i j).map tagStamp = (line s.icache i j).map tagStamp
      rw [a3.2.2 i j hne]
      exact tagStamp_of_shrinks sh i j
  · obtain ⟨t2, q, dc, g2, hin, rfl, _⟩ := dcache_access_miss h0 hd hn h
    rw [h2] at g2
    simp only [Option.some.injEq, Prod.mk.injEq] at g2
    obtain ⟨rfl, rfl⟩ := g2
    have e : s2.dcacheRefs = add64 s.dcacheRefs 1 := (l2cache_access_frame h2).2.dcacheRefs
    have sh : Shrinks s.dcache s2.dcache := (l2cache_access_shrinks h2).2
    refine ⟨e, fun hnb => (@l2cache_access_noBackInval (dcacheMissState s) s2 addr p hnb h2).2,
      ?_⟩
    obtain ⟨k, a1, a2, a3⟩ := install_free hin hf
    refine ⟨k, a1, a2, ?_, fun i j hne => ?_⟩
    · show Installed s2.dcache dc si k tag s2.dcacheRefs
      rw [e]
      exact a3
    · show (line dc i j).map tagStamp = (line s.dcache i j).map tagStamp
      rw [a3.2.2 i j hne]
      exact tagStamp_of_shrinks sh i j
  · obtain ⟨hin, hfr⟩ := l2cache_access_miss h0 hd hn h
    obtain ⟨_, _, _, e, _⟩ := l2cache_access_result h0 h
    obtain ⟨a1, a2⟩ := hfr (not_full_of_hasFree hf)
    refine ⟨e, ?_, a1, a2⟩
    rw [e]
    exact install_free hin hf

/-- Counterexample to C13 as stated: direct-mapped I$ with four sets over a direct-mapped
inclusive L2 with two sets. After the fetch of `0x0` (I$ set 0, L2 set 0) the fetch of `0x40`
misses in the I$, whose target set 2 is free; its L2 call misses in the full L2 set 0, evicts
the block `0x0` and back-invalidates it in the I$; then the I$ installs into way 0 of set 2.
So the access changed another way of the I$ as well: way 0 of set 0 lost its valid bit. -/
theorem install_counterexample :
    ∃ s s2 p s' r, run (init_cache cfgFourSetL1) [Op.I 0x0] = some s ∧
      decode s.blockoffset s.icacheIndex s.icacheTag 0x40 = some (0, 2) ∧
      ¬Holds s.icache s.icacheAssoc 2 0 ∧
      l2cache_access (icacheMissState s) 0x40 = some (s2, p) ∧
      HasFree s2.icache s.icacheAssoc 2 ∧
      icache_access s 0x40 = some (s', r) ∧
      line s'.icache 2 0 = some { tag := 0, timestamp := 2, valid := true } ∧
      line s.icache 0 0 = some { tag := 0, timestamp := 1, valid := true } ∧
      line s'.icache 0 0 = some { tag := 0, timestamp := 1, valid := false } := by
  obtain ⟨s, h⟩ := Option.isSome_iff_exists.mp
    (by decide : (run (init_cache cfgFourSetL1) [Op.I 0x0]).isSome = true)
  obtain ⟨⟨s2, p⟩, h2⟩ := Option.isSome_iff_exists.mp
    (eval_at (fun x => (l2cache_access (icacheMissState x) 0x40).isSome) true h (by decide))
  obtain ⟨⟨s', r⟩, h'⟩ := Option.isSome_iff_exists.mp
    (eval_at (fun x => (icache_access x 0x40).isSome) true h (by decide))
  have hd : decode s.blockoffset s.icacheIndex s.icacheTag 0x40 = some (0, 2) :=
    eval_at (fun x => decode x.blockoffset x.icacheIndex x.icacheTag 0x40) _ h (by decide)
  have ha : s.icacheAssoc = 1 := eval_at (fun x => x.icacheAssoc) _ h (by decide)
  have f1 : holdsB s.icache s.icacheAssoc 2 0 = false :=
    eval_at (fun x => holdsB x.icache x.icacheAssoc 2 0) _ h (by decide)
  have l0 : line s.icache 0 0 = some { tag := 0, timestamp := 1, valid := true } :=
    eval_at (fun x => line x.icache 0 0) _ h (by decide)
  have m2 : (l2cache_access (icacheMissState s) 0x40).map (fun y => line y.1.icache 2 0)
      = some (some initEntry) :=
    eval_at (fun x => (l2cache_access (icacheMissState x) 0x40).map
      (fun y => line y.1.icache 2 0)) _ h (by decide)
  have n2 : line s2.icache 2 0 = some initEntry :=
    eval_at (fun y : State × Nat => line y.1.icache 2 0) _ h2 m2
  have m0 : (icache_access s 0x40).map (fun y => line y.1.icache 0 0)
      = some (some { tag := 0, timestamp := 1, valid := false }) :=
    eval_at (fun x => (icache_access x 0x40).map (fun y => line y.1.icache 0 0)) _ h
      (by decide)
  have m1 : (icache_access s 0x40).map (fun y => line y.1.icache 2 0)
      = some (some { tag := 0, timestamp := 2, valid := true }) :=
    eval_at (fun x => (icache_access x 0x40).map (fun y => line y.1.icache 2 0)) _ h
      (by decide)
  have n0 : line s'.icache 0 0 = some { tag := 0, timestamp := 1, valid := false } :=
    eval_at (fun y : State × Nat => line y.1.icache 0 0) _ h' m0
  have n1 : line s'.icache 2 0 = some { tag := 0, timestamp := 2, valid := true } :=
    eval_at (fun y : State × Nat => line y.1.icache 2 0) _ h' m1
  exact ⟨s, s2, p, s', r, h, hd, (fun c => by rw [holds_iff.mp c] at f1; cases f1), h2,
    ⟨0, initEntry, by rw [ha]; decide, n2, rfl⟩, h', n1, l0, n0⟩

/-- Witness for the amended C13, in the hierarchy of three two-way caches after the fetch of
`0x1000`: the fetch of `0x2000` finds way 0 of I$ set 0 valid and installs into way 1, the
lowest-indexed invalid way, with timestamp 2; and an `l2cache_access` of `0x2000` installs
into way 1 of L2 set 0 and leaves the I$ and the D$ as they were. -/
theorem install_free_way_witness :
    ∃ s, run (init_cache cfgAllTwoWays) [Op.I 0x1000] = some s ∧
      (∃ s2 p s' r, l2cache_access (icacheMissState s) 0x2000 = some (s2, p) ∧
        icache_access s 0x2000 = some (s', r) ∧ s'.icacheRefs = add64 s.icacheRefs 1 ∧
        FirstFree s2.icache 0 1 ∧ Installed s2.icache s'.icache 0 1 128 s'.icacheRefs ∧
        line s'.icache 0 0 = some { tag := 64, timestamp := 1, valid := true } ∧
        line s'.icache 0 1 = some { tag := 128, timestamp := 2, valid := true }) ∧
      (∃ s' p, l2cache_access s 0x2000 = some (s', p) ∧
        FirstFree s.l2cache 0 1 ∧ Installed s.l2cache s'.l2cache 0 1 128 s'.l2cacheRefs ∧
        s'.icache = s.icache ∧ s'.dcache = s.dcache) := by
  obtain ⟨s, h⟩ := Option.isSome_iff_exists.mp
    (by decide : (run (init_cache cfgAllTwoWays) [Op.I 0x1000]).isSome = true)
  have h0 : s.icacheSets = 2 := eval_at (fun x => x.icacheSets) _ h (by decide)
  have h02 : s.l2cacheSets = 2 := eval_at (fun x => x.l2cacheSets) _ h (by decide)
  have ha : s.icacheAssoc = 2 := eval_at (fun x => x.icacheAssoc) _ h (by decide)
  have ha2 : s.l2cacheAssoc = 2 := eval_at (fun x => x.l2cacheAssoc) _ h (by decide)
  have hd : decode s.blockoffset s.icacheIndex s.icacheTag 0x2000 = some (128, 0) :=
    eval_at (fun x => decode x.blockoffset x.icacheIndex x.icacheTag 0x2000) _ h (by decide)
  have hd2 : decode s.blockoffset s.l2cacheIndex s.l2cacheTag 0x2000 = some (128, 0) :=
    eval_at (fun x => decode x.blockoffset x.l2cacheIndex x.l2cacheTag 0x2000) _ h (by decide)
  have f1 : holdsB s.icache s.icacheAssoc 0 128 = false :=
    eval_at (fun x => holdsB x.icache x.icacheAssoc 0 128) _ h (by decide)
  have f2 : holdsB s.l2cache s.l2cacheAssoc 0 128 = false :=
    eval_at (fun x => holdsB x.l2cache x.l2cacheAssoc 0 128) _ h (by decide)
  have q0 : line s.l2cache 0 0 = some { tag := 64, timestamp := 1, valid := true } :=
    eval_at (fun x => line x.l2cache 0 0) _ h (by decide)
  have q1 : line s.l2cache 0 1 = some initEntry :=
    eval_at (fun x => line x.l2cache 0 1) _ h (by decide)
  refine ⟨s, h, ?_, ?_⟩
  · obtain ⟨⟨s2, p⟩, h2⟩ := Option.isSome_iff_exists.mp
      (eval_at (fun x => (l2cache_access (icacheMissState x) 0x2000).isSome) true h
        (by decide))
    obtain ⟨⟨s', r⟩, h'⟩ := Option.isSome_iff_exists.mp
      (eval_at (fun x => (icache_access x 0x2000).isSome) true h (by decide))
    have m0 : (l2cache_access (icacheMissState s) 0x2000).map (fun y => line y.1.icache 0 0)
        = some (some { tag := 64, timestamp := 1, valid := true }) :=
      eval_at (fun x => (l2cache_access (icacheMissState x) 0x2000).map
        (fun y => line y.1.icache 0 0)) _ h (by decide)
    have m1 : (l2cache_access (icacheMissState s) 0x2000).map (fun y => line y.1.icache 0 1)
        = some (some initEntry) :=
      eval_at (fun x => (l2cache_access (icacheMissState x) 0x2000).map
        (fun y => line y.1.icache 0 1)) _ h (by decide)
    have n0 : line s2.icache 0 0 = some { tag := 64, timestamp := 1, valid := true } :=
      eval_at (fun y : State × Nat => line y.1.icache 0 0) _ h2 m0
    have n1 : line s2.icache 0 1 = some initEntry :=
      eval_at (fun y : State × Nat => line y.1.icache 0 1) _ h2 m1
    have r0 : (icache_access s 0x2000).map (fun y => line y.1.icache 0 0)
        = some (some { tag := 64, timestamp := 1, valid := true }) :=
      eval_at (fun x => (icache_access x 0x2000).map (fun y => line y.1.icache 0 0)) _ h
        (by decide)
    have r1 : (icache_access s 0x2000).map (fun y => line y.1.icache 0 1)
        = some (some { tag := 128, timestamp := 2, valid := true }) :=
      eval_at (fun x => (icache_access x 0x2000).map (fun y => line y.1.icache 0 1)) _ h
        (by decide)
    have t0 : line s'.icache 0 0 = some { tag := 64, timestamp := 1, valid := true } :=
      eval_at (fun y : State × Nat => line y.1.icache 0 0) _ h' r0
    have t1 : line s'.icache 0 1 = some { tag := 128, timestamp := 2, valid := true } :=
      eval_at (fun y : State × Nat => line y.1.icache 0 1) _ h' r1
    obtain ⟨e, _, k, a1, a2, a3, _⟩ :=
      (install_free_way s s2 s' 0x2000 r p 128 0).1 (by rw [h0]; decide) hd
        (fun c => by rw [holds_iff.mp c] at f1; cases f1) h2
        ⟨1, initEntry, by rw [ha]; decide, n1, rfl⟩ h'
    have hk : k = 1 := by
      obtain ⟨⟨e0, b1, b2⟩, _⟩ := a2
      rw [ha] at a1
      interval_cases k
      · rw [n0] at b1
        cases b1
        cases b2
      · rfl
    subst hk
    exact ⟨s2, p, s', r, h2, h', e, a2, a3, t0, t1⟩
  · obtain ⟨⟨s', p⟩, h'⟩ := Option.isSome_iff_exists.mp
      (eval_at (fun x => (l2cache_access x 0x2000).isSome) true h (by decide))
    obtain ⟨_, ⟨k, a1, a2, a3⟩, a4, a5⟩ :=
      (install_free_way s s s' 0x2000 0 p 128 0).2.2.1 (by rw [h02]; decide) hd2
        (fun c => by rw [holds_iff.mp c] at f2; cases f2)
        ⟨1, initEntry, by rw [ha2]; decide, q1, rfl⟩ h'
    have hk : k = 1 := by
      obtain ⟨⟨e0, b1, b2⟩, _⟩ := a2
      rw [ha2] at a1
      interval_cases k
      · rw [q0] at b1
        cases b1
        cases b2
      · rfl
    subst hk
    exact ⟨s', p, h', a2, a3, a4, a5⟩

/-! ## Frame of a hit -/

theorem line_lt {cache : List (List entry)} {i j j' : Nat} {e : entry}
    (h : line cache i j = some e) (hj : j' < j) : ∃ e', line cache i j' = some e' := by
  obtain ⟨set, hs, hl⟩ := getElem?_of_line h
  have hlen : j < set.length := by
    by_contra c
    rw [List.getElem?_eq_none (by omega)] at hl
    cases hl
  exact ⟨set[j'], by simp [line, hs, List.getElem?_eq_getElem (show j' < set.length by omega)]⟩

/-- A lookup of a tag the set holds is defined and refreshes the first matching way. -/
theorem lookup_of_holds {cache : List (List entry)} {assoc si tag : Nat} (refs : Nat)
    (h : Holds cache assoc si tag) :
    ∃ k c', k < assoc ∧ FirstMatch cache si k tag ∧ Refreshed cache c' si k refs ∧
      lookup cache assoc si tag refs = some (some c') := by
  obtain ⟨j, e, a1, a2, a3, a4⟩ := h
  obtain ⟨c', hl⟩ := @lookup_hit_of cache assoc si tag refs j e a1 a2 a3 a4.symm
    (fun k' hk' => line_lt a2 hk')
  obtain ⟨k, e1, b1, b2, b3, b4, b5, b6⟩ := lookup_hit hl
  refine ⟨k, c', b1, ⟨⟨e1, b2, b3, b4.symm⟩, fun j hj => ?_⟩, ⟨e1, b2, b5, ?_, fun i j hne => ?_⟩,
    hl⟩
  · obtain ⟨e', d1, d2⟩ := b6 j hj
    exact ⟨e', d1, fun c => d2 ⟨c.1, c.2.symm⟩⟩
  · rw [b5, line_setLine b2, if_pos ⟨rfl, rfl⟩]
  · rw [b5, line_setLine b2, if_neg]
    rintro ⟨rfl, rfl⟩
    rcases hne with c | c <;> exact c rfl

theorem l2cache_access_of_hit {s : State} {addr tag si : Nat} {l2 : List (List entry)}
    (h0 : s.l2cacheSets ≠ 0)
    (hd : decode s.blockoffset s.l2cacheIndex s.l2cacheTag addr = some (tag, si))
    (hl : lookup s.l2cache s.l2cacheAssoc si tag (add64 s.l2cacheRefs 1) = some (some l2)) :
    l2cache_access s addr
      = some ({ s with l2cacheRefs := add64 s.l2cacheRefs 1, l2cache := l2 },
          s.l2cacheHitTime) := by
  unfold l2cache_access
  rw [if_neg h0]
  simp only [hd, hl]

/-- C14 (frame of a hit). For every state and address that hits in the instantiated I$ (the
decoded set holds a valid line with the decoded tag), `icache_access` is defined, returns
`icacheHitTime`, and the state it leaves differs from the one before in two places only:
`icacheRefs` is incremented by one (as a `uint64_t`) and the first valid way of the target
set whose tag matches has its timestamp set to the new `icacheRefs`. Every other I$ line, tag
and valid bit of the refreshed line, the D$ and L2 storage and every other counter are
unchanged: the L2 is not accessed. The same holds for a D$ hit in `dcache_access`, and for an
L2 hit in `l2cache_access`, which leaves the I$, the D$ and their counters unchanged. -/
theorem hit_frame (s : State) (addr tag si : Nat) :
    (s.icacheSets ≠ 0 →
      decode s.blockoffset s.icacheIndex s.icacheTag addr = some (tag, si) →
      Holds s.icache s.icacheAssoc si tag →
      ∃ k ic, k < s.icacheAssoc ∧ FirstMatch s.icache si k tag ∧
        Refreshed s.icache ic si k (add64 s.icacheRefs 1) ∧
        icache_access s addr
          = some ({ s with icacheRefs := add64 s.icacheRefs 1, icache := ic },
              s.icacheHitTime)) ∧
    (s.dcacheSets ≠ 0 →
      decode s.blockoffset s.dcacheIndex s.dcacheTag addr = some (tag, si) →
      Holds s.dcache s.dcacheAssoc si tag →
      ∃ k dc, k < s.dcacheAssoc ∧ FirstMatch s.dcache si k tag ∧
        Refreshed s.dcache dc si k (add64 s.dcacheRefs 1) ∧
        dcache_access s addr
          = some ({ s with dcacheRefs := add64 s.dcacheRefs 1, dcache := dc },
              s.dcacheHitTime)) ∧
    (s.l2cacheSets ≠ 0 →
      decode s.blockoffset s.l2cacheIndex s.l2cacheTag addr = some (tag, si) →
      Holds s.l2cache s.l2cacheAssoc si tag →
      ∃ k l2, k < s.l2cacheAssoc ∧ FirstMatch s.l2cache si k tag ∧
        Refreshed s.l2cache l2 si k (add64 s.l2cacheRefs 1) ∧
        l2cache_access s addr
          = some ({ s with l2cacheRefs := add64 s.l2cacheRefs 1, l2cache := l2 },
              s.l2cacheHitTime)) := by
  refine ⟨fun h0 hd hh => ?_, fun h0 hd hh => ?_, fun h0 hd hh => ?_⟩
  · obtain ⟨k, c', a1, a2, a3, a4⟩ := lookup_of_holds (add64 s.icacheRefs 1) hh
    exact ⟨k, c', a1, a2, a3, icache_access_of_hit h0 hd a4⟩
  · obtain ⟨k, c', a1, a2, a3, a4⟩ := lookup_of_holds (add64 s.dcacheRefs 1) hh
    exact ⟨k, c', a1, a2, a3, dcache_access_of_hit h0 hd a4⟩
  · obtain ⟨k, c', a1, a2, a3, a4⟩ := lookup_of_holds (add64 s.l2cacheRefs 1) hh
    exact ⟨k, c', a1, a2, a3, l2cache_access_of_hit h0 hd a4⟩

/-- Witness for C14: after the cold fetch of `0x1000` in the two-set hierarchy, the same
fetch hits in the I$ and an `l2cache_access` of the block hits in the L2. -/
theorem hit_frame_witness :
    ∃ s, run (init_cache cfgTwoSets) [Op.I 0x1000] = some s ∧
      (∃ k ic, k < s.icacheAssoc ∧ FirstMatch s.icache 0 k 64 ∧
        Refreshed s.icache ic 0 k (add64 s.icacheRefs 1) ∧
        icache_access s 0x1000
          = some ({ s with icacheRefs := add64 s.icacheRefs 1, icache := ic },
              s.icacheHitTime)) ∧
      (∃ k l2, k < s.l2cacheAssoc ∧ FirstMatch s.l2cache 0 k 64 ∧
        Refreshed s.l2cache l2 0 k (add64 s.l2cacheRefs 1) ∧
        l2cache_access s 0x1000
          = some ({ s with l2cacheRefs := add64 s.l2cacheRefs 1, l2cache := l2 },
              s.l2cacheHitTime)) := by
  obtain ⟨s, h⟩ := Option.isSome_iff_exists.mp
    (by decide : (run (init_cache cfgTwoSets) [Op.I 0x1000]).isSome = true)
  have h0 : s.icacheSets = 2 := eval_at (fun x => x.icacheSets) _ h (by decide)
  have h2 : s.l2cacheSets = 2 := eval_at (fun x => x.l2cacheSets) _ h (by decide)
  have hd : decode s.blockoffset s.icacheIndex s.icacheTag 0x1000 = some (64, 0) :=
    eval_at (fun x => decode x.blockoffset x.icacheIndex x.icacheTag 0x1000) _ h (by decide)
  have hd2 : decode s.blockoffset s.l2cacheIndex s.l2cacheTag 0x1000 = some (64, 0) :=
    eval_at (fun x => decode x.blockoffset x.l2cacheIndex x.l2cacheTag 0x1000) _ h (by decide)
  have f1 : holdsB s.icache s.icacheAssoc 0 64 = true :=
    eval_at (fun x => holdsB x.icache x.icacheAssoc 0 64) _ h (by decide)
  have f2 : holdsB s.l2cache s.l2cacheAssoc 0 64 = true :=
    eval_at (fun x => holdsB x.l2cache x.l2cacheAssoc 0 64) _ h (by decide)
  have w := hit_frame s 0x1000 64 0
  exact ⟨s, h, w.1 (by rw [h0]; decide) hd (holds_iff.mpr f1),
    w.2.2 (by rw [h2]; decide) hd2 (holds_iff.mpr f2)⟩

/-! ## Effect of the L2 on the L1 caches -/

theorem KeepsValid.keeps_refl (c : List (List entry)) : KeepsValid c c :=
  fun _ _ e hl hv => ⟨e, hl, hv⟩

theorem KeepsValid.keeps_trans {a b c : List (List entry)} (h1 : KeepsValid a b)
    (h2 : KeepsValid b c) : KeepsValid a c := fun i j e hl hv => by
  obtain ⟨e1, a1, a2⟩ := h1 i j e hl hv
  exact h2 i j e1 a1 a2

theorem keepsValid_setLine {c : List (List entry)} {si k : Nat} {e0 e : entry}
    (h : line c si k = some e0) (hv : e.valid = true) : KeepsValid c (setLine c si k e) := by
  intro i j e1 hl hv1
  rw [line_setLine h]
  by_cases c1 : si = i ∧ k = j
  · rw [if_pos c1]
    exact ⟨e, rfl, hv⟩
  · rw [if_neg c1]
    exact ⟨e1, hl, hv1⟩

theorem lookup_keepsValid {cache c' : List (List entry)} {assoc si tag refs : Nat}
    (h : lookup cache assoc si tag refs = some (some c')) : KeepsValid cache c' := by
  obtain ⟨k, e, _, a2, a3, _, rfl, _⟩ := lookup_hit h
  exact keepsValid_setLine a2 a3

theorem install_keepsValid {cache c' : List (List entry)} {assoc si tag refs : Nat}
    (h : install cache assoc si tag refs = some c') : KeepsValid cache c' := by
  obtain ⟨k, e, _, a2, rfl, _⟩ := install_spec h
  exact keepsValid_setLine a2 rfl

theorem KeepsAllValid.all_refl (s : State) : KeepsAllValid s s :=
  ⟨KeepsValid.keeps_refl _, KeepsValid.keeps_refl _, KeepsValid.keeps_refl _⟩

theorem KeepsAllValid.all_trans {a b c : State} (h1 : KeepsAllValid a b)
    (h2 : KeepsAllValid b c) : KeepsAllValid a c :=
  ⟨h1.1.keeps_trans h2.1, h1.2.1.keeps_trans h2.2.1, h1.2.2.keeps_trans h2.2.2⟩

theorem l2cache_access_keepsValid {s s' : State} {addr p : Nat} (hi : s.inclusive ≠ 1)
    (h : l2cache_access s addr = some (s', p)) : KeepsAllValid s s' := by
  obtain ⟨e1, e2⟩ := l2cache_access_noBackInval (Or.inl hi) h
  refine ⟨by rw [e1]; exact KeepsValid.keeps_refl _, by rw [e2]; exact KeepsValid.keeps_refl _,
    ?_⟩
  rcases l2cache_access_cases h with ⟨_, rfl, _⟩ | ⟨_, tag, si, _, h1⟩
  · exact KeepsValid.keeps_refl _
  · rcases h1 with ⟨l2, hl, rfl, _⟩ | ⟨_, _, set, hs, h2⟩
    · exact lookup_keepsValid hl
    · rcases h2 with ⟨set', hm, rfl⟩ | ⟨ej, set', ic, dc, hm, hw, _, rfl⟩
      · exact install_keepsValid (install_of_inl hs hm)
      · exact install_keepsValid (install_of_inr hs hm hw)

theorem icache_access_keepsValid {s s' : State} {addr r : Nat} (hi : s.inclusive ≠ 1)
    (h : icache_access s addr = some (s', r)) : KeepsAllValid s s' := by
  rcases icache_access_cases h with ⟨_, h2⟩ | ⟨_, tag, si, _, h1⟩
  · exact l2cache_access_keepsValid hi h2
  · rcases h1 with ⟨ic, hl, rfl, _⟩ | ⟨_, s2, p, ic, h2, hin, rfl, _⟩
    · exact ⟨lookup_keepsValid hl, KeepsValid.keeps_refl _, KeepsValid.keeps_refl _⟩
    · obtain ⟨a1, a2, a3⟩ := @l2cache_access_keepsValid (icacheMissState s) s2 addr p hi h2
      exact ⟨a1.keeps_trans (install_keepsValid hin), a2, a3⟩

theorem dcache_access_keepsValid {s s' : State} {addr r : Nat} (hi : s.inclusive ≠ 1)
    (h : dcache_access s addr = some (s', r)) : KeepsAllValid s s' := by
  rcases dcache_access_cases h with ⟨_, h2⟩ | ⟨_, tag, si, _, h1⟩
  · exact l2cache_access_keepsValid hi h2
  · rcases h1 with ⟨dc, hl, rfl, _⟩ | ⟨_, s2, p, dc, h2, hin, rfl, _⟩
    · exact ⟨KeepsValid.keeps_refl _, lookup_keepsValid hl, KeepsValid.keeps_refl _⟩
    · obtain ⟨a1, a2, a3⟩ := @l2cache_access_keepsValid (dcacheMissState s) s2 addr p hi h2
      exact ⟨a1, a2.keeps_trans (install_keepsValid hin), a3⟩

theorem step_keepsValid {s s' : State} {op : Op} {r : Nat} (hi : s.inclusive ≠ 1)
    (h : step s op = some (s', r)) : KeepsAllValid s s' := by
  cases op with
  | I a => exact icache_access_keepsValid hi h
  | D a => exact dcache_access_keepsValid hi h

theorem run_keepsValid : ∀ (ops : List Op) (s s' : State), s.inclusive ≠ 1 →
    run s ops = some s' → KeepsAllValid s s' := by
  intro ops
  induction ops with
  | nil =>
    intro s s' _ h
    simp only [run, Option.some.injEq] at h
    subst h
    exact KeepsAllValid.all_refl _
  | cons op ops ih =>
    intro s s' hi h
    unfold run at h
    cases hs : step s op with
    | none => simp [hs] at h
    | some sr =>
      obtain ⟨s1, r⟩ := sr
      simp only [hs] at h
      have f := (step_frame hs).inclusive
      exact (step_keepsValid hi hs).all_trans (ih s1 s' (by rw [f]; exact hi) h)

theorem cleared_of_backInvalidate {cache c' : List (List entry)}
    {sets assoc bo idx tg evict_addr : Nat}
    (h : backInvalidate cache sets assoc bo idx tg evict_addr = some c') :
    Cleared cache c' sets assoc bo idx tg evict_addr := by
  rcases backInvalidate_spec h with c | ⟨h0, xt, xs, hd, _, hl⟩
  · exact Or.inl c
  · exact Or.inr ⟨h0, xt, xs, hd, backInvalidate_shape h, hl⟩

/-- An L2 miss in a full set with `inclusive = 1`: the victim is the lowest-indexed way with
the minimum timestamp, and both L1 caches go through the back-invalidation of its block. -/
theorem l2cache_access_evict {s s' : State} {addr p tag si : Nat} (h0 : s.l2cacheSets ≠ 0)
    (hd : decode s.blockoffset s.l2cacheIndex s.l2cacheTag addr = some (tag, si))
    (hn : ¬Holds s.l2cache s.l2cacheAssoc si tag) (hf : Full s.l2cache s.l2cacheAssoc si)
    (hi : s.inclusive = 1) (h : l2cache_access s addr = some (s', p)) :
    ∃ k ev evict_addr, k < s.l2cacheAssoc ∧ FirstOldest s.l2cache s.l2cacheAssoc si k ∧
      line s.l2cache si k = some ev ∧
      evictAddr s.blockoffset s.l2cacheIndex ev.tag si = some evict_addr ∧
      Cleared s.icache s'.icache s.icacheSets s.icacheAssoc s.blockoffset s.icacheIndex
        s.icacheTag evict_addr ∧
      Cleared s.dcache s'.dcache s.dcacheSets s.dcacheAssoc s.blockoffset s.dcacheIndex
        s.dcacheTag evict_addr := by
  rcases l2cache_access_cases h with ⟨c, _⟩ | ⟨_, tag', si', hd', h1⟩
  · exact absurd c h0
  · rw [hd] at hd'
    simp only [Option.some.injEq, Prod.mk.injEq] at hd'
    obtain ⟨rfl, rfl⟩ := hd'
    rcases h1 with ⟨l2, hl, _, _⟩ | ⟨_, _, set, hs, h2⟩
    · exact absurd (holds_of_lookup_hit hl) hn
    · rcases h2 with ⟨set', hm, _⟩ | ⟨ej, set', ic, dc, hm, hw, hinc, rfl⟩
      · exact absurd hf (not_full_of_hasFree (hasFree_of_missScan_inl hs hm))
      · rcases hinc with ⟨c, _⟩ | ⟨_, ev, ea, hrd, hea, bi, bd⟩
        · exact absurd hi c
        · obtain ⟨k, e0, _, b2, b3, b4, b5, _, _, _, b9, b10⟩ := install_inr_spec hs hm hw
          rw [hrd] at b5
          cases b5
          exact ⟨k, ev, ea, b2, ⟨ev, b3, b4, b9, b10⟩, b3, hea, cleared_of_backInvalidate bi,
            cleared_of_backInvalidate bd⟩

/-- Unless `inclusive = 1` and the access misses in a full set of the instantiated L2,
`l2cache_access` leaves the storage of both L1 caches as it was. -/
theorem l2cache_access_l1_same {s s' : State} {addr p : Nat}
    (hc : ¬(s.inclusive = 1 ∧ L2FullMiss s addr)) (h : l2cache_access s addr = some (s', p)) :
    s'.icache = s.icache ∧ s'.dcache = s.dcache := by
  rcases l2cache_access_cases h with ⟨_, rfl, _⟩ | ⟨h0, tag, si, hd, h1⟩
  · exact ⟨rfl, rfl⟩
  · rcases h1 with ⟨l2, _, rfl, _⟩ | ⟨hl, _, set, hs, h2⟩
    · exact ⟨rfl, rfl⟩
    · rcases h2 with ⟨set', _, rfl⟩ | ⟨ej, set', ic, dc, hm, _, hinc, rfl⟩
      · exact ⟨rfl, rfl⟩
      · rcases hinc with ⟨_, rfl, rfl⟩ | ⟨hi, _⟩
        · exact ⟨rfl, rfl⟩
        · exact absurd ⟨hi, h0, tag, si, hd, not_holds_of_lookup_miss hl,
            full_of_missScan_inr hs hm⟩ hc

/-- C15 (frame of `l2cache_access` on the L1 caches). Every defined `l2cache_access` call
leaves the six I$ and D$ statistics counters and the tag and timestamp of every I$ and D$
line unchanged. It leaves the I$ and D$ storage entirely unchanged unless `inclusive = 1` and
the access misses in a full set of the instantiated L2; in that case the victim `ev` is the
lowest-indexed L2 way with the minimum timestamp, its block address is rebuilt from its tag
and the set index, and the only change to each instantiated L1 cache is that the valid lines
carrying the tag of that address in the set it decodes to have their valid bit cleared. With
`inclusive` other than 1 (in particular `inclusive = 0`) no `l2cache_access`,
`icache_access` or `dcache_access` call, and hence no sequence of accesses, turns a valid
line of any of the three caches invalid. The L2 call is defined in every state with ready
caches whose L2 reference counter is below `ULONG_MAX`. -/
theorem l2_frame (s s' : State) (addr p : Nat) :
    (l2cache_access s addr = some (s', p) →
      SameL1Stats s s' ∧
      (∀ i j, (line s'.icache i j).map tagStamp = (line s.icache i j).map tagStamp) ∧
      (∀ i j, (line s'.dcache i j).map tagStamp = (line s.dcache i j).map tagStamp) ∧
      (¬(s.inclusive = 1 ∧ L2FullMiss s addr) →
        s'.icache = s.icache ∧ s'.dcache = s.dcache) ∧
      (s.inclusive = 1 → L2FullMiss s addr →
        ∃ tag si k ev evict_addr,
          decode s.blockoffset s.l2cacheIndex s.l2cacheTag addr = some (tag, si) ∧
          k < s.l2cacheAssoc ∧ FirstOldest s.l2cache s.l2cacheAssoc si k ∧
          line s.l2cache si k = some ev ∧
          evictAddr s.blockoffset s.l2cacheIndex ev.tag si = some evict_addr ∧
          Cleared s.icache s'.icache s.icacheSets s.icacheAssoc s.blockoffset s.icacheIndex
            s.icacheTag evict_addr ∧
          Cleared s.dcache s'.dcache s.dcacheSets s.dcacheAssoc s.blockoffset s.dcacheIndex
            s.dcacheTag evict_addr) ∧
      (s.inclusive ≠ 1 → KeepsAllValid s s')) ∧
    (∀ op r, s.inclusive ≠ 1 → step s op = some (s', r) → KeepsAllValid s s') ∧
    (∀ ops, s.inclusive ≠ 1 → run s ops = some s' → KeepsAllValid s s') ∧
    (Allocated s → Stamped s.l2cache s.l2cacheRefs → s.l2cacheRefs < ULONG_MAX →
      ∃ t q, l2cache_access s addr = some (t, q)) := by
  refine ⟨fun h => ?_, fun op r hi h => step_keepsValid hi h,
    fun ops hi h => run_keepsValid ops s s' hi h,
    fun ha hst hb => l2cache_access_total addr ha hst hb⟩
  obtain ⟨shi, shd⟩ := l2cache_access_shrinks h
  refine ⟨(l2cache_access_frame h).2, fun i j => tagStamp_of_shrinks shi i j,
    fun i j => tagStamp_of_shrinks shd i j, fun hc => l2cache_access_l1_same hc h,
    fun hi hm => ?_, fun hi => l2cache_access_keepsValid hi h⟩
  obtain ⟨h0, tag, si, hd, hn, hf⟩ := hm
  obtain ⟨k, ev, ea, w⟩ := l2cache_access_evict h0 hd hn hf hi h
  exact ⟨tag, si, k, ev, ea, hd, w⟩

/-- Witness for C15: in the inclusive two-set hierarchy, after `0x1000` was fetched and read,
the L2 access to `0x2040` misses in the full set 0 and back-invalidates both L1 caches; in the
hierarchy with a non-inclusive L2 the fetch of `0x3000` evicts in the I$ and in the L2 and
every line that was valid is valid afterwards. -/
theorem l2_frame_witness :
    (∃ s s' p, run (init_cache cfgTwoSets) [Op.I 0x1000, Op.D 0x1000] = some s ∧
      l2cache_access s 0x2040 = some (s', p) ∧ SameL1Stats s s' ∧
      ∃ tag si k ev evict_addr,
        decode s.blockoffset s.l2cacheIndex s.l2cacheTag 0x2040 = some (tag, si) ∧
        k < s.l2cacheAssoc ∧ FirstOldest s.l2cache s.l2cacheAssoc si k ∧
        line s.l2cache si k = some ev ∧
        evictAddr s.blockoffset s.l2cacheIndex ev.tag si = some evict_addr ∧
        Cleared s.icache s'.icache s.icacheSets s.icacheAssoc s.blockoffset s.icacheIndex
          s.icacheTag evict_addr ∧
        Cleared s.dcache s'.dcache s.dcacheSets s.dcacheAssoc s.blockoffset s.dcacheIndex
          s.dcacheTag evict_addr) ∧
    (∃ s s', run (init_cache cfgTwoWays) [Op.I 0x1000, Op.I 0x2000] = some s ∧
      run s [Op.I 0x3000, Op.D 0x1000] = some s' ∧ KeepsAllValid s s') := by
  constructor
  · obtain ⟨s, h⟩ := Option.isSome_iff_exists.mp
      (by decide : (run (init_cache cfgTwoSets) [Op.I 0x1000, Op.D 0x1000]).isSome = true)
    obtain ⟨⟨s', p⟩, h'⟩ := Option.isSome_iff_exists.mp
      (eval_at (fun x => (l2cache_access x 0x2040).isSome) true h (by decide))
    have hi : s.inclusive = 1 := eval_at (fun x => x.inclusive) _ h (by decide)
    have h0 : s.l2cacheSets = 2 := eval_at (fun x => x.l2cacheSets) _ h (by decide)
    have hd : decode s.blockoffset s.l2cacheIndex s.l2cacheTag 0x2040 = some (129, 0) :=
      eval_at (fun x => decode x.blockoffset x.l2cacheIndex x.l2cacheTag 0x2040) _ h
        (by decide)
    have f1 : holdsB s.l2cache s.l2cacheAssoc 0 129 = false :=
      eval_at (fun x => holdsB x.l2cache x.l2cacheAssoc 0 129) _ h (by decide)
    have f2 : fullB s.l2cache s.l2cacheAssoc 0 = true :=
      eval_at (fun x => fullB x.l2cache x.l2cacheAssoc 0) _ h (by decide)
    obtain ⟨a1, _, _, _, a5, _⟩ := (l2_frame s s' 0x2040 p).1 h'
    exact ⟨s, s', p, h, h', a1, a5 hi ⟨by rw [h0]; decide, 129, 0, hd,
      (fun c => by rw [holds_iff.mp c] at f1; cases f1), full_iff.mpr f2⟩⟩
  · obtain ⟨s, h⟩ := Option.isSome_iff_exists.mp
      (by decide : (run (init_cache cfgTwoWays) [Op.I 0x1000, Op.I 0x2000]).isSome = true)
    obtain ⟨s', h'⟩ := Option.isSome_iff_exists.mp
      (eval_at (fun x => (run x [Op.I 0x3000, Op.D 0x1000]).isSome) true h (by decide))
    have hi : s.inclusive = 0 := eval_at (fun x => x.inclusive) _ h (by decide)
    exact ⟨s, s', h, h', (l2_frame s s' 0 0).2.2.1 _ (by rw [hi]; decide) h'⟩

/-! ## Timestamps -/

theorem Timed.timed_shrinks {c c' : List (List entry)} {r : Nat} (h : Timed c r)
    (hs : Shrinks c c') : Timed c' r := by
  refine ⟨fun i j e hl hv => h.1 i j e (line_eq_of_shrinks_valid hs hl hv) hv,
    fun i1 j1 i2 j2 e1 e2 h1 h2 v1 v2 ht => ?_⟩
  exact h.2 i1 j1 i2 j2 e1 e2 (line_eq_of_shrinks_valid hs h1 v1)
    (line_eq_of_shrinks_valid hs h2 v2) v1 v2 ht

theorem Timed.timed_setLine {c : List (List entry)} {r si k : Nat} {e0 e : entry}
    (h : Timed c r) (hl : line c si k = some e0) (he : e.timestamp = r + 1) :
    Timed (setLine c si k e) (r + 1) := by
  constructor
  · intro i j e1 h1 v1
    rw [line_setLine hl] at h1
    by_cases c1 : si = i ∧ k = j
    · rw [if_pos c1] at h1
      cases h1
      omega
    · rw [if_neg c1] at h1
      have := h.1 i j e1 h1 v1
      omega
  · intro i1 j1 i2 j2 e1 e2 h1 h2 v1 v2 ht
    rw [line_setLine hl] at h1 h2
    by_cases c1 : si = i1 ∧ k = j1
    · rw [if_pos c1] at h1
      cases h1
      by_cases c2 : si = i2 ∧ k = j2
      · exact ⟨c1.1.symm.trans c2.1, c1.2.symm.trans c2.2⟩
      · rw [if_neg c2] at h2
        have := h.1 i2 j2 e2 h2 v2
        omega
    · rw [if_neg c1] at h1
      by_cases c2 : si = i2 ∧ k = j2
      · rw [if_pos c2] at h2
        cases h2
        have := h.1 i1 j1 e1 h1 v1
        omega
      · rw [if_neg c2] at h2
        exact h.2 i1 j1 i2 j2 e1 e2 h1 h2 v1 v2 ht

theorem lookup_timed {cache c' : List (List entry)} {assoc si tag r : Nat}
    (ht : Timed cache r) (h : lookup cache assoc si tag (r + 1) = some (some c')) :
    Timed c' (r + 1) := by
  obtain ⟨k, e, _, a2, _, _, rfl, _⟩ := lookup_hit h
  exact ht.timed_setLine a2 rfl

theorem install_timed {cache c' : List (List entry)} {assoc si tag r : Nat}
    (ht : Timed cache r) (h : install cache assoc si tag (r + 1) = some c') :
    Timed c' (r + 1) := by
  obtain ⟨k, e, _, a2, rfl, _⟩ := install_spec h
  exact ht.timed_setLine a2 rfl

theorem timed_initStore (sets assoc : Nat) : Timed (initStore sets assoc) 0 := by
  constructor
  · intro i j e hl hv
    rw [line_initStore_invalid hl] at hv
    cases hv
  · intro i1 j1 i2 j2 e1 e2 h1 _ v1
    rw [line_initStore_invalid h1] at v1
    cases v1

theorem init_timed (c : Config) : TimedState (init_cache c) :=
  ⟨timed_initStore _ _, timed_initStore _ _, timed_initStore _ _⟩

theorem l2cache_access_timed {s s' : State} {addr p : Nat} (ht : TimedState s)
    (hb : s.l2cacheRefs < ULONG_MAX) (h : l2cache_access s addr = some (s', p)) :
    TimedState s' := by
  obtain ⟨ti, td, t2⟩ := ht
  obtain ⟨shi, shd⟩ := l2cache_access_shrinks h
  have f := (l2cache_access_frame h).2
  have e := add64_succ hb
  refine ⟨by rw [f.icacheRefs]; exact ti.timed_shrinks shi,
    by rw [f.dcacheRefs]; exact td.timed_shrinks shd, ?_⟩
  rcases l2cache_access_cases h with ⟨_, rfl, _⟩ | ⟨_, tag, si, _, h1⟩
  · exact t2
  · rw [e] at h1
    rcases h1 with ⟨l2, hl, rfl, _⟩ | ⟨_, _, set, hs, h2⟩
    · exact lookup_timed t2 hl
    · rcases h2 with ⟨set', hm, rfl⟩ | ⟨ej, set', ic, dc, hm, hw, _, rfl⟩
      · exact install_timed t2 (install_of_inl hs hm)
      · exact install_timed t2 (install_of_inr hs hm hw)

theorem Timed.timed_mono {c : List (List entry)} {r r' : Nat} (h : Timed c r) (hr : r ≤ r') :
    Timed c r' :=
  ⟨fun i j e hl hv => ⟨(h.1 i j e hl hv).1, le_trans (h.1 i j e hl hv).2 hr⟩, h.2⟩

theorem icache_access_timed {s s' : State} {addr r : Nat} (ht : TimedState s)
    (hb1 : s.icacheRefs < ULONG_MAX) (hb2 : s.l2cacheRefs < ULONG_MAX)
    (h : icache_access s addr = some (s', r)) : TimedState s' := by
  rcases icache_access_cases h with ⟨_, h2⟩ | ⟨_, tag, si, _, h1⟩
  · exact l2cache_access_timed ht hb2 h2
  · have e := add64_succ hb1
    rcases h1 with ⟨ic, hl, rfl, _⟩ | ⟨_, s2, p, ic, h2, hin, rfl, _⟩
    · rw [e] at hl ⊢
      exact ⟨lookup_timed ht.1 hl, ht.2.1, ht.2.2⟩
    · have hle : s.icacheRefs ≤ add64 s.icacheRefs 1 := by rw [e]; omega
      have hm : TimedState (icacheMissState s) := ⟨ht.1.timed_mono hle, ht.2.1, ht.2.2⟩
      obtain ⟨_, td, t2⟩ := @l2cache_access_timed (icacheMissState s) s2 addr p hm hb2 h2
      obtain ⟨shi, _⟩ := l2cache_access_shrinks h2
      have e2 : s2.icacheRefs = add64 s.icacheRefs 1 := (l2cache_access_frame h2).2.icacheRefs
      rw [e2, e] at hin
      refine ⟨?_, td, t2⟩
      show Timed ic s2.icacheRefs
      rw [e2, e]
      exact install_timed (ht.1.timed_shrinks shi) hin

theorem dcache_access_timed {s s' : State} {addr r : Nat} (ht : TimedState s)
    (hb1 : s.dcacheRefs < ULONG_MAX) (hb2 : s.l2cacheRefs < ULONG_MAX)
    (h : dcache_access s addr = some (s', r)) : TimedState s' := by
  rcases dcache_access_cases h with ⟨_, h2⟩ | ⟨_, tag, si, _, h1⟩
  · exact l2cache_access_timed ht hb2 h2
  · have e := add64_succ hb1
    rcases h1 with ⟨dc, hl, rfl, _⟩ | ⟨_, s2, p, dc, h2, hin, rfl, _⟩
    · rw [e] at hl ⊢
      exact ⟨ht.1, lookup_timed ht.2.1 hl, ht.2.2⟩
    · have hle : s.dcacheRefs ≤ add64 s.dcacheRefs 1 := by rw [e]; omega
      have hm : TimedState (dcacheMissState s) := ⟨ht.1, ht.2.1.timed_mono hle, ht.2.2⟩
      obtain ⟨ti, _, t2⟩ := @l2cache_access_timed (dcacheMissState s) s2 addr p hm hb2 h2
      obtain ⟨_, shd⟩ := l2cache_access_shrinks h2
      have e2 : s2.dcacheRefs = add64 s.dcacheRefs 1 := (l2cache_access_frame h2).2.dcacheRefs
      rw [e2, e] at hin
      refine ⟨ti, ?_, t2⟩
      show Timed dc s2.dcacheRefs
      rw [e2, e]
      exact install_timed (ht.2.1.timed_shrinks shd) hin

theorem run_timed : ∀ (ops : List Op) (s s' : State), TimedState s → NoWrap s ops →
    run s ops = some s' → TimedState s' := by
  intro ops
  induction ops with
  | nil =>
    intro s s' ht _ h
    simp only [run, Option.some.injEq] at h
    subst h
    exact ht
  | cons op ops ih =>
    intro s s' ht hw h
    unfold run at h
    obtain ⟨w1, w2, w3⟩ := hw
    cases hs : step s op with
    | none => simp [hs] at h
    | some sr =>
      obtain ⟨s1, r⟩ := sr
      simp only [hs] at h
      have t1 : TimedState s1 := by
        cases op with
        | I a => exact icache_access_timed ht w1 w2 hs
        | D a => exact dcache_access_timed ht w1 w2 hs
      exact ih s1 s' t1 (w3 s1 r hs) h

theorem add64_le (r : Nat) : add64 r 1 ≤ r + 1 := Nat.mod_le _ _

theorem l2cache_access_refs_le {s s' : State} {addr p : Nat}
    (h : l2cache_access s addr = some (s', p)) : s'.l2cacheRefs ≤ s.l2cacheRefs + 1 := by
  by_cases h0 : s.l2cacheSets = 0
  · rcases l2cache_access_cases h with ⟨_, rfl, _⟩ | ⟨c, _⟩
    · exact Nat.le_succ _
    · exact absurd h0 c
  · obtain ⟨_, _, _, e, _⟩ := l2cache_access_result h0 h
    rw [e]
    exact add64_le _

theorem step_refs_le {s s' : State} {op : Op} {r : Nat} (h : step s op = some (s', r)) :
    s'.icacheRefs ≤ s.icacheRefs + 1 ∧ s'.dcacheRefs ≤ s.dcacheRefs + 1 ∧
      s'.l2cacheRefs ≤ s.l2cacheRefs + 1 := by
  cases op with
  | I a =>
    rcases icache_access_cases h with ⟨_, h2⟩ | ⟨_, tag, si, _, h1⟩
    · have f := (l2cache_access_frame h2).2
      exact ⟨by rw [f.icacheRefs]; omega, by rw [f.dcacheRefs]; omega, l2cache_access_refs_le h2⟩
    · rcases h1 with ⟨ic, hl, rfl, _⟩ | ⟨_, s2, p, ic, h2, hin, rfl, _⟩
      · exact ⟨add64_le _, Nat.le_succ _, Nat.le_succ _⟩
      · have f := (l2cache_access_frame h2).2
        have e1 : s2.icacheRefs = add64 s.icacheRefs 1 := f.icacheRefs
        have e2 : s2.dcacheRefs = s.dcacheRefs := f.dcacheRefs
        have e3 : s2.l2cacheRefs ≤ s.l2cacheRefs + 1 :=
          @l2cache_access_refs_le (icacheMissState s) s2 a p h2
        exact ⟨by show s2.icacheRefs ≤ _; rw [e1]; exact add64_le _,
          by show s2.dcacheRefs ≤ _; rw [e2]; omega, e3⟩
  | D a =>
    rcases dcache_access_cases h with ⟨_, h2⟩ | ⟨_, tag, si, _, h1⟩
    · have f := (l2cache_access_frame h2).2
      exact ⟨by rw [f.icacheRefs]; omega, by rw [f.dcacheRefs]; omega, l2cache_access_refs_le h2⟩
    · rcases h1 with ⟨dc, hl, rfl, _⟩ | ⟨_, s2, p, dc, h2, hin, rfl, _⟩
      · exact ⟨Nat.le_succ _, add64_le _, Nat.le_succ _⟩
      · have f := (l2cache_access_frame h2).2
        have e1 : s2.icacheRefs = s.icacheRefs := f.icacheRefs
        have e2 : s2.dcacheRefs = add64 s.dcacheRefs 1 := f.dcacheRefs
        have e3 : s2.l2cacheRefs ≤ s.l2cacheRefs + 1 :=
          @l2cache_access_refs_le (dcacheMissState s) s2 a p h2
        exact ⟨by show s2.icacheRefs ≤ _; rw [e1]; omega,
          by show s2.dcacheRefs ≤ _; rw [e2]; exact add64_le _, e3⟩

theorem noWrap_of_length : ∀ (ops : List Op) (s : State),
    s.icacheRefs + ops.length ≤ ULONG_MAX → s.dcacheRefs + ops.length ≤ ULONG_MAX →
    s.l2cacheRefs + ops.length ≤ ULONG_MAX → NoWrap s ops := by
  intro ops
  induction ops with
  | nil => intro s _ _ _; exact True.intro
  | cons op ops ih =>
    intro s b1 b2 b3
    simp only [List.length_cons] at b1 b2 b3
    refine ⟨?_, by omega, fun s1 r hs => ?_⟩
    · cases op with
      | I a => show s.icacheRefs < ULONG_MAX; omega
      | D a => show s.dcacheRefs < ULONG_MAX; omega
    · obtain ⟨c1, c2, c3⟩ := step_refs_le hs
      exact ih s1 (by omega) (by omega) (by omega)

/-- A run of at most `2^64 - 1` accesses from `init_cache` wraps no reference counter. -/
theorem init_noWrap (c : Config) (ops : List Op) (hlen : ops.length ≤ ULONG_MAX) :
    NoWrap (init_cache c) ops :=
  noWrap_of_length ops _ (by simpa [init_cache] using hlen) (by simpa [init_cache] using hlen)
    (by simpa [init_cache] using hlen)

theorem uniqueVictim_of_timed {cache : List (List entry)} {refs : Nat} (ht : Timed cache refs)
    (assoc : Nat) : UniqueVictim cache assoc := by
  intro si k hf hk ho
  obtain ⟨e0, a1, a2⟩ := ho
  obtain ⟨e0', b1, v0⟩ := hf k hk
  rw [a1] at b1
  cases b1
  have strict : ∀ j e, j < assoc → j ≠ k → line cache si j = some e →
      e0.timestamp < e.timestamp := by
    intro j e hj hne hl
    obtain ⟨e', c1, vj⟩ := hf j hj
    rw [hl] at c1
    cases c1
    have hle := a2 j e hj hl
    by_contra hc
    have heq : e0.timestamp = e.timestamp := by omega
    exact hne (ht.2 si k si j e0 e a1 hl v0 vj heq).2.symm
  refine ⟨⟨e0, a1, strict⟩, fun k' hk' ho' => ?_⟩
  obtain ⟨e1, d1, d2⟩ := ho'
  by_contra hne
  have h1 := strict k' e1 hk' hne d1
  have h2 := d2 k e0 hk a1
  omega

/-- C17 (timestamps are unique). In every state reached from `init_cache` by a sequence of
`icache_access` / `dcache_access` calls along which no reference counter wraps, within each
cache every valid line's timestamp lies between 1 and that cache's reference counter and any
two distinct valid lines carry different timestamps. Hence in every full set the way with the
minimum timestamp is unique (every other way has a strictly larger timestamp), in the three
storages of such a state and also in the I$ / D$ storage an access from such a state scans
after its `l2cache_access` call returned: the lowest-way-index tie-break never decides. A run
of at most `2^64 - 1` accesses wraps no counter, and it does reach a state whenever each
instantiated cache has at least two sets and one way and offset and index bits leave a tag
bit. -/
theorem timestamps_unique (c : Config) (ops : List Op) :
    (∀ s, run (init_cache c) ops = some s → NoWrap (init_cache c) ops →
      TimedState s ∧
      UniqueVictim s.icache s.icacheAssoc ∧ UniqueVictim s.dcache s.dcacheAssoc ∧
      UniqueVictim s.l2cache s.l2cacheAssoc ∧
      (∀ addr s2 p, l2cache_access (icacheMissState s) addr = some (s2, p) →
        UniqueVictim s2.icache s.icacheAssoc) ∧
      (∀ addr s2 p, l2cache_access (dcacheMissState s) addr = some (s2, p) →
        UniqueVictim s2.dcache s.dcacheAssoc)) ∧
    (ops.length ≤ ULONG_MAX → NoWrap (init_cache c) ops) ∧
    (GoodConfig c → ops.length ≤ ULONG_MAX → ∃ s, run (init_cache c) ops = some s) := by
  refine ⟨fun s h hw => ?_, fun hlen => init_noWrap c ops hlen,
    fun hc hlen => run_defined c ops hc hlen⟩
  have ht := run_timed ops _ s (init_timed c) hw h
  refine ⟨ht, uniqueVictim_of_timed ht.1 _, uniqueVictim_of_timed ht.2.1 _,
    uniqueVictim_of_timed ht.2.2 _, fun addr s2 p h2 => ?_, fun addr s2 p h2 => ?_⟩
  · exact uniqueVictim_of_timed (ht.1.timed_shrinks (l2cache_access_shrinks h2).1) _
  · exact uniqueVictim_of_timed (ht.2.1.timed_shrinks (l2cache_access_shrinks h2).2) _

/-- Witness for C17: a run with hits, installs and evictions in the two-way caches. -/
theorem timestamps_unique_witness :
    ∃ s, run (init_cache cfgTwoWays)
        [Op.I 0x1000, Op.I 0x2000, Op.I 0x1000, Op.D 0x1000, Op.I 0x3000] = some s ∧
      TimedState s ∧ UniqueVictim s.icache s.icacheAssoc ∧
      UniqueVictim s.dcache s.dcacheAssoc ∧ UniqueVictim s.l2cache s.l2cacheAssoc := by
  have w := timestamps_unique cfgTwoWays
    [Op.I 0x1000, Op.I 0x2000, Op.I 0x1000, Op.D 0x1000, Op.I 0x3000]
  obtain ⟨s, h⟩ := w.2.2 (by decide) (by decide)
  obtain ⟨a1, a2, a3, a4, _⟩ := w.1 s h (w.2.1 (by decide))
  exact ⟨s, h, a1, a2, a3, a4⟩

/-! ## The victim index -/

theorem readWay_ofNat {set : List entry} {k : Nat} {e : entry} (h : set[k]? = some e) :
    readWay set (Int.ofNat k) = some e := by
  unfold readWay
  have h0 : (0 : Int) ≤ Int.ofNat k := Int.ofNat_zero_le k
  rw [if_pos h0]
  exact h

theorem missScan_full {set : List entry} {assoc : Nat} (tag refs : Nat) (h1 : 1 ≤ assoc)
    (hf : ∀ j, j < assoc → ∃ e, set[j]? = some e ∧ e.valid = true ∧ e.timestamp < ULONG_MAX) :
    ∃ k ev, k < assoc ∧
      missScan set tag refs assoc 0 ULONG_MAX (-1) = some (Sum.inr (Int.ofNat k)) ∧
      set[k]? = some ev ∧
      ∀ j e, j < assoc → set[j]? = some e → ev.timestamp ≤ e.timestamp := by
  obtain ⟨r, hr⟩ := @missScan_defined set tag refs assoc 0 ULONG_MAX (-1)
    (fun k _ hk => by obtain ⟨e, he, _⟩ := hf k (by omega); exact ⟨e, he⟩)
  cases r with
  | inl set' =>
    obtain ⟨k, e, _, a2, a3, a4, _⟩ := missScan_inl assoc 0 ULONG_MAX (-1) hr
    obtain ⟨e', b1, b2, _⟩ := hf k (by omega)
    rw [a3] at b1
    cases b1
    rw [a4] at b2
    cases b2
  | inr ej =>
    obtain ⟨_, m2⟩ := missScan_inr assoc 0 ULONG_MAX (-1) ej hr
    rcases m2 with ⟨_, c2⟩ | ⟨k, e, _, c2, c3, c4, _, c6, _⟩
    · obtain ⟨e, b1, _, b3⟩ := hf 0 (by omega)
      have := c2 0 e (le_refl _) (by omega) b1
      omega
    · subst c3
      exact ⟨k, e, by omega, hr, c4,
        fun j e' hj hl => c6 j e' (Nat.zero_le _) (by omega) hl⟩

theorem victimInBounds_of_full {cache : List (List entry)} {assoc si : Nat} (tag refs : Nat)
    (hb : BelowSeed cache) (h1 : 1 ≤ assoc) (hf : Full cache assoc si) :
    VictimInBounds cache assoc si tag refs := by
  obtain ⟨e0, h0, _⟩ := hf 0 (by omega)
  obtain ⟨set, hs, _⟩ := getElem?_of_line h0
  have hl := line_of_getElem? hs
  obtain ⟨k, ev, a1, a2, a3, a4⟩ := @missScan_full set assoc tag refs h1 (fun j hj => by
    obtain ⟨e, b1, b2⟩ := hf j hj
    exact ⟨e, by rw [← hl j]; exact b1, b2, hb si j e b1 b2⟩)
  have hrd := readWay_ofNat a3
  refine ⟨set, k, ev, hs, a1, a2, hrd, ?_, ⟨ev, by rw [hl k]; exact a3, fun j e hj h => ?_⟩⟩
  · unfold writeVictim
    rw [hrd]
    rfl
  · rw [hl j] at h
    exact a4 j e hj h

theorem belowSeed_of_timed {cache : List (List entry)} {refs : Nat} (ht : Timed cache refs)
    (hb : refs < ULONG_MAX) : BelowSeed cache := fun i j e hl hv => by
  have := (ht.1 i j e hl hv).2
  omega

theorem BelowSeed.seed_shrinks {c c' : List (List entry)} (h : BelowSeed c)
    (hs : Shrinks c c') : BelowSeed c' :=
  fun i j e hl hv => h i j e (line_eq_of_shrinks_valid hs hl hv) hv

theorem run_refs_le : ∀ (ops : List Op) (s s' : State), run s ops = some s' →
    s'.icacheRefs ≤ s.icacheRefs + ops.length ∧ s'.dcacheRefs ≤ s.dcacheRefs + ops.length ∧
      s'.l2cacheRefs ≤ s.l2cacheRefs + ops.length := by
  intro ops
  induction ops with
  | nil =>
    intro s s' h
    simp only [run, Option.some.injEq] at h
    subst h
    exact ⟨Nat.le_add_right _ _, Nat.le_add_right _ _, Nat.le_add_right _ _⟩
  | cons op ops ih =>
    intro s s' h
    unfold run at h
    cases hs : step s op with
    | none => simp [hs] at h
    | some sr =>
      obtain ⟨s1, r⟩ := sr
      simp only [hs] at h
      obtain ⟨a1, a2, a3⟩ := step_refs_le hs
      obtain ⟨b1, b2, b3⟩ := ih s1 s' h
      simp only [List.length_cons]
      exact ⟨by omega, by omega, by omega⟩

/-- C16 (the victim index is always defined). Take a state reached from `init_cache` by a
sequence of accesses along which no reference counter wrapped and whose three reference
counters are below `2^64 - 1`. Then every valid line's timestamp is strictly below the
`ULONG_MAX` seed of `lowest_timestamp`, and whenever the miss loop of an access from that
state runs over a full set of a cache with associativity at least 1 (the L2 storage of the
state, or the I$ / D$ storage as `l2cache_access` leaves it), whatever the tag and the
timestamp to install, the loop ends with `evict_j` an index `k` in `0 .. associativity - 1`
(never the initial `-1`), the way with the minimum timestamp, so that the reads and writes of
`set[evict_j]` after the loop are in bounds. A run of fewer than `2^64 - 1` accesses wraps no
counter and ends with the three counters below `2^64 - 1`; and a run does reach a state
whenever each instantiated cache has at least two sets and one way and offset and index bits
leave a tag bit. -/
theorem victim_index_defined (c : Config) (ops : List Op) :
    (∀ s, run (init_cache c) ops = some s → NoWrap (init_cache c) ops → Below s →
      BelowSeed s.icache ∧ BelowSeed s.dcache ∧ BelowSeed s.l2cache ∧
      (∀ tag refs si, 1 ≤ s.l2cacheAssoc → Full s.l2cache s.l2cacheAssoc si →
        VictimInBounds s.l2cache s.l2cacheAssoc si tag refs) ∧
      (∀ addr s2 p tag refs si, 1 ≤ s.icacheAssoc →
        l2cache_access (icacheMissState s) addr = some (s2, p) →
        Full s2.icache s.icacheAssoc si →
        VictimInBounds s2.icache s.icacheAssoc si tag refs) ∧
      (∀ addr s2 p tag refs si, 1 ≤ s.dcacheAssoc →
        l2cache_access (dcacheMissState s) addr = some (s2, p) →
        Full s2.dcache s.dcacheAssoc si →
        VictimInBounds s2.dcache s.dcacheAssoc si tag refs)) ∧
    (ops.length < ULONG_MAX →
      NoWrap (init_cache c) ops ∧ ∀ s, run (init_cache c) ops = some s → Below s) ∧
    (GoodConfig c → ops.length ≤ ULONG_MAX → ∃ s, run (init_cache c) ops = some s) := by
  refine ⟨fun s h hw hb => ?_, fun hlen => ⟨init_noWrap c ops (le_of_lt hlen), fun s h => ?_⟩,
    fun hc hlen => run_defined c ops hc hlen⟩
  · obtain ⟨ti, td, t2⟩ := run_timed ops _ s (init_timed c) hw h
    have bi := belowSeed_of_timed ti hb.1
    have bd := belowSeed_of_timed td hb.2.1
    have b2 := belowSeed_of_timed t2 hb.2.2
    refine ⟨bi, bd, b2, fun tag refs si h1 hf => victimInBounds_of_full tag refs b2 h1 hf,
      fun addr s2 p tag refs si h1 h2 hf => ?_, fun addr s2 p tag refs si h1 h2 hf => ?_⟩
    · exact victimInBounds_of_full tag refs (bi.seed_shrinks (l2cache_access_shrinks h2).1) h1 hf
    · exact victimInBounds_of_full tag refs (bd.seed_shrinks (l2cache_access_shrinks h2).2) h1 hf
  · obtain ⟨a1, a2, a3⟩ := run_refs_le ops _ s h
    have z1 : (init_cache c).icacheRefs = 0 := rfl
    have z2 : (init_cache c).dcacheRefs = 0 := rfl
    have z3 : (init_cache c).l2cacheRefs = 0 := rfl
    exact ⟨by omega, by omega, by omega⟩

/-- Witness for C16: after fetching `0x1000` and `0x2000` in the two-way I$ over a
non-inclusive L2, set 0 of the L2 and (once the L2 call of a fetch of `0x3000` returned)
set 0 of the I$ are full, and their miss loops end with a victim index in bounds. -/
theorem victim_index_defined_witness :
    ∃ s s2 p, run (init_cache cfgTwoWays) [Op.I 0x1000, Op.I 0x2000] = some s ∧
      l2cache_access (icacheMissState s) 0x3000 = some (s2, p) ∧
      BelowSeed s.icache ∧ BelowSeed s.dcache ∧ BelowSeed s.l2cache ∧
      VictimInBounds s.l2cache s.l2cacheAssoc 0 192 3 ∧
      VictimInBounds s2.icache s.icacheAssoc 0 192 3 := by
  have w := victim_index_defined cfgTwoWays [Op.I 0x1000, Op.I 0x2000]
  obtain ⟨s, h⟩ := w.2.2 (by decide) (by decide)
  obtain ⟨hw, hb⟩ := w.2.1 (by decide)
  obtain ⟨a1, a2, a3, a4, a5, _⟩ := w.1 s h hw (hb s h)
  obtain ⟨⟨s2, p⟩, h2⟩ := Option.isSome_iff_exists.mp
    (eval_at (fun x => (l2cache_access (icacheMissState x) 0x3000).isSome) true h (by decide))
  have g1 : s.l2cacheAssoc = 1 := eval_at (fun x => x.l2cacheAssoc) _ h (by decide)
  have g2 : s.icacheAssoc = 2 := eval_at (fun x => x.icacheAssoc) _ h (by decide)
  have f1 : fullB s.l2cache s.l2cacheAssoc 0 = true :=
    eval_at (fun x => fullB x.l2cache x.l2cacheAssoc 0) _ h (by decide)
  have f2 : (l2cache_access (icacheMissState s) 0x3000).map
      (fun y => fullB y.1.icache 2 0) = some true :=
    eval_at (fun x => (l2cache_access (icacheMissState x) 0x3000).map
      (fun y => fullB y.1.icache 2 0)) _ h (by decide)
  have f3 : fullB s2.icache 2 0 = true :=
    eval_at (fun y : State × Nat => fullB y.1.icache 2 0) _ h2 f2
  exact ⟨s, s2, p, h, h2, a1, a2, a3, a4 192 3 0 (by rw [g1]) (full_iff.mpr f1),
    a5 0x3000 s2 p 192 3 0 (by rw [g2]; decide) h2 (by rw [g2]; exact full_iff.mpr f3)⟩

/-! ## Accounting across the levels -/

theorem acc_hit {R M H A pi pd : Nat} (h : pi + pd = (R - M) * H + M * A) (hm : M ≤ R) :
    pi + H + pd = (R + 1 - M) * H + M * A := by
  have e : R + 1 - M = (R - M) + 1 := by omega
  rw [e, Nat.add_mul, Nat.one_mul]
  omega

theorem acc_miss {R M H A pi pd : Nat} (h : pi + pd = (R - M) * H + M * A) :
    pi + A + pd = (R + 1 - (M + 1)) * H + (M + 1) * A := by
  have e : R + 1 - (M + 1) = R - M := by omega
  rw [e, Nat.add_mul, Nat.one_mul]
  omega

theorem add64_mod (a b : Nat) : add64 (a % 2 ^ 64) b = (a + b) % 2 ^ 64 := by
  unfold add64
  exact Nat.mod_add_mod _ _ _

theorem add64_pen (M m : Nat) : add64 ((M * m) % 2 ^ 64) m = ((M + 1) * m) % 2 ^ 64 := by
  rw [add64_mod, Nat.add_mul, Nat.one_mul]

/-- The counters after an L2 call of an instantiated L2 whose reference counter does not
wrap, given the invariant before. -/
theorem l2cache_access_counts {s s' : State} {addr p : Nat} (h0 : s.l2cacheSets ≠ 0)
    (hb : s.l2cacheRefs < ULONG_MAX) (hm : s.l2cacheMisses ≤ s.l2cacheRefs)
    (h : l2cache_access s addr = some (s', p)) :
    s'.l2cacheRefs = s.l2cacheRefs + 1 ∧
    ((p = s.l2cacheHitTime ∧ s'.l2cacheMisses = s.l2cacheMisses ∧
        s'.l2cachePenalties = s.l2cachePenalties) ∨
     (p = add32 s.l2cacheHitTime s.memspeed ∧ s'.l2cacheMisses = s.l2cacheMisses + 1 ∧
        s'.l2cachePenalties = add64 s.l2cachePenalties s.memspeed)) := by
  obtain ⟨_, _, _, e, hc⟩ := l2cache_access_result h0 h
  rw [add64_succ hb] at e
  refine ⟨e, ?_⟩
  rcases hc with ⟨_, a1, a2, a3⟩ | ⟨_, a1, a2, a3⟩
  · exact Or.inl ⟨a1, a2, a3⟩
  · rw [add64_succ (by omega)] at a2
    exact Or.inr ⟨a1, a2, a3⟩

/-- The invariant after an L1 miss: `s2` is the state the L2 call returned, `m`, `q` are the
miss and penalty counters of the missing L1 cache before the access and `m'`, `q'` those of
the other L1 cache. -/
theorem accounted_after_miss {s s2 : State} {p mi qi md qd : Nat}
    (a1 : s.l2cacheRefs + 1 = mi + md)
    (a4 : s.l2cacheMisses ≤ s.l2cacheRefs)
    (a5 : s.l2cachePenalties = (s.l2cacheMisses * s.memspeed) % 2 ^ 64)
    (a8 : qi + qd = (s.l2cacheRefs - s.l2cacheMisses) * s.l2cacheHitTime
      + s.l2cacheMisses * add32 s.l2cacheHitTime s.memspeed)
    (e7 : s2.memspeed = s.memspeed) (e8 : s2.l2cacheHitTime = s.l2cacheHitTime)
    (c1 : s2.l2cacheRefs = s.l2cacheRefs + 1)
    (c2 : (p = s.l2cacheHitTime ∧ s2.l2cacheMisses = s.l2cacheMisses ∧
        s2.l2cachePenalties = s.l2cachePenalties) ∨
     (p = add32 s.l2cacheHitTime s.memspeed ∧ s2.l2cacheMisses = s.l2cacheMisses + 1 ∧
        s2.l2cachePenalties = add64 s.l2cachePenalties s.memspeed)) :
    s2.l2cacheRefs = mi + md ∧ s2.l2cacheMisses ≤ s2.l2cacheRefs ∧
    s2.l2cachePenalties = (s2.l2cacheMisses * s2.memspeed) % 2 ^ 64 ∧
    qi + p + qd = (s2.l2cacheRefs - s2.l2cacheMisses) * s2.l2cacheHitTime
      + s2.l2cacheMisses * add32 s2.l2cacheHitTime s2.memspeed := by
  rw [e7, e8, c1]
  rcases c2 with ⟨b1, b2, b3⟩ | ⟨b1, b2, b3⟩
  · rw [b1, b2, b3]
    exact ⟨a1, by omega, a5, acc_hit a8 a4⟩
  · rw [b1, b2, b3, a5]
    exact ⟨a1, by omega, add64_pen _ _, acc_miss a8⟩

theorem icache_access_accounted {s s' : State} {addr r : Nat} (ha : Accounted s)
    (hI : s.icacheSets ≠ 0) (h2 : s.l2cacheSets ≠ 0)
    (hb1 : s.icacheRefs < ULONG_MAX) (hb2 : s.l2cacheRefs < ULONG_MAX)
    (h : icache_access s addr = some (s', r)) : Accounted s' := by
  obtain ⟨a1, a2, a3, a4, a5, pi, pd, a6, a7, a8⟩ := ha
  rcases icache_access_cases h with ⟨c, _⟩ | ⟨_, tag, si, _, h1⟩
  · exact absurd c hI
  · have e := add64_succ hb1
    rcases h1 with ⟨ic, hl, rfl, _⟩ | ⟨_, s2, p, ic, hl2, hin, rfl, _⟩
    · exact ⟨a1, by show s.icacheMisses ≤ add64 s.icacheRefs 1; omega, a3, a4, a5, pi, pd, a6,
        a7, a8⟩
    · obtain ⟨f, g⟩ := l2cache_access_frame hl2
      have e1 : s2.icacheRefs = s.icacheRefs + 1 := by rw [← e]; exact g.icacheRefs
      have e2 : s2.icacheMisses = s.icacheMisses + 1 := by
        rw [← add64_succ (show s.icacheMisses < ULONG_MAX by omega)]; exact g.icacheMisses
      have e3 : s2.icachePenalties = s.icachePenalties := g.icachePenalties
      have e4 : s2.dcacheRefs = s.dcacheRefs := g.dcacheRefs
      have e5 : s2.dcacheMisses = s.dcacheMisses := g.dcacheMisses
      have e6 : s2.dcachePenalties = s.dcachePenalties := g.dcachePenalties
      obtain ⟨c1, c2⟩ := @l2cache_access_counts (icacheMissState s) s2 addr p h2 hb2 a4 hl2
      obtain ⟨k1, k2, k3, k4⟩ := @accounted_after_miss s s2 p (s.icacheMisses + 1)
        pi s.dcacheMisses pd (by omega) a4 a5 a8 f.memspeed f.l2cacheHitTime c1 c2
      refine ⟨?_, ?_, ?_, k2, k3, pi + p, pd, ?_, ?_, k4⟩
      · show s2.l2cacheRefs = s2.icacheMisses + s2.dcacheMisses
        rw [e2, e5]; exact k1
      · show s2.icacheMisses ≤ s2.icacheRefs
        omega
      · show s2.dcacheMisses ≤ s2.dcacheRefs
        omega
      · show add64 s2.icachePenalties p = (pi + p) % 2 ^ 64
        rw [e3, a6]; exact add64_mod _ _
      · show s2.dcachePenalties = pd % 2 ^ 64
        rw [e6]; exact a7

theorem dcache_access_accounted {s s' : State} {addr r : Nat} (ha : Accounted s)
    (hD : s.dcacheSets ≠ 0) (h2 : s.l2cacheSets ≠ 0)
    (hb1 : s.dcacheRefs < ULONG_MAX) (hb2 : s.l2cacheRefs < ULONG_MAX)
    (h : dcache_access s addr = some (s', r)) : Accounted s' := by
  obtain ⟨a1, a2, a3, a4, a5, pi, pd, a6, a7, a8⟩ := ha
  rcases dcache_access_cases h with ⟨c, _⟩ | ⟨_, tag, si, _, h1⟩
  · exact absurd c hD
  · have e := add64_succ hb1
    rcases h1 with ⟨dc, hl, rfl, _⟩ | ⟨_, s2, p, dc, hl2, hin, rfl, _⟩
    · exact ⟨a1, a2, by show s.dcacheMisses ≤ add64 s.dcacheRefs 1; omega, a4, a5, pi, pd, a6,
        a7, a8⟩
    · obtain ⟨f, g⟩ := l2cache_access_frame hl2
      have e1 : s2.dcacheRefs = s.dcacheRefs + 1 := by rw [← e]; exact g.dcacheRefs
      have e2 : s2.dcacheMisses = s.dcacheMisses + 1 := by
        rw [← add64_succ (show s.dcacheMisses < ULONG_MAX by omega)]; exact g.dcacheMisses
      have e3 : s2.dcachePenalties = s.dcachePenalties := g.dcachePenalties
      have e4 : s2.icacheRefs = s.icacheRefs := g.icacheRefs
      have e5 : s2.icacheMisses = s.icacheMisses := g.icacheMisses
      have e6 : s2.icachePenalties = s.icachePenalties := g.icachePenalties
      obtain ⟨c1, c2⟩ := @l2cache_access_counts (dcacheMissState s) s2 addr p h2 hb2 a4 hl2
      obtain ⟨k1, k2, k3, k4⟩ := @accounted_after_miss s s2 p (s.dcacheMisses + 1)
        pd s.icacheMisses pi (by omega) a4 a5 (by rw [Nat.add_comm]; exact a8) f.memspeed
        f.l2cacheHitTime c1 c2
      refine ⟨?_, ?_, ?_, k2, k3, pi, pd + p, ?_, ?_, ?_⟩
      · show s2.l2cacheRefs = s2.icacheMisses + s2.dcacheMisses
        rw [e2, e5, Nat.add_comm]; exact k1
      · show s2.icacheMisses ≤ s2.icacheRefs
        omega
      · show s2.dcacheMisses ≤ s2.dcacheRefs
        omega
      · show s2.icachePenalties = pi % 2 ^ 64
        rw [e6]; exact a6
      · show add64 s2.dcachePenalties p = (pd + p) % 2 ^ 64
        rw [e3, a7]; exact add64_mod _ _
      · show pi + (pd + p) = _
        rw [← k4]; omega

theorem init_accounted (c : Config) : Accounted (init_cache c) :=
  ⟨rfl, le_refl _, le_refl _, le_refl _, by simp [init_cache], 0, 0, rfl, rfl,
    by simp [init_cache]⟩

theorem run_accounted : ∀ (ops : List Op) (s s' : State), Accounted s → s.icacheSets ≠ 0 →
    s.dcacheSets ≠ 0 → s.l2cacheSets ≠ 0 → NoWrap s ops → run s ops = some s' →
    Accounted s' := by
  intro ops
  induction ops with
  | nil =>
    intro s s' ha _ _ _ _ h
    simp only [run, Option.some.injEq] at h
    subst h
    exact ha
  | cons op ops ih =>
    intro s s' ha hI hD h2 hw h
    unfold run at h
    obtain ⟨w1, w2, w3⟩ := hw
    cases hs : step s op with
    | none => simp [hs] at h
    | some sr =>
      obtain ⟨s1, r⟩ := sr
      simp only [hs] at h
      have f := step_frame hs
      have t1 : Accounted s1 := by
        cases op with
        | I a => exact icache_access_accounted ha hI h2 w1 w2 hs
        | D a => exact dcache_access_accounted ha hD h2 w1 w2 hs
      exact ih s1 s' t1 (by rw [f.icacheSets]; exact hI) (by rw [f.dcacheSets]; exact hD)
        (by rw [f.l2cacheSets]; exact h2) (w3 s1 r hs) h

/-- The penalty identities the accounting invariant gives. -/
theorem accounted_exact {s : State} (ha : Accounted s) :
    (s.l2cachePenalties = s.l2cacheMisses * s.memspeed ↔
      s.l2cacheMisses * s.memspeed < 2 ^ 64) ∧
    (s.icachePenalties + s.dcachePenalties) % 2 ^ 64
      = ((s.l2cacheRefs - s.l2cacheMisses) * s.l2cacheHitTime
          + s.l2cacheMisses * add32 s.l2cacheHitTime s.memspeed) % 2 ^ 64 ∧
    (s.l2cacheHitTime + s.memspeed < 2 ^ 32 →
      (s.icachePenalties + s.dcachePenalties) % 2 ^ 64
        = (s.l2cacheRefs * s.l2cacheHitTime + s.l2cachePenalties) % 2 ^ 64 ∧
      (s.l2cacheRefs * s.l2cacheHitTime + s.l2cacheMisses * s.memspeed < 2 ^ 64 →
        s.icachePenalties + s.dcachePenalties
          = s.l2cacheRefs * s.l2cacheHitTime + s.l2cachePenalties)) := by
  obtain ⟨a1, a2, a3, a4, a5, pi, pd, a6, a7, a8⟩ := ha
  refine ⟨⟨fun he => ?_, fun hlt => by rw [a5]; exact Nat.mod_eq_of_lt hlt⟩, ?_, fun h32 => ?_⟩
  · rw [← he, a5]
    exact Nat.mod_lt _ (by positivity)
  · rw [a6, a7, ← Nat.add_mod, a8]
  have eA : add32 s.l2cacheHitTime s.memspeed = s.l2cacheHitTime + s.memspeed :=
    Nat.mod_eq_of_lt h32
  have eR : (s.l2cacheRefs - s.l2cacheMisses) * s.l2cacheHitTime
      + s.l2cacheMisses * s.l2cacheHitTime = s.l2cacheRefs * s.l2cacheHitTime := by
    rw [← Nat.add_mul, Nat.sub_add_cancel a4]
  rw [eA, Nat.mul_add] at a8
  have a9 : pi + pd = s.l2cacheRefs * s.l2cacheHitTime + s.l2cacheMisses * s.memspeed := by
    omega
  refine ⟨?_, fun h64 => ?_⟩
  · rw [a5, a6, a7, ← Nat.add_mod, Nat.add_mod_mod, a9]
  · have hM : s.l2cacheMisses * s.memspeed < 2 ^ 64 :=
      lt_of_le_of_lt (Nat.le_add_left _ _) h64
    rw [a5, Nat.mod_eq_of_lt hM, a6, a7, Nat.mod_eq_of_lt (show pi < 2 ^ 64 by omega),
      Nat.mod_eq_of_lt (show pd < 2 ^ 64 by omega)]
    exact a9

theorem touch_leaves {cache c' : List (List entry)} {assoc si tag r : Nat}
    (h : touch cache assoc si tag r = some c') :
    ∃ k e, k < assoc ∧ line c' si k = some e ∧ e.valid = true ∧ e.tag = tag := by
  unfold touch at h
  cases hl : lookup cache assoc si tag r with
  | none => rw [hl] at h; cases h
  | some o =>
    cases o with
    | some c1 =>
      rw [hl] at h
      simp only [Option.some.injEq] at h
      subst h
      obtain ⟨k, e, a1, a2, a3, a4, rfl, _⟩ := lookup_hit hl
      refine ⟨k, { e with timestamp := r }, a1, ?_, a3, a4.symm⟩
      rw [line_setLine a2, if_pos ⟨rfl, rfl⟩]
    | none =>
      rw [hl] at h
      simp only at h
      obtain ⟨k, e, a1, a2, rfl, _⟩ := install_spec h
      refine ⟨k, { tag := tag, timestamp := r, valid := true }, a1, ?_, rfl, rfl⟩
      rw [line_setLine a2, if_pos ⟨rfl, rfl⟩]

theorem onlyTag_of_touch {cache c' : List (List entry)} {si tag r : Nat}
    (h : touch cache 1 si tag r = some c') : OnlyTag c' si tag := by
  obtain ⟨k, e, a1, a2, _, a4⟩ := touch_leaves h
  rintro t' hne ⟨j, e', b1, b2, _, b4⟩
  have hk : k = 0 := by omega
  have hj : j = 0 := by omega
  subst hk
  subst hj
  rw [a2] at b2
  cases b2
  exact hne (b4.symm.trans a4)

/-- A fetch that misses in a direct-mapped I$ and in a direct-mapped L2, both not inclusive:
the L2 counts one more miss and each target set is left holding the fetched tag only. -/
theorem icache_access_double_miss {s s' : State} {addr r tag si tag2 si2 : Nat}
    (h0 : s.icacheSets ≠ 0) (h2 : s.l2cacheSets ≠ 0) (hn : NoBackInval s)
    (hA : s.icacheAssoc = 1) (hA2 : s.l2cacheAssoc = 1)
    (hd : decode s.blockoffset s.icacheIndex s.icacheTag addr = some (tag, si))
    (hd2 : decode s.blockoffset s.l2cacheIndex s.l2cacheTag addr = some (tag2, si2))
    (hm : ¬Holds s.icache 1 si tag) (hm2 : ¬Holds s.l2cache 1 si2 tag2)
    (h : icache_access s addr = some (s', r)) :
    s'.l2cacheMisses = add64 s.l2cacheMisses 1 ∧ OnlyTag s'.icache si tag ∧
      OnlyTag s'.l2cache si2 tag2 := by
  obtain ⟨t1, i1, g1, g2, _⟩ := icache_access_touch hn h0 h
  rw [hd] at g1
  simp only [Option.some.injEq, Prod.mk.injEq] at g1
  obtain ⟨rfl, rfl⟩ := g1
  rw [hA] at g2
  obtain ⟨s2, p, ic, k1, _, rfl, _⟩ := icache_access_miss h0 hd (by rw [hA]; exact hm) h
  obtain ⟨t2, i2, e1, _, e3⟩ := @l2cache_access_result (icacheMissState s) s2 addr p h2 k1
  obtain ⟨t3, i3, f1, f2, _⟩ := @l2cache_access_touch (icacheMissState s) s2 addr p h2 k1
  have hd2' : decode (icacheMissState s).blockoffset (icacheMissState s).l2cacheIndex
      (icacheMissState s).l2cacheTag addr = some (tag2, si2) := hd2
  rw [hd2'] at e1 f1
  simp only [Option.some.injEq, Prod.mk.injEq] at e1 f1
  obtain ⟨rfl, rfl⟩ := e1
  obtain ⟨rfl, rfl⟩ := f1
  have hA2' : (icacheMissState s).l2cacheAssoc = 1 := hA2
  rw [hA2'] at f2 e3
  refine ⟨?_, onlyTag_of_touch g2, onlyTag_of_touch f2⟩
  rcases e3 with ⟨c, _⟩ | ⟨_, _, c, _⟩
  · exact absurd c hm2
  · exact c

/-- Every fetch of the ping-pong run misses in the I$ and in the L2: after `n` rounds the L2
has counted `2 * n` misses. -/
theorem pingPong_misses : ∀ (n : Nat) (s : State), 2 * n < 2 ^ 64 →
    run (init_cache cfgSlowMem) (pingPong n) = some s →
    s.l2cacheMisses = 2 * n ∧ OnlyTag s.icache 0 1 ∧ OnlyTag s.l2cache 0 1 := by
  intro n
  induction n with
  | zero =>
    intro s _ h
    simp only [pingPong, run, Option.some.injEq] at h
    subst h
    exact ⟨rfl, fun t _ => not_holds_init 2 1 0 t, fun t _ => not_holds_init 2 1 0 t⟩
  | succ n ih =>
    intro s hb h
    have hp : pingPong (n + 1) = (pingPong n ++ [Op.I 0x0]) ++ [Op.I 0x40] := by
      simp [pingPong]
    rw [hp] at h
    obtain ⟨s1, r1, h1, k1⟩ := run_snoc h
    obtain ⟨s0, r0, h0, k0⟩ := run_snoc h1
    obtain ⟨m0, a0, b0⟩ := ih s0 (by omega) h0
    have f0 := run_frame _ _ _ h0
    have f1 := run_frame _ _ _ h1
    have c0 : ∀ a, decode s0.blockoffset s0.icacheIndex s0.icacheTag a
        = decode (init_cache cfgSlowMem).blockoffset (init_cache cfgSlowMem).icacheIndex
            (init_cache cfgSlowMem).icacheTag a := fun a => by
      rw [f0.blockoffset, f0.icacheIndex, f0.icacheTag]
    have d0 : ∀ a, decode s0.blockoffset s0.l2cacheIndex s0.l2cacheTag a
        = decode (init_cache cfgSlowMem).blockoffset (init_cache cfgSlowMem).l2cacheIndex
            (init_cache cfgSlowMem).l2cacheTag a := fun a => by
      rw [f0.blockoffset, f0.l2cacheIndex, f0.l2cacheTag]
    have c1 : ∀ a, decode s1.blockoffset s1.icacheIndex s1.icacheTag a
        = decode (init_cache cfgSlowMem).blockoffset (init_cache cfgSlowMem).icacheIndex
            (init_cache cfgSlowMem).icacheTag a := fun a => by
      rw [f1.blockoffset, f1.icacheIndex, f1.icacheTag]
    have d1 : ∀ a, decode s1.blockoffset s1.l2cacheIndex s1.l2cacheTag a
        = decode (init_cache cfgSlowMem).blockoffset (init_cache cfgSlowMem).l2cacheIndex
            (init_cache cfgSlowMem).l2cacheTag a := fun a => by
      rw [f1.blockoffset, f1.l2cacheIndex, f1.l2cacheTag]
    obtain ⟨m1, a1, b1⟩ := @icache_access_double_miss s0 s1 0x0 r0 0 0 0 0
      (by rw [f0.icacheSets]; decide) (by rw [f0.l2cacheSets]; decide)
      (Or.inl (by rw [f0.inclusive]; decide)) (by rw [f0.icacheAssoc]; rfl)
      (by rw [f0.l2cacheAssoc]; rfl) (by rw [c0]; decide) (by rw [d0]; decide)
      (a0 0 (by decide)) (b0 0 (by decide)) k0
    obtain ⟨m2, a2, b2⟩ := @icache_access_double_miss s1 s 0x40 r1 1 0 1 0
      (by rw [f1.icacheSets]; decide) (by rw [f1.l2cacheSets]; decide)
      (Or.inl (by rw [f1.inclusive]; decide)) (by rw [f1.icacheAssoc]; rfl)
      (by rw [f1.l2cacheAssoc]; rfl) (by rw [c1]; decide) (by rw [d1]; decide)
      (a1 1 (by decide)) (b1 1 (by decide)) k1
    refine ⟨?_, a2, b2⟩
    rw [m2, m1, m0]
    unfold add64
    rw [Nat.mod_eq_of_lt (by omega), Nat.mod_eq_of_lt (by omega)]
    omega

theorem pingPong_length (n : Nat) : (pingPong n).length = 2 * n := by
  induction n with
  | zero => rfl
  | succ n ih =>
    simp only [pingPong, List.length_append, ih, List.length_cons, List.length_nil]
    omega

/-- The state the ping-pong run reaches: `2 * n` L2 misses, and a penalty counter that holds
their cost modulo `2^64`. -/
theorem pingPong_penalties (n : Nat) (hn : 2 * n < 2 ^ 64) :
    ∃ s, run (init_cache cfgSlowMem) (pingPong n) = some s ∧
      s.icacheSets = 2 ∧ s.dcacheSets = 2 ∧ s.l2cacheSets = 2 ∧
      s.l2cacheHitTime = 10 ∧ s.memspeed = 2 ^ 32 - 11 ∧
      s.l2cacheMisses = 2 * n ∧
      s.l2cachePenalties = (2 * n * (2 ^ 32 - 11)) % 2 ^ 64 := by
  have hlen : (pingPong n).length ≤ ULONG_MAX := by
    rw [pingPong_length]
    unfold ULONG_MAX
    omega
  obtain ⟨s, h⟩ := run_defined cfgSlowMem (pingPong n) (by decide) hlen
  obtain ⟨m, _, _⟩ := pingPong_misses n s hn h
  have f := run_frame _ _ _ h
  obtain ⟨_, _, _, _, a5, _⟩ := run_accounted (pingPong n) (init_cache cfgSlowMem) s
    (init_accounted cfgSlowMem) (by decide) (by decide) (by decide)
    (init_noWrap cfgSlowMem (pingPong n) hlen) h
  have em : s.memspeed = 2 ^ 32 - 11 := f.memspeed
  refine ⟨s, h, f.icacheSets, f.dcacheSets, f.l2cacheSets, f.l2cacheHitTime, em, m, ?_⟩
  rw [a5, m, em]

/-- C18 (as amended: cross-level accounting in the arithmetic of the counters). With the I$,
the D$ and the L2 all instantiated, in every state reached from `init_cache` by
`icache_access` / `dcache_access` calls along which no reference counter wraps:
`l2cacheRefs = icacheMisses + dcacheMisses`; each cache's misses are at most its references;
`l2cachePenalties` is `l2cacheMisses * memspeed` modulo `2^64`, and equals the product exactly
when the product is below `2^64`; `icachePenalties + dcachePenalties` counts, modulo `2^64`,
the L2 hit time once per L2 hit and the 32-bit sum `l2cacheHitTime + memspeed` once per L2
miss; so when `l2cacheHitTime + memspeed < 2^32` it equals
`l2cacheRefs * l2cacheHitTime + l2cachePenalties` modulo `2^64`, and exactly when the sum is
below `2^64`. For a run of `n <= 2^64 - 1` accesses with `n * memspeed < 2^64` the first four
statements and `l2cachePenalties = l2cacheMisses * memspeed` hold exactly, and so does the
identity of the L1 penalties when moreover `l2cacheHitTime + memspeed < 2^32` and
`n * (l2cacheHitTime + memspeed) < 2^64`. A run of at most `2^64 - 1` accesses wraps no
reference counter, and it does reach a state whenever each cache has at least two sets and
one way and offset and index bits leave a tag bit. -/
theorem cross_level_accounting (c : Config) (ops : List Op) (hI : c.icacheSets ≠ 0)
    (hD : c.dcacheSets ≠ 0) (h2 : c.l2cacheSets ≠ 0) :
    (∀ s, run (init_cache c) ops = some s → NoWrap (init_cache c) ops →
      s.l2cacheRefs = s.icacheMisses + s.dcacheMisses ∧
      s.icacheMisses ≤ s.icacheRefs ∧ s.dcacheMisses ≤ s.dcacheRefs ∧
      s.l2cacheMisses ≤ s.l2cacheRefs ∧
      s.l2cachePenalties = (s.l2cacheMisses * s.memspeed) % 2 ^ 64 ∧
      (s.l2cachePenalties = s.l2cacheMisses * s.memspeed ↔
        s.l2cacheMisses * s.memspeed < 2 ^ 64) ∧
      (s.icachePenalties + s.dcachePenalties) % 2 ^ 64
        = ((s.l2cacheRefs - s.l2cacheMisses) * s.l2cacheHitTime
            + s.l2cacheMisses * add32 s.l2cacheHitTime s.memspeed) % 2 ^ 64 ∧
      (s.l2cacheHitTime + s.memspeed < 2 ^ 32 →
        (s.icachePenalties + s.dcachePenalties) % 2 ^ 64
          = (s.l2cacheRefs * s.l2cacheHitTime + s.l2cachePenalties) % 2 ^ 64 ∧
        (s.l2cacheRefs * s.l2cacheHitTime + s.l2cacheMisses * s.memspeed < 2 ^ 64 →
          s.icachePenalties + s.dcachePenalties
            = s.l2cacheRefs * s.l2cacheHitTime + s.l2cachePenalties))) ∧
    (∀ s, run (init_cache c) ops = some s → ops.length ≤ ULONG_MAX →
      ops.length * c.memspeed < 2 ^ 64 →
      s.l2cacheRefs = s.icacheMisses + s.dcacheMisses ∧
      s.icacheMisses ≤ s.icacheRefs ∧ s.dcacheMisses ≤ s.dcacheRefs ∧
      s.l2cacheMisses ≤ s.l2cacheRefs ∧
      s.l2cachePenalties = s.l2cacheMisses * c.memspeed ∧
      (c.l2cacheHitTime + c.memspeed < 2 ^ 32 →
        ops.length * (c.l2cacheHitTime + c.memspeed) < 2 ^ 64 →
        s.icachePenalties + s.dcachePenalties
          = s.l2cacheRefs * c.l2cacheHitTime + s.l2cachePenalties)) ∧
    (ops.length ≤ ULONG_MAX → NoWrap (init_cache c) ops) ∧
    (GoodConfig c → ops.length ≤ ULONG_MAX → ∃ s, run (init_cache c) ops = some s) := by
  have key : ∀ s, run (init_cache c) ops = some s → NoWrap (init_cache c) ops →
      Accounted s := fun s h hw => run_accounted ops _ s (init_accounted c) hI hD h2 hw h
  refine ⟨fun s h hw => ?_, fun s h hlen hm64 => ?_, fun hlen => init_noWrap c ops hlen,
    fun hc hlen => run_defined c ops hc hlen⟩
  · have ha := key s h hw
    obtain ⟨x1, x2, x3⟩ := accounted_exact ha
    obtain ⟨a1, a2, a3, a4, a5, _⟩ := ha
    exact ⟨a1, a2, a3, a4, a5, x1, x2, x3⟩
  · have ha := key s h (init_noWrap c ops hlen)
    obtain ⟨x1, _, x3⟩ := accounted_exact ha
    obtain ⟨a1, a2, a3, a4, a5, _⟩ := ha
    have f := run_frame ops _ s h
    have em : s.memspeed = c.memspeed := f.memspeed
    have eh : s.l2cacheHitTime = c.l2cacheHitTime := f.l2cacheHitTime
    obtain ⟨_, _, b3⟩ := run_refs_le ops _ s h
    have z3 : (init_cache c).l2cacheRefs = 0 := rfl
    have hR : s.l2cacheRefs ≤ ops.length := by omega
    rw [em] at x1 x3
    rw [eh] at x3
    have h3 : s.l2cacheMisses * c.memspeed ≤ ops.length * c.memspeed :=
      Nat.mul_le_mul_right _ (le_trans a4 hR)
    refine ⟨a1, a2, a3, a4, x1.mpr (by omega), fun h32 h64 => (x3 h32).2 ?_⟩
    have h1 : s.l2cacheRefs * c.l2cacheHitTime ≤ ops.length * c.l2cacheHitTime :=
      Nat.mul_le_mul_right _ hR
    rw [Nat.mul_add] at h64
    omega

/-- Counterexample to C18 as stated, in two runs on two-set direct-mapped I$, D$ and L2.
First, `l2cacheHitTime = 2^32 - 1` and `memspeed = 5`: the first fetch misses in the I$ and in
the L2; `l2cache_access` returns the 32-bit sum `l2cacheHitTime + memspeed`, which wraps to 4,
so `icachePenalties = 4` while `l2cacheRefs * l2cacheHitTime + l2cachePenalties = 2^32 + 4`;
no 64-bit counter is anywhere near its limit. Second, `l2cacheHitTime = 10` and
`memspeed = 2^32 - 11` (the 32-bit sum does not wrap): the `2^33` fetches `0x0, 0x40, 0x0,
0x40, ...` conflict in set 0 of the I$ and of the L2 and all miss, so `l2cacheMisses = 2^33`
and `l2cachePenalties`, a `uint64_t`, has wrapped to `2^64 - 11 * 2^33`, which is not
`l2cacheMisses * memspeed = 2^65 - 11 * 2^33`. -/
theorem accounting_counterexample :
    (∃ s, run (init_cache cfgWrapL2) [Op.I 0x1000] = some s ∧
      s.icacheSets = 2 ∧ s.dcacheSets = 2 ∧ s.l2cacheSets = 2 ∧
      s.l2cacheHitTime = 2 ^ 32 - 1 ∧ s.memspeed = 5 ∧
      s.l2cacheRefs = 1 ∧ s.l2cacheMisses = 1 ∧ s.l2cachePenalties = 5 ∧
      s.icachePenalties = 4 ∧ s.dcachePenalties = 0 ∧
      s.icachePenalties + s.dcachePenalties
        ≠ s.l2cacheRefs * s.l2cacheHitTime + s.l2cachePenalties) ∧
    (∃ s, run (init_cache cfgSlowMem) (pingPong (2 ^ 32)) = some s ∧
      (pingPong (2 ^ 32)).length = 2 ^ 33 ∧
      s.icacheSets = 2 ∧ s.dcacheSets = 2 ∧ s.l2cacheSets = 2 ∧
      s.l2cacheHitTime = 10 ∧ s.memspeed = 2 ^ 32 - 11 ∧
      s.l2cacheMisses = 2 ^ 33 ∧ s.l2cachePenalties = 2 ^ 64 - 11 * 2 ^ 33 ∧
      s.l2cachePenalties ≠ s.l2cacheMisses * s.memspeed) := by
  constructor
  · obtain ⟨s, h⟩ := Option.isSome_iff_exists.mp
      (by decide : (run (init_cache cfgWrapL2) [Op.I 0x1000]).isSome = true)
    have e1 : s.l2cacheHitTime = 2 ^ 32 - 1 :=
      eval_at (fun x => x.l2cacheHitTime) _ h (by decide)
    have e2 : s.l2cacheRefs = 1 := eval_at (fun x => x.l2cacheRefs) _ h (by decide)
    have e3 : s.l2cachePenalties = 5 := eval_at (fun x => x.l2cachePenalties) _ h (by decide)
    have e4 : s.icachePenalties = 4 := eval_at (fun x => x.icachePenalties) _ h (by decide)
    have e5 : s.dcachePenalties = 0 := eval_at (fun x => x.dcachePenalties) _ h (by decide)
    refine ⟨s, h, eval_at (fun x => x.icacheSets) _ h (by decide),
      eval_at (fun x => x.dcacheSets) _ h (by decide),
      eval_at (fun x => x.l2cacheSets) _ h (by decide), e1,
      eval_at (fun x => x.memspeed) _ h (by decide), e2,
      eval_at (fun x => x.l2cacheMisses) _ h (by decide), e3, e4, e5, ?_⟩
    rw [e1, e2, e3, e4, e5]
    decide
  · obtain ⟨s, h, a1, a2, a3, a4, a5, a6, a7⟩ := pingPong_penalties (2 ^ 32) (by norm_num)
    have eM : s.l2cacheMisses = 2 ^ 33 := by rw [a6]; norm_num
    have eP : s.l2cachePenalties = 2 ^ 64 - 11 * 2 ^ 33 := by rw [a7]; norm_num
    refine ⟨s, h, ?_, a1, a2, a3, a4, a5, eM, eP, ?_⟩
    · rw [pingPong_length]
      norm_num
    · rw [eP, eM, a5]
      norm_num

/-- Witness for the amended C18: five accesses in the inclusive two-set hierarchy (hit time
10, memory latency 100), with misses in both L1 caches, L2 hits and L2 misses. -/
theorem cross_level_accounting_witness :
    ∃ s, run (init_cache cfgTwoSets)
        [Op.I 0x1000, Op.D 0x1000, Op.D 0x2040, Op.I 0x3000, Op.I 0x3000] = some s ∧
      s.l2cacheRefs = s.icacheMisses + s.dcacheMisses ∧
      s.icacheMisses ≤ s.icacheRefs ∧ s.dcacheMisses ≤ s.dcacheRefs ∧
      s.l2cacheMisses ≤ s.l2cacheRefs ∧
      s.l2cachePenalties = s.l2cacheMisses * 100 ∧
      s.icachePenalties + s.dcachePenalties = s.l2cacheRefs * 10 + s.l2cachePenalties ∧
      s.l2cacheRefs = 4 ∧ s.l2cacheMisses = 3 ∧ s.l2cachePenalties = 300 ∧
      s.icachePenalties = 220 ∧ s.dcachePenalties = 120 := by
  have w := cross_level_accounting cfgTwoSets
    [Op.I 0x1000, Op.D 0x1000, Op.D 0x2040, Op.I 0x3000, Op.I 0x3000]
    (by decide) (by decide) (by decide)
  obtain ⟨s, h⟩ := w.2.2.2 (by decide) (by decide)
  obtain ⟨a1, a2, a3, a4, a5, a6⟩ := w.2.1 s h (by decide) (by decide)
  exact ⟨s, h, a1, a2, a3, a4, a5, a6 (by decide) (by decide),
    eval_at (fun x => x.l2cacheRefs) _ h (by decide),
    eval_at (fun x => x.l2cacheMisses) _ h (by decide),
    eval_at (fun x => x.l2cachePenalties) _ h (by decide),
    eval_at (fun x => x.icachePenalties) _ h (by decide),
    eval_at (fun x => x.dcachePenalties) _ h (by decide)⟩

end CacheSim
